import Mathlib

/-!
# vmatrixlib: a verification development

Shallow embedding of the dense matrix engine of `matrix.h` (class `matrix<T>`). The element
type `T` is a parameter, as in the template: its arithmetic is that of a field, and its
comparison `operator==` is the instance `BEq T`, so that every test `x == 0`, `x != 0` and
`x == 1` of the source is written with `==` and `!=` and means whatever the element type
makes of it. An element type whose comparison is exact satisfies `exact_comparison`; the
type `exact_frac` carries the tolerant comparison of `frac<long long, long double>`.

* A `matrix` value carries the four members of the class: `_rows`, `_cols`,
  `_rowSwapsCount` and the row-major flat vector `_data`.
* Counted `for` loops are written with the combinators `for_loop` (ascending),
  `for_down` (descending) and `first_from` (a scan that stops at the first hit).
* The two `while` loops whose cursor moves in two directions (`has_row_echelon_form`, `rank`)
  and the cursor loop of `make_triangular` take an explicit step budget; the budget handed to
  them by the public functions is shown to be never exhausted.
* Exceptions are values of `Except matrix_error`.
-/

namespace vmatrixlib

/-- Failure kinds of the matrix engine: the `std::domain_error` thrown for a non-square
receiver, the `std::domain_error` thrown for incompatible shapes, the `std::runtime_error`
thrown by `compute_inverse` for a singular matrix, the `std::runtime_error` thrown by the
defensive check of `make_triangular`, and a failed `assert`. -/
inductive matrix_error where
  | non_square
  | dimension_mismatch
  | singular_matrix
  | calc_error
  | assertion_failed
  deriving DecidableEq

/-- The loop `for (i = 0; i < n; i++) s = body i s`. -/
def for_loop {σ : Type} (body : Nat → σ → σ) : Nat → σ → σ
  | 0, s => s
  | n + 1, s => body n (for_loop body n s)

/-- The loop `for (i = n - 1; i >= 0; i--) s = body i s`. -/
def for_down {σ : Type} (body : Nat → σ → σ) : Nat → σ → σ
  | 0, s => s
  | n + 1, s => for_down body n (body n s)

/-- The loop `for (i = 0; i < n; i++) s = body i s` whose body may throw. -/
def for_loop_except {σ ε : Type} (body : Nat → σ → Except ε σ) : Nat → σ → Except ε σ
  | 0, s => .ok s
  | n + 1, s =>
    match for_loop_except body n s with
    | .ok s1 => body n s1
    | .error e => .error e

/-- The scan `for (; k < stop; k++) if (p k) break;` started at `k`, which returns the final
value of `k`; `budget` is the number of iterations left (`stop - k` at the start). -/
def first_from_loop (p : Nat → Bool) (stop : Nat) : Nat → Nat → Nat
  | 0, k => k
  | budget + 1, k =>
    if k < stop then
      if p k then k else first_from_loop p stop budget (k + 1)
    else k

/-- The scan `for (k = start; k < stop; k++) if (p k) break;`, returning the final `k`. -/
def first_from (p : Nat → Bool) (start stop : Nat) : Nat :=
  first_from_loop p stop (stop - start) start

/-- The loop `for (i = 0; i < n; i++) if (!p i) return false; return true;`. -/
def all_below (p : Nat → Bool) : Nat → Bool
  | 0 => true
  | n + 1 => all_below p n && p n

/-- The comparison `operator==` of the element type is exact: it holds between two values
exactly when they are equal. -/
def exact_comparison (T : Type) [BEq T] : Prop := ∀ a b : T, (a == b) = true ↔ a = b

/-- The class `matrix<T>`: row count, column count, row-swap counter and row-major data. -/
structure matrix (T : Type) where
  _rows : Nat
  _cols : Nat
  _rowSwapsCount : Nat
  _data : List T
  deriving DecidableEq

namespace matrix

variable {T : Type} [Field T] [BEq T]

/-- The accessor `rows()`. -/
def rows (m : matrix T) : Nat := m._rows

/-- The accessor `cols()`. -/
def cols (m : matrix T) : Nat := m._cols

/-- The accessor `size()`. -/
def size (m : matrix T) : Nat := m._rows * m._cols

/-- The test `is_square()`. -/
def is_square (m : matrix T) : Bool := m._rows == m._cols

/-- Read access `get(r, c)` and `operator()(r, c)`: the element `_data[r * _cols + c]`
(reads outside the vector, which the assertion of the source excludes, give `0`). -/
def get (m : matrix T) (r c : Nat) : T := m._data.getD (r * m._cols + c) 0

/-- Write access `get(r, c) = v` and `operator()(r, c) = v`. -/
def set (m : matrix T) (r c : Nat) (v : T) : matrix T :=
  { m with _data := m._data.set (r * m._cols + c) v }

/-- The method `clear()`: resets the swap counter and zeroes the first `_rows * _cols` cells. -/
def clear (m : matrix T) : matrix T :=
  { m with
    _rowSwapsCount := 0
    _data := for_loop (fun i d => d.set i 0) (m._rows * m._cols) m._data }

/-- The constructor `matrix(int r, int c)`: a vector of `r * c` value-initialised cells,
then `clear()`. -/
def construct (r c : Nat) : matrix T :=
  clear { _rows := r, _cols := c, _rowSwapsCount := 0, _data := List.replicate (r * c) 0 }

/-- The method `make_identity()`. -/
def make_identity (m : matrix T) : Except matrix_error (matrix T) :=
  if !m.is_square then .error .non_square
  else .ok (for_loop (fun i a => a.set i i 1) m._rows m.clear)

/-- The method `in_place_div_by_constant(n)`. -/
def in_place_div_by_constant (m : matrix T) (n : T) : matrix T :=
  { m with _data := for_loop (fun i d => d.set i (d.getD i 0 / n)) (m._rows * m._cols) m._data }

/-- The method `swap(i, j, x, y)`. -/
def swap (m : matrix T) (i j x y : Nat) : matrix T :=
  let tmp := m.get i j
  (m.set i j (m.get x y)).set x y tmp

/-- The method `in_place_transpose()`. -/
def in_place_transpose (m : matrix T) : Except matrix_error (matrix T) :=
  if !m.is_square then .error .non_square
  else .ok (for_loop (fun i a =>
    for_loop (fun j b => if j < i then b.swap i j j i else b) m._cols a) m._rows m)

/-- The product `operator*(const matrix&)`. -/
def mul (a m : matrix T) : Except matrix_error (matrix T) :=
  if m._rows ≠ a._cols then .error .dimension_mismatch
  else
    let resR := a._rows
    let resC := m._cols
    .ok (for_loop (fun i r1 =>
      for_loop (fun j r2 =>
        for_loop (fun k r3 => r3.set i j (r3.get i j + a.get i k * m.get k j)) a._cols r2)
        resC r1) resR (construct resR resC))

/-- The comparison `operator==`. -/
def eq (a m : matrix T) : Bool :=
  if a._rows ≠ m.rows ∨ a._cols ≠ m.cols then false
  else all_below (fun i => a._data.getD i 0 == m._data.getD i 0) a.size

/-- The test `is_lower_triangular()`. -/
def is_lower_triangular (m : matrix T) : Bool :=
  if !m.is_square then false
  else all_below (fun i => all_below (fun j => !(decide (i < j) && m.get i j != 0)) m._cols)
    m._rows

/-- The test `is_upper_triangular()`. -/
def is_upper_triangular (m : matrix T) : Bool :=
  if !m.is_square then false
  else all_below (fun i => all_below (fun j => !(decide (i > j) && m.get i j != 0)) m._cols)
    m._rows

/-- The test `is_triangular()`. -/
def is_triangular (m : matrix T) : Bool :=
  m.is_lower_triangular || m.is_upper_triangular

/-- The method `swap_rows(i, j)`. -/
def swap_rows (m : matrix T) (i j : Nat) : matrix T :=
  let m1 := for_loop (fun k a => a.swap i k j k) m._cols m
  { m1 with _rowSwapsCount := m1._rowSwapsCount + 1 }

/-- The method `add_row_mult_by_const_to_row(srcRow, destRow, k)`. -/
def add_row_mult_by_const_to_row (m : matrix T) (srcRow destRow : Nat) (k : T) : matrix T :=
  for_loop (fun i a => a.set destRow i (a.get destRow i + a.get srcRow i * k)) m._cols m

/-- The `while (i < _rows)` loop of `has_row_echelon_form()`, with a step budget. The first
line (budget used up) is never reached from `has_row_echelon_form`, see
`has_row_echelon_form_loop_budget`. -/
def has_row_echelon_form_loop (m : matrix T) : Nat → Nat → Nat → Bool → Bool
  | 0, _, _, _ => false
  | budget + 1, i, j, canIncSteps =>
    if i < m._rows then
      if j = m._cols then
        has_row_echelon_form_loop m budget (i + 1) 0 canIncSteps
      else if m.get i j == 0 then
        if first_from (fun k => m.get k j != 0) i m._rows ≠ m._rows then false
        else has_row_echelon_form_loop m budget i (j + 1) true
      else
        if !canIncSteps then false
        else has_row_echelon_form_loop m budget (i + 1) j false
    else true

/-- The test `has_row_echelon_form()`. Every iteration of its loop lowers
`(_rows - i) * (_cols + 1) - j`, so `_rows * (_cols + 1) + 1` steps are enough. -/
def has_row_echelon_form (m : matrix T) : Bool :=
  has_row_echelon_form_loop m (m._rows * (m._cols + 1) + 1) 0 0 true

/-- The elimination loop `for (u = i + 1; u < res._rows; u++)` of `make_triangular()`. -/
def eliminate_below (res : matrix T) (i j : Nat) (val : T) : matrix T :=
  for_loop (fun d a =>
    let u := i + 1 + d
    if a.get u j == 0 then a
    else (a.add_row_mult_by_const_to_row i u (-(a.get u j) / val)).set u j 0)
    (res._rows - (i + 1)) res

/-- The `while (i < res._rows && j < res._cols)` loop of `make_triangular()`, with a step
budget (every iteration advances `j`). -/
def make_triangular_loop : Nat → matrix T → Nat → Nat → matrix T
  | 0, res, _, _ => res
  | budget + 1, res, i, j =>
    if i < res._rows ∧ j < res._cols then
      let k := first_from (fun k => res.get k j != 0) i res._rows
      if k = res._rows then make_triangular_loop budget res i (j + 1)
      else
        let res1 := if k ≠ i then res.swap_rows k i else res
        let val := res1.get i j
        make_triangular_loop budget (eliminate_below res1 i j val) (i + 1) (j + 1)
    else res

/-- The method `make_triangular()`. -/
def make_triangular (m : matrix T) : Except matrix_error (matrix T) :=
  if m.rows = 1 ∨ m.cols = 1 ∨ m.has_row_echelon_form then .ok m
  else
    let res := make_triangular_loop m._cols m 0 0
    if !res.has_row_echelon_form then .error .calc_error
    else .ok res

/-- The method `diagonal_product()`. -/
def diagonal_product (m : matrix T) : Except matrix_error T :=
  if !m.is_square then .error .non_square
  else .ok (for_loop (fun i res => res * m.get i i) m._rows 1)

/-- The sign rule shared by both triangular branches of `determinant()`. -/
def signed_by_swaps (rSwaps : Nat) (det : T) : T :=
  if rSwaps = 0 ∨ rSwaps % 2 = 0 then det else -det

/-- The method `determinant()`. -/
def determinant (m : matrix T) : Except matrix_error T :=
  if !m.is_square then .error .non_square
  else if m._rows = 1 then .ok (m.get 0 0)
  else if m._rows = 2 then .ok (m.get 0 0 * m.get 1 1 - m.get 0 1 * m.get 1 0)
  else if m.is_triangular then
    match m.diagonal_product with
    | .error e => .error e
    | .ok det => .ok (signed_by_swaps m._rowSwapsCount det)
  else
    match m.make_triangular with
    | .error e => .error e
    | .ok t =>
      match t.diagonal_product with
      | .error e => .error e
      | .ok det => .ok (signed_by_swaps t._rowSwapsCount det)

/-- The `while (i < m._rows)` loop of `rank()`, with a step budget; the state carries
`steps`, and a failed `assert(canIncSteps)` is reported as an error. The first line (budget
used up) is never reached from `rank`, see `rank_loop_budget`. -/
def rank_loop (m : matrix T) : Nat → Nat → Nat → Bool → Nat → Except matrix_error Nat
  | 0, _, _, _, _ => .error .assertion_failed
  | budget + 1, i, j, canIncSteps, steps =>
    if i < m._rows then
      if j = m._cols then rank_loop m budget (i + 1) 0 canIncSteps steps
      else if m.get i j == 0 then rank_loop m budget i (j + 1) true steps
      else
        if !canIncSteps then .error .assertion_failed
        else rank_loop m budget (i + 1) j false (steps + 1)
    else .ok steps

/-- The method `rank()`. -/
def rank (a : matrix T) : Except matrix_error Nat :=
  match a.make_triangular with
  | .error e => .error e
  | .ok m => rank_loop m (m._rows * (m._cols + 1) + 1) 0 0 true 0

/-- The copy loops of `sub_matrix_erasing_row_col`, run on the freshly sized `res`. -/
def erase_copy (m : matrix T) (row col : Int) (res : matrix T) : matrix T :=
  (for_loop (fun i (st : matrix T × Nat) =>
    if (i : Int) = row then st
    else
      let inner := for_loop (fun j (su : matrix T × Nat) =>
        if (j : Int) = col then su
        else ((su.1).set st.2 su.2 (m.get i j), su.2 + 1)) m._cols (st.1, 0)
      (inner.1, st.2 + 1)) m._rows (res, 0)).1

/-- The method `sub_matrix_erasing_row_col(row, col)`; `-1` means that no row (column) is
deleted. -/
def sub_matrix_erasing_row_col (m : matrix T) (row col : Int) : matrix T :=
  if row ≠ -1 ∧ col ≠ -1 then erase_copy m row col (construct (m._rows - 1) (m._cols - 1))
  else if row = -1 ∧ col ≠ -1 then erase_copy m row col (construct m._rows (m._cols - 1))
  else if row ≠ -1 ∧ col = -1 then erase_copy m row col (construct (m._rows - 1) m._cols)
  else m

/-- The sign `sgnI * sgnJ` computed in `compute_inverse()`, as an element of `T`. -/
def cofactor_sign (i j : Nat) : T :=
  let sgnI : Int := if (i + 1) % 2 = 0 then -1 else 1
  let sgnJ : Int := if (j + 1) % 2 = 0 then -1 else 1
  ((sgnI * sgnJ : Int) : T)

/-- The double loop of `compute_inverse()` that fills `res` with the signed determinants of
the sub-matrices: `res(i,j) = T(sgn) * subM.determinant()`. -/
def cofactor_matrix (m : matrix T) : Except matrix_error (matrix T) :=
  for_loop_except (fun i r1 =>
    for_loop_except (fun j r2 =>
      match (m.sub_matrix_erasing_row_col i j).determinant with
      | .error e => .error e
      | .ok d => .ok (r2.set i j (cofactor_sign i j * d))) m.cols r1)
    m.rows (construct m.rows m.cols)

/-- The method `compute_inverse()`. -/
def compute_inverse (m : matrix T) : Except matrix_error (matrix T) :=
  match m.determinant with
  | .error e => .error e
  | .ok det =>
    if det == 0 then .error .singular_matrix
    else
      match m.cofactor_matrix with
      | .error e => .error e
      | .ok res =>
        match res.in_place_transpose with
        | .error e => .error e
        | .ok res1 => .ok (res1.in_place_div_by_constant det)

/-- The method `in_place_div_row(row, k)`. -/
def in_place_div_row (m : matrix T) (row : Nat) (k : T) : matrix T :=
  for_loop (fun i a => a.set row i (a.get row i / k)) m._cols m

/-- The upward elimination loop `for (k = i - 1; k >= 0; k--)` of `row_reduce()`. -/
def eliminate_above (t : matrix T) (i j : Nat) : matrix T :=
  for_down (fun k a =>
    if a.get k j == 0 then a
    else (a.add_row_mult_by_const_to_row i k (-(a.get k j))).set k j 0) i t

/-- One iteration of the loop `for (i = _rows - 1; i >= 0; i--)` of `row_reduce()`: `j0` is
the first candidate column, `j` and `f` are the values of the variables of the source after
the search for the pivot (`_cols - 1` is only meaningful for `_cols ≥ 1`). -/
def row_reduce_step (cols : Nat) (i : Nat) (t : matrix T) : matrix T :=
  let j0 := if i ≥ cols then cols - 1 else i
  let f0 := t.get i j0
  let j := if f0 == 0 then first_from (fun j => t.get i j != 0) (i + 1) cols else j0
  let f := if f0 == 0 then (if j < cols then t.get i j else f0) else f0
  if f == 0 then t
  else
    let t1 := (t.in_place_div_row i f).set i j 1
    if i = 0 then t1
    else eliminate_above t1 i j

/-- The method `row_reduce()`. On a matrix with rows but no column the first pass of the
loop sets `j = _cols - 1 = -1` and reads `t(i, -1)`, where the assertion of the checked
access fails. -/
def row_reduce (m : matrix T) : Except matrix_error (matrix T) :=
  if m._rows = 1 ∨ m._cols = 1 then .ok m
  else
    match m.make_triangular with
    | .error e => .error e
    | .ok t =>
      if 0 < m._rows ∧ m._cols = 0 then .error .assertion_failed
      else .ok (for_down (row_reduce_step m._cols) m._rows t)

/-- The first loop of `null_space()`: the vector `depVarsRows` (entry `-1` when row `i`
holds no entry equal to one, else the column of the first such entry). The counter
`depVarsCount` of the source is written but never read, and is left out. -/
def dep_vars_rows (r : matrix T) (rows cols : Nat) : List Int :=
  for_loop (fun i (d : List Int) =>
    let j := first_from (fun j => r.get i j == 1) 0 cols
    if j ≠ cols then (d.set i (-1)).set i (j : Int) else d.set i (-1))
    rows (List.replicate rows 0)

/-- The search `for (j = 0; j < _rows; j++) if (depVarsRows[j] == i) break;`. -/
def find_dep_row (depVarsRows : List Int) (rows i : Nat) : Nat :=
  first_from (fun j => depVarsRows.getD j 0 == (i : Int)) 0 rows

/-- The second loop of `null_space()`: the pair `(indepVars, kerDim)`. -/
def indep_vars (depVarsRows : List Int) (rows cols : Nat) : List Nat × Nat :=
  for_loop (fun i (st : List Nat × Nat) =>
    if find_dep_row depVarsRows rows i = rows then (st.1.set st.2 i, st.2 + 1) else st)
    cols (List.replicate cols 0, 0)

/-- The method `null_space()`. -/
def null_space (m : matrix T) : Except matrix_error (matrix T) :=
  match m.row_reduce with
  | .error e => .error e
  | .ok r =>
    let depVarsRows := dep_vars_rows r m._rows m._cols
    let iv := indep_vars depVarsRows m._rows m._cols
    let indepVars := iv.1
    let kerDim := iv.2
    .ok (for_loop (fun k r1 =>
      for_loop (fun i r2 =>
        if i = indepVars.getD k 0 then r2.set i k 1
        else
          let j := find_dep_row depVarsRows m._rows i
          r2.set i k (if j ≠ m._rows then -(r.get j (indepVars.getD k 0)) else 0))
        m._cols r1) kerDim (construct m._cols kerDim))

/-- The method `transpose()`. -/
def transpose (m : matrix T) : matrix T :=
  for_loop (fun i r1 => for_loop (fun j r2 => r2.set j i (m.get i j)) m._cols r1)
    m._rows (construct m._cols m._rows)

/-- The first loop of `col_space()`: the pair `(depVars, depVarsCount)`, the vector starting
as `_cols` zeros (a write past its end is dropped). -/
def dep_vars (r : matrix T) (rows cols : Nat) : List Nat × Nat :=
  for_loop (fun i (st : List Nat × Nat) =>
    let j := first_from (fun j => r.get i j == 1) 0 cols
    if j ≠ cols then (st.1.set st.2 j, st.2 + 1) else st)
    rows (List.replicate cols 0, 0)

/-- The method `col_space(cols)`: the returned matrix, paired with the matrix that a non-null
`cols` receives. -/
def col_space (m : matrix T) : Except matrix_error (matrix T × matrix T) :=
  match m.row_reduce with
  | .error e => .error e
  | .ok r =>
    let dv := dep_vars r m._rows m._cols
    let depVars := dv.1
    let depVarsCount := dv.2
    let res := for_loop (fun i r1 =>
      for_loop (fun j r2 => r2.set i j (m.get i (depVars.getD j 0))) depVarsCount r1)
      m._rows (construct m._rows depVarsCount)
    let out := for_loop (fun i c => c.set i 0 ((depVars.getD i 0 : Nat) : T))
      depVarsCount (construct depVarsCount 1)
    .ok (res, out)

/-- The default constructor `matrix()`. -/
def construct_default : matrix T :=
  { _rows := 0, _cols := 0, _rowSwapsCount := 0, _data := [] }

/-- The method `load_data(arr)`: `_rows * _cols` cells are copied from `arr` through a raw
pointer to the first cell. The vector keeps its length: a write past its end, which the
source performs without any check, is dropped. -/
def load_data (m : matrix T) (arr : List T) : matrix T :=
  { m with _data := for_loop (fun i d => d.set i (arr.getD i 0)) (m._rows * m._cols) m._data }

/-- The constructor `matrix(int r, int c, T *arr)`: the data vector is initialised by
`_data(_rows, _cols)`, that is `r` cells holding the value `c`, then `load_data(arr)`. -/
def construct_from_array (r c : Nat) (arr : List T) : matrix T :=
  load_data { _rows := r, _cols := c, _rowSwapsCount := 0,
              _data := List.replicate r ((c : Nat) : T) } arr

/-- The checked read `get(int n)`: the assertion `n >= 0 && n <= size()`, then the read of
`_data[n]` (`none` when the vector holds no cell at `n`). -/
def get_n (m : matrix T) (n : Int) : Except matrix_error (Option T) :=
  if n ≥ 0 ∧ n ≤ (m.size : Int) then .ok (m._data[n.toNat]?)
  else .error .assertion_failed

/-- The checked read `operator()(int index)`: the assertion
`index >= 0 && index < _rows*_cols`, then the read of `_data[index]`. -/
def at_index (m : matrix T) (index : Int) : Except matrix_error (Option T) :=
  if index ≥ 0 ∧ index < ((m._rows * m._cols : Nat) : Int) then .ok (m._data[index.toNat]?)
  else .error .assertion_failed

/-- The checked reads `get(int r, int c)` and `operator()(int r, int c)`: the assertion
`r >= 0 && r < _rows && c >= 0 && c < _cols`, then the read of `_data[r*_cols + c]`. -/
def get_rc (m : matrix T) (r c : Int) : Except matrix_error (Option T) :=
  if r ≥ 0 ∧ r < (m._rows : Int) ∧ c ≥ 0 ∧ c < (m._cols : Int) then
    .ok (m._data[(r * (m._cols : Int) + c).toNat]?)
  else .error .assertion_failed

/-- The `while (i < _rows)` loop of `has_row_echelon_form()` once more, now telling a used-up
step budget (`none`) apart from the answers of the scan. -/
def has_row_echelon_form_scan (m : matrix T) : Nat → Nat → Nat → Bool → Option Bool
  | 0, _, _, _ => none
  | budget + 1, i, j, canIncSteps =>
    if i < m._rows then
      if j = m._cols then
        has_row_echelon_form_scan m budget (i + 1) 0 canIncSteps
      else if m.get i j == 0 then
        if first_from (fun k => m.get k j != 0) i m._rows ≠ m._rows then some false
        else has_row_echelon_form_scan m budget i (j + 1) true
      else
        if !canIncSteps then some false
        else has_row_echelon_form_scan m budget (i + 1) j false
    else some true

/-- The method `in_place_mul(m)`: the size test, then the triple loop
`get(i,j) += get(i,k) * m.get(k,j)` over `i < _rows`, `j < _cols`, `k < _cols`, run on the
receiver itself. With more columns than rows the checked read `m.get(k,j)` reaches the row
`k = _rows` in the first pass (when there is one), where its assertion fails. -/
def in_place_mul (a m : matrix T) : Except matrix_error (matrix T) :=
  if a._rows ≠ m._rows ∨ a._cols ≠ m._cols then .error .dimension_mismatch
  else if 0 < a._rows ∧ a._rows < a._cols then .error .assertion_failed
  else
    .ok (for_loop (fun i r1 =>
      for_loop (fun j r2 =>
        for_loop (fun k r3 => r3.set i j (r3.get i j + r3.get i k * m.get k j)) a._cols r2)
        a._cols r1) a._rows a)

/-- The first loop of `col_space()` once more, now recording the index of every write
`depVars[depVarsCount++] = j` (paired with the running counter), in the order of the writes. -/
def dep_vars_writes (r : matrix T) (rows cols : Nat) : List Nat × Nat :=
  for_loop (fun i (st : List Nat × Nat) =>
    let j := first_from (fun j => r.get i j == 1) 0 cols
    if j ≠ cols then (st.1 ++ [st.2], st.2 + 1) else st)
    rows ([], 0)

/-! ### Vocabulary of the statements

The shapes below are those of the entries themselves: "zero" and "non-zero" mean equal and
not equal to `0`, whatever the comparison of the element type answers. -/

variable [DecidableEq T]

/-- The storage invariant of the class: the data vector holds `_rows * _cols` cells. -/
def well_formed (m : matrix T) : Prop := m._data.length = m._rows * m._cols

/-- A matrix with the given dimensions and row-major cells and no recorded row swap: the
state reached by `matrix(r, c)` followed by element assignments. -/
def of_rows (r c : Nat) (cells : List T) : matrix T :=
  { _rows := r, _cols := c, _rowSwapsCount := 0, _data := cells }

/-- Two matrices with the same dimensions and the same storage length. -/
def same_shape (a m : matrix T) : Prop :=
  a._rows = m._rows ∧ a._cols = m._cols ∧ a._data.length = m._data.length

/-- The column of the leading (first non-zero) entry of row `r`, or `_cols` for a zero row. -/
def lead (m : matrix T) (r : Nat) : Nat :=
  first_from (fun c => decide (m.get r c ≠ 0)) 0 m._cols

/-- Row-echelon shape: a zero row is followed by zero rows only, and the leading entry of a
non-zero row lies strictly to the right of the leading entry of the row above. -/
def echelon (m : matrix T) : Prop :=
  ∀ r, r + 1 < m._rows → m.lead (r + 1) = m._cols ∨ m.lead r < m.lead (r + 1)

/-- Reduced row-echelon shape: row-echelon, every leading entry is one and it is the only
non-zero entry of its column. -/
def reduced (m : matrix T) : Prop :=
  m.echelon ∧ ∀ r, r < m._rows → m.lead r < m._cols →
    m.get r (m.lead r) = 1 ∧ ∀ q, q < m._rows → q ≠ r → m.get q (m.lead r) = 0

/-- Row `r` holds zeros only. -/
def is_zero_row (m : matrix T) (r : Nat) : Prop := ∀ c, c < m._cols → m.get r c = 0

/-- The row-echelon shape in the words of the specification: all zero rows are below all
non-zero rows, and the leading (first non-zero) entry of each non-zero row lies in a column
strictly to the right of the leading entry of the row above. -/
def row_echelon_shape (m : matrix T) : Prop :=
  (∀ r s, r < s → s < m._rows → m.is_zero_row r → m.is_zero_row s) ∧
  (∀ r, r + 1 < m._rows → ¬ m.is_zero_row (r + 1) →
    ¬ m.is_zero_row r ∧ m.lead r < m.lead (r + 1))

/-- The entries of a matrix as an `n × n` matrix of Mathlib. -/
def mat_of (n : Nat) (m : matrix T) : Matrix (Fin n) (Fin n) T :=
  fun a b => m.get a b

/-- The number of indices below `n` that satisfy `p`. -/
def count_below (p : Nat → Bool) : Nat → Nat
  | 0 => 0
  | n + 1 => count_below p n + (if p n then 1 else 0)

/-- The number of non-zero rows among the first `k` rows. -/
def nonzero_rows (m : matrix T) (k : Nat) : Nat :=
  count_below (fun r => decide (m.lead r < m._cols)) k

/-- The dot product of row `r` of the matrix with a vector `v` indexed by the columns. -/
def row_dot (m : matrix T) (r : Nat) (v : Nat → T) : T :=
  ∑ c ∈ Finset.range m._cols, m.get r c * v c

/-- The vector `v` solves the homogeneous system of the matrix: every row has dot product
zero with it. -/
def annihilates (m : matrix T) (v : Nat → T) : Prop :=
  ∀ r, r < m._rows → m.row_dot r v = 0

/-- The Leibniz sum over all permutations, for the entries of an `n × n` matrix. -/
def leibniz_det (n : Nat) (m : matrix T) : T :=
  ∑ σ : Equiv.Perm (Fin n), ((Equiv.Perm.sign σ : ℤ) : T) * ∏ i : Fin n, m.get (σ i) i

end matrix

/-- Equality of results is decidable, so that concrete runs can be checked by evaluation. -/
instance except_decidable_eq {ε α : Type} [DecidableEq ε] [DecidableEq α] :
    DecidableEq (Except ε α) := fun a b =>
  match a, b with
  | .ok x, .ok y =>
    if h : x = y then isTrue (by rw [h]) else isFalse (fun h2 => h (Except.ok.inj h2))
  | .error x, .error y =>
    if h : x = y then isTrue (by rw [h]) else isFalse (fun h2 => h (Except.error.inj h2))
  | .ok _, .error _ => isFalse (fun h => by cases h)
  | .error _, .ok _ => isFalse (fun h => by cases h)

/-! ### Sample matrices over the rationals -/

/-- The 3 × 3 identity matrix. -/
def identity3 : matrix ℚ := matrix.of_rows 3 3 [1, 0, 0, 0, 1, 0, 0, 0, 1]

/-- A 3 × 3 matrix with determinant `-4` whose triangularization needs a row swap. -/
def sample3 : matrix ℚ := matrix.of_rows 3 3 [0, 2, 1, 1, 1, 1, 2, 0, 3]

/-- The matrix `[[1,1],[2,2]]` of the worked example. -/
def sample_rank_one : matrix ℚ := matrix.of_rows 2 2 [1, 1, 2, 2]

/-- The singular matrix `[[1,2],[2,4]]`. -/
def sample_singular : matrix ℚ := matrix.of_rows 2 2 [1, 2, 2, 4]

/-- The matrix `[[1,2],[3,4]]`. -/
def sample2 : matrix ℚ := matrix.of_rows 2 2 [1, 2, 3, 4]

/-- The single-column matrix `[[0],[1]]`. -/
def column01 : matrix ℚ := matrix.of_rows 2 1 [0, 1]

/-- The 1 × 1 matrix `[[2]]`. -/
def single2 : matrix ℚ := matrix.of_rows 1 1 [2]

/-- The 1 × 1 matrix `[[1]]`. -/
def single1 : matrix ℚ := matrix.of_rows 1 1 [1]

/-- The 2 × 2 identity matrix. -/
def identity2 : matrix ℚ := matrix.of_rows 2 2 [1, 0, 0, 1]

/-- The single-column matrix `[[1],[1]]`. -/
def column11 : matrix ℚ := matrix.of_rows 2 1 [1, 1]

/-- A 2 × 3 matrix. -/
def sample2x3 : matrix ℚ := matrix.of_rows 2 3 [1, 2, 3, 4, 5, 6]

/-- A 3 × 4 matrix of rank two whose first pivot needs a row swap. -/
def sample3x4 : matrix ℚ := matrix.of_rows 3 4 [0, 0, 1, 2, 0, 0, 2, 4, 1, 2, 3, 4]

/-! ## The class `frac<long long, long double>` (fraction.h), `gcd` and `float_to_frac` (util.h)

Values of `integer_type` are integers of the range `int_min .. int_max`; every arithmetic
result is reduced into that range by `wrap`. Values of `float_type` are rationals, and every
floating operation rounds its exact result with a rounding function `fl`, a parameter of the
operations that use the floating type; `long_double` and `double` are the roundings to 64 and
to 53 significand bits. The functions of the mathematics library that `float_to_frac` calls
are a parameter too (`libm`). -/

/-- The smallest value of `integer_type` (64 bits, two's complement). -/
def int_min : Int := -(2 ^ 63)

/-- The largest value of `integer_type`. -/
def int_max : Int := 2 ^ 63 - 1

/-- The value that an integer result takes in `integer_type`: the representative of its class
modulo `2 ^ 64` in the range `int_min .. int_max`. -/
def wrap (x : Int) : Int := (x + 2 ^ 63) % 2 ^ 64 - 2 ^ 63

/-- What a call on `frac` values can end with instead of a value: the exception
`std::domain_error("Division by zero!")`, an integer division by zero, a loop still
running when its step budget is used up, a failed `assert`, or the conversion of a floating
value outside the range of the integer type (which the language leaves undefined). -/
inductive frac_error where
  | division_by_zero
  | integer_division_fault
  | out_of_steps
  | assertion_failed
  | cast_out_of_range
deriving DecidableEq

/-- The test `num_out_of_range<integer_type>(val)`; the bounds are converted to the floating
type for the comparison. -/
def num_out_of_range (fl : ℚ → ℚ) (val : ℚ) : Bool :=
  decide (val ≤ fl int_min) || decide (val ≥ fl int_max)

/-- The loop `for (shift = 0; ((u | v) & 1) == 0; ++shift) { u >>= 1; v >>= 1; }` of `gcd`,
with a step budget; it returns the final `(u, v, shift)`. -/
def gcd_shift_loop : Nat → Int → Int → Nat → Except frac_error (Int × Int × Nat)
  | 0, _, _, _ => .error .out_of_steps
  | budget + 1, u, v, shift =>
    if Int.land (Int.lor u v) 1 = 0 then gcd_shift_loop budget (u >>> 1) (v >>> 1) (shift + 1)
    else .ok (u, v, shift)

/-- The loop `while ((x & 1) == 0) x >>= 1;` of `gcd`, with a step budget. -/
def gcd_strip_loop : Nat → Int → Except frac_error Int
  | 0, _ => .error .out_of_steps
  | budget + 1, x =>
    if Int.land x 1 = 0 then gcd_strip_loop budget (x >>> 1) else .ok x

/-- The loop `do { ... } while (v != 0);` of `gcd`, with a step budget; it returns the final
`u`. -/
def gcd_main_loop : Nat → Int → Int → Except frac_error Int
  | 0, _, _ => .error .out_of_steps
  | budget + 1, u, v =>
    match gcd_strip_loop 64 v with
    | .error e => .error e
    | .ok v1 =>
      let u2 := if u < v1 then u else v1
      let v2 := if u < v1 then wrap (v1 - u) else wrap (u - v1)
      let v3 := v2 >>> 1
      if v3 ≠ 0 then gcd_main_loop budget u2 v3 else .ok u2

/-- The function `gcd(a, b)` of util.h, for `integer_type`. Every loop has a budget of 64
steps. -/
def gcd (a b : Int) : Except frac_error Int :=
  let u := if a ≥ 0 then a else wrap (-a)
  let v := if b ≥ 0 then b else wrap (-b)
  if u = 0 ∨ v = 0 then .ok (Int.lor u v)
  else
    match gcd_shift_loop 64 u v 0 with
    | .error e => .error e
    | .ok (u1, v1, shift) =>
      match gcd_strip_loop 64 u1 with
      | .error e => .error e
      | .ok u2 =>
        match gcd_main_loop 64 u2 v1 with
        | .error e => .error e
        | .ok u3 => .ok (wrap (u3 * 2 ^ shift))

/-- The power `2 ^ e` for an integer exponent. -/
def pow2 (e : Int) : ℚ := if 0 ≤ e then (2 : ℚ) ^ e.toNat else 1 / (2 : ℚ) ^ (-e).toNat

/-- The halving loop behind `floor_log2`; `fuel` bounds the number of halvings. -/
def floor_log2_loop : Nat → Nat → Nat
  | 0, _ => 0
  | fuel + 1, n => if n < 2 then 0 else floor_log2_loop fuel (n / 2) + 1

/-- The integer part of the binary logarithm of a positive natural number. -/
def floor_log2 (n : Nat) : Nat := floor_log2_loop n n

/-- The binary exponent of a non-zero rational: the `e` with `2 ^ e ≤ |q| < 2 ^ (e + 1)`. -/
def exponent (q : ℚ) : Int :=
  let e : Int := (floor_log2 q.num.natAbs : Int) - (floor_log2 q.den : Int)
  if |q| < pow2 e then e - 1 else e

/-- Rounding to the nearest integer, a tie going to the even one. -/
def round_half_even (q : ℚ) : Int :=
  let f := q.num / (q.den : Int)
  let r := q - f
  if r < 1 / 2 then f else if 1 / 2 < r then f + 1 else if f % 2 = 0 then f else f + 1

/-- Rounding to a binary floating format with `p` significand bits (to nearest, a tie going
to the even significand; the exponent range is not bounded, so there is neither overflow to
an infinity nor a subnormal number). -/
def round_sig (p : Nat) (q : ℚ) : ℚ :=
  if q = 0 then 0
  else
    let e := exponent q - ((p : Int) - 1)
    (round_half_even (q / pow2 e) : ℚ) * pow2 e

/-- The rounding of `long double` in the 80-bit extended format: 64 significand bits. -/
def long_double : ℚ → ℚ := round_sig 64

/-- The rounding of `double`: 53 significand bits. -/
def double : ℚ → ℚ := round_sig 53

/-- The class `frac<integerT, floatT>`: numerator, denominator, and the floating value `fn`
that is non-zero exactly for a degraded value. -/
structure frac where
  num : Int
  den : Int
  fn : ℚ
deriving DecidableEq

namespace frac

/-- The test `is_using_fp()`. -/
def is_using_fp (f : frac) : Bool := f.fn != 0

/-- The constructor `frac(n, d)`. -/
def construct (n d : Int) : Except frac_error frac :=
  if d = 0 then .error .division_by_zero
  else .ok { num := n, den := d, fn := 0 }

/-- The factory `make_dec_frac(n)`, on the default value `0 / 1`. -/
def make_dec_frac (n : ℚ) : frac := { num := 0, den := 1, fn := n }

/-- The method `semplify()`, returning the new state (the division truncates). -/
def semplify (f : frac) : Except frac_error frac :=
  if f.is_using_fp then .ok f
  else
    let num1 := if f.den < 0 then wrap (-f.num) else f.num
    let den1 := if f.den < 0 then wrap (-f.den) else f.den
    match gcd num1 den1 with
    | .error e => .error e
    | .ok d =>
      if d = 0 then .error .integer_division_fault
      else .ok { num := wrap (Int.tdiv num1 d), den := wrap (Int.tdiv den1 d), fn := f.fn }

/-- The method `fpval()`, which is also the conversion `to_float` (with a zero denominator,
which no constructor stores, the source divides by a floating zero; here the quotient is 0). -/
def fpval (fl : ℚ → ℚ) (f : frac) : ℚ :=
  if f.fn ≠ 0 then f.fn else fl (fl f.num / fl f.den)

/-- The method `numerator()`. -/
def numerator (fl : ℚ → ℚ) (f : frac) : ℚ := if f.fn ≠ 0 then f.fn else fl f.num

/-- The method `denominator()`: its conditional expression `fn != 0.0 ? 1.0 : den` has the
type `double`, so `den` is rounded to a `double` before the conversion to `float_type`. -/
def denominator (fl : ℚ → ℚ) (f : frac) : ℚ := if f.fn ≠ 0 then 1 else fl (double f.den)

/-- The operator `operator+`. -/
def add (fl : ℚ → ℚ) (a f2 : frac) : Except frac_error frac :=
  match a.semplify with
  | .error e => .error e
  | .ok f11 =>
    match f2.semplify with
    | .error e => .error e
    | .ok f22 =>
      let sum := fl (f11.fpval fl + f22.fpval fl)
      if f11.is_using_fp || f22.is_using_fp || num_out_of_range fl sum ||
          num_out_of_range fl (fl (f11.numerator fl * f22.denominator fl)) ||
          num_out_of_range fl (fl (fl (f11.numerator fl * f22.denominator fl) +
            fl (f22.numerator fl * f11.denominator fl))) then
        .ok (make_dec_frac sum)
      else
        let num := wrap (wrap (f11.num * f22.den) + wrap (f22.num * f11.den))
        let den := wrap (f11.den * f22.den)
        match construct num den with
        | .error e => .error e
        | .ok r => r.semplify

/-- The method `neg()`. -/
def neg (f : frac) : Except frac_error frac :=
  if !f.is_using_fp then construct (wrap (-f.num)) f.den
  else .ok { num := 0, den := 1, fn := -f.fn }

/-- The operator `operator-`: `operator+(f2.neg())`. -/
def sub (fl : ℚ → ℚ) (a f2 : frac) : Except frac_error frac :=
  match f2.neg with
  | .error e => .error e
  | .ok n => add fl a n

/-- The operator `operator*`. -/
def mul (fl : ℚ → ℚ) (a f2 : frac) : Except frac_error frac :=
  match a.semplify with
  | .error e => .error e
  | .ok f11 =>
    match f2.semplify with
    | .error e => .error e
    | .ok f22 =>
      let prod := fl (f11.fpval fl * f22.fpval fl)
      if f11.is_using_fp || f22.is_using_fp || num_out_of_range fl prod ||
          num_out_of_range fl (fl (f11.numerator fl * f22.numerator fl)) ||
          num_out_of_range fl (fl (f11.denominator fl * f22.denominator fl)) then
        .ok (make_dec_frac prod)
      else
        let num := wrap (f11.num * f22.num)
        let den := wrap (f11.den * f22.den)
        match construct num den with
        | .error e => .error e
        | .ok r => r.semplify

/-- The operator `operator/`: the product with `frac(f2.den, f2.num)`, or with
`make_dec_frac(1.0 / f2.fn)` for a degraded divisor. -/
def div (fl : ℚ → ℚ) (a f2 : frac) : Except frac_error frac :=
  if !f2.is_using_fp then
    match construct f2.den f2.num with
    | .error e => .error e
    | .ok f22 => mul fl a f22
  else mul fl a (make_dec_frac (fl (1 / f2.fn)))

/-- The operator `operator==`; `eps` is `numeric_limits<float_type>::epsilon()`. -/
def eq (fl : ℚ → ℚ) (eps : ℚ) (a f2 : frac) : Bool :=
  decide (|fl (a.fpval fl - f2.fpval fl)| ≤ fl (10 * eps))

/-- The rational number that a non-degraded value stands for. -/
def value (f : frac) : ℚ := (f.num : ℚ) / (f.den : ℚ)

/-- The values that the constructors and operators store: a degraded value, or integer
fields of the range of `integer_type` above its minimum with a non-zero denominator. -/
def valid (f : frac) : Prop :=
  f.fn = 0 → f.den ≠ 0 ∧ int_min < f.num ∧ f.num ≤ int_max ∧ int_min < f.den ∧ f.den ≤ int_max

end frac

/-- The constant `numeric_limits<long double>::epsilon()`. -/
def long_double_epsilon : ℚ := 1 / 2 ^ 63

/-- What the operators of `frac` need of the rounding of the floating type: it is monotone,
it keeps every value of `integer_type`, and it rounds no non-zero number to zero. -/
def rounding (fl : ℚ → ℚ) : Prop :=
  Monotone fl ∧ (∀ z : Int, int_min ≤ z → z ≤ int_max → fl z = z) ∧ ∀ x : ℚ, fl x = 0 → x = 0

/-- The integer part of a floating value, as `modfl` and the conversion to an integer type
compute it: truncation towards zero. -/
def trunc (q : ℚ) : Int := Int.tdiv q.num q.den

/-- The function `floorl`. -/
def floorl (q : ℚ) : Int := q.num / (q.den : Int)

/-- The function `ceill`. -/
def ceill (q : ℚ) : Int := -floorl (-q)

/-- The function `roundl`: to the nearest integer, a tie going away from zero. -/
def roundl (q : ℚ) : Int :=
  if |q - trunc q| < 1 / 2 then trunc q else if q ≥ 0 then trunc q + 1 else trunc q - 1

/-- The conversion `static_cast` of a floating value to an integer type of the range
`lo .. hi`: the truncated value, when the type can hold it. -/
def float_to_int (lo hi : Int) (q : ℚ) : Except frac_error Int :=
  if lo ≤ trunc q ∧ trunc q ≤ hi then .ok (trunc q) else .error .cast_out_of_range

/-- The functions of the C mathematics library that `float_to_frac` calls, whose results
the language does not fix exactly: `log10l`, `powl`, and the constant
`log10floathi = log10l(numeric_limits<long double>::max())`. -/
structure libm where
  log10l : ℚ → ℚ
  powl : ℚ → ℚ → ℚ
  log10floathi : ℚ

/-- The function `float_to_frac(number, num, den, precision)` for `long long`: `none` is the
result `false`, and `some (num, den)` is the result `true` with the two outputs. -/
def float_to_frac (fl : ℚ → ℚ) (lm : libm) (number : ℚ) (precision : Int) :
    Except frac_error (Option (Int × Int)) :=
  let lim : ℚ := fl int_max
  let sign : Int := if number ≥ 0 then 1 else -1
  let number1 : ℚ := |number|
  let int_part : ℚ := trunc number1
  let frac_part : ℚ := number1 - int_part
  if frac_part = 0 then
    if int_part ≥ lim then .ok none
    else
      match float_to_int int_min int_max int_part with
      | .error e => .error e
      | .ok z => .ok (some (wrap (sign * z), 1))
  else if number1 = 0 ∨ number1 = 1 then
    match float_to_int int_min int_max number1 with
    | .error e => .error e
    | .ok z => .ok (some (z, 1))
  else
    let log10num := lm.log10l number1
    match float_to_int (-(2 ^ 31)) (2 ^ 31 - 1)
        (if log10num ≥ 0 then ceill log10num else floorl log10num) with
    | .error e => .error e
    | .ok log10num_int =>
      let lscale0 : ℚ := fl ((18 - max 0 log10num_int : Int) : ℚ)
      if lscale0 < 0 then .ok none
      else
        let lscale1 : ℚ := if lscale0 ≥ lm.log10floathi then fl (lm.log10floathi - 1) else lscale0
        let lscale : ℚ := if lscale1 < fl precision then lscale1 else fl precision
        let scale : ℚ := lm.powl 10 lscale
        if ¬ (fl (number1 * scale) < lim) then .error .assertion_failed
        else
          match float_to_int int_min int_max (roundl (fl (number1 * scale))) with
          | .error e => .error e
          | .ok n =>
            match float_to_int int_min int_max (roundl scale) with
            | .error e => .error e
            | .ok d => .ok (some (wrap (sign * n), d))

/-- The digit count behind `floor_log10`, for a number that is at least one: how often it
can be divided by ten before it falls below ten. -/
def log10_up : Nat → ℚ → Nat
  | 0, _ => 0
  | fuel + 1, x => if x < 10 then 0 else log10_up fuel (x / 10) + 1

/-- The digit count behind `floor_log10`, for a positive number below one: how often it must
be multiplied by ten to reach one. -/
def log10_down : Nat → ℚ → Nat
  | 0, _ => 0
  | fuel + 1, x => if 1 ≤ x then 0 else log10_down fuel (x * 10) + 1

/-- The integer part of the decimal logarithm of a positive rational: the `k` with
`10 ^ k ≤ x < 10 ^ (k + 1)`. -/
def floor_log10 (x : ℚ) : Int :=
  if 1 ≤ x then (log10_up x.num.natAbs x : Int) else -(log10_down x.den x : Int)

/-- A stand-in for the mathematics library, for evaluating `float_to_frac` on examples: its
`log10l` lies between the same two integers as the decimal logarithm (and is that integer at
a power of ten), its `powl` is the exact power for an integer exponent, and `log10floathi` is
the integer part of the decimal logarithm of the largest `long double`. -/
def sample_libm : libm :=
  { log10l := fun x =>
      if x = (10 : ℚ) ^ floor_log10 x then (floor_log10 x : ℚ) else (floor_log10 x : ℚ) + 1 / 2
    powl := fun x y => x ^ trunc y
    log10floathi := 4932 }

/-- What `float_to_frac` needs of the mathematics library for numbers below `10 ^ 12` at
precision six: `log10l` is bracketed by the integers of the powers of ten around its
argument, `powl(10, 6)` is the exact power, and `log10floathi` is above the decimal digits of
the integer type. -/
def libm.bracketing (lm : libm) : Prop :=
  (∀ (x : ℚ) (k : Int), 0 < x →
    (((10 : ℚ) ^ k ≤ x → (k : ℚ) ≤ lm.log10l x) ∧ (x ≤ (10 : ℚ) ^ k → lm.log10l x ≤ (k : ℚ)))) ∧
  lm.powl 10 6 = 10 ^ 6 ∧ 18 < lm.log10floathi

/-- The relative error of a rounding to 64 significand bits. -/
def accurate (fl : ℚ → ℚ) : Prop := ∀ x : ℚ, |fl x - x| ≤ |x| / 2 ^ 64

/-- The number of millionths that a value shows when it is printed with six decimals (the
exact value is rounded to the nearest millionth, a tie going to the even one). -/
def printed6 (q : ℚ) : Int := round_half_even (q * 10 ^ 6)

namespace frac

/-- The constructor `frac(number, precision)`. -/
def of_float (fl : ℚ → ℚ) (lm : libm) (number : ℚ) (precision : Int) : Except frac_error frac :=
  match float_to_frac fl lm number precision with
  | .error e => .error e
  | .ok (some (n, d)) => semplify { num := n, den := d, fn := 0 }
  | .ok none => .ok { num := 0, den := 1, fn := number }

end frac

/-! ## The class `complex_frac<frac_type>` (complex_frac.h) over `frac` -/

/-- The class `complex_frac<frac_type>`: the real and the imaginary part. -/
structure complex_frac where
  re : frac
  im : frac
deriving DecidableEq

namespace complex_frac

/-- The operator `operator+`: `complex_frac(re + c2.re, im + c2.im)` (a failure of either
sum fails the whole expression; the real part is taken first here). -/
def add (fl : ℚ → ℚ) (c c2 : complex_frac) : Except frac_error complex_frac :=
  match frac.add fl c.re c2.re with
  | .error e => .error e
  | .ok r =>
    match frac.add fl c.im c2.im with
    | .error e => .error e
    | .ok i => .ok { re := r, im := i }

/-- The operator `operator-`: `complex_frac(re - c2.re, im - c2.im)`. -/
def sub (fl : ℚ → ℚ) (c c2 : complex_frac) : Except frac_error complex_frac :=
  match frac.sub fl c.re c2.re with
  | .error e => .error e
  | .ok r =>
    match frac.sub fl c.im c2.im with
    | .error e => .error e
    | .ok i => .ok { re := r, im := i }

/-- The comparison `operator==`: `re == c2.re && im == c2.im`. -/
def eq (fl : ℚ → ℚ) (eps : ℚ) (c c2 : complex_frac) : Bool :=
  frac.eq fl eps c.re c2.re && frac.eq fl eps c.im c2.im

/-- The operator `operator+=`: `return *this = operator+(c2);`, returning the new state. -/
def add_assign (fl : ℚ → ℚ) (c c2 : complex_frac) : Except frac_error complex_frac :=
  add fl c c2

/-- The operator `operator-=`: `return *this = operator+(c2);`, returning the new state. -/
def sub_assign (fl : ℚ → ℚ) (c c2 : complex_frac) : Except frac_error complex_frac :=
  add fl c c2

end complex_frac

/-! ## The elements of `vmatrix` with an exact real value -/

/-- The elements of `vmatrix = matrix<complex_frac<frac<long long, long double>>>` whose real
part is exact (not degraded) and whose imaginary part is the exact zero, each named by the
rational number that it stands for. As long as no numerator or denominator leaves the range
of `integer_type`, the operators of `frac` return the exact sum, difference, product and
quotient in lowest terms, which is the arithmetic of the rationals; the comparison is
`operator==` of `complex_frac`, that is the tolerance test of `frac` on both parts. -/
def exact_frac : Type := ℚ

namespace exact_frac

/-- The value `q + 0i` as a `complex_frac` in lowest terms. -/
def to_complex (q : exact_frac) : complex_frac :=
  { re := { num := Rat.num q, den := (Rat.den q : Int), fn := 0 },
    im := { num := 0, den := 1, fn := 0 } }

end exact_frac

/-- The arithmetic of the exact values: that of the rationals. -/
instance exact_frac_field : Field exact_frac := inferInstanceAs (Field ℚ)

/-- Equality of the values themselves (used by the statements, not by the code). -/
instance (priority := low) exact_frac_decidable_eq : DecidableEq exact_frac :=
  inferInstanceAs (DecidableEq ℚ)

/-- The comparison `operator==` of the element type: `complex_frac::operator==` with
`long double` as the floating type. -/
instance exact_frac_beq : BEq exact_frac :=
  ⟨fun a b => complex_frac.eq long_double long_double_epsilon a.to_complex b.to_complex⟩

/-! ### Sample matrices over `exact_frac` -/

/-- The matrix `[[1, 10^17, 0], [1/10^18, 1, 0], [0, 0, 1]]`. -/
def near_upper3 : matrix exact_frac :=
  matrix.of_rows 3 3 [1, 10 ^ 17, 0, 1 / 10 ^ 18, 1, 0, 0, 0, 1]

/-- The matrix `[[10^9, 0], [0, 10^9]]`. -/
def diag_large2 : matrix exact_frac := matrix.of_rows 2 2 [10 ^ 9, 0, 0, 10 ^ 9]

/-- The upper triangular matrix `[[1, 1/10^18, 1, 0], [0, 1, 0, 0], [0, 0, 2, 0], [0, 0, 0, 1]]`. -/
def near_upper4 : matrix exact_frac :=
  matrix.of_rows 4 4 [1, 1 / 10 ^ 18, 1, 0, 0, 1, 0, 0, 0, 0, 2, 0, 0, 0, 0, 1]

/-- The matrix `[[1/10^18, 1], [0, 2]]`. -/
def tiny_pivot2 : matrix exact_frac := matrix.of_rows 2 2 [1 / 10 ^ 18, 1, 0, 2]

/-- The matrix `[[1/10^18, 2/10^18], [0, 0]]`. -/
def tiny_row2 : matrix exact_frac := matrix.of_rows 2 2 [1 / 10 ^ 18, 2 / 10 ^ 18, 0, 0]

/-- The matrix `[[1, 10^17], [1/10^18, 0]]`. -/
def near_singular2 : matrix exact_frac := matrix.of_rows 2 2 [1, 10 ^ 17, 1 / 10 ^ 18, 0]

/-- The matrix `[[1, 0], [1/10^18, 1]]`. -/
def near_echelon2 : matrix exact_frac := matrix.of_rows 2 2 [1, 0, 1 / 10 ^ 18, 1]

/-- The 3 × 3 identity matrix over `exact_frac`. -/
def frac_identity3 : matrix exact_frac := matrix.of_rows 3 3 [1, 0, 0, 0, 1, 0, 0, 0, 1]

/-- The matrix `[[1, 2], [3, 4]]` over `exact_frac`. -/
def frac_sample2 : matrix exact_frac := matrix.of_rows 2 2 [1, 2, 3, 4]

/-- The 1 × 1 matrix `[[2]]` over `exact_frac`. -/
def frac_single2 : matrix exact_frac := matrix.of_rows 1 1 [2]

/-- The single-row matrix `[[2, 4]]` over `exact_frac`. -/
def frac_row24 : matrix exact_frac := matrix.of_rows 1 2 [2, 4]

/-- The single-column matrix `[[0], [1]]` over `exact_frac`. -/
def frac_column01 : matrix exact_frac := matrix.of_rows 2 1 [0, 1]

/-- The single-column matrix `[[1], [1]]` over `exact_frac`. -/
def frac_column11 : matrix exact_frac := matrix.of_rows 2 1 [1, 1]

/-- A 2 × 0 matrix: two rows and no column. -/
def frac_empty2x0 : matrix exact_frac := matrix.of_rows 2 0 []

end vmatrixlib

namespace vmatrixlib
set_option linter.unusedSectionVars false

theorem first_from_loop_spec (p : Nat → Bool) (stop : Nat) :
    ∀ (budget k : Nat), stop ≤ k + budget → k ≤ stop →
      k ≤ first_from_loop p stop budget k ∧ first_from_loop p stop budget k ≤ stop ∧
      (∀ x, k ≤ x → x < first_from_loop p stop budget k → p x = false) ∧
      (first_from_loop p stop budget k < stop → p (first_from_loop p stop budget k) = true) := by
  intro budget
  induction budget with
  | zero =>
    intro k h1 h2
    have hk : k = stop := by omega
    subst hk
    simp [first_from_loop]
    intro x h3 h4; omega
  | succ b ih =>
    intro k h1 h2
    by_cases hk : k < stop
    · by_cases hp : p k = true
      · have e : first_from_loop p stop (b + 1) k = k := by
          simp [first_from_loop, hk, hp]
        rw [e]
        refine ⟨le_refl _, h2, ?_, fun _ => hp⟩
        intro x h3 h4; omega
      · have e : first_from_loop p stop (b + 1) k = first_from_loop p stop b (k + 1) := by
          simp [first_from_loop, hk, hp]
        rw [e]
        obtain ⟨a1, a2, a3, a4⟩ := ih (k + 1) (by omega) (by omega)
        refine ⟨by omega, a2, ?_, a4⟩
        intro x h3 h4
        by_cases hx : x = k
        · subst hx; simpa using hp
        · exact a3 x (by omega) h4
    · have e : first_from_loop p stop (b + 1) k = k := by
        simp [first_from_loop, hk]
      rw [e]
      refine ⟨le_refl _, h2, ?_, fun h => absurd h hk⟩
      intro x h3 h4; omega

theorem first_from_spec (p : Nat → Bool) (start stop : Nat) (h : start ≤ stop) :
    start ≤ first_from p start stop ∧ first_from p start stop ≤ stop ∧
    (∀ x, start ≤ x → x < first_from p start stop → p x = false) ∧
    (first_from p start stop < stop → p (first_from p start stop) = true) :=
  first_from_loop_spec p stop (stop - start) start (by omega) h

theorem first_from_ge (p : Nat → Bool) (start stop : Nat) (h : stop ≤ start) :
    first_from p start stop = start := by
  unfold first_from
  have : stop - start = 0 := by omega
  rw [this]; rfl

theorem first_from_unique (p : Nat → Bool) (start stop k : Nat) (h1 : start ≤ k) (h2 : k ≤ stop)
    (h3 : ∀ x, start ≤ x → x < k → p x = false) (h4 : k < stop → p k = true) :
    first_from p start stop = k := by
  obtain ⟨a1, a2, a3, a4⟩ := first_from_spec p start stop (le_trans h1 h2)
  rcases Nat.lt_trichotomy (first_from p start stop) k with hlt | heq | hgt
  · have := h3 _ a1 hlt
    have := a4 (by omega)
    simp_all
  · exact heq
  · have := a3 k h1 hgt
    have := h4 (by omega)
    simp_all

theorem first_from_eq_stop_iff (p : Nat → Bool) (start stop : Nat) (h : start ≤ stop) :
    first_from p start stop = stop ↔ ∀ x, start ≤ x → x < stop → p x = false := by
  obtain ⟨a1, a2, a3, a4⟩ := first_from_spec p start stop h
  constructor
  · intro he x hx1 hx2
    exact a3 x hx1 (by omega)
  · intro hall
    exact first_from_unique p start stop stop h (le_refl _) hall (fun hh => absurd hh (lt_irrefl _))

theorem all_below_iff (p : Nat → Bool) (n : Nat) :
    all_below p n = true ↔ ∀ i, i < n → p i = true := by
  induction n with
  | zero => simp [all_below]
  | succ n ih =>
    simp only [all_below, Bool.and_eq_true, ih]
    constructor
    · rintro ⟨h1, h2⟩ i hi
      by_cases hin : i = n
      · subst hin; exact h2
      · exact h1 i (by omega)
    · intro h
      exact ⟨fun i hi => h i (by omega), h n (by omega)⟩

theorem for_loop_induction {σ : Type} (body : Nat → σ → σ) (P : Nat → σ → Prop) (n : Nat) (s : σ)
    (h0 : P 0 s) (hstep : ∀ i a, i < n → P i a → P (i + 1) (body i a)) :
    P n (for_loop body n s) := by
  induction n with
  | zero => exact h0
  | succ n ih =>
    exact hstep n _ (by omega) (ih (fun i a hi => hstep i a (by omega)))

theorem for_down_induction {σ : Type} (body : Nat → σ → σ) (P : Nat → σ → Prop) :
    ∀ (n : Nat) (s : σ), P n s → (∀ i a, i < n → P (i + 1) a → P i (body i a)) →
    P 0 (for_down body n s) := by
  intro n
  induction n with
  | zero => intro s h0 _; exact h0
  | succ n ih =>
    intro s h0 hstep
    exact ih (body n s) (hstep n s (by omega) h0) (fun i a hi => hstep i a (by omega))

namespace matrix
variable {T : Type} [Field T]

theorem index_lt {rows cols r c : Nat} (hr : r < rows) (hc : c < cols) :
    r * cols + c < rows * cols := by
  have h1 : (r + 1) * cols ≤ rows * cols := Nat.mul_le_mul_right _ hr
  rw [Nat.succ_mul] at h1
  omega

theorem index_inj {cols r c r' c' : Nat} (hc : c < cols) (hc' : c' < cols) :
    r * cols + c = r' * cols + c' ↔ r = r' ∧ c = c' := by
  constructor
  · intro h
    have h1 : (r * cols + c) / cols = (r' * cols + c') / cols := by rw [h]
    have h2 : (r * cols + c) % cols = (r' * cols + c') % cols := by rw [h]
    have hpos : 0 < cols := by omega
    rw [Nat.mul_comm r, Nat.mul_comm r', Nat.mul_add_div hpos, Nat.mul_add_div hpos,
      Nat.div_eq_of_lt hc, Nat.div_eq_of_lt hc'] at h1
    rw [Nat.mul_comm r, Nat.mul_comm r', Nat.mul_add_mod, Nat.mul_add_mod,
      Nat.mod_eq_of_lt hc, Nat.mod_eq_of_lt hc'] at h2
    omega
  · rintro ⟨rfl, rfl⟩; rfl

theorem get_set (m : matrix T) (hwf : m.well_formed) {r c r' c' : Nat} (hr : r < m._rows)
    (hc : c < m._cols) (hc' : c' < m._cols) (v : T) :
    (m.set r c v).get r' c' = if r' = r ∧ c' = c then v else m.get r' c' := by
  unfold get set
  simp only [List.getD_eq_getElem?_getD, List.getElem?_set]
  have hlt : r * m._cols + c < m._data.length := by
    rw [hwf]; exact index_lt hr hc
  by_cases h : r' = r ∧ c' = c
  · obtain ⟨rfl, rfl⟩ := h
    simp [hlt]
  · have hne : ¬ (r * m._cols + c = r' * m._cols + c') := by
      rw [index_inj hc hc']
      intro hh; exact h ⟨hh.1.symm, hh.2.symm⟩
    simp [hne, h]

end matrix
end vmatrixlib

namespace vmatrixlib
set_option linter.unusedSectionVars false
namespace matrix
variable {T : Type} [Field T]

theorem same_shape_refl (m : matrix T) : same_shape m m := ⟨rfl, rfl, rfl⟩

theorem same_shape_trans {a b c : matrix T} (h1 : same_shape a b) (h2 : same_shape b c) :
    same_shape a c :=
  ⟨h1.1.trans h2.1, h1.2.1.trans h2.2.1, h1.2.2.trans h2.2.2⟩

theorem same_shape_wf {a m : matrix T} (h : same_shape a m) (hwf : m.well_formed) :
    a.well_formed := by
  unfold well_formed at *
  rw [h.2.2, h.1, h.2.1, hwf]

theorem set_same_shape (m : matrix T) (r c : Nat) (v : T) : same_shape (m.set r c v) m :=
  ⟨rfl, rfl, by simp [set]⟩

theorem set_count (m : matrix T) (r c : Nat) (v : T) :
    (m.set r c v)._rowSwapsCount = m._rowSwapsCount := rfl

theorem swap_same_shape (m : matrix T) (i j x y : Nat) : same_shape (m.swap i j x y) m :=
  same_shape_trans (set_same_shape _ _ _ _) (set_same_shape _ _ _ _)

theorem swap_count (m : matrix T) (i j x y : Nat) :
    (m.swap i j x y)._rowSwapsCount = m._rowSwapsCount := rfl

theorem get_swap (m : matrix T) (hwf : m.well_formed) {i j x y r c : Nat} (hi : i < m._rows)
    (hj : j < m._cols) (hx : x < m._rows) (hy : y < m._cols) (hc : c < m._cols) :
    (m.swap i j x y).get r c =
      if r = x ∧ c = y then m.get i j else if r = i ∧ c = j then m.get x y else m.get r c := by
  unfold swap
  have hs := set_same_shape m i j (m.get x y)
  rw [get_set _ (same_shape_wf hs hwf) (by rw [hs.1]; exact hx) (by rw [hs.2.1]; exact hy)
    (by rw [hs.2.1]; exact hc), get_set _ hwf hi hj hc]

theorem for_loop_same_shape (body : Nat → matrix T → matrix T)
    (hb : ∀ i a, same_shape (body i a) a ∧ (body i a)._rowSwapsCount = a._rowSwapsCount)
    (n : Nat) (m : matrix T) :
    same_shape (for_loop body n m) m ∧ (for_loop body n m)._rowSwapsCount = m._rowSwapsCount := by
  induction n with
  | zero => exact ⟨same_shape_refl m, rfl⟩
  | succ n ih =>
    obtain ⟨h1, h2⟩ := hb n (for_loop body n m)
    exact ⟨same_shape_trans h1 ih.1, h2.trans ih.2⟩

theorem for_down_same_shape (body : Nat → matrix T → matrix T)
    (hb : ∀ i a, same_shape (body i a) a ∧ (body i a)._rowSwapsCount = a._rowSwapsCount)
    (n : Nat) : ∀ (m : matrix T),
    same_shape (for_down body n m) m ∧ (for_down body n m)._rowSwapsCount = m._rowSwapsCount := by
  induction n with
  | zero => intro m; exact ⟨same_shape_refl m, rfl⟩
  | succ n ih =>
    intro m
    obtain ⟨h1, h2⟩ := hb n m
    obtain ⟨h3, h4⟩ := ih (body n m)
    exact ⟨same_shape_trans h3 h1, h4.trans h2⟩

/-! ### swap_rows -/

theorem swap_rows_loop (m : matrix T) (hwf : m.well_formed) {i j : Nat} (hi : i < m._rows)
    (hj : j < m._rows) (n : Nat) (hn : n ≤ m._cols) :
    same_shape (for_loop (fun k a => a.swap i k j k) n m) m ∧
    ∀ r c, c < m._cols → (for_loop (fun k a => a.swap i k j k) n m).get r c =
      if c < n then m.get (if r = i then j else if r = j then i else r) c else m.get r c := by
  induction n with
  | zero =>
    refine ⟨same_shape_refl m, ?_⟩
    intro r c _
    simp [for_loop]
  | succ n ih =>
    obtain ⟨hs, hg⟩ := ih (by omega)
    have hs2 := (for_loop_same_shape (fun k a => a.swap i k j k)
      (fun k a => ⟨swap_same_shape a i k j k, rfl⟩) (n + 1) m).1
    refine ⟨hs2, ?_⟩
    intro r c hc
    show ((for_loop (fun k a => a.swap i k j k) n m).swap i n j n).get r c = _
    have hwf1 := same_shape_wf hs hwf
    rw [get_swap _ hwf1 (by rw [hs.1]; exact hi) (by rw [hs.2.1]; omega) (by rw [hs.1]; exact hj)
      (by rw [hs.2.1]; omega) (by rw [hs.2.1]; exact hc)]
    rw [hg i n (by omega), hg j n (by omega), hg r c hc]
    by_cases hcn : c = n
    · subst hcn
      by_cases hrj : r = j
      · subst hrj
        by_cases hri : r = i
        · subst hri; simp
        · simp [hri]
      · by_cases hri : r = i
        · subst hri; simp [hrj]
        · simp [hri, hrj]
    · have h1 : ¬ (r = j ∧ c = n) := fun h => hcn h.2
      have h2 : ¬ (r = i ∧ c = n) := fun h => hcn h.2
      rw [if_neg h1, if_neg h2]
      by_cases hlt : c < n
      · have h3 : c < n + 1 := by omega
        simp only [hlt, h3, if_true]
      · have h3 : ¬ c < n + 1 := by omega
        simp only [hlt, h3, if_false]

theorem swap_rows_same_shape (m : matrix T) (i j : Nat) : same_shape (m.swap_rows i j) m :=
  (for_loop_same_shape (fun k a => a.swap i k j k)
    (fun k a => ⟨swap_same_shape a i k j k, rfl⟩) m._cols m).1

theorem swap_rows_count (m : matrix T) (i j : Nat) :
    (m.swap_rows i j)._rowSwapsCount = m._rowSwapsCount + 1 := by
  have := (for_loop_same_shape (fun k a => a.swap i k j k)
    (fun k a => ⟨swap_same_shape a i k j k, rfl⟩) m._cols m).2
  show (for_loop (fun k a => a.swap i k j k) m._cols m)._rowSwapsCount + 1 = _
  rw [this]

theorem get_swap_rows (m : matrix T) (hwf : m.well_formed) {i j : Nat} (hi : i < m._rows)
    (hj : j < m._rows) (r c : Nat) (hc : c < m._cols) :
    (m.swap_rows i j).get r c = m.get (if r = i then j else if r = j then i else r) c := by
  have h := (swap_rows_loop m hwf hi hj m._cols (le_refl _)).2 r c hc
  rw [if_pos hc] at h
  exact h

/-! ### add_row_mult_by_const_to_row -/

theorem add_row_same_shape (m : matrix T) (s d : Nat) (k : T) :
    same_shape (m.add_row_mult_by_const_to_row s d k) m ∧
    (m.add_row_mult_by_const_to_row s d k)._rowSwapsCount = m._rowSwapsCount :=
  for_loop_same_shape _ (fun _ a => ⟨set_same_shape a _ _ _, rfl⟩) m._cols m

theorem add_row_loop (m : matrix T) (hwf : m.well_formed) (s : Nat) {d : Nat} (hd : d < m._rows) (k : T)
    (n : Nat) (hn : n ≤ m._cols) :
    same_shape (for_loop (fun i a => a.set d i (a.get d i + a.get s i * k)) n m) m ∧
    ∀ r c, c < m._cols →
      (for_loop (fun i a => a.set d i (a.get d i + a.get s i * k)) n m).get r c =
      if r = d ∧ c < n then m.get d c + m.get s c * k else m.get r c := by
  induction n with
  | zero =>
    refine ⟨same_shape_refl m, ?_⟩
    intro r c _
    simp [for_loop]
  | succ n ih =>
    obtain ⟨hs, hg⟩ := ih (by omega)
    have hs2 := (for_loop_same_shape (fun i a => a.set d i (a.get d i + a.get s i * k))
      (fun _ a => ⟨set_same_shape a _ _ _, rfl⟩) (n + 1) m).1
    refine ⟨hs2, ?_⟩
    intro r c hc
    show ((for_loop (fun i a => a.set d i (a.get d i + a.get s i * k)) n m).set d n _).get r c = _
    have hwf1 := same_shape_wf hs hwf
    rw [get_set _ hwf1 (by rw [hs.1]; exact hd) (by rw [hs.2.1]; omega)
      (by rw [hs.2.1]; exact hc)]
    rw [hg d n (by omega), hg s n (by omega), hg r c hc]
    by_cases hrc : r = d ∧ c = n
    · obtain ⟨rfl, rfl⟩ := hrc
      simp
    · rw [if_neg hrc]
      by_cases hrd : r = d
      · subst hrd
        have hcn : c ≠ n := fun h => hrc ⟨rfl, h⟩
        by_cases hlt : c < n
        · rw [if_pos ⟨rfl, hlt⟩, if_pos ⟨rfl, by omega⟩]
        · rw [if_neg (fun h => hlt h.2), if_neg (fun h => hlt (by omega))]
      · rw [if_neg (fun h => hrd h.1), if_neg (fun h => hrd h.1)]

theorem get_add_row (m : matrix T) (hwf : m.well_formed) {s d : Nat} (hd : d < m._rows) (k : T)
    (r c : Nat) (hc : c < m._cols) :
    (m.add_row_mult_by_const_to_row s d k).get r c =
      if r = d then m.get d c + m.get s c * k else m.get r c := by
  have h := (add_row_loop m hwf s hd k m._cols (le_refl _)).2 r c hc
  unfold add_row_mult_by_const_to_row
  rw [h]
  by_cases hrd : r = d
  · rw [if_pos ⟨hrd, hc⟩, if_pos hrd]
  · rw [if_neg (fun h => hrd h.1), if_neg hrd]

/-! ### in_place_div_row -/

theorem div_row_same_shape (m : matrix T) (row : Nat) (k : T) :
    same_shape (m.in_place_div_row row k) m ∧
    (m.in_place_div_row row k)._rowSwapsCount = m._rowSwapsCount :=
  for_loop_same_shape _ (fun _ a => ⟨set_same_shape a _ _ _, rfl⟩) m._cols m

theorem div_row_loop (m : matrix T) (hwf : m.well_formed) {d : Nat} (hd : d < m._rows) (k : T)
    (n : Nat) (hn : n ≤ m._cols) :
    same_shape (for_loop (fun i a => a.set d i (a.get d i / k)) n m) m ∧
    ∀ r c, c < m._cols →
      (for_loop (fun i a => a.set d i (a.get d i / k)) n m).get r c =
      if r = d ∧ c < n then m.get d c / k else m.get r c := by
  induction n with
  | zero =>
    refine ⟨same_shape_refl m, ?_⟩
    intro r c _
    simp [for_loop]
  | succ n ih =>
    obtain ⟨hs, hg⟩ := ih (by omega)
    have hs2 := (for_loop_same_shape (fun i a => a.set d i (a.get d i / k))
      (fun _ a => ⟨set_same_shape a _ _ _, rfl⟩) (n + 1) m).1
    refine ⟨hs2, ?_⟩
    intro r c hc
    show ((for_loop (fun i a => a.set d i (a.get d i / k)) n m).set d n _).get r c = _
    have hwf1 := same_shape_wf hs hwf
    rw [get_set _ hwf1 (by rw [hs.1]; exact hd) (by rw [hs.2.1]; omega)
      (by rw [hs.2.1]; exact hc)]
    rw [hg d n (by omega), hg r c hc]
    by_cases hrc : r = d ∧ c = n
    · obtain ⟨rfl, rfl⟩ := hrc
      simp
    · rw [if_neg hrc]
      by_cases hrd : r = d
      · subst hrd
        have hcn : c ≠ n := fun h => hrc ⟨rfl, h⟩
        by_cases hlt : c < n
        · rw [if_pos ⟨rfl, hlt⟩, if_pos ⟨rfl, by omega⟩]
        · rw [if_neg (fun h => hlt h.2), if_neg (fun h => hlt (by omega))]
      · rw [if_neg (fun h => hrd h.1), if_neg (fun h => hrd h.1)]

theorem get_div_row (m : matrix T) (hwf : m.well_formed) {d : Nat} (hd : d < m._rows) (k : T)
    (r c : Nat) (hc : c < m._cols) :
    (m.in_place_div_row d k).get r c = if r = d then m.get d c / k else m.get r c := by
  have h := (div_row_loop m hwf hd k m._cols (le_refl _)).2 r c hc
  unfold in_place_div_row
  rw [h]
  by_cases hrd : r = d
  · rw [if_pos ⟨hrd, hc⟩, if_pos hrd]
  · rw [if_neg (fun h => hrd h.1), if_neg hrd]

end matrix
end vmatrixlib

namespace vmatrixlib
set_option linter.unusedSectionVars false
namespace matrix
variable {T : Type} [Field T] [DecidableEq T] [BEq T] [LawfulBEq T]

/-! ### The elimination loops -/

theorem eliminate_below_shape (res : matrix T) (i j : Nat) (val : T) :
    same_shape (eliminate_below res i j val) res ∧
    (eliminate_below res i j val)._rowSwapsCount = res._rowSwapsCount := by
  apply for_loop_same_shape
  intro d a
  dsimp only
  simp only [beq_iff_eq]
  by_cases h : a.get (i + 1 + d) j = 0
  · rw [if_pos h]
    exact ⟨same_shape_refl a, rfl⟩
  · rw [if_neg h]
    exact ⟨same_shape_trans (set_same_shape _ _ _ _) (add_row_same_shape _ _ _ _).1,
      (add_row_same_shape _ _ _ _).2⟩

theorem eliminate_below_loop (res : matrix T) (hwf : res.well_formed) {i j : Nat}
    (_hi : i < res._rows) (hj : j < res._cols) (val : T) (hval : res.get i j = val)
    (hv0 : val ≠ 0) (n : Nat) (hn : i + 1 + n ≤ res._rows) :
    let body : Nat → matrix T → matrix T := fun d a =>
      if a.get (i + 1 + d) j == 0 then a
      else (a.add_row_mult_by_const_to_row i (i + 1 + d) (-(a.get (i + 1 + d) j) / val)).set
        (i + 1 + d) j 0
    same_shape (for_loop body n res) res ∧
    ∀ r c, c < res._cols → (for_loop body n res).get r c =
      if i < r ∧ r < i + 1 + n then res.get r c + res.get i c * (-(res.get r j) / val)
      else res.get r c := by
  intro body
  induction n with
  | zero =>
    refine ⟨same_shape_refl res, ?_⟩
    intro r c _
    have : ¬ (i < r ∧ r < i + 1 + 0) := by omega
    rw [if_neg this]
    rfl
  | succ n ih =>
    obtain ⟨hs, hg⟩ := ih (by omega)
    have hwf1 := same_shape_wf hs hwf
    have hu : (for_loop body n res).get (i + 1 + n) j = res.get (i + 1 + n) j := by
      have c1 : ¬ (i < i + 1 + n ∧ i + 1 + n < i + 1 + n) := by omega
      rw [hg _ _ hj, if_neg c1]
    have hrow : ∀ c, c < res._cols → (for_loop body n res).get i c = res.get i c := by
      intro c hc
      have c1 : ¬ (i < i ∧ i < i + 1 + n) := by omega
      rw [hg _ _ hc, if_neg c1]
    show same_shape (body n (for_loop body n res)) res ∧
      ∀ r c, c < res._cols → (body n (for_loop body n res)).get r c = _
    by_cases hz : (for_loop body n res).get (i + 1 + n) j = 0
    · have e : body n (for_loop body n res) = for_loop body n res := by
        show (if ((for_loop body n res).get (i + 1 + n) j == 0) = true then _ else _) = _
        rw [if_pos (beq_iff_eq.2 hz)]
      rw [e]
      refine ⟨hs, ?_⟩
      intro r c hc
      rw [hg r c hc]
      by_cases hr : r = i + 1 + n
      · subst hr
        have c1 : ¬ (i < i + 1 + n ∧ i + 1 + n < i + 1 + n) := by omega
        have c2 : i < i + 1 + n ∧ i + 1 + n < i + 1 + (n + 1) := by omega
        rw [if_neg c1, if_pos c2, ← hu, hz]
        simp
      · by_cases h1 : i < r ∧ r < i + 1 + n
        · have c2 : i < r ∧ r < i + 1 + (n + 1) := by omega
          rw [if_pos h1, if_pos c2]
        · have c2 : ¬ (i < r ∧ r < i + 1 + (n + 1)) := by omega
          rw [if_neg h1, if_neg c2]
    · have e : body n (for_loop body n res) =
          ((for_loop body n res).add_row_mult_by_const_to_row i (i + 1 + n)
            (-((for_loop body n res).get (i + 1 + n) j) / val)).set (i + 1 + n) j 0 := by
        show (if ((for_loop body n res).get (i + 1 + n) j == 0) = true then _ else _) = _
        rw [if_neg (fun hh => hz (beq_iff_eq.1 hh))]
      rw [e]
      have hs1 := (add_row_same_shape (for_loop body n res) i (i + 1 + n)
        (-((for_loop body n res).get (i + 1 + n) j) / val)).1
      have hs2 := same_shape_trans hs1 hs
      refine ⟨same_shape_trans (set_same_shape _ _ _ _) hs2, ?_⟩
      intro r c hc
      rw [get_set _ (same_shape_wf hs2 hwf) (by rw [hs2.1]; omega) (by rw [hs2.2.1]; exact hj)
        (by rw [hs2.2.1]; exact hc)]
      rw [get_add_row _ hwf1 (by rw [hs.1]; omega) _ _ _ (by rw [hs.2.1]; exact hc)]
      rw [hu, hrow c hc, hg r c hc, hg (i + 1 + n) c hc]
      have c1 : ¬ (i < i + 1 + n ∧ i + 1 + n < i + 1 + n) := by omega
      rw [if_neg c1]
      by_cases hr : r = i + 1 + n
      · subst hr
        have c2 : i < i + 1 + n ∧ i + 1 + n < i + 1 + (n + 1) := by omega
        rw [if_pos c2]
        by_cases hcj : c = j
        · subst hcj
          have c3 : i + 1 + n = i + 1 + n ∧ c = c := ⟨rfl, rfl⟩
          rw [if_pos c3, hval]
          field_simp
          ring
        · have c3 : ¬ (i + 1 + n = i + 1 + n ∧ c = j) := fun h => hcj h.2
          have c4 : i + 1 + n = i + 1 + n := rfl
          rw [if_neg c3, if_pos c4]
      · have c3 : ¬ (r = i + 1 + n ∧ c = j) := fun h => hr h.1
        rw [if_neg c3, if_neg hr]
        by_cases h1 : i < r ∧ r < i + 1 + n
        · have c2 : i < r ∧ r < i + 1 + (n + 1) := by omega
          rw [if_pos h1, if_pos c2]
        · have c2 : ¬ (i < r ∧ r < i + 1 + (n + 1)) := by omega
          rw [if_neg h1, if_neg c2]

theorem get_eliminate_below (res : matrix T) (hwf : res.well_formed) {i j : Nat}
    (hi : i < res._rows) (hj : j < res._cols) (val : T) (hval : res.get i j = val)
    (hv0 : val ≠ 0) (r c : Nat) (hc : c < res._cols) :
    (eliminate_below res i j val).get r c =
      if i < r ∧ r < res._rows then res.get r c + res.get i c * (-(res.get r j) / val)
      else res.get r c := by
  have h := (eliminate_below_loop res hwf hi hj val hval hv0 (res._rows - (i + 1))
    (by omega)).2 r c hc
  have e : i + 1 + (res._rows - (i + 1)) = res._rows := by omega
  rw [e] at h
  exact h

theorem eliminate_above_shape (t : matrix T) (i j : Nat) :
    same_shape (eliminate_above t i j) t ∧
    (eliminate_above t i j)._rowSwapsCount = t._rowSwapsCount := by
  apply for_down_same_shape
  intro d a
  dsimp only
  simp only [beq_iff_eq]
  by_cases h : a.get d j = 0
  · rw [if_pos h]
    exact ⟨same_shape_refl a, rfl⟩
  · rw [if_neg h]
    exact ⟨same_shape_trans (set_same_shape _ _ _ _) (add_row_same_shape _ _ _ _).1,
      (add_row_same_shape _ _ _ _).2⟩

theorem get_eliminate_above (t : matrix T) (hwf : t.well_formed) {i j : Nat}
    (hi : i < t._rows) (hj : j < t._cols) (hone : t.get i j = 1) (r c : Nat)
    (hc : c < t._cols) :
    (eliminate_above t i j).get r c =
      if r < i then t.get r c + t.get i c * (-(t.get r j)) else t.get r c := by
  have key := for_down_induction
    (fun k a => if a.get k j == 0 then a
      else (a.add_row_mult_by_const_to_row i k (-(a.get k j))).set k j 0)
    (fun k a => same_shape a t ∧ ∀ r c, c < t._cols → a.get r c =
      if k ≤ r ∧ r < i then t.get r c + t.get i c * (-(t.get r j)) else t.get r c)
    i t ?_ ?_
  · have h := key.2 r c hc
    unfold eliminate_above
    rw [h]
    by_cases hr : r < i
    · rw [if_pos ⟨Nat.zero_le _, hr⟩, if_pos hr]
    · rw [if_neg (fun h => hr h.2), if_neg hr]
  · refine ⟨same_shape_refl t, ?_⟩
    intro r c _
    have c1 : ¬ (i ≤ r ∧ r < i) := by omega
    rw [if_neg c1]
  · intro k a hk ⟨hs, hg⟩
    have hwf1 := same_shape_wf hs hwf
    have hu : a.get k j = t.get k j := by
      have c1 : ¬ (k + 1 ≤ k ∧ k < i) := by omega
      rw [hg _ _ hj, if_neg c1]
    have hrow : ∀ c, c < t._cols → a.get i c = t.get i c := by
      intro c hc
      have c1 : ¬ (k + 1 ≤ i ∧ i < i) := by omega
      rw [hg _ _ hc, if_neg c1]
    dsimp only
    simp only [beq_iff_eq]
    by_cases hz : a.get k j = 0
    · rw [if_pos hz]
      refine ⟨hs, ?_⟩
      intro r c hc
      rw [hg r c hc]
      by_cases hr : r = k
      · subst hr
        have c1 : ¬ (r + 1 ≤ r ∧ r < i) := by omega
        have c2 : r ≤ r ∧ r < i := by omega
        rw [if_neg c1, if_pos c2, ← hu, hz]
        simp
      · by_cases h1 : k + 1 ≤ r ∧ r < i
        · have c2 : k ≤ r ∧ r < i := by omega
          rw [if_pos h1, if_pos c2]
        · have c2 : ¬ (k ≤ r ∧ r < i) := by omega
          rw [if_neg h1, if_neg c2]
    · rw [if_neg hz]
      have hs1 := (add_row_same_shape a i k (-(a.get k j))).1
      have hs2 := same_shape_trans hs1 hs
      refine ⟨same_shape_trans (set_same_shape _ _ _ _) hs2, ?_⟩
      intro r c hc
      rw [get_set _ (same_shape_wf hs2 hwf) (by rw [hs2.1]; omega) (by rw [hs2.2.1]; exact hj)
        (by rw [hs2.2.1]; exact hc)]
      rw [get_add_row _ hwf1 (by rw [hs.1]; omega) _ _ _ (by rw [hs.2.1]; exact hc)]
      rw [hu, hrow c hc, hg r c hc, hg k c hc]
      have c1 : ¬ (k + 1 ≤ k ∧ k < i) := by omega
      rw [if_neg c1]
      by_cases hr : r = k
      · subst hr
        have c2 : r ≤ r ∧ r < i := by omega
        rw [if_pos c2]
        by_cases hcj : c = j
        · subst hcj
          have c3 : r = r ∧ c = c := ⟨rfl, rfl⟩
          rw [if_pos c3, hone]
          ring
        · have c3 : ¬ (r = r ∧ c = j) := fun h => hcj h.2
          have c4 : r = r := rfl
          rw [if_neg c3, if_pos c4]
      · have c3 : ¬ (r = k ∧ c = j) := fun h => hr h.1
        rw [if_neg c3, if_neg hr]
        by_cases h1 : k + 1 ≤ r ∧ r < i
        · have c2 : k ≤ r ∧ r < i := by omega
          rw [if_pos h1, if_pos c2]
        · have c2 : ¬ (k ≤ r ∧ r < i) := by omega
          rw [if_neg h1, if_neg c2]

end matrix
end vmatrixlib

namespace vmatrixlib
set_option linter.unusedSectionVars false
namespace matrix
variable {T : Type} [Field T] [DecidableEq T] [BEq T] [LawfulBEq T]

/-! ### Leading entries and the row-echelon predicate -/

theorem lead_le (m : matrix T) (r : Nat) : m.lead r ≤ m._cols :=
  (first_from_spec _ 0 m._cols (Nat.zero_le _)).2.1

theorem lead_zero (m : matrix T) {r c : Nat} (h : c < m.lead r) : m.get r c = 0 := by
  have := (first_from_spec (fun c => decide (m.get r c ≠ 0)) 0 m._cols (Nat.zero_le _)).2.2.1 c
    (Nat.zero_le _) h
  simpa using this

theorem lead_ne (m : matrix T) {r : Nat} (h : m.lead r < m._cols) :
    m.get r (m.lead r) ≠ 0 := by
  have := (first_from_spec (fun c => decide (m.get r c ≠ 0)) 0 m._cols (Nat.zero_le _)).2.2.2 h
  exact of_decide_eq_true this

theorem lead_unique (m : matrix T) {r c : Nat} (hc : c ≤ m._cols)
    (hz : ∀ x, x < c → m.get r x = 0) (hn : c < m._cols → m.get r c ≠ 0) : m.lead r = c := by
  apply first_from_unique _ _ _ _ (Nat.zero_le _) hc
  · intro x _ hx
    simp [hz x hx]
  · intro h
    simpa using hn h

theorem lead_le_of_ne (m : matrix T) {r c : Nat} (_hc : c < m._cols) (hn : m.get r c ≠ 0) :
    m.lead r ≤ c := by
  by_contra h
  exact hn (lead_zero m (by omega))

theorem le_lead_of_zero (m : matrix T) {r c : Nat} (hc : c ≤ m._cols)
    (hz : ∀ x, x < c → m.get r x = 0) : c ≤ m.lead r := by
  by_contra h
  have h1 : m.lead r < m._cols := by omega
  exact lead_ne m h1 (hz _ (by omega))

theorem lead_congr {a m : matrix T} {r r2 : Nat} (hcols : a._cols = m._cols)
    (h : ∀ c, c < m._cols → a.get r c = m.get r2 c) : a.lead r = m.lead r2 := by
  apply lead_unique
  · rw [hcols]; exact lead_le m r2
  · intro x hx
    rw [h x (lt_of_lt_of_le hx (lead_le m r2))]
    exact lead_zero m hx
  · intro hlt
    rw [hcols] at hlt
    rw [h _ hlt]
    exact lead_ne m hlt

theorem echelon_mono {m : matrix T} (he : m.echelon) {r s : Nat} (h : r ≤ s)
    (h2 : s < m._rows) : m.lead r ≤ m.lead s := by
  induction s with
  | zero =>
    have : r = 0 := by omega
    subst this
    exact le_refl _
  | succ k ih =>
    by_cases hk : r = k + 1
    · subst hk; exact le_refl _
    · have h3 := ih (by omega) (by omega)
      rcases he k h2 with h4 | h4
      · rw [h4]; exact lead_le m r
      · omega

theorem href_sound (m : matrix T) : ∀ (budget i j : Nat) (can : Bool),
    i ≤ m._rows → j ≤ m._cols →
    (∀ r c, i ≤ r → r < m._rows → c < j → m.get r c = 0) →
    (∀ r, r + 1 < i → m.lead (r + 1) = m._cols ∨ m.lead r < m.lead (r + 1)) →
    (∀ p, p + 1 = i → (can = true → m.lead p < j) ∧ (can = false → m.lead p = j ∧ j < m._cols)) →
    has_row_echelon_form_loop m budget i j can = true → m.echelon := by
  intro budget
  induction budget with
  | zero =>
    intro i j can _ _ _ _ _ h
    simp [has_row_echelon_form_loop] at h
  | succ b ih =>
    intro i j can hi hj I1 I2 I3 h
    unfold has_row_echelon_form_loop at h
    by_cases hir : i < m._rows
    · rw [if_pos hir] at h
      by_cases hjc : j = m._cols
      · -- the rest of the matrix is zero
        intro r hr
        by_cases hri : r + 1 < i
        · exact I2 r hri
        · left
          apply lead_unique m (le_refl _)
          · intro x hx
            exact I1 (r + 1) x (by omega) hr (by omega)
          · intro hh; exact absurd hh (lt_irrefl _)
      · rw [if_neg hjc] at h
        have hjlt : j < m._cols := by omega
        simp only [beq_iff_eq] at h
        by_cases hz : m.get i j = 0
        · rw [if_pos hz] at h
          by_cases hf : first_from (fun k => m.get k j != 0) i m._rows = m._rows
          · have hf2 : ¬ (first_from (fun k => m.get k j != 0) i m._rows ≠ m._rows) :=
              fun hh => hh hf
            rw [if_neg hf2] at h
            have hcol := (first_from_eq_stop_iff _ i m._rows hi).1 hf
            refine ih i (j + 1) true hi (by omega) ?_ I2 ?_ h
            · intro r c h1 h2 h3
              by_cases hcj : c = j
              · subst hcj
                simpa using hcol r h1 h2
              · exact I1 r c h1 h2 (by omega)
            · intro p hp
              refine ⟨fun _ => ?_, fun hh => by simp at hh⟩
              cases can with
              | true => have := (I3 p hp).1 rfl; omega
              | false => have := ((I3 p hp).2 rfl).1; omega
          · rw [if_pos hf] at h
            simp at h
        · rw [if_neg hz] at h
          cases can with
          | false => simp at h
          | true =>
            simp only [Bool.not_true, Bool.false_eq_true, if_false] at h
            have hlead : m.lead i = j := by
              apply lead_unique m hj
              · intro x hx; exact I1 i x (le_refl _) hir hx
              · intro _; exact hz
            refine ih (i + 1) j false (by omega) hj ?_ ?_ ?_ h
            · intro r c h1 h2 h3
              exact I1 r c (by omega) h2 h3
            · intro r hr
              by_cases hri : r + 1 < i
              · exact I2 r hri
              · have hri2 : r + 1 = i := by omega
                right
                have := (I3 r hri2).1 rfl
                rw [hri2, hlead]
                exact this
            · intro p hp
              have hpi : p = i := by omega
              subst hpi
              exact ⟨fun hh => by simp at hh, fun _ => ⟨hlead, hjlt⟩⟩
    · have hieq : i = m._rows := by omega
      intro r hr
      exact I2 r (by omega)

theorem href_complete (m : matrix T) (he : m.echelon) : ∀ (budget i j : Nat) (can : Bool),
    i ≤ m._rows → j ≤ m._cols →
    (i < m._rows → j ≤ m.lead i ∧ (can = false → j < m.lead i)) →
    1 ≤ budget → (i < m._rows → (m._rows - i) * (m._cols + 1) + 1 ≤ budget + j) →
    has_row_echelon_form_loop m budget i j can = true := by
  intro budget
  induction budget with
  | zero =>
    intro i j can _ _ _ h _
    omega
  | succ b ih =>
    intro i j can hi hj hC hb1 hb
    unfold has_row_echelon_form_loop
    by_cases hir : i < m._rows
    · rw [if_pos hir]
      obtain ⟨hC1, hC2⟩ := hC hir
      have hX : (m._rows - i) * (m._cols + 1) =
          (m._rows - (i + 1)) * (m._cols + 1) + (m._cols + 1) := by
        have : m._rows - i = (m._rows - (i + 1)) + 1 := by omega
        rw [this, Nat.succ_mul]
      have hbud := hb hir
      by_cases hjc : j = m._cols
      · rw [if_pos hjc]
        refine ih (i + 1) 0 can (by omega) (Nat.zero_le _) ?_ (by omega) (fun _ => by omega)
        intro hi1
        refine ⟨Nat.zero_le _, ?_⟩
        intro hcan
        have := hC2 hcan
        have := lead_le m i
        omega
      · rw [if_neg hjc]
        have hjlt : j < m._cols := by omega
        simp only [beq_iff_eq]
        by_cases hz : m.get i j = 0
        · rw [if_pos hz]
          have hjl : j < m.lead i := by
            rcases Nat.lt_or_ge j (m.lead i) with h1 | h1
            · exact h1
            · have h2 : m.lead i = j := by omega
              have := lead_ne m (by rw [h2]; exact hjlt)
              rw [h2] at this
              exact absurd hz this
          have hf : first_from (fun k => m.get k j != 0) i m._rows = m._rows := by
            rw [first_from_eq_stop_iff _ _ _ hi]
            intro x hx1 hx2
            have := echelon_mono he hx1 hx2
            have := lead_zero m (r := x) (c := j) (by omega)
            simp [this]
          have hf2 : ¬ (first_from (fun k => m.get k j != 0) i m._rows ≠ m._rows) :=
            fun hh => hh hf
          rw [if_neg hf2]
          exact ih i (j + 1) true hi (by omega)
            (fun _ => ⟨by omega, fun hh => by simp at hh⟩) (by omega) (fun _ => by omega)
        · rw [if_neg hz]
          have hjl : m.lead i = j := by
            have := lead_le_of_ne m hjlt hz
            omega
          cases can with
          | false =>
            have := hC2 rfl
            omega
          | true =>
            simp only [Bool.not_true, Bool.false_eq_true, if_false]
            refine ih (i + 1) j false (by omega) hj ?_ (by omega) (fun _ => by omega)
            intro hi1
            rcases he i hi1 with h4 | h4
            · rw [h4]; exact ⟨hj, fun _ => hjlt⟩
            · rw [hjl] at h4
              exact ⟨by omega, fun _ => h4⟩
    · rw [if_neg hir]

/-- The test `has_row_echelon_form()` decides the row-echelon predicate `echelon`. -/
theorem has_row_echelon_form_iff (m : matrix T) :
    m.has_row_echelon_form = true ↔ m.echelon := by
  constructor
  · intro h
    refine href_sound m _ 0 0 true (Nat.zero_le _) (Nat.zero_le _) ?_ ?_ ?_ h
    · intro r c _ _ hc; omega
    · intro r hr; omega
    · intro p hp; omega
  · intro he
    refine href_complete m he _ 0 0 true (Nat.zero_le _) (Nat.zero_le _) ?_ (by omega) ?_
    · intro _
      exact ⟨Nat.zero_le _, fun hh => by simp at hh⟩
    · intro _
      simp

/-- Any budget of at least `_rows * (_cols + 1) + 1` steps gives the same answer: the budget
used by `has_row_echelon_form` is never exhausted. -/
theorem has_row_echelon_form_budget (m : matrix T) (budget : Nat)
    (hb : m._rows * (m._cols + 1) + 1 ≤ budget) :
    has_row_echelon_form_loop m budget 0 0 true = m.has_row_echelon_form := by
  have h1 : has_row_echelon_form_loop m budget 0 0 true = true ↔ m.echelon := by
    constructor
    · intro h
      refine href_sound m _ 0 0 true (Nat.zero_le _) (Nat.zero_le _) ?_ ?_ ?_ h
      · intro r c _ _ hc; omega
      · intro r hr; omega
      · intro p hp; omega
    · intro he
      refine href_complete m he _ 0 0 true (Nat.zero_le _) (Nat.zero_le _) ?_ (by omega) ?_
      · intro _
        exact ⟨Nat.zero_le _, fun hh => by simp at hh⟩
      · intro _
        simpa using hb
  have h2 := has_row_echelon_form_iff m
  cases hx : has_row_echelon_form_loop m budget 0 0 true <;>
    cases hy : m.has_row_echelon_form <;> simp_all

end matrix
end vmatrixlib

namespace vmatrixlib
set_option linter.unusedSectionVars false
namespace matrix
variable {T : Type} [Field T] [DecidableEq T] [BEq T] [LawfulBEq T]

/-! ### The cursor loop of `make_triangular` -/

theorem make_triangular_loop_shape : ∀ (budget : Nat) (res : matrix T) (i j : Nat),
    same_shape (make_triangular_loop budget res i j) res := by
  intro budget
  induction budget with
  | zero => intro res i j; exact same_shape_refl res
  | succ b ih =>
    intro res i j
    unfold make_triangular_loop
    by_cases hc : i < res._rows ∧ j < res._cols
    · rw [if_pos hc]
      dsimp only
      by_cases hk : first_from (fun k => res.get k j != 0) i res._rows = res._rows
      · rw [if_pos hk]; exact ih res i (j + 1)
      · rw [if_neg hk]
        refine same_shape_trans (ih _ _ _) (same_shape_trans (eliminate_below_shape _ _ _ _).1 ?_)
        by_cases hki : first_from (fun k => res.get k j != 0) i res._rows ≠ i
        · rw [if_pos hki]; exact swap_rows_same_shape _ _ _
        · rw [if_neg hki]; exact same_shape_refl res
    · rw [if_neg hc]; exact same_shape_refl res

/-- The row picked by the pivot search of `make_triangular`, after the optional swap. -/
theorem pivot_swap_facts (res : matrix T) (hwf : res.well_formed) {i k : Nat}
    (hi : i < res._rows) (hk : k < res._rows) :
    same_shape (if k ≠ i then res.swap_rows k i else res) res ∧
    (if k ≠ i then res.swap_rows k i else res)._rowSwapsCount =
      res._rowSwapsCount + (if k ≠ i then 1 else 0) ∧
    ∀ r c, c < res._cols → (if k ≠ i then res.swap_rows k i else res).get r c =
      res.get (if r = i then k else if r = k then i else r) c := by
  by_cases hki : k ≠ i
  · simp only [if_pos hki]
    refine ⟨swap_rows_same_shape _ _ _, swap_rows_count _ _ _, ?_⟩
    intro r c hc
    rw [get_swap_rows res hwf hk hi r c hc]
    by_cases h1 : r = k
    · subst h1
      rw [if_pos rfl, if_neg hki, if_pos rfl]
    · rw [if_neg h1, if_neg h1]
  · simp only [if_neg hki]
    have hki2 : k = i := by simpa using hki
    subst hki2
    refine ⟨same_shape_refl _, rfl, ?_⟩
    intro r c _
    by_cases h1 : r = k
    · rw [if_pos h1, h1]
    · rw [if_neg h1, if_neg h1]

theorem make_triangular_loop_induction (P : matrix T → Nat → Nat → Prop)
    (hskip : ∀ (res : matrix T) (i j : Nat), res.well_formed → i < res._rows → j < res._cols →
      P res i j → (∀ x, i ≤ x → x < res._rows → res.get x j = 0) → P res i (j + 1))
    (hpivot : ∀ (res : matrix T) (i j k : Nat), res.well_formed → i < res._rows →
      j < res._cols → P res i j → i ≤ k → k < res._rows → res.get k j ≠ 0 →
      (∀ x, i ≤ x → x < k → res.get x j = 0) →
      P (eliminate_below (if k ≠ i then res.swap_rows k i else res) i j
        ((if k ≠ i then res.swap_rows k i else res).get i j)) (i + 1) (j + 1)) :
    ∀ (budget : Nat) (res : matrix T) (i j : Nat), res.well_formed → P res i j →
      res._cols ≤ j + budget →
      ∃ i2 j2, P (make_triangular_loop budget res i j) i2 j2 ∧
        ¬ (i2 < (make_triangular_loop budget res i j)._rows ∧
           j2 < (make_triangular_loop budget res i j)._cols) := by
  intro budget
  induction budget with
  | zero =>
    intro res i j _ hP hb
    refine ⟨i, j, hP, ?_⟩
    show ¬ (i < res._rows ∧ j < res._cols)
    omega
  | succ b ih =>
    intro res i j hwf hP hb
    unfold make_triangular_loop
    by_cases hc : i < res._rows ∧ j < res._cols
    · rw [if_pos hc]
      dsimp only
      obtain ⟨a1, a2, a3, a4⟩ := first_from_spec (fun k => res.get k j != 0) i res._rows
        (le_of_lt hc.1)
      by_cases hk : first_from (fun k => res.get k j != 0) i res._rows = res._rows
      · rw [if_pos hk]
        refine ih res i (j + 1) hwf ?_ (by omega)
        apply hskip res i j hwf hc.1 hc.2 hP
        intro x hx1 hx2
        have := a3 x hx1 (by omega)
        simpa using this
      · rw [if_neg hk]
        have hklt : first_from (fun k => res.get k j != 0) i res._rows < res._rows := by omega
        have hne : res.get (first_from (fun k => res.get k j != 0) i res._rows) j ≠ 0 := by
          simpa using a4 hklt
        have hz : ∀ x, i ≤ x → x < first_from (fun k => res.get k j != 0) i res._rows →
            res.get x j = 0 := by
          intro x hx1 hx2
          simpa using a3 x hx1 hx2
        have hP2 := hpivot res i j _ hwf hc.1 hc.2 hP a1 hklt hne hz
        have hs1 := (pivot_swap_facts res hwf hc.1 hklt).1
        have hs2 := same_shape_trans (eliminate_below_shape
          (if first_from (fun k => res.get k j != 0) i res._rows ≠ i then
            res.swap_rows (first_from (fun k => res.get k j != 0) i res._rows) i else res) i j
          ((if first_from (fun k => res.get k j != 0) i res._rows ≠ i then
            res.swap_rows (first_from (fun k => res.get k j != 0) i res._rows) i else res).get
              i j)).1 hs1
        exact ih _ (i + 1) (j + 1) (same_shape_wf hs2 hwf) hP2 (by rw [hs2.2.1]; omega)
    · rw [if_neg hc]
      exact ⟨i, j, hP, hc⟩

/-- The invariant of the cursor loop that yields the row-echelon shape: below-left of the
cursor everything is zero, and the rows above the cursor have strictly increasing leading
columns, all left of the cursor. -/
theorem make_triangular_loop_echelon (budget : Nat) (m : matrix T) (hwf : m.well_formed)
    (hb : m._cols ≤ budget) : (make_triangular_loop budget m 0 0).echelon := by
  have key := make_triangular_loop_induction
    (fun (res : matrix T) i j => i ≤ res._rows ∧ j ≤ res._cols ∧
      (∀ r c, i ≤ r → r < res._rows → c < j → res.get r c = 0) ∧
      (∀ r, r < i → res.lead r < j) ∧
      (∀ r, r + 1 < i → res.lead r < res.lead (r + 1)))
    ?_ ?_ budget m 0 0 hwf ?_ (by omega)
  · obtain ⟨i2, j2, ⟨h1, h2, h3, h4, h5⟩, hstop⟩ := key
    intro r hr
    by_cases hri : r + 1 < i2
    · right; exact h5 r hri
    · left
      have hj2 : j2 = (make_triangular_loop budget m 0 0)._cols := by omega
      apply lead_unique _ (le_refl _)
      · intro x hx
        exact h3 (r + 1) x (by omega) hr (by omega)
      · intro hh; exact absurd hh (lt_irrefl _)
  · -- no pivot in this column
    intro res i j _ hi hj ⟨h1, h2, h3, h4, h5⟩ hz
    refine ⟨h1, by omega, ?_, ?_, h5⟩
    · intro r c hr1 hr2 hc
      by_cases hcj : c = j
      · subst hcj; exact hz r hr1 hr2
      · exact h3 r c hr1 hr2 (by omega)
    · intro r hr
      have := h4 r hr
      omega
  · -- a pivot was found in row k
    intro res i j k hwf hi hj ⟨h1, h2, h3, h4, h5⟩ hik hk hne hz
    obtain ⟨s1, _, s3⟩ := pivot_swap_facts res hwf hi hk
    generalize (if k ≠ i then res.swap_rows k i else res) = res1 at s1 s3 ⊢
    have hwf1 := same_shape_wf s1 hwf
    have hval : res1.get i j ≠ 0 := by
      rw [s3 i j hj, if_pos rfl]; exact hne
    have hs2 := (eliminate_below_shape res1 i j (res1.get i j)).1
    have hg := get_eliminate_below res1 hwf1 (by rw [s1.1]; exact hi) (by rw [s1.2.1]; exact hj)
      (res1.get i j) rfl hval
    have hsh := same_shape_trans hs2 s1
    -- entries of res1 below-left of the cursor are zero
    have hz1 : ∀ r c, i ≤ r → r < res._rows → c < j → res1.get r c = 0 := by
      intro r c hr1 hr2 hc
      rw [s3 r c (by omega)]
      by_cases e1 : r = i
      · rw [if_pos e1]; exact h3 k c hik hk hc
      · rw [if_neg e1]
        by_cases e2 : r = k
        · rw [if_pos e2]; exact h3 i c (le_refl _) hi hc
        · rw [if_neg e2]; exact h3 r c hr1 hr2 hc
    -- rows above the cursor are untouched
    have hup : ∀ r c, r < i → c < res._cols →
        (eliminate_below res1 i j (res1.get i j)).get r c = res.get r c := by
      intro r c hr hc
      have c1 : ¬ (i < r ∧ r < res1._rows) := by omega
      rw [hg r c (by rw [s1.2.1]; exact hc), if_neg c1, s3 r c hc]
      have e1 : r ≠ i := by omega
      have e2 : r ≠ k := by omega
      rw [if_neg e1, if_neg e2]
    have hrowi : ∀ c, c < res._cols →
        (eliminate_below res1 i j (res1.get i j)).get i c = res1.get i c := by
      intro c hc
      have c1 : ¬ (i < i ∧ i < res1._rows) := by omega
      rw [hg i c (by rw [s1.2.1]; exact hc), if_neg c1]
    have hleadup : ∀ r, r < i →
        (eliminate_below res1 i j (res1.get i j)).lead r = res.lead r := by
      intro r hr
      exact lead_congr hsh.2.1 (fun c hc => hup r c hr hc)
    have hleadi : (eliminate_below res1 i j (res1.get i j)).lead i = j := by
      apply lead_unique
      · rw [hsh.2.1]; omega
      · intro x hx
        rw [hrowi x (by omega)]
        exact hz1 i x (le_refl _) hi hx
      · intro _
        rw [hrowi j hj]; exact hval
    refine ⟨by rw [hsh.1]; omega, by rw [hsh.2.1]; omega, ?_, ?_, ?_⟩
    · intro r c hr1 hr2 hc
      rw [hsh.1] at hr2
      have c1 : i < r ∧ r < res1._rows := ⟨by omega, by rw [s1.1]; exact hr2⟩
      rw [hg r c (by rw [s1.2.1]; omega), if_pos c1]
      by_cases hcj : c = j
      · subst hcj
        field_simp
        ring
      · rw [hz1 r c (by omega) hr2 (by omega), hz1 i c (le_refl _) hi (by omega)]
        ring
    · intro r hr
      by_cases hri : r = i
      · subst hri; rw [hleadi]; omega
      · rw [hleadup r (by omega)]
        have := h4 r (by omega)
        omega
    · intro r hr
      by_cases hri : r + 1 = i
      · subst hri
        rw [hleadi, hleadup r (by omega)]
        exact h4 r (by omega)
      · rw [hleadup r (by omega), hleadup (r + 1) (by omega)]
        exact h5 r (by omega)
  · exact ⟨Nat.zero_le _, Nat.zero_le _, fun r c _ _ hc => by omega, fun r hr => by omega,
      fun r hr => by omega⟩

/-- On a well-formed matrix the defensive check of `make_triangular` passes and the method
returns a matrix. -/
theorem make_triangular_ok (m : matrix T) (hwf : m.well_formed) :
    ∃ t, m.make_triangular = .ok t ∧ same_shape t m ∧
      (m._rows ≠ 1 → m._cols ≠ 1 → t.echelon) := by
  unfold make_triangular
  by_cases h : m.rows = 1 ∨ m.cols = 1 ∨ m.has_row_echelon_form = true
  · rw [if_pos h]
    refine ⟨m, rfl, same_shape_refl m, ?_⟩
    intro h1 h2
    rcases h with h | h | h
    · exact absurd h h1
    · exact absurd h h2
    · exact (has_row_echelon_form_iff m).1 h
  · rw [if_neg h]
    have he := make_triangular_loop_echelon m._cols m hwf (le_refl _)
    have hh := (has_row_echelon_form_iff _).2 he
    dsimp only
    rw [hh]
    exact ⟨_, rfl, make_triangular_loop_shape _ _ _ _, fun _ _ => he⟩

end matrix
end vmatrixlib

namespace vmatrixlib
set_option linter.unusedSectionVars false
namespace matrix
variable {T : Type} [Field T] [DecidableEq T] [BEq T] [LawfulBEq T]

/-- One more step of budget changes nothing once the budget covers the columns that are
left: the budget `_cols` handed over by `make_triangular` is never exhausted. -/
theorem make_triangular_loop_budget : ∀ (b : Nat) (res : matrix T) (i j : Nat),
    res._cols ≤ j + b →
    make_triangular_loop (b + 1) res i j = make_triangular_loop b res i j := by
  intro b
  induction b with
  | zero =>
    intro res i j h
    have c1 : ¬ (i < res._rows ∧ j < res._cols) := by omega
    show (if i < res._rows ∧ j < res._cols then _ else res) = res
    rw [if_neg c1]
  | succ b ih =>
    intro res i j h
    rw [make_triangular_loop]
    conv_rhs => rw [make_triangular_loop]
    by_cases hc : i < res._rows ∧ j < res._cols
    · rw [if_pos hc, if_pos hc]
      dsimp only
      by_cases hk : first_from (fun k => res.get k j != 0) i res._rows = res._rows
      · rw [if_pos hk, if_pos hk]
        exact ih res i (j + 1) (by omega)
      · rw [if_neg hk, if_neg hk]
        apply ih
        have h1 := (eliminate_below_shape
          (if first_from (fun k => res.get k j != 0) i res._rows ≠ i then
            res.swap_rows (first_from (fun k => res.get k j != 0) i res._rows) i else res) i j
          ((if first_from (fun k => res.get k j != 0) i res._rows ≠ i then
            res.swap_rows (first_from (fun k => res.get k j != 0) i res._rows) i else res).get
              i j)).1.2.1
        have h2 : (if first_from (fun k => res.get k j != 0) i res._rows ≠ i then
            res.swap_rows (first_from (fun k => res.get k j != 0) i res._rows) i
            else res)._cols = res._cols := by
          split_ifs
          · exact (swap_rows_same_shape _ _ _).2.1
          · rfl
        rw [h1, h2]
        omega
    · rw [if_neg hc, if_neg hc]

end matrix
end vmatrixlib

namespace vmatrixlib
set_option linter.unusedSectionVars false
namespace matrix
variable {T : Type} [Field T]

/-! ### Determinants -/

theorem signed_by_swaps_eq (c : Nat) (d : T) : signed_by_swaps c d = (-1) ^ c * d := by
  unfold signed_by_swaps
  by_cases h : c % 2 = 0
  · have h1 : c = 0 ∨ c % 2 = 0 := Or.inr h
    rw [if_pos h1, Even.neg_one_pow (Nat.even_iff.2 h), one_mul]
  · have h1 : ¬ (c = 0 ∨ c % 2 = 0) := by omega
    have h2 : Odd c := Nat.odd_iff.2 (by omega)
    rw [if_neg h1, Odd.neg_one_pow h2]
    ring

theorem diagonal_product_loop (m : matrix T) (n : Nat) :
    for_loop (fun i res => res * m.get i i) n (1 : T) = ∏ i ∈ Finset.range n, m.get i i := by
  induction n with
  | zero => simp [for_loop]
  | succ n ih =>
    rw [Finset.prod_range_succ, ← ih]
    rfl

theorem diagonal_product_eq (n : Nat) (m : matrix T) (hr : m._rows = n) (hc : m._cols = n) :
    m.diagonal_product = .ok (∏ i : Fin n, mat_of n m i i) := by
  unfold diagonal_product
  have hsq : m.is_square = true := by simp [is_square, hr, hc]
  rw [hsq]
  simp only [Bool.not_true, Bool.false_eq_true, if_false]
  rw [diagonal_product_loop, hr]
  have := Fin.prod_univ_eq_prod_range (fun i => m.get i i) n
  rw [← this]
  rfl

variable [DecidableEq T] [BEq T] [LawfulBEq T]

theorem is_upper_triangular_iff (m : matrix T) :
    m.is_upper_triangular = true ↔
      m._rows = m._cols ∧ ∀ i j, i < m._rows → j < m._cols → j < i → m.get i j = 0 := by
  unfold is_upper_triangular
  by_cases hsq : m._rows = m._cols
  · have : m.is_square = true := by simp [is_square, hsq]
    rw [this]
    simp only [Bool.not_true, Bool.false_eq_true, if_false, all_below_iff]
    constructor
    · intro h
      refine ⟨hsq, ?_⟩
      intro i j hi hj hji
      have := h i hi j hj
      simpa [hji] using this
    · rintro ⟨_, h⟩ i hi j hj
      by_cases hji : j < i
      · simp [h i j hi hj hji]
      · simp [hji]
  · have : m.is_square = false := by simp [is_square, hsq]
    rw [this]
    simp [hsq]

theorem is_lower_triangular_iff (m : matrix T) :
    m.is_lower_triangular = true ↔
      m._rows = m._cols ∧ ∀ i j, i < m._rows → j < m._cols → i < j → m.get i j = 0 := by
  unfold is_lower_triangular
  by_cases hsq : m._rows = m._cols
  · have : m.is_square = true := by simp [is_square, hsq]
    rw [this]
    simp only [Bool.not_true, Bool.false_eq_true, if_false, all_below_iff]
    constructor
    · intro h
      refine ⟨hsq, ?_⟩
      intro i j hi hj hji
      have := h i hi j hj
      simpa [hji] using this
    · rintro ⟨_, h⟩ i hi j hj
      by_cases hji : i < j
      · simp [h i j hi hj hji]
      · simp [hji]
  · have : m.is_square = false := by simp [is_square, hsq]
    rw [this]
    simp [hsq]

theorem det_of_upper (n : Nat) (m : matrix T)
    (h : ∀ i j, i < n → j < n → j < i → m.get i j = 0) :
    (mat_of n m).det = ∏ i : Fin n, mat_of n m i i := by
  apply Matrix.det_of_upperTriangular
  intro i j hij
  exact h i j i.2 j.2 hij

theorem det_of_lower (n : Nat) (m : matrix T)
    (h : ∀ i j, i < n → j < n → i < j → m.get i j = 0) :
    (mat_of n m).det = ∏ i : Fin n, mat_of n m i i := by
  apply Matrix.det_of_lowerTriangular
  intro i j hij
  exact h i j i.2 j.2 hij

theorem echelon_le_lead {m : matrix T} (he : m.echelon) :
    ∀ r, r < m._rows → r ≤ m._cols → r ≤ m.lead r := by
  intro r
  induction r with
  | zero => intro _ _; exact Nat.zero_le _
  | succ k ih =>
    intro h1 h2
    have := ih (by omega) (by omega)
    rcases he k h1 with h3 | h3
    · omega
    · omega

theorem echelon_upper {m : matrix T} (he : m.echelon) (i j : Nat) (hi : i < m._rows)
    (hj : j < m._cols) (hji : j < i) : m.get i j = 0 := by
  apply lead_zero
  by_cases h : i ≤ m._cols
  · have := echelon_le_lead he i hi h
    omega
  · -- more rows than columns: row `i` is past the last possible pivot
    have h1 := echelon_le_lead he m._cols (by omega) (le_refl _)
    have h2 := echelon_mono he (r := m._cols) (s := i) (by omega) hi
    omega

theorem det_pivot_swap (n : Nat) (res res1 : matrix T) {i k : Nat} (hi : i < n) (hk : k < n)
    (hg : ∀ r c, c < n → res1.get r c = res.get (if r = i then k else if r = k then i else r) c) :
    (mat_of n res1).det = (if k ≠ i then -1 else 1) * (mat_of n res).det := by
  have e : mat_of n res1 = (mat_of n res).submatrix (Equiv.swap (⟨i, hi⟩ : Fin n) ⟨k, hk⟩) id := by
    ext a b
    simp only [mat_of, Matrix.submatrix_apply, id]
    rw [hg a b b.2, Equiv.swap_apply_def]
    by_cases h1 : (a : Nat) = i
    · have : a = ⟨i, hi⟩ := Fin.ext h1
      rw [if_pos h1, if_pos this]
    · have h1f : a ≠ ⟨i, hi⟩ := fun h => h1 (congrArg Fin.val h)
      rw [if_neg h1, if_neg h1f]
      by_cases h2 : (a : Nat) = k
      · have : a = ⟨k, hk⟩ := Fin.ext h2
        rw [if_pos h2, if_pos this]
      · have h2f : a ≠ ⟨k, hk⟩ := fun h => h2 (congrArg Fin.val h)
        rw [if_neg h2, if_neg h2f]
  rw [e, Matrix.det_permute]
  by_cases hki : k ≠ i
  · have : (⟨i, hi⟩ : Fin n) ≠ ⟨k, hk⟩ := fun h => hki (congrArg Fin.val h).symm
    rw [Equiv.Perm.sign_swap this, if_pos hki]
    simp
  · have hki2 : k = i := by simpa using hki
    subst hki2
    rw [if_neg hki]
    simp

theorem det_eliminate_below (n : Nat) (res1 : matrix T) (hwf : res1.well_formed)
    (hr : res1._rows = n) (hc : res1._cols = n) {i j : Nat} (hi : i < n) (hj : j < n)
    (hval : res1.get i j ≠ 0) :
    (mat_of n (eliminate_below res1 i j (res1.get i j))).det = (mat_of n res1).det := by
  apply Matrix.det_eq_of_forall_row_eq_smul_add_const
    (fun r : Fin n => if i < (r : Nat) then -(res1.get r j) / res1.get i j else 0) ⟨i, hi⟩
  · simp
  · intro a b
    simp only [mat_of]
    rw [get_eliminate_below res1 hwf (by omega) (by omega) _ rfl hval a b (by rw [hc]; exact b.2)]
    by_cases h1 : i < (a : Nat)
    · have c1 : i < (a : Nat) ∧ (a : Nat) < res1._rows := ⟨h1, by rw [hr]; exact a.2⟩
      rw [if_pos c1, if_pos h1]
      ring
    · have c1 : ¬ (i < (a : Nat) ∧ (a : Nat) < res1._rows) := fun h => h1 h.1
      rw [if_neg c1, if_neg h1]
      ring

/-- The cursor loop of `make_triangular` keeps `det * (-1) ^ _rowSwapsCount` unchanged. -/
theorem make_triangular_loop_det (n : Nat) (budget : Nat) (m : matrix T) (hwf : m.well_formed)
    (hr : m._rows = n) (hc : m._cols = n) (hb : m._cols ≤ budget) :
    (mat_of n (make_triangular_loop budget m 0 0)).det *
        (-1) ^ (make_triangular_loop budget m 0 0)._rowSwapsCount =
      (mat_of n m).det * (-1) ^ m._rowSwapsCount := by
  have key := make_triangular_loop_induction
    (fun (res : matrix T) _ _ => res._rows = n ∧ res._cols = n ∧
      (mat_of n res).det * (-1) ^ res._rowSwapsCount = (mat_of n m).det * (-1) ^ m._rowSwapsCount)
    ?_ ?_ budget m 0 0 hwf ⟨hr, hc, rfl⟩ (by omega)
  · obtain ⟨_, _, ⟨_, _, h⟩, _⟩ := key
    exact h
  · intro res i j _ _ _ h _
    exact h
  · intro res i j k hwf1 hi hj ⟨h1, h2, h3⟩ hik hk hne hz
    obtain ⟨s1, s2, s3⟩ := pivot_swap_facts res hwf1 hi hk
    have hd := det_pivot_swap n res (if k ≠ i then res.swap_rows k i else res)
      (i := i) (k := k) (by omega) (by omega) (fun r c hc => s3 r c (by omega))
    generalize (if k ≠ i then res.swap_rows k i else res) = res1 at s1 s2 s3 hd ⊢
    have hwf2 := same_shape_wf s1 hwf1
    have hval : res1.get i j ≠ 0 := by
      rw [s3 i j hj, if_pos rfl]; exact hne
    have hs2 := eliminate_below_shape res1 i j (res1.get i j)
    refine ⟨by rw [hs2.1.1, s1.1]; exact h1, by rw [hs2.1.2.1, s1.2.1]; exact h2, ?_⟩
    rw [det_eliminate_below n res1 hwf2 (by rw [s1.1]; exact h1) (by rw [s1.2.1]; exact h2)
      (by omega) (by omega) hval, hs2.2, s2, hd, ← h3]
    by_cases hki : k ≠ i
    · rw [if_pos hki, if_pos hki, pow_succ]
      ring
    · rw [if_neg hki, if_neg hki]
      ring

/-- The matrix returned by `make_triangular` on a square matrix: same shape, row-echelon
(unless the size is one), and `det * (-1) ^ _rowSwapsCount` as for the receiver. -/
theorem make_triangular_square (n : Nat) (m : matrix T) (hwf : m.well_formed)
    (hr : m._rows = n) (hc : m._cols = n) :
    ∃ t, m.make_triangular = .ok t ∧ same_shape t m ∧ (n ≠ 1 → t.echelon) ∧
      (mat_of n t).det * (-1) ^ t._rowSwapsCount = (mat_of n m).det * (-1) ^ m._rowSwapsCount := by
  unfold make_triangular
  by_cases h : m.rows = 1 ∨ m.cols = 1 ∨ m.has_row_echelon_form = true
  · rw [if_pos h]
    refine ⟨m, rfl, same_shape_refl m, ?_, rfl⟩
    intro h1
    rcases h with h | h | h
    · exact absurd (hr.symm.trans h) h1
    · exact absurd (hc.symm.trans h) h1
    · exact (has_row_echelon_form_iff m).1 h
  · rw [if_neg h]
    have he := make_triangular_loop_echelon m._cols m hwf (le_refl _)
    have hh := (has_row_echelon_form_iff _).2 he
    dsimp only
    rw [hh]
    exact ⟨_, rfl, make_triangular_loop_shape _ _ _ _, fun _ => he,
      make_triangular_loop_det n m._cols m hwf hr hc (le_refl _)⟩

/-- What `determinant()` returns on a well-formed square matrix: the determinant of the
entries for sizes one and two, and that determinant times `(-1) ^ _rowSwapsCount` for every
other size. -/
theorem determinant_eq (n : Nat) (m : matrix T) (hwf : m.well_formed) (hr : m._rows = n)
    (hc : m._cols = n) :
    m.determinant = .ok (if n = 1 ∨ n = 2 then (mat_of n m).det
      else (-1) ^ m._rowSwapsCount * (mat_of n m).det) := by
  unfold determinant
  have hsq : m.is_square = true := by simp [is_square, hr, hc]
  rw [hsq]
  simp only [Bool.not_true, Bool.false_eq_true, if_false]
  by_cases h1 : n = 1
  · subst h1
    rw [if_pos hr, if_pos (Or.inl rfl), Matrix.det_fin_one]
    rfl
  · have h1r : ¬ m._rows = 1 := by omega
    rw [if_neg h1r]
    by_cases h2 : n = 2
    · subst h2
      rw [if_pos hr, if_pos (Or.inr rfl), Matrix.det_fin_two]
      rfl
    · have h2r : ¬ m._rows = 2 := by omega
      have h12 : ¬ (n = 1 ∨ n = 2) := by omega
      rw [if_neg h2r, if_neg h12]
      by_cases htri : m.is_triangular = true
      · rw [if_pos htri, diagonal_product_eq n m hr hc]
        dsimp only
        rw [signed_by_swaps_eq]
        congr 2
        unfold is_triangular at htri
        rw [Bool.or_eq_true] at htri
        rcases htri with hl | hu
        · rw [is_lower_triangular_iff] at hl
          exact (det_of_lower n m (fun i j hi hj => hl.2 i j (by omega) (by omega))).symm
        · rw [is_upper_triangular_iff] at hu
          exact (det_of_upper n m (fun i j hi hj => hu.2 i j (by omega) (by omega))).symm
      · rw [if_neg htri]
        obtain ⟨t, ht, hs, he, hd⟩ := make_triangular_square n m hwf hr hc
        rw [ht]
        dsimp only
        rw [diagonal_product_eq n t (by rw [hs.1]; exact hr) (by rw [hs.2.1]; exact hc)]
        dsimp only
        rw [signed_by_swaps_eq]
        congr 1
        have hup := det_of_upper n t (fun i j hi hj hji =>
          echelon_upper (he h1) i j (by rw [hs.1, hr]; exact hi) (by rw [hs.2.1, hc]; exact hj) hji)
        rw [← hup, mul_comm, hd, mul_comm]

/-- With no recorded row swap `determinant()` is the determinant of the entries. -/
theorem determinant_fresh (n : Nat) (m : matrix T) (hwf : m.well_formed) (hr : m._rows = n)
    (hc : m._cols = n) (hs : m._rowSwapsCount = 0) :
    m.determinant = .ok (mat_of n m).det := by
  rw [determinant_eq n m hwf hr hc, hs]
  by_cases h : n = 1 ∨ n = 2
  · rw [if_pos h]
  · rw [if_neg h, pow_zero, one_mul]

theorem leibniz_det_eq (n : Nat) (m : matrix T) : leibniz_det n m = (mat_of n m).det := by
  rw [Matrix.det_apply']
  rfl

end matrix
end vmatrixlib

namespace vmatrixlib
set_option linter.unusedSectionVars false
namespace matrix
variable {T : Type} [Field T]

/-! ### Construction, extensionality, product -/

theorem clear_loop (n : Nat) (d : List T) :
    (for_loop (fun i (d : List T) => d.set i 0) n d).length = d.length ∧
    ∀ i, (for_loop (fun i (d : List T) => d.set i 0) n d).getD i 0 =
      if i < n then 0 else d.getD i 0 := by
  induction n with
  | zero =>
    refine ⟨rfl, ?_⟩
    intro i
    simp [for_loop]
  | succ n ih =>
    obtain ⟨h1, h2⟩ := ih
    constructor
    · show ((for_loop (fun i (d : List T) => d.set i 0) n d).set n 0).length = _
      rw [List.length_set, h1]
    · intro i
      show ((for_loop (fun i (d : List T) => d.set i 0) n d).set n 0).getD i 0 = _
      have h3 := h2 i
      rw [List.getD_eq_getElem?_getD] at h3 ⊢
      rw [List.getElem?_set]
      by_cases hin : n = i
      · subst hin
        have c1 : n < n + 1 := by omega
        rw [if_pos rfl, if_pos c1]
        by_cases hl : n < (for_loop (fun i (d : List T) => d.set i 0) n d).length
        · rw [if_pos hl]; rfl
        · rw [if_neg hl]; rfl
      · rw [if_neg hin, h3]
        by_cases hlt : i < n
        · have c1 : i < n + 1 := by omega
          rw [if_pos hlt, if_pos c1]
        · have c1 : ¬ i < n + 1 := by omega
          rw [if_neg hlt, if_neg c1]

theorem clear_shape (m : matrix T) : same_shape m.clear m ∧ m.clear._rowSwapsCount = 0 :=
  ⟨⟨rfl, rfl, (clear_loop _ _).1⟩, rfl⟩

theorem get_clear (m : matrix T) {r c : Nat} (hr : r < m._rows)
    (hc : c < m._cols) : m.clear.get r c = 0 := by
  show (for_loop (fun i (d : List T) => d.set i 0) (m._rows * m._cols) m._data).getD
    (r * m._cols + c) 0 = 0
  rw [(clear_loop _ _).2, if_pos (index_lt hr hc)]

theorem construct_shape (r c : Nat) :
    (construct r c : matrix T)._rows = r ∧ (construct r c : matrix T)._cols = c ∧
    (construct r c : matrix T)._rowSwapsCount = 0 ∧ (construct r c : matrix T).well_formed := by
  refine ⟨rfl, rfl, rfl, ?_⟩
  show (for_loop (fun i (d : List T) => d.set i 0) (r * c) (List.replicate (r * c) 0)).length = r * c
  rw [(clear_loop _ _).1, List.length_replicate]

theorem get_construct (r c i j : Nat) : (construct r c : matrix T).get i j = 0 := by
  show (for_loop (fun i (d : List T) => d.set i 0) (r * c) (List.replicate (r * c) 0)).getD
    (i * c + j) 0 = 0
  rw [(clear_loop _ _).2]
  by_cases h : i * c + j < r * c
  · rw [if_pos h]
  · rw [if_neg h, List.getD_eq_getElem?_getD, List.getElem?_replicate, if_neg h]
    rfl

/-- Two well-formed matrices with the same dimensions, counter and entries are equal. -/
theorem ext_of_get {a b : matrix T} (ha : a.well_formed) (hb : b.well_formed)
    (hr : a._rows = b._rows) (hc : a._cols = b._cols)
    (hs : a._rowSwapsCount = b._rowSwapsCount)
    (hg : ∀ r c, r < a._rows → c < a._cols → a.get r c = b.get r c) : a = b := by
  have hd : a._data = b._data := by
    apply List.ext_getElem
    · rw [ha, hb, hr, hc]
    · intro i h1 h2
      have hi : i < a._rows * a._cols := by rw [← ha]; exact h1
      have hcpos : 0 < a._cols := by
        rcases Nat.eq_zero_or_pos a._cols with h | h
        · rw [h] at hi; simp at hi
        · exact h
      have hrow : i / a._cols < a._rows := by
        rw [Nat.div_lt_iff_lt_mul hcpos]; exact hi
      have hcol : i % a._cols < a._cols := Nat.mod_lt _ hcpos
      have hidx : i / a._cols * a._cols + i % a._cols = i := Nat.div_add_mod' i a._cols
      have key := hg _ _ hrow hcol
      unfold get at key
      rw [← hc, hidx, List.getD_eq_getElem?_getD, List.getD_eq_getElem?_getD,
        List.getElem?_eq_getElem h1, List.getElem?_eq_getElem h2] at key
      simpa using key
  cases a; cases b
  simp only [mk.injEq]
  exact ⟨hr, hc, hs, hd⟩

section reflexive
variable [BEq T]

/-- The comparison `operator==` accepts two matrices of the same dimensions with equal
entries as soon as the element comparison accepts every value against itself. -/
theorem eq_of_get (hrefl : ∀ x : T, (x == x) = true) (a m : matrix T)
    (hr : a._rows = m._rows) (hc : a._cols = m._cols)
    (h : ∀ r c, r < a._rows → c < a._cols → a.get r c = m.get r c) : a.eq m = true := by
  unfold eq rows cols size
  have hd : ¬ (a._rows ≠ m._rows ∨ a._cols ≠ m._cols) := by
    rintro (h1 | h1)
    · exact h1 hr
    · exact h1 hc
  rw [if_neg hd, all_below_iff]
  intro i hi
  have hcpos : 0 < a._cols := by
    rcases Nat.eq_zero_or_pos a._cols with h | h
    · rw [h] at hi; simp at hi
    · exact h
  have hrow : i / a._cols < a._rows := by
    rw [Nat.div_lt_iff_lt_mul hcpos]; exact hi
  have hcol : i % a._cols < a._cols := Nat.mod_lt _ hcpos
  have hidx : i / a._cols * a._cols + i % a._cols = i := Nat.div_add_mod' i a._cols
  have key := h _ _ hrow hcol
  unfold get at key
  rw [← hc, hidx] at key
  show (a._data.getD i 0 == m._data.getD i 0) = true
  rw [key]
  exact hrefl _

end reflexive

section comparison
variable [BEq T] [LawfulBEq T]

theorem eq_iff (a m : matrix T) :
    a.eq m = true ↔ a._rows = m._rows ∧ a._cols = m._cols ∧
      ∀ r c, r < a._rows → c < a._cols → a.get r c = m.get r c := by
  unfold eq rows cols size
  by_cases hd : a._rows ≠ m._rows ∨ a._cols ≠ m._cols
  · rw [if_pos hd]
    constructor
    · intro h; simp at h
    · rintro ⟨h1, h2, _⟩
      rcases hd with h | h
      · exact absurd h1 h
      · exact absurd h2 h
  · rw [if_neg hd]
    have hr : a._rows = m._rows := by
      by_contra h; exact hd (Or.inl h)
    have hc : a._cols = m._cols := by
      by_contra h; exact hd (Or.inr h)
    rw [all_below_iff]
    constructor
    · intro h
      refine ⟨hr, hc, ?_⟩
      intro r c h1 h2
      have := h (r * a._cols + c) (index_lt h1 h2)
      unfold get
      rw [← hc]
      simpa using this
    · rintro ⟨_, _, h⟩ i hi
      have hcpos : 0 < a._cols := by
        rcases Nat.eq_zero_or_pos a._cols with h | h
        · rw [h] at hi; simp at hi
        · exact h
      have hrow : i / a._cols < a._rows := by
        rw [Nat.div_lt_iff_lt_mul hcpos]; exact hi
      have hcol : i % a._cols < a._cols := Nat.mod_lt _ hcpos
      have hidx : i / a._cols * a._cols + i % a._cols = i := Nat.div_add_mod' i a._cols
      have key := h _ _ hrow hcol
      unfold get at key
      rw [← hc, hidx] at key
      simpa using key

end comparison

theorem mul_inner (a m r2 : matrix T) (hwf : r2.well_formed) {i j : Nat} (hi : i < r2._rows)
    (hj : j < r2._cols) (n : Nat) :
    same_shape (for_loop (fun k r3 => r3.set i j (r3.get i j + a.get i k * m.get k j)) n r2) r2 ∧
    (for_loop (fun k r3 => r3.set i j (r3.get i j + a.get i k * m.get k j)) n r2)._rowSwapsCount
      = r2._rowSwapsCount ∧
    ∀ r c, c < r2._cols →
      (for_loop (fun k r3 => r3.set i j (r3.get i j + a.get i k * m.get k j)) n r2).get r c =
      if r = i ∧ c = j then r2.get i j + ∑ k ∈ Finset.range n, a.get i k * m.get k j
      else r2.get r c := by
  induction n with
  | zero =>
    refine ⟨same_shape_refl _, rfl, ?_⟩
    intro r c _
    by_cases h : r = i ∧ c = j
    · obtain ⟨rfl, rfl⟩ := h
      simp [for_loop]
    · rw [if_neg h]; rfl
  | succ n ih =>
    obtain ⟨hs, hcnt, hg⟩ := ih
    refine ⟨same_shape_trans (set_same_shape _ _ _ _) hs, hcnt, ?_⟩
    intro r c hc
    show ((for_loop (fun k r3 => r3.set i j (r3.get i j + a.get i k * m.get k j)) n r2).set i j
      _).get r c = _
    rw [get_set _ (same_shape_wf hs hwf) (by rw [hs.1]; exact hi) (by rw [hs.2.1]; exact hj)
      (by rw [hs.2.1]; exact hc), hg i j hj, hg r c hc]
    by_cases h : r = i ∧ c = j
    · have c1 : i = i ∧ j = j := ⟨rfl, rfl⟩
      rw [if_pos h, if_pos c1, if_pos h, Finset.sum_range_succ]
      ring
    · rw [if_neg h, if_neg h, if_neg h]

theorem mul_middle (a m r1 : matrix T) (hwf : r1.well_formed) {i : Nat} (hi : i < r1._rows)
    (K n : Nat) (hn : n ≤ r1._cols) :
    let body : Nat → matrix T → matrix T := fun j r2 =>
      for_loop (fun k r3 => r3.set i j (r3.get i j + a.get i k * m.get k j)) K r2
    same_shape (for_loop body n r1) r1 ∧
    (for_loop body n r1)._rowSwapsCount = r1._rowSwapsCount ∧
    ∀ r c, c < r1._cols → (for_loop body n r1).get r c =
      if r = i ∧ c < n then r1.get i c + ∑ k ∈ Finset.range K, a.get i k * m.get k c
      else r1.get r c := by
  intro body
  induction n with
  | zero =>
    refine ⟨same_shape_refl _, rfl, ?_⟩
    intro r c _
    have c1 : ¬ (r = i ∧ c < 0) := by omega
    rw [if_neg c1]; rfl
  | succ n ih =>
    obtain ⟨hs, hcnt, hg⟩ := ih (by omega)
    have hin := mul_inner a m (for_loop body n r1) (same_shape_wf hs hwf) (i := i) (j := n)
      (by rw [hs.1]; exact hi) (by rw [hs.2.1]; omega) K
    obtain ⟨is1, is2, is3⟩ := hin
    refine ⟨same_shape_trans is1 hs, is2.trans hcnt, ?_⟩
    intro r c hc
    show (body n (for_loop body n r1)).get r c = _
    show (for_loop (fun k r3 => r3.set i n (r3.get i n + a.get i k * m.get k n)) K
      (for_loop body n r1)).get r c = _
    rw [is3 r c (by rw [hs.2.1]; exact hc), hg i n (by omega), hg r c hc]
    have c0 : ¬ (i = i ∧ n < n) := by omega
    rw [if_neg c0]
    by_cases h : r = i ∧ c = n
    · obtain ⟨rfl, rfl⟩ := h
      have c1 : r = r ∧ c = c := ⟨rfl, rfl⟩
      have c2 : r = r ∧ c < c + 1 := ⟨rfl, by omega⟩
      rw [if_pos c1, if_pos c2]
    · rw [if_neg h]
      by_cases h2 : r = i ∧ c < n
      · have c2 : r = i ∧ c < n + 1 := ⟨h2.1, by omega⟩
        rw [if_pos h2, if_pos c2]
      · have c2 : ¬ (r = i ∧ c < n + 1) := by
          intro hh
          rcases Nat.lt_succ_iff_lt_or_eq.1 hh.2 with h3 | h3
          · exact h2 ⟨hh.1, h3⟩
          · exact h ⟨hh.1, h3⟩
        rw [if_neg h2, if_neg c2]

theorem mul_outer (a m r0 : matrix T) (hwf : r0.well_formed) (K n : Nat) (hn : n ≤ r0._rows) :
    let body : Nat → matrix T → matrix T := fun i r1 =>
      for_loop (fun j r2 =>
        for_loop (fun k r3 => r3.set i j (r3.get i j + a.get i k * m.get k j)) K r2) r0._cols r1
    same_shape (for_loop body n r0) r0 ∧
    (for_loop body n r0)._rowSwapsCount = r0._rowSwapsCount ∧
    ∀ r c, c < r0._cols → (for_loop body n r0).get r c =
      if r < n then r0.get r c + ∑ k ∈ Finset.range K, a.get r k * m.get k c
      else r0.get r c := by
  intro body
  induction n with
  | zero =>
    refine ⟨same_shape_refl _, rfl, ?_⟩
    intro r c _
    have c1 : ¬ (r < 0) := by omega
    rw [if_neg c1]; rfl
  | succ n ih =>
    obtain ⟨hs, hcnt, hg⟩ := ih (by omega)
    have hmid := mul_middle a m (for_loop body n r0) (same_shape_wf hs hwf) (i := n)
      (by rw [hs.1]; omega) K r0._cols (by rw [hs.2.1])
    obtain ⟨is1, is2, is3⟩ := hmid
    refine ⟨same_shape_trans is1 hs, is2.trans hcnt, ?_⟩
    intro r c hc
    show (for_loop (fun j r2 =>
        for_loop (fun k r3 => r3.set n j (r3.get n j + a.get n k * m.get k j)) K r2) r0._cols
      (for_loop body n r0)).get r c = _
    rw [is3 r c (by rw [hs.2.1]; exact hc), hg n c hc, hg r c hc]
    have c0 : ¬ (n < n) := by omega
    rw [if_neg c0]
    by_cases h : r = n
    · subst h
      have c1 : r = r ∧ c < r0._cols := ⟨rfl, hc⟩
      have c2 : r < r + 1 := by omega
      rw [if_pos c1, if_pos c2]
    · have c1 : ¬ (r = n ∧ c < r0._cols) := fun hh => h hh.1
      rw [if_neg c1]
      by_cases h2 : r < n
      · have c2 : r < n + 1 := by omega
        rw [if_pos h2, if_pos c2]
      · have c2 : ¬ r < n + 1 := by omega
        rw [if_neg h2, if_neg c2]

/-- The product `operator*`: shape, counter and entries of the result. -/
theorem mul_spec (a m : matrix T) (h : m._rows = a._cols) :
    ∃ p, a.mul m = .ok p ∧ p._rows = a._rows ∧ p._cols = m._cols ∧ p._rowSwapsCount = 0 ∧
      p.well_formed ∧
      ∀ r c, r < a._rows → c < m._cols →
        p.get r c = ∑ k ∈ Finset.range a._cols, a.get r k * m.get k c := by
  unfold mul
  have hne : ¬ (m._rows ≠ a._cols) := fun hh => hh h
  rw [if_neg hne]
  obtain ⟨k1, k2, k3, k4⟩ := construct_shape (T := T) a._rows m._cols
  have key := mul_outer a m (construct a._rows m._cols) k4 a._cols a._rows (by rw [k1])
  obtain ⟨s1, s2, s3⟩ := key
  rw [k2] at s1 s2 s3
  refine ⟨_, rfl, ?_, ?_, ?_, ?_, ?_⟩
  · exact s1.1.trans k1
  · exact s1.2.1.trans k2
  · exact s2.trans k3
  · exact same_shape_wf s1 k4
  · intro r c hr hc
    have := s3 r c hc
    rw [this, if_pos hr, get_construct, zero_add]

theorem mat_of_mul (n : Nat) (a m p : matrix T) (ha : a._cols = n)
    (hp : ∀ r c, r < n → c < n → p.get r c = ∑ k ∈ Finset.range a._cols, a.get r k * m.get k c) :
    mat_of n p = mat_of n a * mat_of n m := by
  ext i j
  rw [Matrix.mul_apply]
  simp only [mat_of]
  rw [hp i j i.2 j.2, ha]
  exact (Fin.sum_univ_eq_sum_range (fun k => a.get i k * m.get k j) n).symm

end matrix
end vmatrixlib

namespace vmatrixlib
set_option linter.unusedSectionVars false
namespace matrix
variable {T : Type} [Field T]

/-! ### The helpers of `compute_inverse` -/

theorem div_const_loop (n : T) (N : Nat) (d : List T) :
    (for_loop (fun i (d : List T) => d.set i (d.getD i 0 / n)) N d).length = d.length ∧
    ∀ i, (for_loop (fun i (d : List T) => d.set i (d.getD i 0 / n)) N d).getD i 0 =
      if i < N then d.getD i 0 / n else d.getD i 0 := by
  induction N with
  | zero =>
    refine ⟨rfl, ?_⟩
    intro i
    simp [for_loop]
  | succ N ih =>
    obtain ⟨h1, h2⟩ := ih
    constructor
    · show ((for_loop (fun i (d : List T) => d.set i (d.getD i 0 / n)) N d).set N _).length = _
      rw [List.length_set, h1]
    · intro i
      show ((for_loop (fun i (d : List T) => d.set i (d.getD i 0 / n)) N d).set N
        ((for_loop (fun i (d : List T) => d.set i (d.getD i 0 / n)) N d).getD N 0 / n)).getD i 0
        = _
      have h3 := h2 i
      have h4 := h2 N
      have c0 : ¬ N < N := by omega
      rw [if_neg c0] at h4
      rw [h4]
      rw [List.getD_eq_getElem?_getD] at h3 ⊢
      rw [List.getElem?_set]
      by_cases hin : N = i
      · subst hin
        have c1 : N < N + 1 := by omega
        rw [if_pos rfl, if_pos c1]
        by_cases hl : N < (for_loop (fun i (d : List T) => d.set i (d.getD i 0 / n)) N d).length
        · rw [if_pos hl]; rfl
        · rw [if_neg hl]
          have : d.getD N 0 = 0 := by
            rw [List.getD_eq_getElem?_getD, List.getElem?_eq_none (by omega)]
            rfl
          rw [this]
          simp
      · rw [if_neg hin, h3]
        by_cases hlt : i < N
        · have c1 : i < N + 1 := by omega
          rw [if_pos hlt, if_pos c1]
        · have c1 : ¬ i < N + 1 := by omega
          rw [if_neg hlt, if_neg c1]

theorem div_const_shape (m : matrix T) (n : T) :
    same_shape (m.in_place_div_by_constant n) m ∧
    (m.in_place_div_by_constant n)._rowSwapsCount = m._rowSwapsCount :=
  ⟨⟨rfl, rfl, (div_const_loop n _ _).1⟩, rfl⟩

theorem get_div_const (m : matrix T) (n : T) {r c : Nat} (hr : r < m._rows) (hc : c < m._cols) :
    (m.in_place_div_by_constant n).get r c = m.get r c / n := by
  show (for_loop (fun i (d : List T) => d.set i (d.getD i 0 / n)) (m._rows * m._cols)
    m._data).getD (r * m._cols + c) 0 = _
  rw [(div_const_loop n _ _).2, if_pos (index_lt hr hc)]
  rfl

theorem transpose_inner (a : matrix T) (hwf : a.well_formed) (n : Nat) (hr : a._rows = n)
    (hc : a._cols = n) {i : Nat} (hi : i < n) (k : Nat) (hk : k ≤ n) :
    same_shape (for_loop (fun j b => if j < i then b.swap i j j i else b) k a) a ∧
    (for_loop (fun j b => if j < i then b.swap i j j i else b) k a)._rowSwapsCount
      = a._rowSwapsCount ∧
    ∀ r c, r < n → c < n →
      (for_loop (fun j b => if j < i then b.swap i j j i else b) k a).get r c =
      if (r = i ∧ c < k ∧ c < i) ∨ (c = i ∧ r < k ∧ r < i) then a.get c r else a.get r c := by
  induction k with
  | zero =>
    refine ⟨same_shape_refl _, rfl, ?_⟩
    intro r c _ _
    have c1 : ¬ ((r = i ∧ c < 0 ∧ c < i) ∨ (c = i ∧ r < 0 ∧ r < i)) := by omega
    rw [if_neg c1]; rfl
  | succ k ih =>
    obtain ⟨hs, hcnt, hg⟩ := ih (by omega)
    show same_shape (if k < i then (for_loop (fun j b => if j < i then b.swap i j j i else b) k
        a).swap i k k i else _) a ∧
      (if k < i then (for_loop (fun j b => if j < i then b.swap i j j i else b) k
        a).swap i k k i else _)._rowSwapsCount = _ ∧
      ∀ r c, r < n → c < n →
      (if k < i then (for_loop (fun j b => if j < i then b.swap i j j i else b) k
        a).swap i k k i else _).get r c = _
    by_cases hki : k < i
    · simp only [if_pos hki]
      refine ⟨same_shape_trans (swap_same_shape _ _ _ _ _) hs, hcnt, ?_⟩
      intro r c hrn hcn
      rw [get_swap _ (same_shape_wf hs hwf) (by rw [hs.1, hr]; exact hi) (by rw [hs.2.1, hc]; omega)
        (by rw [hs.1, hr]; omega) (by rw [hs.2.1, hc]; exact hi) (by rw [hs.2.1, hc]; exact hcn),
        hg i k hi (by omega), hg k i (by omega) hi, hg r c hrn hcn]
      have d1 : ¬ ((i = i ∧ k < k ∧ k < i) ∨ (k = i ∧ i < k ∧ i < i)) := by omega
      have d2 : ¬ ((k = i ∧ i < k ∧ i < i) ∨ (i = i ∧ k < k ∧ k < i)) := by omega
      rw [if_neg d1, if_neg d2]
      by_cases e1 : r = k ∧ c = i
      · obtain ⟨rfl, rfl⟩ := e1
        have d3 : (r = c ∧ c < r + 1 ∧ c < c) ∨ (c = c ∧ r < r + 1 ∧ r < c) := by omega
        rw [if_pos ⟨rfl, rfl⟩, if_pos d3]
      · rw [if_neg e1]
        by_cases e2 : r = i ∧ c = k
        · obtain ⟨rfl, rfl⟩ := e2
          have d3 : (r = r ∧ c < c + 1 ∧ c < r) ∨ (c = r ∧ r < c + 1 ∧ r < r) := by omega
          rw [if_pos ⟨rfl, rfl⟩, if_pos d3]
        · rw [if_neg e2]
          by_cases e3 : (r = i ∧ c < k ∧ c < i) ∨ (c = i ∧ r < k ∧ r < i)
          · have d3 : (r = i ∧ c < k + 1 ∧ c < i) ∨ (c = i ∧ r < k + 1 ∧ r < i) := by omega
            rw [if_pos e3, if_pos d3]
          · have d3 : ¬ ((r = i ∧ c < k + 1 ∧ c < i) ∨ (c = i ∧ r < k + 1 ∧ r < i)) := by omega
            rw [if_neg e3, if_neg d3]
    · simp only [if_neg hki]
      refine ⟨hs, hcnt, ?_⟩
      intro r c hrn hcn
      rw [hg r c hrn hcn]
      by_cases e3 : (r = i ∧ c < k ∧ c < i) ∨ (c = i ∧ r < k ∧ r < i)
      · have d3 : (r = i ∧ c < k + 1 ∧ c < i) ∨ (c = i ∧ r < k + 1 ∧ r < i) := by omega
        rw [if_pos e3, if_pos d3]
      · have d3 : ¬ ((r = i ∧ c < k + 1 ∧ c < i) ∨ (c = i ∧ r < k + 1 ∧ r < i)) := by omega
        rw [if_neg e3, if_neg d3]

theorem transpose_outer (a : matrix T) (hwf : a.well_formed) (n : Nat) (hr : a._rows = n)
    (hc : a._cols = n) (k : Nat) (hk : k ≤ n) :
    let body : Nat → matrix T → matrix T := fun i a1 =>
      for_loop (fun j b => if j < i then b.swap i j j i else b) n a1
    same_shape (for_loop body k a) a ∧
    (for_loop body k a)._rowSwapsCount = a._rowSwapsCount ∧
    ∀ r c, r < n → c < n → (for_loop body k a).get r c =
      if r < k ∧ c < k then a.get c r else a.get r c := by
  intro body
  induction k with
  | zero =>
    refine ⟨same_shape_refl _, rfl, ?_⟩
    intro r c _ _
    have c1 : ¬ (r < 0 ∧ c < 0) := by omega
    rw [if_neg c1]; rfl
  | succ k ih =>
    obtain ⟨hs, hcnt, hg⟩ := ih (by omega)
    obtain ⟨is1, is2, is3⟩ := transpose_inner (for_loop body k a) (same_shape_wf hs hwf) n
      (by rw [hs.1]; exact hr) (by rw [hs.2.1]; exact hc) (i := k) (by omega) n (le_refl _)
    refine ⟨same_shape_trans is1 hs, is2.trans hcnt, ?_⟩
    intro r c hrn hcn
    show (for_loop (fun j b => if j < k then b.swap k j j k else b) n (for_loop body k a)).get r c
      = _
    rw [is3 r c hrn hcn, hg r c hrn hcn, hg c r hcn hrn]
    by_cases e1 : (r = k ∧ c < n ∧ c < k) ∨ (c = k ∧ r < n ∧ r < k)
    · have d1 : ¬ (c < k ∧ r < k) := by omega
      have d2 : r < k + 1 ∧ c < k + 1 := by omega
      rw [if_pos e1, if_neg d1, if_pos d2]
    · rw [if_neg e1]
      by_cases e2 : r < k ∧ c < k
      · have d2 : r < k + 1 ∧ c < k + 1 := by omega
        rw [if_pos e2, if_pos d2]
      · rw [if_neg e2]
        by_cases e3 : r < k + 1 ∧ c < k + 1
        · have d3 : r = k ∧ c = k := by omega
          obtain ⟨rfl, rfl⟩ := d3
          rw [if_pos e3]
        · rw [if_neg e3]

/-- The method `in_place_transpose()` on a well-formed square matrix. -/
theorem in_place_transpose_spec (a : matrix T) (hwf : a.well_formed) (n : Nat)
    (hr : a._rows = n) (hc : a._cols = n) :
    ∃ t, a.in_place_transpose = .ok t ∧ same_shape t a ∧
      t._rowSwapsCount = a._rowSwapsCount ∧
      ∀ r c, r < n → c < n → t.get r c = a.get c r := by
  unfold in_place_transpose
  have hsq : a.is_square = true := by simp [is_square, hr, hc]
  rw [hsq]
  simp only [Bool.not_true, Bool.false_eq_true, if_false]
  obtain ⟨s1, s2, s3⟩ := transpose_outer a hwf n hr hc n (le_refl _)
  rw [hc, hr]
  refine ⟨_, rfl, s1, s2, ?_⟩
  intro r c hrn hcn
  rw [s3 r c hrn hcn, if_pos ⟨hrn, hcn⟩]

theorem fill_inner (F : Nat → T) (r1 : matrix T) (hwf : r1.well_formed) {i : Nat}
    (hi : i < r1._rows) (k : Nat) (hk : k ≤ r1._cols) :
    same_shape (for_loop (fun j r2 => r2.set i j (F j)) k r1) r1 ∧
    (for_loop (fun j r2 => r2.set i j (F j)) k r1)._rowSwapsCount = r1._rowSwapsCount ∧
    ∀ r c, c < r1._cols → (for_loop (fun j r2 => r2.set i j (F j)) k r1).get r c =
      if r = i ∧ c < k then F c else r1.get r c := by
  induction k with
  | zero =>
    refine ⟨same_shape_refl _, rfl, ?_⟩
    intro r c _
    have c1 : ¬ (r = i ∧ c < 0) := by omega
    rw [if_neg c1]; rfl
  | succ k ih =>
    obtain ⟨hs, hcnt, hg⟩ := ih (by omega)
    refine ⟨same_shape_trans (set_same_shape _ _ _ _) hs, hcnt, ?_⟩
    intro r c hc
    show ((for_loop (fun j r2 => r2.set i j (F j)) k r1).set i k (F k)).get r c = _
    rw [get_set _ (same_shape_wf hs hwf) (by rw [hs.1]; exact hi) (by rw [hs.2.1]; omega)
      (by rw [hs.2.1]; exact hc), hg r c hc]
    by_cases e1 : r = i ∧ c = k
    · obtain ⟨rfl, rfl⟩ := e1
      have d1 : r = r ∧ c < c + 1 := ⟨rfl, by omega⟩
      rw [if_pos ⟨rfl, rfl⟩, if_pos d1]
    · rw [if_neg e1]
      by_cases e2 : r = i ∧ c < k
      · have d1 : r = i ∧ c < k + 1 := ⟨e2.1, by omega⟩
        rw [if_pos e2, if_pos d1]
      · have d1 : ¬ (r = i ∧ c < k + 1) := by
          intro hh
          rcases Nat.lt_succ_iff_lt_or_eq.1 hh.2 with h3 | h3
          · exact e2 ⟨hh.1, h3⟩
          · exact e1 ⟨hh.1, h3⟩
        rw [if_neg e2, if_neg d1]

/-- A double loop that writes `F i j` into every cell `(i, j)`. -/
theorem fill_outer (F : Nat → Nat → T) (r0 : matrix T) (hwf : r0.well_formed) (k : Nat)
    (hk : k ≤ r0._rows) :
    let body : Nat → matrix T → matrix T := fun i r1 =>
      for_loop (fun j r2 => r2.set i j (F i j)) r0._cols r1
    same_shape (for_loop body k r0) r0 ∧
    (for_loop body k r0)._rowSwapsCount = r0._rowSwapsCount ∧
    ∀ r c, c < r0._cols → (for_loop body k r0).get r c =
      if r < k then F r c else r0.get r c := by
  intro body
  induction k with
  | zero =>
    refine ⟨same_shape_refl _, rfl, ?_⟩
    intro r c _
    have c1 : ¬ (r < 0) := by omega
    rw [if_neg c1]; rfl
  | succ k ih =>
    obtain ⟨hs, hcnt, hg⟩ := ih (by omega)
    obtain ⟨is1, is2, is3⟩ := fill_inner (F k) (for_loop body k r0) (same_shape_wf hs hwf)
      (i := k) (by rw [hs.1]; omega) r0._cols (by rw [hs.2.1])
    refine ⟨same_shape_trans is1 hs, is2.trans hcnt, ?_⟩
    intro r c hc
    show (for_loop (fun j r2 => r2.set k j (F k j)) r0._cols (for_loop body k r0)).get r c = _
    rw [is3 r c (by rw [hs.2.1]; exact hc), hg r c hc]
    by_cases e1 : r = k
    · subst e1
      have d1 : r = r ∧ c < r0._cols := ⟨rfl, hc⟩
      have d2 : r < r + 1 := by omega
      rw [if_pos d1, if_pos d2]
    · have d1 : ¬ (r = k ∧ c < r0._cols) := fun hh => e1 hh.1
      rw [if_neg d1]
      by_cases e2 : r < k
      · have d2 : r < k + 1 := by omega
        rw [if_pos e2, if_pos d2]
      · have d2 : ¬ r < k + 1 := by omega
        rw [if_neg e2, if_neg d2]

theorem for_loop_except_ok {σ ε : Type} (body : Nat → σ → Except ε σ) (pure_body : Nat → σ → σ)
    (n : Nat) (h : ∀ i s, i < n → body i s = .ok (pure_body i s)) (s : σ) :
    for_loop_except body n s = .ok (for_loop pure_body n s) := by
  induction n with
  | zero => rfl
  | succ n ih =>
    show (match for_loop_except body n s with
      | .ok s1 => body n s1
      | .error e => .error e) = _
    rw [ih (fun i s hi => h i s (by omega))]
    exact h n _ (by omega)

end matrix
end vmatrixlib

namespace vmatrixlib
set_option linter.unusedSectionVars false
namespace matrix
variable {T : Type} [Field T]

/-! ### Deleting a row and a column -/

theorem erase_inner (m res : matrix T) (hwf : res.well_formed) (i ci cr : Nat)
    (hci : ci < m._cols) (hcols : res._cols = m._cols - 1) (hcr : cr < res._rows) (k : Nat)
    (hk : k ≤ m._cols) :
    let body : Nat → matrix T × Nat → matrix T × Nat := fun j su =>
      if (j : Int) = (ci : Int) then su else ((su.1).set cr su.2 (m.get i j), su.2 + 1)
    (for_loop body k (res, 0)).2 = (if ci < k then k - 1 else k) ∧
    same_shape (for_loop body k (res, 0)).1 res ∧
    (for_loop body k (res, 0)).1._rowSwapsCount = res._rowSwapsCount ∧
    ∀ r c, c < res._cols → (for_loop body k (res, 0)).1.get r c =
      if r = cr ∧ c < (if ci < k then k - 1 else k) then m.get i (if c < ci then c else c + 1)
      else res.get r c := by
  intro body
  induction k with
  | zero =>
    have c0 : ¬ ci < 0 := by omega
    refine ⟨by rw [if_neg c0]; rfl, same_shape_refl _, rfl, ?_⟩
    intro r c _
    have c1 : ¬ (r = cr ∧ c < (if ci < 0 then 0 - 1 else 0)) := by
      rw [if_neg c0]; omega
    rw [if_neg c1]; rfl
  | succ k ih =>
    obtain ⟨h2, hs, hcnt, hg⟩ := ih (by omega)
    show (body k (for_loop body k (res, 0))).2 = _ ∧
      same_shape (body k (for_loop body k (res, 0))).1 res ∧
      (body k (for_loop body k (res, 0))).1._rowSwapsCount = _ ∧
      ∀ r c, c < res._cols → (body k (for_loop body k (res, 0))).1.get r c = _
    by_cases hkc : k = ci
    · have e : body k (for_loop body k (res, 0)) = for_loop body k (res, 0) := by
        simp only [body, hkc, if_true]
      rw [e, h2]
      subst hkc
      have c1 : ¬ k < k := by omega
      have c2 : k < k + 1 := by omega
      simp only [if_neg c1, if_pos c2, Nat.add_sub_cancel] at hg ⊢
      exact ⟨trivial, hs, hcnt, hg⟩
    · have hkc2 : ¬ ((k : Int) = (ci : Int)) := by
        intro hh; exact hkc (by exact_mod_cast hh)
      have e : body k (for_loop body k (res, 0)) =
          (((for_loop body k (res, 0)).1).set cr (for_loop body k (res, 0)).2 (m.get i k),
            (for_loop body k (res, 0)).2 + 1) := by
        simp only [body, hkc2, if_false]
      rw [e]
      dsimp only
      rw [h2]
      have hcc : (if ci < k then k - 1 else k) < res._cols := by
        by_cases h : ci < k
        · rw [if_pos h]; omega
        · rw [if_neg h]; omega
      have hnext : (if ci < k then k - 1 else k) + 1 = (if ci < k + 1 then k + 1 - 1 else k + 1) := by
        by_cases h : ci < k
        · have c2 : ci < k + 1 := by omega
          rw [if_pos h, if_pos c2]; omega
        · have c2 : ¬ ci < k + 1 := by omega
          rw [if_neg h, if_neg c2]
      refine ⟨hnext, same_shape_trans (set_same_shape _ _ _ _) hs, hcnt, ?_⟩
      intro r c hc
      rw [get_set _ (same_shape_wf hs hwf) (by rw [hs.1]; exact hcr) (by rw [hs.2.1]; exact hcc)
        (by rw [hs.2.1]; exact hc), hg r c hc, ← hnext]
      by_cases e1 : r = cr ∧ c = (if ci < k then k - 1 else k)
      · have d1 : r = cr ∧ c < (if ci < k then k - 1 else k) + 1 := ⟨e1.1, by omega⟩
        rw [if_pos e1, if_pos d1]
        congr 1
        rw [e1.2]
        by_cases h : ci < k
        · have c3 : ¬ k - 1 < ci := by omega
          rw [if_pos h, if_neg c3]; omega
        · have c3 : k < ci := by omega
          rw [if_neg h, if_pos c3]
      · rw [if_neg e1]
        by_cases e2 : r = cr ∧ c < (if ci < k then k - 1 else k)
        · have d1 : r = cr ∧ c < (if ci < k then k - 1 else k) + 1 := ⟨e2.1, by omega⟩
          rw [if_pos e2, if_pos d1]
        · have d1 : ¬ (r = cr ∧ c < (if ci < k then k - 1 else k) + 1) := by
            intro hh
            rcases Nat.lt_succ_iff_lt_or_eq.1 hh.2 with h3 | h3
            · exact e2 ⟨hh.1, h3⟩
            · exact e1 ⟨hh.1, h3⟩
          rw [if_neg e2, if_neg d1]

theorem erase_outer (m res : matrix T) (hwf : res.well_formed) {ri ci : Nat}
    (hri : ri < m._rows) (hci : ci < m._cols) (hrows : res._rows = m._rows - 1)
    (hcols : res._cols = m._cols - 1) (k : Nat) (hk : k ≤ m._rows) :
    let body : Nat → matrix T × Nat → matrix T × Nat := fun i st =>
      if (i : Int) = (ri : Int) then st
      else
        ((for_loop (fun j (su : matrix T × Nat) =>
          if (j : Int) = (ci : Int) then su
          else ((su.1).set st.2 su.2 (m.get i j), su.2 + 1)) m._cols (st.1, 0)).1, st.2 + 1)
    (for_loop body k (res, 0)).2 = (if ri < k then k - 1 else k) ∧
    same_shape (for_loop body k (res, 0)).1 res ∧
    (for_loop body k (res, 0)).1._rowSwapsCount = res._rowSwapsCount ∧
    ∀ r c, c < res._cols → (for_loop body k (res, 0)).1.get r c =
      if r < (if ri < k then k - 1 else k) then
        m.get (if r < ri then r else r + 1) (if c < ci then c else c + 1)
      else res.get r c := by
  intro body
  induction k with
  | zero =>
    have c0 : ¬ ri < 0 := by omega
    refine ⟨by rw [if_neg c0]; rfl, same_shape_refl _, rfl, ?_⟩
    intro r c _
    have c1 : ¬ (r < (if ri < 0 then 0 - 1 else 0)) := by
      rw [if_neg c0]; omega
    rw [if_neg c1]; rfl
  | succ k ih =>
    obtain ⟨h2, hs, hcnt, hg⟩ := ih (by omega)
    show (body k (for_loop body k (res, 0))).2 = _ ∧
      same_shape (body k (for_loop body k (res, 0))).1 res ∧
      (body k (for_loop body k (res, 0))).1._rowSwapsCount = _ ∧
      ∀ r c, c < res._cols → (body k (for_loop body k (res, 0))).1.get r c = _
    by_cases hkc : k = ri
    · have e : body k (for_loop body k (res, 0)) = for_loop body k (res, 0) := by
        simp only [body, hkc, if_true]
      rw [e, h2]
      subst hkc
      have c1 : ¬ k < k := by omega
      have c2 : k < k + 1 := by omega
      simp only [if_neg c1, if_pos c2, Nat.add_sub_cancel] at hg ⊢
      exact ⟨trivial, hs, hcnt, hg⟩
    · have hkc2 : ¬ ((k : Int) = (ri : Int)) := by
        intro hh; exact hkc (by exact_mod_cast hh)
      have e : body k (for_loop body k (res, 0)) =
          ((for_loop (fun j (su : matrix T × Nat) =>
            if (j : Int) = (ci : Int) then su
            else ((su.1).set (for_loop body k (res, 0)).2 su.2 (m.get k j), su.2 + 1)) m._cols
            ((for_loop body k (res, 0)).1, 0)).1, (for_loop body k (res, 0)).2 + 1) := by
        simp only [body, hkc2, if_false]
      rw [e]
      dsimp only
      have hcr : (if ri < k then k - 1 else k) < res._rows := by
        by_cases h : ri < k
        · rw [if_pos h]; omega
        · rw [if_neg h]; omega
      have hnext : (if ri < k then k - 1 else k) + 1 = (if ri < k + 1 then k + 1 - 1 else k + 1) := by
        by_cases h : ri < k
        · have c2 : ri < k + 1 := by omega
          rw [if_pos h, if_pos c2]; omega
        · have c2 : ¬ ri < k + 1 := by omega
          rw [if_neg h, if_neg c2]
      obtain ⟨_, is1, is2, is3⟩ := erase_inner m (for_loop body k (res, 0)).1
        (same_shape_wf hs hwf) k ci (for_loop body k (res, 0)).2 hci
        (by rw [hs.2.1]; exact hcols) (by rw [hs.1, h2]; exact hcr) m._cols (le_refl _)
      rw [h2] at is1 is2 is3 ⊢
      refine ⟨hnext, same_shape_trans is1 hs, is2.trans hcnt, ?_⟩
      intro r c hc
      have c5 : (if ci < m._cols then m._cols - 1 else m._cols) = res._cols := by
        rw [if_pos hci, hcols]
      rw [is3 r c (by rw [hs.2.1]; exact hc), c5, hg r c hc, ← hnext]
      by_cases e1 : r = (if ri < k then k - 1 else k)
      · have d1 : r = (if ri < k then k - 1 else k) ∧ c < res._cols := ⟨e1, hc⟩
        have d2 : r < (if ri < k then k - 1 else k) + 1 := by omega
        rw [if_pos d1, if_pos d2]
        congr 1
        rw [e1]
        by_cases h : ri < k
        · have c3 : ¬ k - 1 < ri := by omega
          rw [if_pos h, if_neg c3]; omega
        · have c3 : k < ri := by omega
          rw [if_neg h, if_pos c3]
      · have d1 : ¬ (r = (if ri < k then k - 1 else k) ∧ c < res._cols) := fun hh => e1 hh.1
        rw [if_neg d1]
        by_cases e2 : r < (if ri < k then k - 1 else k)
        · have d2 : r < (if ri < k then k - 1 else k) + 1 := by omega
          rw [if_pos e2, if_pos d2]
        · have d2 : ¬ r < (if ri < k then k - 1 else k) + 1 := by omega
          rw [if_neg e2, if_neg d2]

/-- The matrix `sub_matrix_erasing_row_col(ri, ci)` for a valid row `ri` and column `ci`: a
fresh matrix with one row and one column less whose entry `(r, c)` is the entry of the
receiver at `(r + [r ≥ ri], c + [c ≥ ci])`. -/
theorem sub_matrix_spec (m : matrix T) (ri ci : Nat) (hri : ri < m._rows) (hci : ci < m._cols) :
    (m.sub_matrix_erasing_row_col ri ci)._rows = m._rows - 1 ∧
    (m.sub_matrix_erasing_row_col ri ci)._cols = m._cols - 1 ∧
    (m.sub_matrix_erasing_row_col ri ci)._rowSwapsCount = 0 ∧
    (m.sub_matrix_erasing_row_col ri ci).well_formed ∧
    ∀ r c, r < m._rows - 1 → c < m._cols - 1 →
      (m.sub_matrix_erasing_row_col ri ci).get r c =
        m.get (if r < ri then r else r + 1) (if c < ci then c else c + 1) := by
  have h1 : (ri : Int) ≠ -1 := by omega
  have h2 : (ci : Int) ≠ -1 := by omega
  have e : m.sub_matrix_erasing_row_col ri ci =
      erase_copy m ri ci (construct (m._rows - 1) (m._cols - 1)) := by
    unfold sub_matrix_erasing_row_col
    rw [if_pos ⟨h1, h2⟩]
  obtain ⟨k1, k2, k3, k4⟩ := construct_shape (T := T) (m._rows - 1) (m._cols - 1)
  obtain ⟨a1, a2, a3, a4⟩ := erase_outer m (construct (m._rows - 1) (m._cols - 1)) k4 hri hci
    k1 k2 m._rows (le_refl _)
  rw [e]
  refine ⟨a2.1.trans k1, a2.2.1.trans k2, a3.trans k3, same_shape_wf a2 k4, ?_⟩
  intro r c hr hc
  have := a4 r c (by rw [k2]; exact hc)
  unfold erase_copy
  rw [this, if_pos hri]
  rw [if_pos hr]

end matrix
end vmatrixlib

namespace vmatrixlib
set_option linter.unusedSectionVars false
namespace matrix
variable {T : Type} [Field T]

/-! ### The cofactor inverse -/

theorem cofactor_sign_eq (i j : Nat) : (cofactor_sign i j : T) = (-1) ^ (i + j) := by
  have hs : ∀ k : Nat, (if (k + 1) % 2 = 0 then (-1 : Int) else 1) = (-1) ^ k := by
    intro k
    rcases Nat.even_or_odd k with h | h
    · have c1 : ¬ ((k + 1) % 2 = 0) := by
        have := Nat.even_iff.1 h
        omega
      rw [if_neg c1, Even.neg_one_pow h]
    · have c1 : (k + 1) % 2 = 0 := by
        have := Nat.odd_iff.1 h
        omega
      rw [if_pos c1, Odd.neg_one_pow h]
  unfold cofactor_sign
  dsimp only
  rw [hs i, hs j, ← pow_add]
  push_cast
  rfl

theorem mat_of_sub_matrix (k : Nat) (A : matrix T) (hr : A._rows = k + 1) (hc : A._cols = k + 1)
    (i j : Fin (k + 1)) :
    mat_of k (A.sub_matrix_erasing_row_col (i : Nat) (j : Nat)) =
      (mat_of (k + 1) A).submatrix i.succAbove j.succAbove := by
  obtain ⟨_, _, _, _, hg⟩ := sub_matrix_spec A i j (by rw [hr]; exact i.2)
    (by rw [hc]; exact j.2)
  ext a b
  simp only [mat_of, Matrix.submatrix_apply]
  rw [hg a b (by rw [hr]; simp) (by rw [hc]; simp)]
  have e1 : ∀ (p : Fin (k + 1)) (x : Fin k),
      ((p.succAbove x : Fin (k + 1)) : Nat) = if (x : Nat) < (p : Nat) then (x : Nat) else x + 1 := by
    intro p x
    unfold Fin.succAbove
    by_cases h : x.castSucc < p
    · have h2 : (x : Nat) < (p : Nat) := h
      rw [if_pos h, if_pos h2]
      rfl
    · have h2 : ¬ (x : Nat) < (p : Nat) := h
      rw [if_neg h, if_neg h2]
      rfl
  rw [e1 i a, e1 j b]

section comparison
variable [DecidableEq T] [BEq T] [LawfulBEq T]

theorem sub_determinant (n : Nat) (A : matrix T) (hr : A._rows = n) (hc : A._cols = n)
    {i j : Nat} (hi : i < n) (hj : j < n) :
    (A.sub_matrix_erasing_row_col i j).determinant =
      .ok (mat_of (n - 1) (A.sub_matrix_erasing_row_col i j)).det := by
  obtain ⟨s1, s2, s3, s4, _⟩ := sub_matrix_spec A i j (by omega) (by omega)
  rw [determinant_eq (n - 1) _ s4 (by rw [s1, hr]) (by rw [s2, hc]), s3]
  by_cases h : n - 1 = 1 ∨ n - 1 = 2
  · rw [if_pos h]
  · rw [if_neg h, pow_zero, one_mul]

theorem cofactor_loop (n : Nat) (A : matrix T) (hr : A._rows = n) (hc : A._cols = n) :
    A.cofactor_matrix =
      .ok (for_loop (fun i r1 => for_loop (fun j r2 => r2.set i j (cofactor_sign i j *
        (mat_of (n - 1) (A.sub_matrix_erasing_row_col i j)).det)) n r1) n (construct n n)) := by
  have e1 : A.rows = n := hr
  have e2 : A.cols = n := hc
  unfold cofactor_matrix
  rw [e1, e2]
  apply for_loop_except_ok
  intro i r1 hi
  apply for_loop_except_ok
  intro j r2 hj
  rw [sub_determinant n A hr hc hi hj]

/-- The method `compute_inverse()` on a well-formed square matrix whose `determinant()` is
`d ≠ 0`: a fresh matrix whose entries are those of the adjugate divided by `d`. -/
theorem compute_inverse_spec (n : Nat) (A : matrix T) (hr : A._rows = n)
    (hc : A._cols = n) (d : T) (hd : A.determinant = .ok d) (hd0 : d ≠ 0) :
    ∃ inv, A.compute_inverse = .ok inv ∧ inv._rows = n ∧ inv._cols = n ∧
      inv._rowSwapsCount = 0 ∧ inv.well_formed ∧
      ∀ r c : Fin n, inv.get r c = (mat_of n A).adjugate r c / d := by
  unfold compute_inverse
  rw [hd]
  dsimp only
  rw [if_neg (fun hh => hd0 (beq_iff_eq.1 hh)), cofactor_loop n A hr hc]
  dsimp only
  obtain ⟨k1, k2, k3, k4⟩ := construct_shape (T := T) n n
  obtain ⟨f1, f2, f3⟩ := fill_outer (fun i j => cofactor_sign i j *
    (mat_of (n - 1) (A.sub_matrix_erasing_row_col i j)).det) (construct n n) k4 n (by rw [k1])
  rw [k2] at f1 f2 f3
  have fwf := same_shape_wf f1 k4
  obtain ⟨t, ht, t1, t2, t3⟩ := in_place_transpose_spec _ fwf n (f1.1.trans k1) (f1.2.1.trans k2)
  rw [ht]
  dsimp only
  have ts := same_shape_trans t1 f1
  have dsh := div_const_shape t d
  refine ⟨_, rfl, ?_, ?_, ?_, ?_, ?_⟩
  · exact dsh.1.1.trans (ts.1.trans k1)
  · exact dsh.1.2.1.trans (ts.2.1.trans k2)
  · rw [dsh.2, t2, f2, k3]
  · exact same_shape_wf (same_shape_trans dsh.1 ts) k4
  · intro r c
    rw [get_div_const t d (by rw [ts.1, k1]; exact r.2) (by rw [ts.2.1, k2]; exact c.2),
      t3 r c r.2 c.2, f3 c r r.2, if_pos c.2, cofactor_sign_eq]
    congr 1
    obtain ⟨k, rfl⟩ : ∃ k, n = k + 1 := ⟨n - 1, by have := r.2; omega⟩
    rw [Matrix.adjugate_fin_succ_eq_det_submatrix]
    congr 1
    exact congrArg Matrix.det (mat_of_sub_matrix k A hr hc c r)

end comparison

theorem identity_loop (m : matrix T) (hwf : m.well_formed) (n : Nat) (hr : m._rows = n)
    (hc : m._cols = n) (k : Nat) (hk : k ≤ n) :
    same_shape (for_loop (fun i a => a.set i i 1) k m.clear) m ∧
    (for_loop (fun i a => a.set i i 1) k m.clear)._rowSwapsCount = 0 ∧
    ∀ r c, r < n → c < n → (for_loop (fun i a => a.set i i 1) k m.clear).get r c =
      if r = c ∧ r < k then 1 else 0 := by
  induction k with
  | zero =>
    refine ⟨(clear_shape m).1, (clear_shape m).2, ?_⟩
    intro r c h1 h2
    have c1 : ¬ (r = c ∧ r < 0) := by omega
    rw [if_neg c1]
    exact get_clear m (by omega) (by omega)
  | succ k ih =>
    obtain ⟨hs, hcnt, hg⟩ := ih (by omega)
    refine ⟨same_shape_trans (set_same_shape _ _ _ _) hs, hcnt, ?_⟩
    intro r c h1 h2
    show ((for_loop (fun i a => a.set i i 1) k m.clear).set k k 1).get r c = _
    rw [get_set _ (same_shape_wf hs hwf) (by rw [hs.1]; omega) (by rw [hs.2.1]; omega)
      (by rw [hs.2.1]; omega), hg r c h1 h2]
    by_cases e1 : r = k ∧ c = k
    · have d1 : r = c ∧ r < k + 1 := by omega
      rw [if_pos e1, if_pos d1]
    · rw [if_neg e1]
      by_cases e2 : r = c ∧ r < k
      · have d1 : r = c ∧ r < k + 1 := by omega
        rw [if_pos e2, if_pos d1]
      · have d1 : ¬ (r = c ∧ r < k + 1) := by omega
        rw [if_neg e2, if_neg d1]

/-- The method `make_identity()` on a well-formed square matrix. -/
theorem make_identity_spec (m : matrix T) (hwf : m.well_formed) (n : Nat) (hr : m._rows = n)
    (hc : m._cols = n) :
    ∃ e, m.make_identity = .ok e ∧ e._rows = n ∧ e._cols = n ∧ e._rowSwapsCount = 0 ∧
      e.well_formed ∧ mat_of n e = 1 := by
  unfold make_identity
  have hsq : m.is_square = true := by simp [is_square, hr, hc]
  rw [hsq]
  simp only [Bool.not_true, Bool.false_eq_true, if_false]
  obtain ⟨s1, s2, s3⟩ := identity_loop m hwf n hr hc n (le_refl _)
  rw [hr]
  refine ⟨_, rfl, s1.1.trans hr, s1.2.1.trans hc, s2, same_shape_wf s1 hwf, ?_⟩
  ext a b
  simp only [mat_of]
  rw [s3 a b a.2 b.2, Matrix.one_apply]
  by_cases h : a = b
  · have d1 : (a : Nat) = (b : Nat) ∧ (a : Nat) < n := ⟨congrArg Fin.val h, a.2⟩
    rw [if_pos d1, if_pos h]
  · have d1 : ¬ ((a : Nat) = (b : Nat) ∧ (a : Nat) < n) := fun hh => h (Fin.ext hh.1)
    rw [if_neg d1, if_neg h]

theorem mat_of_ext {n : Nat} {a b : matrix T} (ha : a.well_formed) (hb : b.well_formed)
    (har : a._rows = n) (hac : a._cols = n) (hbr : b._rows = n) (hbc : b._cols = n)
    (hs : a._rowSwapsCount = b._rowSwapsCount) (h : mat_of n a = mat_of n b) : a = b := by
  apply ext_of_get ha hb (har.trans hbr.symm) (hac.trans hbc.symm) hs
  intro r c h1 h2
  have := congrFun (congrFun h ⟨r, by omega⟩) ⟨c, by omega⟩
  exact this

theorem mat_of_adjugate_div {n : Nat} (A inv : matrix T) (d : T)
    (hg : ∀ r c : Fin n, inv.get r c = (mat_of n A).adjugate r c / d) :
    mat_of n inv = d⁻¹ • (mat_of n A).adjugate := by
  ext r c
  simp only [mat_of, Matrix.smul_apply, smul_eq_mul]
  rw [hg r c, div_eq_mul_inv, mul_comm]

theorem mul_adjugate_div {n : Nat} (M : Matrix (Fin n) (Fin n) T) (h : M.det ≠ 0) :
    M * (M.det⁻¹ • M.adjugate) = 1 := by
  rw [Matrix.mul_smul, Matrix.mul_adjugate, smul_smul, inv_mul_cancel₀ h, one_smul]

end matrix
end vmatrixlib

namespace vmatrixlib
set_option linter.unusedSectionVars false
namespace matrix
variable {T : Type} [Field T] [DecidableEq T] [BEq T] [LawfulBEq T]

/-! ### Row reduction -/

theorem echelon_strict {m : matrix T} (he : m.echelon) {r s : Nat} (h : r < s)
    (h2 : s < m._rows) (h3 : m.lead s < m._cols) : m.lead r < m.lead s := by
  induction s with
  | zero => omega
  | succ k ih =>
    rcases he k h2 with h4 | h4
    · omega
    · by_cases hk : r = k
      · subst hk; exact h4
      · have := ih (by omega) (by omega) (by omega)
        omega

theorem echelon_lead_eq_cols {m : matrix T} (he : m.echelon) {i : Nat} (hi : i < m._rows)
    (hc : m._cols ≤ i) : m.lead i = m._cols := by
  have h1 := echelon_le_lead he m._cols (by omega) (le_refl _)
  have h2 := echelon_mono he (r := m._cols) (s := i) hc hi
  have h3 := lead_le m i
  omega

theorem echelon_of_lead_eq {a t : matrix T} (he : t.echelon) (hs : same_shape a t)
    (hl : ∀ r, r < t._rows → a.lead r = t.lead r) : a.echelon := by
  intro r hr
  rw [hs.1] at hr
  rw [hl r (by omega), hl (r + 1) hr, hs.2.1]
  exact he r hr

/-- What one iteration of the main loop of `row_reduce()` does on a row-echelon matrix: a
zero row is skipped; otherwise the pivot found is the leading entry of the row, the row is
divided by it and the column above is eliminated. -/
theorem row_reduce_step_eq (a : matrix T) (he : a.echelon) {i : Nat} (hi : i < a._rows)
    (hc : 0 < a._cols) :
    row_reduce_step a._cols i a =
      if a.lead i = a._cols then a
      else eliminate_above ((a.in_place_div_row i (a.get i (a.lead i))).set i (a.lead i) 1) i
        (a.lead i) := by
  unfold row_reduce_step
  dsimp only
  simp only [beq_iff_eq]
  by_cases hic : i ≥ a._cols
  · -- past the last column: the row is zero
    have hl := echelon_lead_eq_cols he hi hic
    have hz : a.get i (a._cols - 1) = 0 := lead_zero a (by rw [hl]; omega)
    have hj : first_from (fun j => a.get i j != 0) (i + 1) a._cols = i + 1 :=
      first_from_ge _ _ _ (by omega)
    have c1 : ¬ (i + 1 < a._cols) := by omega
    rw [if_pos hic, hz, if_pos rfl, if_pos rfl, hj, if_neg c1, if_pos rfl, if_pos hl]
  · rw [if_neg hic]
    have hle := echelon_le_lead he i hi (by omega)
    by_cases hf0 : a.get i i = 0
    · have hlt : i + 1 ≤ a.lead i := by
        by_contra hh
        have e : a.lead i = i := by omega
        have := lead_ne a (r := i) (by rw [e]; omega)
        rw [e] at this
        exact this hf0
      have hj : first_from (fun j => a.get i j != 0) (i + 1) a._cols = a.lead i := by
        apply first_from_unique _ _ _ _ hlt (lead_le a i)
        · intro x _ hx
          simp [lead_zero a hx]
        · intro hh
          simpa using lead_ne a hh
      rw [if_pos hf0, if_pos hf0, hj]
      by_cases hl : a.lead i = a._cols
      · have c1 : ¬ (a.lead i < a._cols) := by omega
        rw [if_neg c1, hf0, if_pos rfl, if_pos hl]
      · have c1 : a.lead i < a._cols := by
          have := lead_le a i
          omega
        rw [if_pos c1, if_neg (lead_ne a c1), if_neg hl]
        by_cases hi0 : i = 0
        · rw [if_pos hi0, hi0]
          rfl
        · rw [if_neg hi0]
    · have hl : a.lead i = i := by
        have := lead_le_of_ne a (r := i) (c := i) (by omega) hf0
        omega
      have c1 : ¬ (a.lead i = a._cols) := by omega
      rw [if_neg hf0, if_neg hf0, if_neg hf0, if_neg c1, hl]
      by_cases hi0 : i = 0
      · rw [if_pos hi0, hi0]
        rfl
      · rw [if_neg hi0]

theorem row_reduce_step_shape (cols i : Nat) (a : matrix T) :
    same_shape (row_reduce_step cols i a) a ∧
    (row_reduce_step cols i a)._rowSwapsCount = a._rowSwapsCount := by
  unfold row_reduce_step
  dsimp only
  split_ifs
  all_goals first
    | exact ⟨same_shape_refl _, rfl⟩
    | exact ⟨same_shape_trans (set_same_shape _ _ _ _) (div_row_same_shape _ _ _).1,
        (div_row_same_shape _ _ _).2⟩
    | exact ⟨same_shape_trans (eliminate_above_shape _ _ _).1
          (same_shape_trans (set_same_shape _ _ _ _) (div_row_same_shape _ _ _).1),
        (eliminate_above_shape _ _ _).2.trans (div_row_same_shape _ _ _).2⟩

/-- Entries after one pivot step of `row_reduce()`: row `i` is divided by its leading entry
`f`, and that row times the entry in column `j` is subtracted from each row above. -/
theorem get_pivot_step (a : matrix T) (hwf : a.well_formed) {i j : Nat} (hi : i < a._rows)
    (hj : j < a._cols) (hf : a.get i j ≠ 0) (r c : Nat) (hc : c < a._cols) :
    (eliminate_above ((a.in_place_div_row i (a.get i j)).set i j 1) i j).get r c =
      if r < i then a.get r c - a.get i c / a.get i j * a.get r j
      else if r = i then a.get i c / a.get i j else a.get r c := by
  have hs1 := (div_row_same_shape a i (a.get i j)).1
  have hwf1 := same_shape_wf hs1 hwf
  have hs2 := same_shape_trans (set_same_shape (a.in_place_div_row i (a.get i j)) i j 1) hs1
  have hwf2 := same_shape_wf hs2 hwf
  have hg1 : ∀ r c, c < a._cols →
      ((a.in_place_div_row i (a.get i j)).set i j 1).get r c =
        if r = i then a.get i c / a.get i j else a.get r c := by
    intro r c hc
    rw [get_set _ hwf1 (by rw [hs1.1]; exact hi) (by rw [hs1.2.1]; exact hj)
      (by rw [hs1.2.1]; exact hc), get_div_row a hwf hi _ r c hc]
    by_cases e1 : r = i ∧ c = j
    · obtain ⟨rfl, rfl⟩ := e1
      rw [if_pos ⟨rfl, rfl⟩, if_pos rfl, div_self hf]
    · rw [if_neg e1]
  rw [get_eliminate_above _ hwf2 (by rw [hs2.1]; exact hi) (by rw [hs2.2.1]; exact hj)
    (by rw [hg1 i j hj, if_pos rfl, div_self hf]) r c (by rw [hs2.2.1]; exact hc),
    hg1 r c hc, hg1 i c hc, hg1 r j hj, if_pos rfl]
  by_cases e1 : r < i
  · have e2 : r ≠ i := by omega
    rw [if_pos e1, if_pos e1, if_neg e2, if_neg e2]
    ring
  · rw [if_neg e1, if_neg e1]

/-- The invariant of the main loop of `row_reduce()` on a row-echelon matrix `t`: the leading
columns never change, and every row already visited has leading entry one, alone in its
column; a further property `Q` that every pivot step preserves holds at the end. -/
theorem row_reduce_loop_gen (Q : matrix T → Prop) (t : matrix T) (hwf : t.well_formed)
    (he : t.echelon) (hc : 0 < t._cols) (hQ : Q t)
    (hQstep : ∀ (a : matrix T) (i : Nat), a.well_formed → same_shape a t → a.echelon →
      i < a._rows → a.lead i < a._cols → Q a →
      Q (eliminate_above ((a.in_place_div_row i (a.get i (a.lead i))).set i (a.lead i) 1) i
        (a.lead i))) :
    Q (for_down (row_reduce_step t._cols) t._rows t) ∧
    same_shape (for_down (row_reduce_step t._cols) t._rows t) t ∧
    (for_down (row_reduce_step t._cols) t._rows t)._rowSwapsCount = t._rowSwapsCount ∧
    (∀ r, r < t._rows → (for_down (row_reduce_step t._cols) t._rows t).lead r = t.lead r) ∧
    (∀ r, r < t._rows → t.lead r < t._cols →
      (for_down (row_reduce_step t._cols) t._rows t).get r (t.lead r) = 1 ∧
      ∀ q, q < t._rows → q ≠ r →
        (for_down (row_reduce_step t._cols) t._rows t).get q (t.lead r) = 0) := by
  have key := for_down_induction (row_reduce_step t._cols)
    (fun k a => Q a ∧ same_shape a t ∧ a._rowSwapsCount = t._rowSwapsCount ∧
      (∀ r, r < t._rows → a.lead r = t.lead r) ∧
      (∀ r, k ≤ r → r < t._rows → t.lead r < t._cols →
        a.get r (t.lead r) = 1 ∧ ∀ q, q < t._rows → q ≠ r → a.get q (t.lead r) = 0))
    t._rows t ?_ ?_
  · obtain ⟨h0, h1, h2, h3, h4⟩ := key
    exact ⟨h0, h1, h2, h3, fun r hr hl => h4 r (Nat.zero_le _) hr hl⟩
  · exact ⟨hQ, same_shape_refl t, rfl, fun _ _ => rfl, fun r h1 h2 => by omega⟩
  · intro i a hi ⟨hQa, hs, hcnt, hl, hred⟩
    have hea : a.echelon := echelon_of_lead_eq he hs hl
    have hwfa := same_shape_wf hs hwf
    have hia : i < a._rows := by rw [hs.1]; exact hi
    have hstep : row_reduce_step t._cols i a = row_reduce_step a._cols i a := by rw [hs.2.1]
    rw [hstep, row_reduce_step_eq a hea hia (by rw [hs.2.1]; exact hc)]
    by_cases hz : a.lead i = a._cols
    · rw [if_pos hz]
      refine ⟨hQa, hs, hcnt, hl, ?_⟩
      intro r h1 h2 h3
      by_cases hri : r = i
      · subst hri
        rw [← hl r h2, hz, hs.2.1] at h3
        omega
      · exact hred r (by omega) h2 h3
    · rw [if_neg hz]
      have hjlt : a.lead i < a._cols := by
        have := lead_le a i
        omega
      have hf := lead_ne a hjlt
      have hg := get_pivot_step a hwfa hia hjlt hf
      have hq := hQstep a i hwfa hs hea hia hjlt hQa
      have hsh := same_shape_trans (eliminate_above_shape
        ((a.in_place_div_row i (a.get i (a.lead i))).set i (a.lead i) 1) i (a.lead i)).1
        (same_shape_trans (set_same_shape (a.in_place_div_row i (a.get i (a.lead i))) i
          (a.lead i) 1) (div_row_same_shape a i (a.get i (a.lead i))).1)
      have hcn : (eliminate_above ((a.in_place_div_row i (a.get i (a.lead i))).set i
          (a.lead i) 1) i (a.lead i))._rowSwapsCount = a._rowSwapsCount :=
        (eliminate_above_shape _ _ _).2.trans (div_row_same_shape a i _).2
      generalize (eliminate_above ((a.in_place_div_row i (a.get i (a.lead i))).set i
        (a.lead i) 1) i (a.lead i)) = out at hg hsh hcn hq ⊢
      -- columns right of the pivot in the rows below
      have hbelow : ∀ q, i < q → q < a._rows → a.get q (a.lead i) = 0 := by
        intro q h1 h2
        apply lead_zero
        by_cases h3 : a.lead q < a._cols
        · exact echelon_strict hea h1 h2 h3
        · have := lead_le a q
          omega
      have hleads : ∀ r, r < a._rows → out.lead r = a.lead r := by
        intro r hr
        rcases Nat.lt_trichotomy r i with h1 | h1 | h1
        · have hlr : a.lead r < a.lead i := echelon_strict hea h1 hia hjlt
          apply lead_unique
          · rw [hsh.2.1]; exact lead_le a r
          · intro x hx
            rw [hg r x (by omega), if_pos h1, lead_zero a hx, lead_zero a (r := i) (c := x) (by omega)]
            simp
          · intro _
            rw [hg r _ (by omega), if_pos h1, lead_zero a (r := i) (c := a.lead r) hlr]
            simpa using lead_ne a (r := r) (by omega)
        · subst h1
          apply lead_unique
          · rw [hsh.2.1]; exact lead_le a r
          · intro x hx
            have c1 : ¬ r < r := by omega
            rw [hg r x (by omega), if_neg c1, if_pos rfl, lead_zero a hx]
            simp
          · intro _
            have c1 : ¬ r < r := by omega
            rw [hg r _ hjlt, if_neg c1, if_pos rfl]
            exact div_ne_zero hf hf
        · apply lead_congr hsh.2.1
          intro c hc2
          have c1 : ¬ r < i := by omega
          have c2 : ¬ r = i := by omega
          rw [hg r c hc2, if_neg c1, if_neg c2]
      refine ⟨hq, same_shape_trans hsh hs, hcn.trans hcnt, ?_, ?_⟩
      · intro r hr
        rw [hleads r (by rw [hs.1]; exact hr), hl r hr]
      · intro r h1 h2 h3
        have h3a : a.lead r < a._cols := by rw [hl r h2, hs.2.1]; exact h3
        rw [← hl r h2]
        by_cases hri : r = i
        · subst hri
          have c1 : ¬ r < r := by omega
          constructor
          · rw [hg r _ hjlt, if_neg c1, if_pos rfl, div_self hf]
          · intro q hq hqr
            rcases Nat.lt_or_ge q r with h4 | h4
            · rw [hg q _ hjlt, if_pos h4, div_self hf]
              ring
            · have c2 : ¬ q < r := by omega
              rw [hg q _ hjlt, if_neg c2, if_neg hqr]
              exact hbelow q (by omega) (by rw [hs.1]; exact hq)
        · have hir : i < r := by omega
          obtain ⟨p1, p2⟩ := hred r (by omega) h2 h3
          rw [← hl r h2] at p1 p2
          have c1 : ¬ r < i := by omega
          constructor
          · rw [hg r _ h3a, if_neg c1, if_neg hri]
            exact p1
          · intro q hq hqr
            rcases Nat.lt_trichotomy q i with h4 | h4 | h4
            · rw [hg q _ h3a, if_pos h4, p2 q hq hqr, p2 i hi (by omega)]
              simp
            · subst h4
              have c2 : ¬ q < q := by omega
              rw [hg q _ h3a, if_neg c2, if_pos rfl, p2 q hq hqr]
              simp
            · have c2 : ¬ q < i := by omega
              have c3 : ¬ q = i := by omega
              rw [hg q _ h3a, if_neg c2, if_neg c3]
              exact p2 q hq hqr

/-- The invariant of the main loop of `row_reduce()` on a row-echelon matrix `t`: the leading
columns never change, and every row already visited has leading entry one, alone in its
column. -/
theorem row_reduce_loop (t : matrix T) (hwf : t.well_formed) (he : t.echelon)
    (hc : 0 < t._cols) :
    same_shape (for_down (row_reduce_step t._cols) t._rows t) t ∧
    (for_down (row_reduce_step t._cols) t._rows t)._rowSwapsCount = t._rowSwapsCount ∧
    (∀ r, r < t._rows → (for_down (row_reduce_step t._cols) t._rows t).lead r = t.lead r) ∧
    (∀ r, r < t._rows → t.lead r < t._cols →
      (for_down (row_reduce_step t._cols) t._rows t).get r (t.lead r) = 1 ∧
      ∀ q, q < t._rows → q ≠ r →
        (for_down (row_reduce_step t._cols) t._rows t).get q (t.lead r) = 0) :=
  (row_reduce_loop_gen (fun _ => True) t hwf he hc trivial
    (fun _ _ _ _ _ _ _ _ => trivial)).2

/-- The method `row_reduce()` on a well-formed matrix with at least two rows and two columns:
it returns a matrix of the same shape which is row-echelon with the leading columns of the
triangularized matrix, every leading entry being one and alone in its column. -/
theorem row_reduce_spec (A : matrix T) (hwf : A.well_formed) (hr : 2 ≤ A._rows)
    (hc : 2 ≤ A._cols) :
    ∃ t R, A.make_triangular = .ok t ∧ A.row_reduce = .ok R ∧ same_shape t A ∧ t.echelon ∧
      same_shape R A ∧ R.well_formed ∧ R.echelon ∧
      (∀ r, r < A._rows → R.lead r = t.lead r) ∧
      (∀ r, r < R._rows → R.lead r < R._cols →
        R.get r (R.lead r) = 1 ∧ ∀ q, q < R._rows → q ≠ r → R.get q (R.lead r) = 0) := by
  obtain ⟨t, ht, hs, he⟩ := make_triangular_ok A hwf
  have het := he (by omega) (by omega)
  have hwft := same_shape_wf hs hwf
  obtain ⟨l1, l2, l3, l4⟩ := row_reduce_loop t hwft het (by rw [hs.2.1]; omega)
  have hrr : A.row_reduce = .ok (for_down (row_reduce_step t._cols) t._rows t) := by
    unfold row_reduce
    have c1 : ¬ (A._rows = 1 ∨ A._cols = 1) := by omega
    have c2 : ¬ (0 < A._rows ∧ A._cols = 0) := by omega
    rw [if_neg c1, ht]
    dsimp only
    rw [if_neg c2, hs.1, hs.2.1]
  refine ⟨t, _, ht, hrr, hs, het, same_shape_trans l1 hs, same_shape_wf l1 hwft,
    echelon_of_lead_eq het l1 l3, fun r h => l3 r (by rw [hs.1]; exact h), ?_⟩
  intro r h1 h2
  rw [l1.1] at h1
  rw [l3 r h1, l1.2.1] at h2
  rw [l3 r h1, l1.1]
  exact l4 r h1 h2

end matrix
end vmatrixlib

namespace vmatrixlib
set_option linter.unusedSectionVars false
namespace matrix
variable {T : Type} [Field T] [DecidableEq T] [BEq T] [LawfulBEq T]

/-! ### Rank and the width of the null space -/

theorem count_below_card (p : Nat → Bool) (n : Nat) :
    count_below p n = ((Finset.range n).filter (fun i => p i = true)).card := by
  induction n with
  | zero => rfl
  | succ n ih =>
    rw [count_below, ih, Finset.range_succ, Finset.filter_insert]
    by_cases h : p n = true
    · rw [if_pos h, if_pos h, Finset.card_insert_of_not_mem]
      simp
    · rw [if_neg h, if_neg h, Nat.add_zero]

theorem count_below_congr (p q : Nat → Bool) (n : Nat) (h : ∀ i, i < n → p i = q i) :
    count_below p n = count_below q n := by
  induction n with
  | zero => rfl
  | succ n ih =>
    rw [count_below, count_below, ih (fun i hi => h i (by omega)), h n (by omega)]

/-- On a row-echelon matrix the scan of `rank()` never trips its assertion and counts the
non-zero rows. -/
theorem rank_loop_echelon (m : matrix T) (he : m.echelon) : ∀ (budget i j : Nat) (can : Bool),
    i ≤ m._rows → j ≤ m._cols →
    (i < m._rows → j ≤ m.lead i ∧ (can = false → j < m.lead i)) →
    1 ≤ budget → (i < m._rows → (m._rows - i) * (m._cols + 1) + 1 ≤ budget + j) →
    rank_loop m budget i j can (m.nonzero_rows i) = .ok (m.nonzero_rows m._rows) := by
  intro budget
  induction budget with
  | zero =>
    intro i j can _ _ _ h _
    omega
  | succ b ih =>
    intro i j can hi hj hC hb1 hb
    unfold rank_loop
    by_cases hir : i < m._rows
    · rw [if_pos hir]
      obtain ⟨hC1, hC2⟩ := hC hir
      have hX : (m._rows - i) * (m._cols + 1) =
          (m._rows - (i + 1)) * (m._cols + 1) + (m._cols + 1) := by
        have : m._rows - i = (m._rows - (i + 1)) + 1 := by omega
        rw [this, Nat.succ_mul]
      have hbud := hb hir
      have hnext : m.nonzero_rows (i + 1) =
          m.nonzero_rows i + (if decide (m.lead i < m._cols) = true then 1 else 0) := rfl
      by_cases hjc : j = m._cols
      · rw [if_pos hjc]
        have hl : ¬ (m.lead i < m._cols) := by omega
        have e : m.nonzero_rows i = m.nonzero_rows (i + 1) := by
          rw [hnext]
          simp [hl]
        rw [e]
        refine ih (i + 1) 0 can (by omega) (Nat.zero_le _) ?_ (by omega) (fun _ => by omega)
        intro hi1
        refine ⟨Nat.zero_le _, ?_⟩
        intro hcan
        have := hC2 hcan
        have := lead_le m i
        omega
      · rw [if_neg hjc]
        have hjlt : j < m._cols := by omega
        simp only [beq_iff_eq]
        by_cases hz : m.get i j = 0
        · rw [if_pos hz]
          have hjl : j < m.lead i := by
            rcases Nat.lt_or_ge j (m.lead i) with h1 | h1
            · exact h1
            · have h2 : m.lead i = j := by omega
              have := lead_ne m (by rw [h2]; exact hjlt)
              rw [h2] at this
              exact absurd hz this
          exact ih i (j + 1) true hi (by omega)
            (fun _ => ⟨by omega, fun hh => by simp at hh⟩) (by omega) (fun _ => by omega)
        · rw [if_neg hz]
          have hjl : m.lead i = j := by
            have := lead_le_of_ne m hjlt hz
            omega
          cases can with
          | false =>
            have := hC2 rfl
            omega
          | true =>
            simp only [Bool.not_true, Bool.false_eq_true, if_false]
            have hl : m.lead i < m._cols := by omega
            have e : m.nonzero_rows i + 1 = m.nonzero_rows (i + 1) := by
              rw [hnext]
              simp [hl]
            rw [e]
            refine ih (i + 1) j false (by omega) hj ?_ (by omega) (fun _ => by omega)
            intro hi1
            rcases he i hi1 with h4 | h4
            · rw [h4]; exact ⟨hj, fun _ => hjlt⟩
            · rw [hjl] at h4
              exact ⟨by omega, fun _ => h4⟩
    · rw [if_neg hir]
      have : i = m._rows := by omega
      rw [this]

/-- The method `rank()` on a well-formed matrix with at least two rows and two columns: the
number of non-zero rows of the triangularized matrix. -/
theorem rank_spec (A t : matrix T) (ht : A.make_triangular = .ok t) (he : t.echelon) :
    A.rank = .ok (t.nonzero_rows t._rows) := by
  unfold rank
  rw [ht]
  dsimp only
  refine rank_loop_echelon t he _ 0 0 true (Nat.zero_le _) (Nat.zero_le _) ?_ (by omega) ?_
  · intro _
    exact ⟨Nat.zero_le _, fun hh => by simp at hh⟩
  · intro _
    simp

theorem dep_vars_rows_loop (r : matrix T) (rows cols k : Nat) (hk : k ≤ rows) :
    let body : Nat → List Int → List Int := fun i d =>
      if first_from (fun j => r.get i j == 1) 0 cols ≠ cols then
        (d.set i (-1)).set i (first_from (fun j => r.get i j == 1) 0 cols : Int)
      else d.set i (-1)
    (for_loop body k (List.replicate rows 0)).length = rows ∧
    ∀ i, i < k → (for_loop body k (List.replicate rows 0)).getD i 0 =
      if first_from (fun j => r.get i j == 1) 0 cols ≠ cols then
        (first_from (fun j => r.get i j == 1) 0 cols : Int) else -1 := by
  intro body
  induction k with
  | zero =>
    refine ⟨by simp [for_loop], ?_⟩
    intro i hi
    omega
  | succ k ih =>
    obtain ⟨h1, h2⟩ := ih (by omega)
    have step : for_loop body (k + 1) (List.replicate rows 0) =
        body k (for_loop body k (List.replicate rows 0)) := rfl
    rw [step]
    generalize for_loop body k (List.replicate rows 0) = d at h1 h2 ⊢
    have hkl : k < d.length := by omega
    by_cases hf : first_from (fun j => r.get k j == 1) 0 cols ≠ cols
    · have e : body k d = (d.set k (-1)).set k (first_from (fun j => r.get k j == 1) 0 cols : Int) := by
        simp only [body, if_pos hf]
      rw [e]
      refine ⟨by simp [h1], ?_⟩
      intro i hi
      by_cases hik : i = k
      · subst hik
        rw [if_pos hf, List.getD_eq_getElem?_getD, List.getElem?_set]
        simp [hkl]
      · rw [List.getD_eq_getElem?_getD, List.getElem?_set, if_neg (Ne.symm hik),
          List.getElem?_set, if_neg (Ne.symm hik), ← List.getD_eq_getElem?_getD]
        exact h2 i (by omega)
    · have e : body k d = d.set k (-1) := by
        simp only [body, if_neg hf]
      rw [e]
      refine ⟨by simp [h1], ?_⟩
      intro i hi
      by_cases hik : i = k
      · subst hik
        rw [if_neg hf, List.getD_eq_getElem?_getD, List.getElem?_set]
        simp [hkl]
      · rw [List.getD_eq_getElem?_getD, List.getElem?_set, if_neg (Ne.symm hik),
          ← List.getD_eq_getElem?_getD]
        exact h2 i (by omega)

theorem dep_vars_rows_get (r : matrix T) (rows cols i : Nat) (hi : i < rows) :
    (dep_vars_rows r rows cols).getD i 0 =
      if first_from (fun j => r.get i j == 1) 0 cols ≠ cols then
        (first_from (fun j => r.get i j == 1) 0 cols : Int) else -1 :=
  (dep_vars_rows_loop r rows cols rows (le_refl _)).2 i hi

theorem indep_vars_count (d : List Int) (rows cols : Nat) :
    (indep_vars d rows cols).2 =
      count_below (fun i => decide (find_dep_row d rows i = rows)) cols := by
  unfold indep_vars
  induction cols with
  | zero => rfl
  | succ k ih =>
    have key : ∀ (init : List Nat × Nat) (n : Nat),
        (for_loop (fun i (st : List Nat × Nat) =>
          if find_dep_row d rows i = rows then (st.1.set st.2 i, st.2 + 1) else st) n init).2 =
        init.2 + count_below (fun i => decide (find_dep_row d rows i = rows)) n := by
      intro init n
      induction n with
      | zero => rfl
      | succ n ihn =>
        show (if find_dep_row d rows n = rows then _ else _ : List Nat × Nat).2 = _
        by_cases h : find_dep_row d rows n = rows
        · rw [if_pos h]
          dsimp only
          rw [ihn, count_below]
          simp [h]
          omega
        · rw [if_neg h, ihn, count_below]
          simp [h]
    rw [key]
    simp

/-- The first entry equal to one in a row of a reduced matrix is its leading entry. -/
theorem first_one_eq_lead (R : matrix T) {i : Nat}
    (h : R.lead i < R._cols → R.get i (R.lead i) = 1) :
    first_from (fun j => R.get i j == 1) 0 R._cols = R.lead i := by
  apply first_from_unique _ _ _ _ (Nat.zero_le _) (lead_le R i)
  · intro x _ hx
    rw [lead_zero R hx]
    simp
  · intro hl
    rw [h hl]
    simp

theorem null_space_cols (A R : matrix T) (hR : A.row_reduce = .ok R) :
    ∃ N, A.null_space = .ok N ∧
      N._cols = (indep_vars (dep_vars_rows R A._rows A._cols) A._rows A._cols).2 := by
  unfold null_space
  rw [hR]
  dsimp only
  refine ⟨_, rfl, ?_⟩
  have h := for_loop_same_shape (fun k (r1 : matrix T) =>
      for_loop (fun i r2 =>
        if i = (indep_vars (dep_vars_rows R A._rows A._cols) A._rows A._cols).1.getD k 0 then
          r2.set i k 1
        else
          r2.set i k (if find_dep_row (dep_vars_rows R A._rows A._cols) A._rows i ≠ A._rows then
            -(R.get (find_dep_row (dep_vars_rows R A._rows A._cols) A._rows i)
              ((indep_vars (dep_vars_rows R A._rows A._cols) A._rows A._cols).1.getD k 0))
            else 0))
        A._cols r1) ?_
    (indep_vars (dep_vars_rows R A._rows A._cols) A._rows A._cols).2
    (construct A._cols (indep_vars (dep_vars_rows R A._rows A._cols) A._rows A._cols).2)
  · exact h.1.2.1
  · intro k a
    apply for_loop_same_shape
    intro i b
    dsimp only
    split_ifs
    · exact ⟨set_same_shape _ _ _ _, rfl⟩
    · exact ⟨set_same_shape _ _ _ _, rfl⟩
    · exact ⟨set_same_shape _ _ _ _, rfl⟩

/-- Counting: for leading columns that strictly increase over the non-zero rows, the columns
hosting no leading entry and the non-zero rows add up to the number of columns. -/
theorem free_columns_count (L : Nat → Nat) (rows cols : Nat)
    (hinj : ∀ r s, r < rows → s < rows → L r < cols → L s < cols → L r = L s → r = s) :
    count_below (fun r => decide (L r < cols)) rows +
      count_below (fun c => decide (∀ j, j < rows → L j ≠ c)) cols = cols := by
  rw [count_below_card, count_below_card]
  have hD : ((Finset.range rows).filter (fun r => decide (L r < cols) = true)).card =
      ((Finset.range cols).filter (fun c => ¬ (decide (∀ j, j < rows → L j ≠ c) = true))).card := by
    rw [← Finset.card_image_of_injOn (f := L)]
    · congr 1
      ext c
      simp only [Finset.mem_image, Finset.mem_filter, Finset.mem_range, decide_eq_true_eq]
      constructor
      · rintro ⟨r, ⟨h1, h2⟩, rfl⟩
        exact ⟨h2, fun hh => hh r h1 rfl⟩
      · rintro ⟨h1, h2⟩
        push_neg at h2
        obtain ⟨j, hj1, hj2⟩ := h2
        exact ⟨j, ⟨hj1, by omega⟩, hj2⟩
    · intro r hr s hs hrs
      simp only [Finset.coe_filter, Finset.mem_range, decide_eq_true_eq, Set.mem_setOf_eq] at hr hs
      exact hinj r s hr.1 hs.1 hr.2 hs.2 hrs
  rw [hD, add_comm, Finset.filter_card_add_filter_neg_card_eq_card, Finset.card_range]

end matrix
end vmatrixlib

namespace vmatrixlib
set_option linter.unusedSectionVars false
namespace matrix
variable {T : Type} [Field T] [DecidableEq T] [BEq T] [LawfulBEq T]

/-- One more step of budget changes nothing for the scan of `rank()` once the budget covers
the cells that are left, on any matrix: the budget `_rows * (_cols + 1) + 1` handed over by
`rank` is never exhausted. -/
theorem rank_loop_budget (m : matrix T) : ∀ (b i j : Nat) (can : Bool) (steps : Nat),
    j ≤ m._cols → 1 ≤ b → (i < m._rows → (m._rows - i) * (m._cols + 1) + 1 ≤ b + j) →
    rank_loop m (b + 1) i j can steps = rank_loop m b i j can steps := by
  intro b
  induction b with
  | zero =>
    intro i j can steps _ h _
    omega
  | succ b ih =>
    intro i j can steps hj hb1 hb
    rw [rank_loop]
    conv_rhs => rw [rank_loop]
    by_cases hir : i < m._rows
    · rw [if_pos hir, if_pos hir]
      have hX : (m._rows - i) * (m._cols + 1) =
          (m._rows - (i + 1)) * (m._cols + 1) + (m._cols + 1) := by
        have : m._rows - i = (m._rows - (i + 1)) + 1 := by omega
        rw [this, Nat.succ_mul]
      have hbud := hb hir
      by_cases hjc : j = m._cols
      · rw [if_pos hjc, if_pos hjc]
        exact ih (i + 1) 0 can steps (Nat.zero_le _) (by omega) (fun _ => by omega)
      · rw [if_neg hjc, if_neg hjc]
        simp only [beq_iff_eq]
        by_cases hz : m.get i j = 0
        · rw [if_pos hz, if_pos hz]
          exact ih i (j + 1) true steps (by omega) (by omega) (fun _ => by omega)
        · rw [if_neg hz, if_neg hz]
          cases can with
          | false => rfl
          | true =>
            simp only [Bool.not_true, Bool.false_eq_true, if_false]
            exact ih (i + 1) j false (steps + 1) hj (by omega) (fun _ => by omega)
    · rw [if_neg hir, if_neg hir]

/-- The same for the scan of `has_row_echelon_form()`, from any cursor position. -/
theorem has_row_echelon_form_loop_budget (m : matrix T) : ∀ (b i j : Nat) (can : Bool),
    j ≤ m._cols → 1 ≤ b → (i < m._rows → (m._rows - i) * (m._cols + 1) + 1 ≤ b + j) →
    has_row_echelon_form_loop m (b + 1) i j can = has_row_echelon_form_loop m b i j can := by
  intro b
  induction b with
  | zero =>
    intro i j can _ h _
    omega
  | succ b ih =>
    intro i j can hj hb1 hb
    rw [has_row_echelon_form_loop]
    conv_rhs => rw [has_row_echelon_form_loop]
    by_cases hir : i < m._rows
    · rw [if_pos hir, if_pos hir]
      have hX : (m._rows - i) * (m._cols + 1) =
          (m._rows - (i + 1)) * (m._cols + 1) + (m._cols + 1) := by
        have : m._rows - i = (m._rows - (i + 1)) + 1 := by omega
        rw [this, Nat.succ_mul]
      have hbud := hb hir
      by_cases hjc : j = m._cols
      · rw [if_pos hjc, if_pos hjc]
        exact ih (i + 1) 0 can (Nat.zero_le _) (by omega) (fun _ => by omega)
      · rw [if_neg hjc, if_neg hjc]
        simp only [beq_iff_eq]
        by_cases hz : m.get i j = 0
        · rw [if_pos hz, if_pos hz]
          by_cases hf : first_from (fun k => m.get k j != 0) i m._rows ≠ m._rows
          · rw [if_pos hf, if_pos hf]
          · rw [if_neg hf, if_neg hf]
            exact ih i (j + 1) true (by omega) (by omega) (fun _ => by omega)
        · rw [if_neg hz, if_neg hz]
          cases can with
          | false => rfl
          | true =>
            simp only [Bool.not_true, Bool.false_eq_true, if_false]
            exact ih (i + 1) j false hj (by omega) (fun _ => by omega)
    · rw [if_neg hir, if_neg hir]

end matrix
end vmatrixlib

namespace vmatrixlib
set_option linter.unusedSectionVars false
namespace matrix
variable {T : Type} [Field T]

/-- A loop that writes `F j` into the cells `(j, i)` of column `i`, for `j` below `k`. -/
theorem fill_col_inner (F : Nat → T) (r1 : matrix T) (hwf : r1.well_formed) {i : Nat}
    (hi : i < r1._cols) (k : Nat) (hk : k ≤ r1._rows) :
    same_shape (for_loop (fun j r2 => r2.set j i (F j)) k r1) r1 ∧
    (for_loop (fun j r2 => r2.set j i (F j)) k r1)._rowSwapsCount = r1._rowSwapsCount ∧
    ∀ r c, r < r1._rows → c < r1._cols →
      (for_loop (fun j r2 => r2.set j i (F j)) k r1).get r c =
      if c = i ∧ r < k then F r else r1.get r c := by
  induction k with
  | zero =>
    refine ⟨same_shape_refl _, rfl, ?_⟩
    intro r c _ _
    have c1 : ¬ (c = i ∧ r < 0) := by omega
    rw [if_neg c1]; rfl
  | succ k ih =>
    obtain ⟨hs, hcnt, hg⟩ := ih (by omega)
    refine ⟨same_shape_trans (set_same_shape _ _ _ _) hs, hcnt, ?_⟩
    intro r c hr hc
    show ((for_loop (fun j r2 => r2.set j i (F j)) k r1).set k i (F k)).get r c = _
    rw [get_set _ (same_shape_wf hs hwf) (by rw [hs.1]; omega) (by rw [hs.2.1]; exact hi)
      (by rw [hs.2.1]; exact hc), hg r c hr hc]
    by_cases e1 : r = k ∧ c = i
    · obtain ⟨rfl, rfl⟩ := e1
      have d1 : c = c ∧ r < r + 1 := ⟨rfl, by omega⟩
      rw [if_pos ⟨rfl, rfl⟩, if_pos d1]
    · rw [if_neg e1]
      by_cases e2 : c = i ∧ r < k
      · have d1 : c = i ∧ r < k + 1 := ⟨e2.1, by omega⟩
        rw [if_pos e2, if_pos d1]
      · have d1 : ¬ (c = i ∧ r < k + 1) := by
          intro hh
          rcases Nat.lt_succ_iff_lt_or_eq.1 hh.2 with h3 | h3
          · exact e2 ⟨hh.1, h3⟩
          · exact e1 ⟨h3, hh.1⟩
        rw [if_neg e2, if_neg d1]

/-- A double loop that writes `F j i` into every cell `(j, i)`, column after column. -/
theorem fill_col_outer (F : Nat → Nat → T) (r0 : matrix T) (hwf : r0.well_formed) (k : Nat)
    (hk : k ≤ r0._cols) :
    let body : Nat → matrix T → matrix T := fun i r1 =>
      for_loop (fun j r2 => r2.set j i (F j i)) r0._rows r1
    same_shape (for_loop body k r0) r0 ∧
    (for_loop body k r0)._rowSwapsCount = r0._rowSwapsCount ∧
    ∀ r c, r < r0._rows → c < r0._cols →
      (for_loop body k r0).get r c = if c < k then F r c else r0.get r c := by
  intro body
  induction k with
  | zero =>
    refine ⟨same_shape_refl _, rfl, ?_⟩
    intro r c _ _
    have c1 : ¬ (c < 0) := by omega
    rw [if_neg c1]; rfl
  | succ k ih =>
    obtain ⟨hs, hcnt, hg⟩ := ih (by omega)
    have step : for_loop body (k + 1) r0 = body k (for_loop body k r0) := rfl
    rw [step]
    generalize for_loop body k r0 = a at hs hcnt hg
    have hwfa := same_shape_wf hs hwf
    have hik : k < a._cols := by rw [hs.2.1]; omega
    have hin := fill_col_inner (fun j => F j k) a hwfa hik r0._rows
      (by rw [hs.1])
    obtain ⟨hs2, hcnt2, hg2⟩ := hin
    refine ⟨same_shape_trans hs2 hs, hcnt2.trans hcnt, ?_⟩
    intro r c hr hc
    show (for_loop (fun j r2 => r2.set j k (F j k)) r0._rows a).get r c = _
    rw [hg2 r c (by rw [hs.1]; exact hr) (by rw [hs.2.1]; exact hc), hg r c hr hc]
    by_cases e1 : c = k
    · subst e1
      have d1 : c = c ∧ r < r0._rows := ⟨rfl, hr⟩
      have d2 : c < c + 1 := by omega
      rw [if_pos d1, if_pos d2]
    · have d1 : ¬ (c = k ∧ r < r0._rows) := fun hh => e1 hh.1
      rw [if_neg d1]
      by_cases e2 : c < k
      · have d2 : c < k + 1 := by omega
        rw [if_pos e2, if_pos d2]
      · have d2 : ¬ (c < k + 1) := by omega
        rw [if_neg e2, if_neg d2]

/-- The result of `transpose()`: swapped dimensions, a fresh counter, and entry `(j, i)` equal
to entry `(i, j)` of the receiver. -/
theorem transpose_spec (m : matrix T) :
    m.transpose._rows = m._cols ∧ m.transpose._cols = m._rows ∧
    m.transpose._rowSwapsCount = 0 ∧ m.transpose.well_formed ∧
    ∀ i j, i < m._rows → j < m._cols → m.transpose.get j i = m.get i j := by
  have hc := construct_shape (T := T) m._cols m._rows
  have h := fill_col_outer (fun j i => m.get i j) (construct m._cols m._rows) hc.2.2.2
    m._rows (by rw [hc.2.1])
  rw [hc.1, hc.2.1] at h
  obtain ⟨hs, hcnt, hg⟩ := h
  refine ⟨hs.1.trans hc.1, hs.2.1.trans hc.2.1, hcnt.trans hc.2.2.1,
    same_shape_wf hs hc.2.2.2, ?_⟩
  intro i j hi hj
  have := hg j i hj hi
  rw [if_pos hi] at this
  exact this

end matrix
end vmatrixlib

namespace vmatrixlib
set_option linter.unusedSectionVars false
namespace matrix
variable {T : Type} [Field T] [DecidableEq T] [BEq T] [LawfulBEq T]

/-- A downward loop whose body leaves the state unchanged at every index. -/
theorem for_down_fixed {σ : Type} (body : Nat → σ → σ) (s : σ) :
    ∀ n, (∀ i, i < n → body i s = s) → for_down body n s = s := by
  intro n
  induction n with
  | zero => intro _; rfl
  | succ n ih =>
    intro h
    show for_down body n (body n s) = s
    rw [h n (by omega)]
    exact ih (fun i hi => h i (by omega))

/-- The sweep of `row_reduce()` leaves a row of a reduced row-echelon matrix as it is. -/
theorem row_reduce_step_fixed (R : matrix T) (hwf : R.well_formed) (he : R.echelon)
    (hred : ∀ r, r < R._rows → R.lead r < R._cols →
      R.get r (R.lead r) = 1 ∧ ∀ q, q < R._rows → q ≠ r → R.get q (R.lead r) = 0)
    {i : Nat} (hi : i < R._rows) (hc : 0 < R._cols) :
    row_reduce_step R._cols i R = R := by
  rw [row_reduce_step_eq R he hi hc]
  by_cases hz : R.lead i = R._cols
  · rw [if_pos hz]
  · rw [if_neg hz]
    have hjlt : R.lead i < R._cols := by
      have := lead_le R i
      omega
    obtain ⟨h1, h0⟩ := hred i hi hjlt
    have hg := get_pivot_step R hwf hi hjlt (lead_ne R hjlt)
    have hsh := same_shape_trans (eliminate_above_shape
      ((R.in_place_div_row i (R.get i (R.lead i))).set i (R.lead i) 1) i (R.lead i)).1
      (same_shape_trans (set_same_shape (R.in_place_div_row i (R.get i (R.lead i))) i
        (R.lead i) 1) (div_row_same_shape R i (R.get i (R.lead i))).1)
    have hcn : (eliminate_above ((R.in_place_div_row i (R.get i (R.lead i))).set i
        (R.lead i) 1) i (R.lead i))._rowSwapsCount = R._rowSwapsCount :=
      (eliminate_above_shape _ _ _).2.trans (div_row_same_shape R i _).2
    generalize (eliminate_above ((R.in_place_div_row i (R.get i (R.lead i))).set i
      (R.lead i) 1) i (R.lead i)) = out at hg hsh hcn ⊢
    apply ext_of_get (same_shape_wf hsh hwf) hwf hsh.1 hsh.2.1 hcn
    intro r c hr hcc
    rw [hsh.1] at hr
    rw [hsh.2.1] at hcc
    rw [hg r c hcc, h1]
    by_cases e1 : r < i
    · rw [if_pos e1, h0 r hr (by omega)]
      ring
    · rw [if_neg e1]
      by_cases e2 : r = i
      · rw [if_pos e2, e2, div_one]
      · rw [if_neg e2]

/-- A well-formed matrix in reduced row-echelon form, with at least one column or at most one
row, is returned unchanged by `row_reduce()`. -/
theorem row_reduce_fixed (R : matrix T) (hwf : R.well_formed) (hred : R.reduced)
    (hc : R._cols ≠ 0 ∨ R._rows ≤ 1) : R.row_reduce = .ok R := by
  unfold row_reduce
  by_cases h1 : R._rows = 1 ∨ R._cols = 1
  · rw [if_pos h1]
  · rw [if_neg h1]
    have ht : R.make_triangular = .ok R := by
      unfold make_triangular
      have c1 : R.rows = 1 ∨ R.cols = 1 ∨ R.has_row_echelon_form = true :=
        Or.inr (Or.inr ((has_row_echelon_form_iff R).2 hred.1))
      rw [if_pos c1]
    rw [ht]
    dsimp only
    have c2 : ¬ (0 < R._rows ∧ R._cols = 0) := by omega
    rw [if_neg c2]
    congr 1
    apply for_down_fixed
    intro i hi
    exact row_reduce_step_fixed R hwf hred.1 hred.2 hi (by omega)

/-- A matrix without rows is in reduced row-echelon form. -/
theorem reduced_of_no_rows (A : matrix T) (h : A._rows = 0) : A.reduced := by
  constructor
  · intro r hr
    omega
  · intro r hr
    omega

/-- Reducing twice: on a well-formed matrix with at least one column or at most one row,
`row_reduce()` succeeds, and applied to its own result it returns that result unchanged. -/
theorem row_reduce_twice (A : matrix T) (hwf : A.well_formed)
    (hc : A._cols ≠ 0 ∨ A._rows ≤ 1) :
    ∃ R, A.row_reduce = .ok R ∧ R.row_reduce = .ok R ∧ R._rows = A._rows ∧
      R._cols = A._cols := by
  by_cases h1 : A._rows = 1 ∨ A._cols = 1
  · have : A.row_reduce = .ok A := by
      unfold row_reduce
      rw [if_pos h1]
    exact ⟨A, this, this, rfl, rfl⟩
  · by_cases h2 : A._rows = 0
    · have := row_reduce_fixed A hwf (reduced_of_no_rows A h2) hc
      exact ⟨A, this, this, rfl, rfl⟩
    · obtain ⟨t, R, _, hR, _, _, hsR, hwfR, heR, _, hred⟩ :=
        row_reduce_spec A hwf (by omega) (by omega)
      exact ⟨R, hR, row_reduce_fixed R hwfR ⟨heR, hred⟩
        (by rw [hsR.1, hsR.2.1]; exact hc), hsR.1, hsR.2.1⟩

end matrix
end vmatrixlib

namespace vmatrixlib
set_option linter.unusedSectionVars false
namespace matrix
variable {T : Type} [Field T] [DecidableEq T] [BEq T] [LawfulBEq T]

/-! ### Row operations keep the solutions of the homogeneous system -/

theorem row_dot_congr {a b : matrix T} (hc : a._cols = b._cols) {r s : Nat} (v : Nat → T)
    (h : ∀ c, c < b._cols → a.get r c = b.get s c) : a.row_dot r v = b.row_dot s v := by
  unfold row_dot
  rw [hc]
  apply Finset.sum_congr rfl
  intro c hc2
  rw [h c (Finset.mem_range.1 hc2)]

theorem row_dot_combine {a b : matrix T} (hc : a._cols = b._cols) {r s u : Nat} (k l : T)
    (v : Nat → T) (h : ∀ c, c < b._cols → a.get r c = l * b.get s c + k * b.get u c) :
    a.row_dot r v = l * b.row_dot s v + k * b.row_dot u v := by
  unfold row_dot
  rw [hc, Finset.mul_sum, Finset.mul_sum, ← Finset.sum_add_distrib]
  apply Finset.sum_congr rfl
  intro c hc2
  rw [h c (Finset.mem_range.1 hc2)]
  ring

/-- A solution after the pivot row was swapped into place is a solution before. -/
theorem annihilates_pivot_swap (res res1 : matrix T) {i k : Nat} (hi : i < res._rows)
    (hk : k < res._rows) (hs : same_shape res1 res)
    (hg : ∀ r c, c < res._cols →
      res1.get r c = res.get (if r = i then k else if r = k then i else r) c)
    (v : Nat → T) (h : res1.annihilates v) : res.annihilates v := by
  intro r hr
  have e : res1.row_dot (if r = i then k else if r = k then i else r) v = res.row_dot r v := by
    apply row_dot_congr hs.2.1
    intro c hc
    rw [hg _ c hc]
    congr 1
    by_cases h1 : r = i
    · rw [if_pos h1]
      by_cases h2 : k = i
      · rw [if_pos h2, h1, h2]
      · rw [if_neg h2, if_pos rfl, h1]
    · rw [if_neg h1]
      by_cases h2 : r = k
      · rw [if_pos h2, if_pos rfl, h2]
      · rw [if_neg h2, if_neg h1, if_neg h2]
  rw [← e]
  apply h
  rw [hs.1]
  by_cases h1 : r = i
  · rw [if_pos h1]; exact hk
  · rw [if_neg h1]
    by_cases h2 : r = k
    · rw [if_pos h2]; exact hi
    · rw [if_neg h2]; exact hr

/-- A solution after the elimination below a pivot is a solution before. -/
theorem annihilates_eliminate_below (res : matrix T) (hwf : res.well_formed) {i j : Nat}
    (hi : i < res._rows) (hj : j < res._cols) (hval : res.get i j ≠ 0) (v : Nat → T)
    (h : (eliminate_below res i j (res.get i j)).annihilates v) : res.annihilates v := by
  have hs := (eliminate_below_shape res i j (res.get i j)).1
  have hg := get_eliminate_below res hwf hi hj _ rfl hval
  have hrow : ∀ r, ¬ (i < r ∧ r < res._rows) →
      (eliminate_below res i j (res.get i j)).row_dot r v = res.row_dot r v := by
    intro r hr
    apply row_dot_congr hs.2.1
    intro c hc
    rw [hg r c hc, if_neg hr]
  have hi0 : res.row_dot i v = 0 := by
    rw [← hrow i (by omega)]
    exact h i (by rw [hs.1]; exact hi)
  intro r hr
  by_cases hir : i < r ∧ r < res._rows
  · have e := row_dot_combine hs.2.1 (r := r) (s := r) (u := i)
      (-(res.get r j) / res.get i j) 1 v (by
        intro c hc
        rw [hg r c hc, if_pos hir]
        ring)
    rw [h r (by rw [hs.1]; exact hr), hi0] at e
    simpa using e.symm
  · rw [← hrow r hir]
    exact h r (by rw [hs.1]; exact hr)

/-- A solution of the system left by the cursor loop of `make_triangular()` is a solution of
the system it started from. -/
theorem make_triangular_loop_kernel (budget : Nat) (m : matrix T) (hwf : m.well_formed)
    (hb : m._cols ≤ budget) (v : Nat → T)
    (h : (make_triangular_loop budget m 0 0).annihilates v) : m.annihilates v := by
  have key := make_triangular_loop_induction
    (fun (res : matrix T) _ _ => res.annihilates v → m.annihilates v)
    ?_ ?_ budget m 0 0 hwf (fun hh => hh) (by omega)
  · obtain ⟨_, _, hk, _⟩ := key
    exact hk h
  · intro res i j _ _ _ hP _
    exact hP
  · intro res i j k hwf1 hi hj hP _ hk hne _ hv
    obtain ⟨s1, _, s3⟩ := pivot_swap_facts res hwf1 hi hk
    apply hP
    apply annihilates_pivot_swap res (if k ≠ i then res.swap_rows k i else res) hi hk s1 s3 v
    generalize (if k ≠ i then res.swap_rows k i else res) = res1 at s1 s3 hv ⊢
    have hval : res1.get i j ≠ 0 := by
      rw [s3 i j hj, if_pos rfl]; exact hne
    exact annihilates_eliminate_below res1 (same_shape_wf s1 hwf1) (by rw [s1.1]; exact hi)
      (by rw [s1.2.1]; exact hj) hval v hv

/-- A solution of the triangularized system is a solution of the original system. -/
theorem make_triangular_kernel (m t : matrix T) (hwf : m.well_formed)
    (ht : m.make_triangular = .ok t) (v : Nat → T) (h : t.annihilates v) :
    m.annihilates v := by
  unfold make_triangular at ht
  by_cases h1 : m.rows = 1 ∨ m.cols = 1 ∨ m.has_row_echelon_form = true
  · rw [if_pos h1] at ht
    rw [Except.ok.injEq] at ht
    rw [ht]; exact h
  · rw [if_neg h1] at ht
    dsimp only at ht
    by_cases h2 : (!(make_triangular_loop m._cols m 0 0).has_row_echelon_form) = true
    · rw [if_pos h2] at ht
      cases ht
    · rw [if_neg h2, Except.ok.injEq] at ht
      rw [← ht] at h
      exact make_triangular_loop_kernel m._cols m hwf (le_refl _) v h

/-- A solution after a pivot step of `row_reduce()` is a solution before. -/
theorem annihilates_pivot_step (a : matrix T) (hwf : a.well_formed) {i j : Nat}
    (hi : i < a._rows) (hj : j < a._cols) (hf : a.get i j ≠ 0) (v : Nat → T)
    (h : (eliminate_above ((a.in_place_div_row i (a.get i j)).set i j 1) i j).annihilates v) :
    a.annihilates v := by
  have hg := get_pivot_step a hwf hi hj hf
  have hsh := same_shape_trans (eliminate_above_shape
    ((a.in_place_div_row i (a.get i j)).set i j 1) i j).1
    (same_shape_trans (set_same_shape (a.in_place_div_row i (a.get i j)) i j 1)
      (div_row_same_shape a i (a.get i j)).1)
  generalize (eliminate_above ((a.in_place_div_row i (a.get i j)).set i j 1) i j) = out
    at hg hsh h
  have hi0 : a.row_dot i v = 0 := by
    have e := row_dot_combine hsh.2.1 (r := i) (s := i) (u := i) 0 (1 / a.get i j) v (by
      intro c hc
      have c1 : ¬ i < i := by omega
      rw [hg i c hc, if_neg c1, if_pos rfl]
      ring)
    rw [h i (by rw [hsh.1]; exact hi)] at e
    have e2 : 1 / a.get i j * a.row_dot i v = 0 := by simpa using e.symm
    rcases mul_eq_zero.1 e2 with h3 | h3
    · exact absurd h3 (one_div_ne_zero hf)
    · exact h3
  intro r hr
  rcases Nat.lt_trichotomy r i with h1 | h1 | h1
  · have e := row_dot_combine hsh.2.1 (r := r) (s := r) (u := i)
      (-(a.get r j / a.get i j)) 1 v (by
        intro c hc
        rw [hg r c hc, if_pos h1]
        ring)
    rw [h r (by rw [hsh.1]; exact hr), hi0] at e
    simpa using e.symm
  · rw [h1]; exact hi0
  · have e : out.row_dot r v = a.row_dot r v := by
      apply row_dot_congr hsh.2.1
      intro c hc
      have c1 : ¬ r < i := by omega
      have c2 : ¬ r = i := by omega
      rw [hg r c hc, if_neg c1, if_neg c2]
    rw [← e]
    exact h r (by rw [hsh.1]; exact hr)

/-- A solution of the system returned by `row_reduce()` is a solution of the original system
(matrices with at least two rows and two columns). -/
theorem row_reduce_kernel (A : matrix T) (hwf : A.well_formed) (hr : 2 ≤ A._rows)
    (hc : 2 ≤ A._cols) (R : matrix T) (hR : A.row_reduce = .ok R) (v : Nat → T)
    (h : R.annihilates v) : A.annihilates v := by
  obtain ⟨t, ht, hs, he⟩ := make_triangular_ok A hwf
  have het := he (by omega) (by omega)
  have hwft := same_shape_wf hs hwf
  have hrr : A.row_reduce = .ok (for_down (row_reduce_step t._cols) t._rows t) := by
    unfold row_reduce
    have c1 : ¬ (A._rows = 1 ∨ A._cols = 1) := by omega
    have c2 : ¬ (0 < A._rows ∧ A._cols = 0) := by omega
    rw [if_neg c1, ht]
    dsimp only
    rw [if_neg c2, hs.1, hs.2.1]
  rw [hrr, Except.ok.injEq] at hR
  have key := (row_reduce_loop_gen (fun a => a.annihilates v → t.annihilates v) t hwft het
    (by rw [hs.2.1]; omega) (fun hh => hh) (by
      intro a i hwfa _ _ hi hj hQ hv
      exact hQ (annihilates_pivot_step a hwfa hi hj (lead_ne a hj) v hv))).1
  rw [hR] at key
  exact make_triangular_kernel A t hwf ht v (key h)

end matrix
end vmatrixlib

namespace vmatrixlib
set_option linter.unusedSectionVars false
namespace matrix
variable {T : Type} [Field T]

/-! ### Loops that collect indices into a vector -/

theorem count_below_le (p : Nat → Bool) (n : Nat) : count_below p n ≤ n := by
  induction n with
  | zero => exact le_refl _
  | succ n ih =>
    show count_below p n + (if p n then 1 else 0) ≤ n + 1
    split_ifs <;> omega

theorem count_below_mono (p : Nat → Bool) {m n : Nat} (h : m ≤ n) :
    count_below p m ≤ count_below p n := by
  induction n with
  | zero =>
    have : m = 0 := by omega
    rw [this]
  | succ n ih =>
    by_cases hm : m = n + 1
    · rw [hm]
    · have := ih (by omega)
      show count_below p m ≤ count_below p n + (if p n then 1 else 0)
      omega

/-- The loop `for (i = 0; i < n; i++) if (p i) vec[count++] = g i;` on a vector of `len`
zeros: the final counter is the number of indices that satisfy `p`, and slot `k` holds `g i`
for the index `i` that satisfies `p` after exactly `k` earlier ones did. -/
theorem collect_loop (p : Nat → Bool) (g : Nat → Nat) (len : Nat) :
    ∀ n, count_below p n ≤ len →
    let body : Nat → List Nat × Nat → List Nat × Nat := fun i st =>
      if p i = true then (st.1.set st.2 (g i), st.2 + 1) else st
    (for_loop body n (List.replicate len 0, 0)).1.length = len ∧
    (for_loop body n (List.replicate len 0, 0)).2 = count_below p n ∧
    ∀ k, k < count_below p n → ∃ i, i < n ∧ p i = true ∧ count_below p i = k ∧
      (for_loop body n (List.replicate len 0, 0)).1.getD k 0 = g i := by
  intro n
  induction n with
  | zero =>
    intro _ body
    refine ⟨by simp [for_loop], rfl, ?_⟩
    intro k hk
    exact absurd hk (Nat.not_lt_zero _)
  | succ n ih =>
    intro hle body
    have hle2 : count_below p n ≤ len :=
      le_trans (count_below_mono p (Nat.le_succ n)) hle
    obtain ⟨h1, h2, h3⟩ := ih hle2
    have step : for_loop body (n + 1) (List.replicate len 0, 0) =
        body n (for_loop body n (List.replicate len 0, 0)) := rfl
    rw [step]
    generalize for_loop body n (List.replicate len 0, 0) = st at h1 h2 h3 ⊢
    have hcb : count_below p (n + 1) = count_below p n + (if p n then 1 else 0) := rfl
    by_cases hp : p n = true
    · have e : body n st = (st.1.set st.2 (g n), st.2 + 1) := by
        simp only [body, if_pos hp]
      rw [e, hcb, if_pos hp]
      rw [hcb, if_pos hp] at hle
      refine ⟨by simp [h1], by rw [h2], ?_⟩
      intro k hk
      by_cases hkn : k = count_below p n
      · refine ⟨n, by omega, hp, hkn.symm, ?_⟩
        show (st.1.set st.2 (g n)).getD k 0 = g n
        rw [List.getD_eq_getElem?_getD, List.getElem?_set, h2, if_pos hkn.symm]
        have c1 : count_below p n < st.1.length := by omega
        rw [if_pos c1]
        rfl
      · obtain ⟨i, i1, i2, i3, i4⟩ := h3 k (by omega)
        refine ⟨i, by omega, i2, i3, ?_⟩
        show (st.1.set st.2 (g n)).getD k 0 = g i
        rw [List.getD_eq_getElem?_getD, List.getElem?_set, h2, if_neg (Ne.symm hkn),
          ← List.getD_eq_getElem?_getD]
        exact i4
    · have e : body n st = st := by
        simp only [body, if_neg hp]
      have hp2 : ¬ (p n = true) := hp
      rw [e, hcb, if_neg hp2]
      refine ⟨h1, by rw [h2]; rfl, ?_⟩
      intro k hk
      obtain ⟨i, i1, i2, i3, i4⟩ := h3 k (by omega)
      exact ⟨i, by omega, i2, i3, i4⟩

/-- When the indices below `n` that satisfy `p` are exactly those below `m`, the number of
them is `min n m`. -/
theorem count_below_initial (p : Nat → Bool) (m : Nat) :
    ∀ n, (∀ i, i < n → (p i = true ↔ i < m)) → count_below p n = min n m := by
  intro n
  induction n with
  | zero => intro _; simp [count_below]
  | succ n ih =>
    intro h
    show count_below p n + (if p n then 1 else 0) = _
    rw [ih (fun i hi => h i (by omega))]
    by_cases hn : n < m
    · rw [if_pos ((h n (by omega)).2 hn)]
      omega
    · have : ¬ (p n = true) := fun hh => hn ((h n (by omega)).1 hh)
      rw [if_neg this]
      omega

/-- For a predicate that is closed downwards below `n`, the indices below `n` that satisfy
it are exactly those below their number. -/
theorem count_below_downward (p : Nat → Bool) :
    ∀ n, (∀ r, r + 1 < n → p (r + 1) = true → p r = true) →
      ∀ r, r < n → (p r = true ↔ r < count_below p n) := by
  intro n
  induction n with
  | zero => intro _ r hr; omega
  | succ n ih =>
    intro hcl r hr
    have ih2 := ih (fun r hr2 => hcl r (by omega))
    have hle := count_below_le p n
    show p r = true ↔ r < count_below p n + (if p n then 1 else 0)
    by_cases hp : p n = true
    · rw [if_pos hp]
      have hall : ∀ d, d ≤ n → p (n - d) = true := by
        intro d
        induction d with
        | zero => intro _; exact hp
        | succ d ihd =>
          intro hd
          have h1 := ihd (by omega)
          have e : n - d = (n - (d + 1)) + 1 := by omega
          rw [e] at h1
          exact hcl _ (by omega) h1
      have hcnt : count_below p n = n := by
        by_cases hn : n = 0
        · rw [hn]; rfl
        · have h1 := hall 1 (by omega)
          have := (ih2 (n - 1) (by omega)).1 h1
          omega
      rw [hcnt]
      constructor
      · intro _; omega
      · intro _
        have := hall (n - r) (by omega)
        have e : n - (n - r) = r := by omega
        rw [e] at this
        exact this
    · rw [if_neg hp]
      by_cases hrn : r = n
      · rw [hrn]
        constructor
        · intro h; exact absurd h hp
        · intro h; omega
      · exact ih2 r (by omega)

end matrix
end vmatrixlib

namespace vmatrixlib
set_option linter.unusedSectionVars false
namespace matrix
variable {T : Type} [Field T] [DecidableEq T] [BEq T] [LawfulBEq T]

/-! ### The vectors built by `null_space()` -/

theorem dep_vars_rows_reduced (R : matrix T) (hred : R.reduced) {j : Nat} (hj : j < R._rows) :
    (dep_vars_rows R R._rows R._cols).getD j 0 =
      if R.lead j ≠ R._cols then (R.lead j : Int) else -1 := by
  rw [dep_vars_rows_get R _ _ j hj, first_one_eq_lead R (fun h => (hred.2 j hj h).1)]

/-- The search for the row of column `c` fails exactly for the columns that host no leading
entry. -/
theorem find_dep_row_free (R : matrix T) (hred : R.reduced) {c : Nat} (hc : c < R._cols) :
    find_dep_row (dep_vars_rows R R._rows R._cols) R._rows c = R._rows ↔
      ∀ j, j < R._rows → R.lead j ≠ c := by
  unfold find_dep_row
  rw [first_from_eq_stop_iff _ _ _ (Nat.zero_le _)]
  constructor
  · intro h j hj hjc
    have h1 := h j (Nat.zero_le _) hj
    rw [dep_vars_rows_reduced R hred hj] at h1
    have c1 : R.lead j ≠ R._cols := by omega
    rw [if_pos c1, hjc] at h1
    simp at h1
  · intro h j _ hj
    rw [dep_vars_rows_reduced R hred hj]
    by_cases c1 : R.lead j ≠ R._cols
    · rw [if_pos c1]
      have := h j hj
      simp only [beq_eq_false_iff_ne, ne_eq, Nat.cast_inj]
      exact this
    · rw [if_neg c1]
      simp only [beq_eq_false_iff_ne, ne_eq]
      omega

/-- The search for the row of a leading column finds the row of that leading entry. -/
theorem find_dep_row_lead (R : matrix T) (hred : R.reduced) {r : Nat} (hr : r < R._rows)
    (hl : R.lead r < R._cols) :
    find_dep_row (dep_vars_rows R R._rows R._cols) R._rows (R.lead r) = r := by
  unfold find_dep_row
  apply first_from_unique _ _ _ _ (Nat.zero_le _) (le_of_lt hr)
  · intro x _ hx
    rw [dep_vars_rows_reduced R hred (by omega)]
    have hlt : R.lead x < R.lead r := echelon_strict hred.1 hx hr hl
    have c1 : R.lead x ≠ R._cols := by omega
    rw [if_pos c1]
    simp only [beq_eq_false_iff_ne, ne_eq, Nat.cast_inj]
    omega
  · intro _
    rw [dep_vars_rows_reduced R hred hr]
    have c1 : R.lead r ≠ R._cols := by omega
    rw [if_pos c1]
    simp

/-- Every entry of `indepVars` below `kerDim` is a column for which the search of a row
fails. -/
theorem indep_vars_get (d : List Int) (rows cols : Nat) {k : Nat}
    (hk : k < (indep_vars d rows cols).2) :
    (indep_vars d rows cols).1.getD k 0 < cols ∧
      find_dep_row d rows ((indep_vars d rows cols).1.getD k 0) = rows := by
  have hb : (fun i (st : List Nat × Nat) =>
      if find_dep_row d rows i = rows then (st.1.set st.2 i, st.2 + 1) else st) =
      (fun i (st : List Nat × Nat) =>
      if decide (find_dep_row d rows i = rows) = true then (st.1.set st.2 (id i), st.2 + 1)
      else st) := by
    funext i st
    simp only [decide_eq_true_eq, id]
  have key := collect_loop (fun i => decide (find_dep_row d rows i = rows)) id cols cols
    (count_below_le _ _)
  dsimp only at key
  unfold indep_vars at hk ⊢
  rw [hb] at hk ⊢
  obtain ⟨_, k2, k3⟩ := key
  rw [k2] at hk
  obtain ⟨i, i1, i2, _, i4⟩ := k3 k hk
  rw [i4]
  exact ⟨i1, by simpa using i2⟩

theorem row_dot_vec_congr (m : matrix T) (r : Nat) {v w : Nat → T}
    (h : ∀ c, c < m._cols → v c = w c) : m.row_dot r v = m.row_dot r w := by
  unfold row_dot
  apply Finset.sum_congr rfl
  intro c hc
  rw [h c (Finset.mem_range.1 hc)]

/-- The vector that `null_space()` builds for a column `f` hosting no leading entry solves
the homogeneous system of a reduced row-echelon matrix. -/
theorem reduced_annihilates (R : matrix T) (hred : R.reduced) {f : Nat} (hf : f < R._cols)
    (hfree : ∀ j, j < R._rows → R.lead j ≠ f) :
    R.annihilates (fun c => if c = f then 1
      else if find_dep_row (dep_vars_rows R R._rows R._cols) R._rows c ≠ R._rows then
        -(R.get (find_dep_row (dep_vars_rows R R._rows R._cols) R._rows c) f)
      else 0) := by
  intro r hr
  unfold row_dot
  by_cases hz : R.lead r = R._cols
  · apply Finset.sum_eq_zero
    intro c hc
    rw [lead_zero R (by rw [hz]; exact Finset.mem_range.1 hc), zero_mul]
  · have hp : R.lead r < R._cols := by
      have := lead_le R r
      omega
    have hpf : R.lead r ≠ f := hfree r hr
    rw [Finset.sum_eq_add_of_mem (R.lead r) f (Finset.mem_range.2 hp) (Finset.mem_range.2 hf)
      hpf]
    · dsimp only
      have c1 : find_dep_row (dep_vars_rows R R._rows R._cols) R._rows (R.lead r) ≠ R._rows := by
        rw [find_dep_row_lead R hred hr hp]
        omega
      rw [if_neg hpf, if_pos c1, if_pos rfl, find_dep_row_lead R hred hr hp,
        (hred.2 r hr hp).1]
      ring
    · intro c hc hne
      have hc2 := Finset.mem_range.1 hc
      dsimp only
      rw [if_neg hne.2]
      by_cases hcf : ∀ j, j < R._rows → R.lead j ≠ c
      · have c1 : ¬ (find_dep_row (dep_vars_rows R R._rows R._cols) R._rows c ≠ R._rows) := by
          rw [(find_dep_row_free R hred hc2).2 hcf]
          omega
        rw [if_neg c1, mul_zero]
      · push_neg at hcf
        obtain ⟨j, hj, hjc⟩ := hcf
        have hjr : r ≠ j := by
          intro h
          apply hne.1
          rw [h]
          exact hjc.symm
        have := (hred.2 j hj (by rw [hjc]; exact hc2)).2 r hr hjr
        rw [hjc] at this
        rw [this, zero_mul]

/-- The matrix returned by `null_space()` once `row_reduce()` returned `R`: one row per
column of the receiver, one column per entry of `indepVars`, filled column by column. -/
theorem null_space_entries (A R : matrix T) (hR : A.row_reduce = .ok R) :
    ∃ N, A.null_space = .ok N ∧ N._rows = A._cols ∧
      N._cols = (indep_vars (dep_vars_rows R A._rows A._cols) A._rows A._cols).2 ∧
      N.well_formed ∧
      ∀ i k, i < A._cols →
        k < (indep_vars (dep_vars_rows R A._rows A._cols) A._rows A._cols).2 →
        N.get i k =
          if i = (indep_vars (dep_vars_rows R A._rows A._cols) A._rows A._cols).1.getD k 0
          then 1
          else if find_dep_row (dep_vars_rows R A._rows A._cols) A._rows i ≠ A._rows then
            -(R.get (find_dep_row (dep_vars_rows R A._rows A._cols) A._rows i)
              ((indep_vars (dep_vars_rows R A._rows A._cols) A._rows A._cols).1.getD k 0))
          else 0 := by
  unfold null_space
  rw [hR]
  dsimp only
  generalize dep_vars_rows R A._rows A._cols = d
  generalize indep_vars d A._rows A._cols = iv
  refine ⟨_, rfl, ?_⟩
  have hb : (fun k (r1 : matrix T) => for_loop (fun i r2 =>
        if i = iv.1.getD k 0 then r2.set i k 1
        else r2.set i k (if find_dep_row d A._rows i ≠ A._rows then
          -(R.get (find_dep_row d A._rows i) (iv.1.getD k 0)) else 0)) A._cols r1) =
      (fun k (r1 : matrix T) => for_loop (fun i r2 =>
        r2.set i k (if i = iv.1.getD k 0 then 1
          else if find_dep_row d A._rows i ≠ A._rows then
            -(R.get (find_dep_row d A._rows i) (iv.1.getD k 0)) else 0)) A._cols r1) := by
    funext k r1
    congr 1
    funext i r2
    by_cases h : i = iv.1.getD k 0
    · rw [if_pos h, if_pos h]
    · rw [if_neg h, if_neg h]
  rw [hb]
  have hc := construct_shape (T := T) A._cols iv.2
  have h := fill_col_outer (fun i k => if i = iv.1.getD k 0 then 1
      else if find_dep_row d A._rows i ≠ A._rows then
        -(R.get (find_dep_row d A._rows i) (iv.1.getD k 0)) else 0)
    (construct A._cols iv.2) hc.2.2.2 iv.2 (by rw [hc.2.1])
  rw [hc.1, hc.2.1] at h
  obtain ⟨hs, _, hg⟩ := h
  refine ⟨hs.1.trans hc.1, hs.2.1.trans hc.2.1, same_shape_wf hs hc.2.2.2, ?_⟩
  intro i k hi hk
  rw [hg i k hi hk, if_pos hk]

/-- On a well-formed matrix with at least two rows and two columns, `null_space()` returns a
matrix `N` with one row per column of the receiver, and the product of the receiver with `N`
is the matrix of zeros. -/
theorem null_space_product (A : matrix T) (hwf : A.well_formed) (hr : 2 ≤ A._rows)
    (hc : 2 ≤ A._cols) :
    ∃ N P, A.null_space = .ok N ∧ N._rows = A._cols ∧ A.mul N = .ok P ∧
      P = construct A._rows N._cols := by
  obtain ⟨t, R, _, hR, _, _, hsR, _, heR, _, hredR⟩ := row_reduce_spec A hwf hr hc
  have hred : R.reduced := ⟨heR, hredR⟩
  obtain ⟨N, hN, n1, n2, n3, n4⟩ := null_space_entries A R hR
  obtain ⟨P, hP, p1, p2, p3, p4, p5⟩ := mul_spec A N n1
  refine ⟨N, P, hN, n1, hP, ?_⟩
  obtain ⟨k1, k2, k3, k4⟩ := construct_shape (T := T) A._rows N._cols
  apply ext_of_get p4 k4 (p1.trans k1.symm) (p2.trans k2.symm) (p3.trans k3.symm)
  intro r c hr2 hc2
  rw [p1] at hr2
  rw [p2] at hc2
  rw [p5 r c hr2 hc2, get_construct]
  have hk : c < (indep_vars (dep_vars_rows R A._rows A._cols) A._rows A._cols).2 := by
    rw [← n2]; exact hc2
  obtain ⟨f1, f2⟩ := indep_vars_get _ _ _ hk
  have hfree : ∀ j, j < R._rows →
      R.lead j ≠ (indep_vars (dep_vars_rows R A._rows A._cols) A._rows A._cols).1.getD c 0 := by
    have := (find_dep_row_free R hred (c :=
      (indep_vars (dep_vars_rows R A._rows A._cols) A._rows A._cols).1.getD c 0)
      (by rw [hsR.2.1]; exact f1)).1
    rw [hsR.1, hsR.2.1] at this
    rw [hsR.1]
    exact this f2
  have hann := reduced_annihilates R hred (by rw [hsR.2.1]; exact f1) hfree
  rw [hsR.1, hsR.2.1] at hann
  have hA := row_reduce_kernel A hwf hr hc R hR _ hann r hr2
  rw [← hA]
  unfold row_dot
  apply Finset.sum_congr rfl
  intro x hx
  rw [n4 x c (Finset.mem_range.1 hx) hk]

end matrix
end vmatrixlib

namespace vmatrixlib
set_option linter.unusedSectionVars false
namespace matrix
variable {T : Type} [Field T] [DecidableEq T] [BEq T] [LawfulBEq T]

/-! ### The pivot list of `col_space()` -/

/-- In a row-echelon matrix the non-zero rows are the first ones. -/
theorem echelon_nonzero_first (m : matrix T) (he : m.echelon) {r : Nat} (hr : r < m._rows) :
    m.lead r < m._cols ↔ r < m.nonzero_rows m._rows := by
  have h := count_below_downward (fun r => decide (m.lead r < m._cols)) m._rows (by
    intro r hr h
    have h1 : m.lead (r + 1) < m._cols := by simpa using h
    rcases he r hr with h2 | h2
    · omega
    · simp only [decide_eq_true_eq]
      omega) r hr
  simpa using h

theorem nonzero_rows_le_cols (m : matrix T) (he : m.echelon) :
    m.nonzero_rows m._rows ≤ m._cols := by
  by_contra hcon
  have h1 : m.nonzero_rows m._rows ≤ m._rows := count_below_le _ _
  have h2 := (echelon_nonzero_first m he (r := m._cols) (by omega)).2 (by omega)
  have h3 := echelon_le_lead he m._cols (by omega) (le_refl _)
  omega

/-- The pivot list of `col_space()` on a reduced row-echelon matrix: as many entries as
non-zero rows, entry `j` being the leading column of row `j`. -/
theorem dep_vars_reduced (R : matrix T) (hred : R.reduced) :
    (dep_vars R R._rows R._cols).2 = R.nonzero_rows R._rows ∧
    ∀ j, j < R.nonzero_rows R._rows → (dep_vars R R._rows R._cols).1.getD j 0 = R.lead j := by
  have hfirst : ∀ i, i < R._rows →
      first_from (fun j => R.get i j == 1) 0 R._cols = R.lead i :=
    fun i hi => first_one_eq_lead R (fun h => (hred.2 i hi h).1)
  have hb : (fun i (st : List Nat × Nat) =>
      let j := first_from (fun j => R.get i j == 1) 0 R._cols
      if j ≠ R._cols then (st.1.set st.2 j, st.2 + 1) else st) =
      (fun i (st : List Nat × Nat) =>
      if decide (first_from (fun j => R.get i j == 1) 0 R._cols ≠ R._cols) = true then
        (st.1.set st.2 (first_from (fun j => R.get i j == 1) 0 R._cols), st.2 + 1)
      else st) := by
    funext i st
    simp only [decide_eq_true_eq]
  have hcnt : count_below (fun i => decide (first_from (fun j => R.get i j == 1) 0 R._cols ≠
      R._cols)) R._rows = R.nonzero_rows R._rows := by
    apply count_below_congr
    intro i hi
    rw [hfirst i hi]
    have := lead_le R i
    by_cases h : R.lead i < R._cols
    · simp [h]; omega
    · simp [h]; omega
  have key := collect_loop (fun i => decide (first_from (fun j => R.get i j == 1) 0 R._cols ≠
      R._cols)) (fun i => first_from (fun j => R.get i j == 1) 0 R._cols) R._cols R._rows
    (by rw [hcnt]; exact nonzero_rows_le_cols R hred.1)
  dsimp only at key
  unfold dep_vars
  rw [hb]
  obtain ⟨_, k2, k3⟩ := key
  rw [hcnt] at k2 k3
  refine ⟨k2, ?_⟩
  intro j hj
  obtain ⟨i, i1, i2, i3, i4⟩ := k3 j hj
  have hpre := count_below_initial (fun i => decide (first_from (fun j => R.get i j == 1) 0
      R._cols ≠ R._cols)) (R.nonzero_rows R._rows) i (by
    intro x hx
    dsimp only
    rw [← echelon_nonzero_first R hred.1 (r := x) (by omega), hfirst x (by omega)]
    have := lead_le R x
    simp only [decide_eq_true_eq]
    omega)
  have hi : i < R.nonzero_rows R._rows := by
    rw [← echelon_nonzero_first R hred.1 i1, ← hfirst i i1]
    have h5 : first_from (fun j => R.get i j == 1) 0 R._cols ≠ R._cols := by simpa using i2
    have h6 := (first_from_spec (fun j => R.get i j == 1) 0 R._cols (Nat.zero_le _)).2.1
    omega
  rw [hpre] at i3
  have hij : i = j := by omega
  rw [i4, hij, hfirst j (by omega)]

/-- The two matrices produced by `col_space()` once `row_reduce()` returned `R`, in terms of
the pivot list. -/
theorem col_space_entries (A R : matrix T) (hR : A.row_reduce = .ok R) :
    ∃ C P, A.col_space = .ok (C, P) ∧
      C._rows = A._rows ∧ C._cols = (dep_vars R A._rows A._cols).2 ∧
      P._rows = (dep_vars R A._rows A._cols).2 ∧ P._cols = 1 ∧
      (∀ i j, i < A._rows → j < (dep_vars R A._rows A._cols).2 →
        C.get i j = A.get i ((dep_vars R A._rows A._cols).1.getD j 0)) ∧
      (∀ j, j < (dep_vars R A._rows A._cols).2 →
        P.get j 0 = (((dep_vars R A._rows A._cols).1.getD j 0 : Nat) : T)) := by
  unfold col_space
  rw [hR]
  dsimp only
  generalize dep_vars R A._rows A._cols = dv
  refine ⟨_, _, rfl, ?_⟩
  have hc := construct_shape (T := T) A._rows dv.2
  have h := fill_outer (fun i j => A.get i (dv.1.getD j 0)) (construct A._rows dv.2) hc.2.2.2
    A._rows (by rw [hc.1])
  rw [hc.2.1] at h
  obtain ⟨hs, _, hg⟩ := h
  have hp := construct_shape (T := T) dv.2 1
  have h2 := fill_col_inner (fun j => ((dv.1.getD j 0 : Nat) : T)) (construct dv.2 1)
    hp.2.2.2 (i := 0) (by rw [hp.2.1]; exact Nat.one_pos) dv.2 (by rw [hp.1])
  obtain ⟨hs2, _, hg2⟩ := h2
  refine ⟨hs.1.trans hc.1, hs.2.1.trans hc.2.1, hs2.1.trans hp.1, hs2.2.1.trans hp.2.1,
    ?_, ?_⟩
  · intro i j hi hj
    rw [hg i j hj, if_pos hi]
  · intro j hj
    rw [hg2 j 0 (by rw [hp.1]; exact hj) (by rw [hp.2.1]; exact Nat.one_pos)]
    have c1 : 0 = 0 ∧ j < dv.2 := ⟨rfl, hj⟩
    rw [if_pos c1]

end matrix
end vmatrixlib

namespace vmatrixlib
set_option linter.unusedSectionVars false
namespace matrix
variable {T : Type} [Field T] [BEq T]

/-! ### The scan of `has_row_echelon_form()` ends, for any comparison -/

/-- Whenever the scan ends within its budget, its answer is the value of the loop of
`has_row_echelon_form()`. -/
theorem scan_eq_loop (m : matrix T) : ∀ (budget i j : Nat) (can b : Bool),
    has_row_echelon_form_scan m budget i j can = some b →
    has_row_echelon_form_loop m budget i j can = b := by
  intro budget
  induction budget with
  | zero =>
    intro i j can b h
    simp [has_row_echelon_form_scan] at h
  | succ n ih =>
    intro i j can b h
    rw [has_row_echelon_form_scan] at h
    rw [has_row_echelon_form_loop]
    by_cases hir : i < m._rows
    · rw [if_pos hir] at h ⊢
      by_cases hjc : j = m._cols
      · rw [if_pos hjc] at h ⊢
        exact ih _ _ _ _ h
      · rw [if_neg hjc] at h ⊢
        by_cases hz : (m.get i j == 0) = true
        · rw [if_pos hz] at h ⊢
          by_cases hf : first_from (fun k => m.get k j != 0) i m._rows ≠ m._rows
          · rw [if_pos hf] at h ⊢
            exact Option.some.inj h
          · rw [if_neg hf] at h ⊢
            exact ih _ _ _ _ h
        · rw [if_neg hz] at h ⊢
          cases can with
          | false =>
            simp only [Bool.not_false, if_true] at h ⊢
            exact Option.some.inj h
          | true =>
            simp only [Bool.not_true, Bool.false_eq_true, if_false] at h ⊢
            exact ih _ _ _ _ h
    · rw [if_neg hir] at h ⊢
      exact Option.some.inj h

/-- The scan ends: every iteration lowers `(_rows - i) * (_cols + 1) - j`, so a budget above
that number is never used up. -/
theorem scan_ends (m : matrix T) : ∀ (budget i j : Nat) (can : Bool),
    j ≤ m._cols → 1 ≤ budget → (i < m._rows → (m._rows - i) * (m._cols + 1) + 1 ≤ budget + j) →
    ∃ b, has_row_echelon_form_scan m budget i j can = some b := by
  intro budget
  induction budget with
  | zero =>
    intro i j can _ h _
    omega
  | succ n ih =>
    intro i j can hj _ hb
    rw [has_row_echelon_form_scan]
    by_cases hir : i < m._rows
    · rw [if_pos hir]
      have hX : (m._rows - i) * (m._cols + 1) =
          (m._rows - (i + 1)) * (m._cols + 1) + (m._cols + 1) := by
        have : m._rows - i = (m._rows - (i + 1)) + 1 := by omega
        rw [this, Nat.succ_mul]
      have hbud := hb hir
      by_cases hjc : j = m._cols
      · rw [if_pos hjc]
        exact ih (i + 1) 0 can (Nat.zero_le _) (by omega) (fun _ => by omega)
      · rw [if_neg hjc]
        by_cases hz : (m.get i j == 0) = true
        · rw [if_pos hz]
          by_cases hf : first_from (fun k => m.get k j != 0) i m._rows ≠ m._rows
          · rw [if_pos hf]
            exact ⟨false, rfl⟩
          · rw [if_neg hf]
            exact ih i (j + 1) true (by omega) (by omega) (fun _ => by omega)
        · rw [if_neg hz]
          cases can with
          | false => exact ⟨false, rfl⟩
          | true =>
            simp only [Bool.not_true, Bool.false_eq_true, if_false]
            exact ih (i + 1) j false hj (by omega) (fun _ => by omega)
    · rw [if_neg hir]
      exact ⟨true, rfl⟩

/-- The scan of `has_row_echelon_form()` ends within `_rows * (_cols + 1) + 1` steps, with
the value of `has_row_echelon_form`. -/
theorem scan_has_row_echelon_form (m : matrix T) :
    has_row_echelon_form_scan m (m._rows * (m._cols + 1) + 1) 0 0 true =
      some m.has_row_echelon_form := by
  obtain ⟨b, hb⟩ := scan_ends m (m._rows * (m._cols + 1) + 1) 0 0 true (Nat.zero_le _)
    (by omega) (fun _ => by simp)
  rw [hb]
  congr 1
  exact (scan_eq_loop m _ 0 0 true b hb).symm

end matrix
end vmatrixlib

namespace vmatrixlib
set_option linter.unusedSectionVars false
namespace matrix
variable {T : Type} [Field T] [DecidableEq T] [BEq T] [LawfulBEq T]

/-! ### The row-echelon shape -/

theorem is_zero_row_iff (m : matrix T) (r : Nat) : m.is_zero_row r ↔ m.lead r = m._cols := by
  constructor
  · intro h
    apply lead_unique m (le_refl _)
    · intro x hx
      exact h x hx
    · intro hh
      exact absurd hh (lt_irrefl _)
  · intro h c hc
    apply lead_zero
    rw [h]
    exact hc

/-- The predicate `echelon` says what the specification says about the row-echelon shape. -/
theorem echelon_iff_shape (m : matrix T) : m.echelon ↔ m.row_echelon_shape := by
  constructor
  · intro he
    constructor
    · intro r s hrs hs hz
      rw [is_zero_row_iff] at hz ⊢
      have h1 := echelon_mono he (le_of_lt hrs) hs
      have h2 := lead_le m s
      omega
    · intro r hr hnz
      rw [is_zero_row_iff] at hnz ⊢
      rcases he r hr with h | h
      · exact absurd h hnz
      · have := lead_le m (r + 1)
        exact ⟨by omega, h⟩
  · intro ⟨_, h2⟩ r hr
    by_cases hz : m.lead (r + 1) = m._cols
    · left; exact hz
    · right
      have := h2 r hr (by rw [is_zero_row_iff]; exact hz)
      exact this.2

end matrix
end vmatrixlib

namespace vmatrixlib
set_option linter.unusedSectionVars false
namespace matrix
variable {T : Type} [Field T]

/-! ### Deleting only a row or only a column -/

theorem erase_inner_keep (m res : matrix T) (hwf : res.well_formed) (i cr : Nat)
    (hcols : res._cols = m._cols) (hcr : cr < res._rows) (k : Nat) (hk : k ≤ m._cols) :
    let body : Nat → matrix T × Nat → matrix T × Nat := fun j su =>
      if (j : Int) = (-1 : Int) then su else ((su.1).set cr su.2 (m.get i j), su.2 + 1)
    (for_loop body k (res, 0)).2 = k ∧
    same_shape (for_loop body k (res, 0)).1 res ∧
    (for_loop body k (res, 0)).1._rowSwapsCount = res._rowSwapsCount ∧
    ∀ r c, c < res._cols → (for_loop body k (res, 0)).1.get r c =
      if r = cr ∧ c < k then m.get i c else res.get r c := by
  intro body
  induction k with
  | zero =>
    refine ⟨rfl, same_shape_refl _, rfl, ?_⟩
    intro r c _
    have c1 : ¬ (r = cr ∧ c < 0) := by omega
    rw [if_neg c1]; rfl
  | succ k ih =>
    obtain ⟨h2, hs, hcnt, hg⟩ := ih (by omega)
    show (body k (for_loop body k (res, 0))).2 = _ ∧
      same_shape (body k (for_loop body k (res, 0))).1 res ∧
      (body k (for_loop body k (res, 0))).1._rowSwapsCount = _ ∧
      ∀ r c, c < res._cols → (body k (for_loop body k (res, 0))).1.get r c = _
    have hkc2 : ¬ ((k : Int) = (-1 : Int)) := by omega
    have e : body k (for_loop body k (res, 0)) =
        (((for_loop body k (res, 0)).1).set cr (for_loop body k (res, 0)).2 (m.get i k),
          (for_loop body k (res, 0)).2 + 1) := by
      simp only [body, hkc2, if_false]
    rw [e]
    dsimp only
    rw [h2]
    refine ⟨rfl, same_shape_trans (set_same_shape _ _ _ _) hs, hcnt, ?_⟩
    intro r c hc
    rw [get_set _ (same_shape_wf hs hwf) (by rw [hs.1]; exact hcr) (by rw [hs.2.1]; omega)
      (by rw [hs.2.1]; exact hc), hg r c hc]
    by_cases e1 : r = cr ∧ c = k
    · have d1 : r = cr ∧ c < k + 1 := ⟨e1.1, by omega⟩
      rw [if_pos e1, if_pos d1, e1.2]
    · rw [if_neg e1]
      by_cases e2 : r = cr ∧ c < k
      · have d1 : r = cr ∧ c < k + 1 := ⟨e2.1, by omega⟩
        rw [if_pos e2, if_pos d1]
      · have d1 : ¬ (r = cr ∧ c < k + 1) := by
          intro hh
          rcases Nat.lt_succ_iff_lt_or_eq.1 hh.2 with h3 | h3
          · exact e2 ⟨hh.1, h3⟩
          · exact e1 ⟨hh.1, h3⟩
        rw [if_neg e2, if_neg d1]

theorem erase_outer_keep_row (m res : matrix T) (hwf : res.well_formed) {ci : Nat}
    (hci : ci < m._cols) (hrows : res._rows = m._rows)
    (hcols : res._cols = m._cols - 1) (k : Nat) (hk : k ≤ m._rows) :
    let body : Nat → matrix T × Nat → matrix T × Nat := fun i st =>
      if (i : Int) = (-1 : Int) then st
      else
        ((for_loop (fun j (su : matrix T × Nat) =>
          if (j : Int) = (ci : Int) then su
          else ((su.1).set st.2 su.2 (m.get i j), su.2 + 1)) m._cols (st.1, 0)).1, st.2 + 1)
    (for_loop body k (res, 0)).2 = k ∧
    same_shape (for_loop body k (res, 0)).1 res ∧
    (for_loop body k (res, 0)).1._rowSwapsCount = res._rowSwapsCount ∧
    ∀ r c, c < res._cols → (for_loop body k (res, 0)).1.get r c =
      if r < k then m.get r (if c < ci then c else c + 1) else res.get r c := by
  intro body
  induction k with
  | zero =>
    refine ⟨rfl, same_shape_refl _, rfl, ?_⟩
    intro r c _
    have c1 : ¬ (r < 0) := by omega
    rw [if_neg c1]; rfl
  | succ k ih =>
    obtain ⟨h2, hs, hcnt, hg⟩ := ih (by omega)
    show (body k (for_loop body k (res, 0))).2 = _ ∧
      same_shape (body k (for_loop body k (res, 0))).1 res ∧
      (body k (for_loop body k (res, 0))).1._rowSwapsCount = _ ∧
      ∀ r c, c < res._cols → (body k (for_loop body k (res, 0))).1.get r c = _
    have hkc2 : ¬ ((k : Int) = (-1 : Int)) := by omega
    have e : body k (for_loop body k (res, 0)) =
        ((for_loop (fun j (su : matrix T × Nat) =>
          if (j : Int) = (ci : Int) then su
          else ((su.1).set (for_loop body k (res, 0)).2 su.2 (m.get k j), su.2 + 1)) m._cols
          ((for_loop body k (res, 0)).1, 0)).1, (for_loop body k (res, 0)).2 + 1) := by
      simp only [body, hkc2, if_false]
    rw [e]
    dsimp only
    obtain ⟨_, is1, is2, is3⟩ := erase_inner m (for_loop body k (res, 0)).1
      (same_shape_wf hs hwf) k ci (for_loop body k (res, 0)).2 hci
      (by rw [hs.2.1]; exact hcols) (by rw [hs.1, h2]; omega) m._cols (le_refl _)
    rw [h2] at is1 is2 is3 ⊢
    refine ⟨rfl, same_shape_trans is1 hs, is2.trans hcnt, ?_⟩
    intro r c hc
    have c5 : (if ci < m._cols then m._cols - 1 else m._cols) = res._cols := by
      rw [if_pos hci, hcols]
    rw [is3 r c (by rw [hs.2.1]; exact hc), c5, hg r c hc]
    by_cases e1 : r = k
    · have d1 : r = k ∧ c < res._cols := ⟨e1, hc⟩
      have d2 : r < k + 1 := by omega
      rw [if_pos d1, if_pos d2, e1]
    · have d1 : ¬ (r = k ∧ c < res._cols) := fun hh => e1 hh.1
      rw [if_neg d1]
      by_cases e2 : r < k
      · have d2 : r < k + 1 := by omega
        rw [if_pos e2, if_pos d2]
      · have d2 : ¬ r < k + 1 := by omega
        rw [if_neg e2, if_neg d2]

theorem erase_outer_keep_col (m res : matrix T) (hwf : res.well_formed) {ri : Nat}
    (hri : ri < m._rows) (hrows : res._rows = m._rows - 1)
    (hcols : res._cols = m._cols) (k : Nat) (hk : k ≤ m._rows) :
    let body : Nat → matrix T × Nat → matrix T × Nat := fun i st =>
      if (i : Int) = (ri : Int) then st
      else
        ((for_loop (fun j (su : matrix T × Nat) =>
          if (j : Int) = (-1 : Int) then su
          else ((su.1).set st.2 su.2 (m.get i j), su.2 + 1)) m._cols (st.1, 0)).1, st.2 + 1)
    (for_loop body k (res, 0)).2 = (if ri < k then k - 1 else k) ∧
    same_shape (for_loop body k (res, 0)).1 res ∧
    (for_loop body k (res, 0)).1._rowSwapsCount = res._rowSwapsCount ∧
    ∀ r c, c < res._cols → (for_loop body k (res, 0)).1.get r c =
      if r < (if ri < k then k - 1 else k) then m.get (if r < ri then r else r + 1) c
      else res.get r c := by
  intro body
  induction k with
  | zero =>
    have c0 : ¬ ri < 0 := by omega
    refine ⟨by rw [if_neg c0]; rfl, same_shape_refl _, rfl, ?_⟩
    intro r c _
    have c1 : ¬ (r < (if ri < 0 then 0 - 1 else 0)) := by
      rw [if_neg c0]; omega
    rw [if_neg c1]; rfl
  | succ k ih =>
    obtain ⟨h2, hs, hcnt, hg⟩ := ih (by omega)
    show (body k (for_loop body k (res, 0))).2 = _ ∧
      same_shape (body k (for_loop body k (res, 0))).1 res ∧
      (body k (for_loop body k (res, 0))).1._rowSwapsCount = _ ∧
      ∀ r c, c < res._cols → (body k (for_loop body k (res, 0))).1.get r c = _
    by_cases hkc : k = ri
    · have e : body k (for_loop body k (res, 0)) = for_loop body k (res, 0) := by
        simp only [body, hkc, if_true]
      rw [e, h2]
      subst hkc
      have c1 : ¬ k < k := by omega
      have c2 : k < k + 1 := by omega
      simp only [if_neg c1, if_pos c2, Nat.add_sub_cancel] at hg ⊢
      exact ⟨trivial, hs, hcnt, hg⟩
    · have hkc2 : ¬ ((k : Int) = (ri : Int)) := by
        intro hh; exact hkc (by exact_mod_cast hh)
      have e : body k (for_loop body k (res, 0)) =
          ((for_loop (fun j (su : matrix T × Nat) =>
            if (j : Int) = (-1 : Int) then su
            else ((su.1).set (for_loop body k (res, 0)).2 su.2 (m.get k j), su.2 + 1)) m._cols
            ((for_loop body k (res, 0)).1, 0)).1, (for_loop body k (res, 0)).2 + 1) := by
        simp only [body, hkc2, if_false]
      rw [e]
      dsimp only
      have hcr : (if ri < k then k - 1 else k) < res._rows := by
        by_cases h : ri < k
        · rw [if_pos h]; omega
        · rw [if_neg h]; omega
      have hnext : (if ri < k then k - 1 else k) + 1 = (if ri < k + 1 then k + 1 - 1 else k + 1) := by
        by_cases h : ri < k
        · have c2 : ri < k + 1 := by omega
          rw [if_pos h, if_pos c2]; omega
        · have c2 : ¬ ri < k + 1 := by omega
          rw [if_neg h, if_neg c2]
      obtain ⟨_, is1, is2, is3⟩ := erase_inner_keep m (for_loop body k (res, 0)).1
        (same_shape_wf hs hwf) k (for_loop body k (res, 0)).2
        (by rw [hs.2.1]; exact hcols) (by rw [hs.1, h2]; exact hcr) m._cols (le_refl _)
      rw [h2] at is1 is2 is3 ⊢
      refine ⟨hnext, same_shape_trans is1 hs, is2.trans hcnt, ?_⟩
      intro r c hc
      rw [is3 r c (by rw [hs.2.1]; exact hc), hg r c hc, ← hnext]
      by_cases e1 : r = (if ri < k then k - 1 else k)
      · have d1 : r = (if ri < k then k - 1 else k) ∧ c < m._cols := ⟨e1, by omega⟩
        have d2 : r < (if ri < k then k - 1 else k) + 1 := by omega
        rw [if_pos d1, if_pos d2]
        congr 1
        rw [e1]
        by_cases h : ri < k
        · have c3 : ¬ k - 1 < ri := by omega
          rw [if_pos h, if_neg c3]; omega
        · have c3 : k < ri := by omega
          rw [if_neg h, if_pos c3]
      · have d1 : ¬ (r = (if ri < k then k - 1 else k) ∧ c < m._cols) := fun hh => e1 hh.1
        rw [if_neg d1]
        by_cases e2 : r < (if ri < k then k - 1 else k)
        · have d2 : r < (if ri < k then k - 1 else k) + 1 := by omega
          rw [if_pos e2, if_pos d2]
        · have d2 : ¬ r < (if ri < k then k - 1 else k) + 1 := by omega
          rw [if_neg e2, if_neg d2]

/-- Deleting only column `ci` (row sentinel `-1`): a fresh `rows × (cols-1)` matrix. -/
theorem sub_matrix_keep_rows (m : matrix T) (ci : Nat) (hci : ci < m._cols) :
    (m.sub_matrix_erasing_row_col (-1) ci)._rows = m._rows ∧
    (m.sub_matrix_erasing_row_col (-1) ci)._cols = m._cols - 1 ∧
    (m.sub_matrix_erasing_row_col (-1) ci)._rowSwapsCount = 0 ∧
    (m.sub_matrix_erasing_row_col (-1) ci).well_formed ∧
    ∀ r c, r < m._rows → c < m._cols - 1 →
      (m.sub_matrix_erasing_row_col (-1) ci).get r c = m.get r (if c < ci then c else c + 1) := by
  have h2 : (ci : Int) ≠ -1 := by omega
  have e : m.sub_matrix_erasing_row_col (-1) ci =
      erase_copy m (-1) ci (construct m._rows (m._cols - 1)) := by
    unfold sub_matrix_erasing_row_col
    have c1 : ¬ ((-1 : Int) ≠ -1 ∧ (ci : Int) ≠ -1) := fun h => h.1 rfl
    rw [if_neg c1, if_pos ⟨rfl, h2⟩]
  obtain ⟨k1, k2, k3, k4⟩ := construct_shape (T := T) m._rows (m._cols - 1)
  obtain ⟨a1, a2, a3, a4⟩ := erase_outer_keep_row m (construct m._rows (m._cols - 1)) k4 hci
    k1 k2 m._rows (le_refl _)
  rw [e]
  refine ⟨a2.1.trans k1, a2.2.1.trans k2, a3.trans k3, same_shape_wf a2 k4, ?_⟩
  intro r c hr hc
  have := a4 r c (by rw [k2]; exact hc)
  unfold erase_copy
  rw [this, if_pos hr]

/-- Deleting only row `ri` (column sentinel `-1`): a fresh `(rows-1) × cols` matrix. -/
theorem sub_matrix_keep_cols (m : matrix T) (ri : Nat) (hri : ri < m._rows) :
    (m.sub_matrix_erasing_row_col ri (-1))._rows = m._rows - 1 ∧
    (m.sub_matrix_erasing_row_col ri (-1))._cols = m._cols ∧
    (m.sub_matrix_erasing_row_col ri (-1))._rowSwapsCount = 0 ∧
    (m.sub_matrix_erasing_row_col ri (-1)).well_formed ∧
    ∀ r c, r < m._rows - 1 → c < m._cols →
      (m.sub_matrix_erasing_row_col ri (-1)).get r c = m.get (if r < ri then r else r + 1) c := by
  have h1 : (ri : Int) ≠ -1 := by omega
  have e : m.sub_matrix_erasing_row_col ri (-1) =
      erase_copy m ri (-1) (construct (m._rows - 1) m._cols) := by
    unfold sub_matrix_erasing_row_col
    have c1 : ¬ ((ri : Int) ≠ -1 ∧ (-1 : Int) ≠ -1) := fun h => h.2 rfl
    have c2 : ¬ ((ri : Int) = -1 ∧ (-1 : Int) ≠ -1) := fun h => h.2 rfl
    rw [if_neg c1, if_neg c2, if_pos ⟨h1, rfl⟩]
  obtain ⟨k1, k2, k3, k4⟩ := construct_shape (T := T) (m._rows - 1) m._cols
  obtain ⟨a1, a2, a3, a4⟩ := erase_outer_keep_col m (construct (m._rows - 1) m._cols) k4 hri
    k1 k2 m._rows (le_refl _)
  rw [e]
  refine ⟨a2.1.trans k1, a2.2.1.trans k2, a3.trans k3, same_shape_wf a2 k4, ?_⟩
  intro r c hr hc
  have := a4 r c (by rw [k2]; exact hc)
  unfold erase_copy
  rw [this, if_pos hri]
  rw [if_pos hr]

/-- With the sentinel `-1` for both axes the receiver itself is returned. -/
theorem sub_matrix_keep_all (m : matrix T) : m.sub_matrix_erasing_row_col (-1) (-1) = m := by
  unfold sub_matrix_erasing_row_col
  have c1 : ¬ ((-1 : Int) ≠ -1 ∧ (-1 : Int) ≠ -1) := fun h => h.1 rfl
  have c2 : ¬ ((-1 : Int) = -1 ∧ (-1 : Int) ≠ -1) := fun h => h.2 rfl
  have c3 : ¬ ((-1 : Int) ≠ -1 ∧ (-1 : Int) = -1) := fun h => h.1 rfl
  rw [if_neg c1, if_neg c2, if_neg c3]

end matrix
end vmatrixlib

namespace vmatrixlib
set_option linter.unusedSectionVars false
namespace matrix
variable {T : Type} [Field T] [BEq T]

/-! ### The writes of the first loop of `col_space()` -/

/-- The counter of the first loop of `col_space()`: the number of rows in which the scan
finds an entry equal to one. -/
theorem dep_vars_count_eq (r : matrix T) (rows cols : Nat) :
    (dep_vars r rows cols).2 =
      count_below (fun i => decide (first_from (fun j => r.get i j == 1) 0 cols ≠ cols))
        rows := by
  unfold dep_vars
  induction rows with
  | zero => rfl
  | succ n ih =>
    rw [for_loop, count_below]
    dsimp only
    by_cases hp : first_from (fun j => r.get n j == 1) 0 cols ≠ cols
    · rw [if_pos hp, ih]
      simp only [hp, ne_eq, not_false_eq_true, decide_True, if_true]
    · rw [if_neg hp, ih]
      simp only [hp, decide_False, Bool.false_eq_true, if_false, add_zero]

/-- The writes of the first loop of `col_space()` go to the indices `0, 1, ...` below the
final counter, in this order. -/
theorem dep_vars_writes_eq (r : matrix T) (rows cols : Nat) :
    dep_vars_writes r rows cols =
      (List.range (dep_vars r rows cols).2, (dep_vars r rows cols).2) := by
  rw [dep_vars_count_eq]
  unfold dep_vars_writes
  induction rows with
  | zero => rfl
  | succ n ih =>
    rw [for_loop, count_below]
    dsimp only
    by_cases hp : first_from (fun j => r.get n j == 1) 0 cols ≠ cols
    · rw [if_pos hp, ih]
      simp only [hp, ne_eq, not_false_eq_true, decide_True, if_true, List.range_succ]
    · rw [if_neg hp, ih]
      simp only [hp, decide_False, Bool.false_eq_true, if_false, add_zero]

end matrix
end vmatrixlib

namespace vmatrixlib
set_option linter.unusedSectionVars false
namespace matrix
variable {T : Type} [Field T] [DecidableEq T] [BEq T] [LawfulBEq T]

/-! ### The engine over an element type whose comparison is exact -/

/-- The inverse computed for a fresh (counter zero) well-formed square matrix with non-zero
`determinant()`: a fresh well-formed matrix whose entries form a right inverse. -/
theorem compute_inverse_fresh (n : Nat) (A : matrix T) (hwf : A.well_formed) (hr : A._rows = n)
    (hc : A._cols = n) (hs : A._rowSwapsCount = 0) (hd : A.determinant ≠ .ok 0) :
    (mat_of n A).det ≠ 0 ∧
    ∃ inv, A.compute_inverse = .ok inv ∧ inv._rows = n ∧ inv._cols = n ∧
      inv._rowSwapsCount = 0 ∧ inv.well_formed ∧ mat_of n A * mat_of n inv = 1 := by
  have hdet : A.determinant = .ok (mat_of n A).det := determinant_fresh n A hwf hr hc hs
  have hd0 : (mat_of n A).det ≠ 0 := by
    intro h
    rw [h] at hdet
    exact hd hdet
  obtain ⟨inv, h1, h2, h3, h4, h5, h6⟩ := compute_inverse_spec n A hr hc _ hdet hd0
  refine ⟨hd0, inv, h1, h2, h3, h4, h5, ?_⟩
  rw [mat_of_adjugate_div A inv _ h6]
  exact mul_adjugate_div _ hd0

/-- With an exact comparison: on a well-formed square `n × n` matrix whose row-swap counter is zero,
`determinant()` returns the Leibniz determinant of the entries, whichever branch runs
(size one, size two, already triangular, or triangularized first). -/
theorem determinant_leibniz_lawful (n : Nat) (A : matrix T) (hwf : A.well_formed)
    (hr : A._rows = n) (hc : A._cols = n) (hs : A._rowSwapsCount = 0) :
    A.determinant = .ok (leibniz_det n A) := by
  rw [leibniz_det_eq]
  exact determinant_fresh n A hwf hr hc hs

/-- With an exact comparison: for a well-formed square matrix `A` with row-swap counter zero and `determinant()`
different from zero, `compute_inverse()` returns a matrix `inv` and the product `A * inv` is
the identity matrix of the same size; in particular the inverse of an identity matrix (of any
size, so also 3 × 3) is that identity matrix. -/
theorem compute_inverse_right_inverse_lawful (n : Nat) (A : matrix T) (hwf : A.well_formed)
    (hr : A._rows = n) (hc : A._cols = n) (hs : A._rowSwapsCount = 0)
    (hd : A.determinant ≠ .ok 0) :
    (∃ inv e, A.compute_inverse = .ok inv ∧ A.mul inv = .ok e ∧
      (construct n n).make_identity = .ok e) ∧
    (∀ k (e : matrix T), (construct k k).make_identity = .ok e → e.compute_inverse = .ok e) := by
  constructor
  · obtain ⟨_, inv, h1, h2, h3, h4, h5, h6⟩ := compute_inverse_fresh n A hwf hr hc hs hd
    obtain ⟨p, hp, p1, p2, p3, p4, p5⟩ := mul_spec A inv (h2.trans hc.symm)
    obtain ⟨k1, k2, k3, k4⟩ := construct_shape (T := T) n n
    obtain ⟨e, he, e1, e2, e3, e4, e5⟩ := make_identity_spec (construct n n) k4 n k1 k2
    refine ⟨inv, e, h1, ?_, he⟩
    rw [hp]
    congr 1
    apply mat_of_ext p4 e4 (p1.trans hr) (p2.trans h3) e1 e2 (p3.trans e3.symm)
    rw [mat_of_mul n A inv p hc (fun r c hr1 hc1 => p5 r c (by omega) (by omega)), h6, e5]
  · intro k e he
    obtain ⟨k1, k2, k3, k4⟩ := construct_shape (T := T) k k
    obtain ⟨e0, he0, e1, e2, e3, e4, e5⟩ := make_identity_spec (construct k k) k4 k k1 k2
    have : e = e0 := by
      rw [he] at he0
      exact Except.ok.inj he0
    subst this
    have hdet : e.determinant = .ok 1 := by
      rw [determinant_eq k e e4 e1 e2, e3, e5, Matrix.det_one]
      by_cases h : k = 1 ∨ k = 2
      · rw [if_pos h]
      · rw [if_neg h, pow_zero, one_mul]
    obtain ⟨inv, h1, h2, h3, h4, h5, h6⟩ := compute_inverse_spec k e e1 e2 1 hdet one_ne_zero
    rw [h1]
    congr 1
    apply mat_of_ext h5 e4 h2 h3 e1 e2 (h4.trans e3.symm)
    rw [mat_of_adjugate_div e inv 1 h6, e5, Matrix.adjugate_one, inv_one, one_smul]

/-- With an exact comparison: for a freshly constructed (no row swaps recorded) well-formed square matrix `A` with
`determinant()` different from zero, both inversions succeed and
`compute_inverse(compute_inverse(A))` compares equal to `A` under `operator==`. -/
theorem compute_inverse_involutive_lawful (n : Nat) (A : matrix T) (hwf : A.well_formed)
    (hr : A._rows = n) (hc : A._cols = n) (hs : A._rowSwapsCount = 0)
    (hd : A.determinant ≠ .ok 0) :
    ∃ inv inv2, A.compute_inverse = .ok inv ∧ inv.compute_inverse = .ok inv2 ∧
      inv2.eq A = true := by
  obtain ⟨hd0, inv, h1, h2, h3, h4, h5, h6⟩ := compute_inverse_fresh n A hwf hr hc hs hd
  have hdet2 : (mat_of n inv).det ≠ 0 := by
    intro h
    have := congrArg Matrix.det h6
    rw [Matrix.det_mul, h, mul_zero, Matrix.det_one] at this
    exact zero_ne_one this
  have hd2 : inv.determinant ≠ .ok 0 := by
    rw [determinant_fresh n inv h5 h2 h3 h4]
    intro h
    exact hdet2 (Except.ok.inj h)
  obtain ⟨_, inv2, g1, g2, g3, g4, g5, g6⟩ := compute_inverse_fresh n inv h5 h2 h3 h4 hd2
  refine ⟨inv, inv2, h1, g1, ?_⟩
  rw [eq_iff]
  have hmat : mat_of n inv2 = mat_of n A := by
    have e1 := Matrix.inv_eq_right_inv g6
    have e2 := Matrix.inv_eq_right_inv ((Matrix.mul_eq_one_comm).1 h6)
    rw [← e1, e2]
  refine ⟨g2.trans hr.symm, g3.trans hc.symm, ?_⟩
  intro r c hr1 hc1
  exact congrFun (congrFun hmat ⟨r, by omega⟩) ⟨c, by omega⟩

/-- With an exact comparison: `swap_rows(i, j)` with `i ≠ j` negates the Leibniz determinant of the entries
of a well-formed square matrix; the value returned by `determinant()` is negated for size two
and is unchanged for every larger size, where the incremented swap counter flips the sign
back. -/
theorem swap_rows_determinant_lawful (n : Nat) (A : matrix T) (hwf : A.well_formed) (hr : A._rows = n)
    (hc : A._cols = n) (i j : Nat) (hi : i < n) (hj : j < n) (hij : i ≠ j) :
    leibniz_det n (A.swap_rows i j) = -leibniz_det n A ∧
    ∃ d, A.determinant = .ok d ∧
      (A.swap_rows i j).determinant = .ok (if n = 2 then -d else d) := by
  have hs := swap_rows_same_shape A i j
  have hdet : (mat_of n (A.swap_rows i j)).det = -(mat_of n A).det := by
    have := det_pivot_swap n A (A.swap_rows i j) (i := i) (k := j) hi hj (by
      intro r c hcn
      rw [get_swap_rows A hwf (by omega) (by omega) r c (by omega)])
    rw [this, if_pos (Ne.symm hij)]
    ring
  refine ⟨by rw [leibniz_det_eq, leibniz_det_eq, hdet], _, determinant_eq n A hwf hr hc, ?_⟩
  rw [determinant_eq n (A.swap_rows i j) (same_shape_wf hs hwf) (by rw [hs.1]; exact hr)
    (by rw [hs.2.1]; exact hc), swap_rows_count, hdet]
  have h1 : n ≠ 1 := by omega
  by_cases h2 : n = 2
  · have c1 : n = 1 ∨ n = 2 := Or.inr h2
    rw [if_pos c1, if_pos c1, if_pos h2]
  · have c1 : ¬ (n = 1 ∨ n = 2) := by omega
    rw [if_neg c1, if_neg c1, if_neg h2, pow_succ]
    congr 1
    ring

/-- With an exact comparison: for well-formed square matrices `A` and `B` of the same size `n`, the product
exists and `determinant(A * B) = determinant(A) * determinant(B)` when `n` is one or two; for
every other size `determinant(A * B) = (-1) ^ (cA + cB) * (determinant(A) * determinant(B))`
with `cA`, `cB` the two row-swap counters, so the equation of the claim holds whenever
`cA + cB` is even, in particular for freshly constructed operands. -/
theorem determinant_mul_lawful (n : Nat) (A B : matrix T) (hA : A.well_formed) (hB : B.well_formed)
    (hAr : A._rows = n) (hAc : A._cols = n) (hBr : B._rows = n) (hBc : B._cols = n) :
    ∃ p dA dB dP, A.mul B = .ok p ∧ A.determinant = .ok dA ∧ B.determinant = .ok dB ∧
      p.determinant = .ok dP ∧
      dP = (if n = 1 ∨ n = 2 then dA * dB
        else (-1) ^ (A._rowSwapsCount + B._rowSwapsCount) * (dA * dB)) := by
  obtain ⟨p, hp, p1, p2, p3, p4, p5⟩ := mul_spec A B (hBr.trans hAc.symm)
  have hmat : mat_of n p = mat_of n A * mat_of n B :=
    mat_of_mul n A B p hAc (fun r c h1 h2 => p5 r c (by omega) (by omega))
  refine ⟨p, _, _, _, hp, determinant_eq n A hA hAr hAc, determinant_eq n B hB hBr hBc,
    determinant_eq n p p4 (p1.trans hAr) (p2.trans hBc), ?_⟩
  rw [p3, hmat, Matrix.det_mul]
  by_cases h : n = 1 ∨ n = 2
  · rw [if_pos h, if_pos h, if_pos h, if_pos h]
  · rw [if_neg h, if_neg h, if_neg h, if_neg h, pow_zero, one_mul, pow_add]
    have e1 : ((-1 : T) ^ A._rowSwapsCount) * ((-1 : T) ^ A._rowSwapsCount) = 1 := by
      rw [← pow_add, ← two_mul]
      exact Even.neg_one_pow (even_two_mul _)
    have e2 : ((-1 : T) ^ B._rowSwapsCount) * ((-1 : T) ^ B._rowSwapsCount) = 1 := by
      rw [← pow_add, ← two_mul]
      exact Even.neg_one_pow (even_two_mul _)
    calc (mat_of n A).det * (mat_of n B).det
        = ((-1 : T) ^ A._rowSwapsCount * (-1 : T) ^ A._rowSwapsCount) *
          ((-1 : T) ^ B._rowSwapsCount * (-1 : T) ^ B._rowSwapsCount) *
          ((mat_of n A).det * (mat_of n B).det) := by rw [e1, e2]; ring
      _ = _ := by ring

/-- With an exact comparison: on a well-formed receiver `compute_inverse()` fails with the
singular-matrix error exactly when the receiver is square and `determinant()` returns a value
that compares equal to zero (as for `[[1,2],[2,4]]`); a non-square receiver makes it fail
with the non-square error; on a square receiver `determinant()` returns a value, and when
that value does not compare equal to zero `compute_inverse()` returns a matrix. -/
theorem compute_inverse_failure_lawful (A : matrix T) (hwf : A.well_formed) :
    (A.compute_inverse = .error .singular_matrix ↔
      (A._rows = A._cols ∧ ∃ d, A.determinant = .ok d ∧ (d == 0) = true)) ∧
    (A._rows ≠ A._cols → A.compute_inverse = .error .non_square) ∧
    (A._rows = A._cols → ∃ d, A.determinant = .ok d ∧
      ((d == 0) = false → ∃ inv, A.compute_inverse = .ok inv)) ∧
    sample_singular.compute_inverse = .error .singular_matrix := by
  have hns : A._rows ≠ A._cols → A.compute_inverse = .error .non_square := by
    intro h
    have hsq : A.is_square = false := by simp [is_square, h]
    have hdet : A.determinant = .error .non_square := by
      unfold determinant
      rw [hsq]
      rfl
    unfold compute_inverse
    rw [hdet]
  have hsing : ∀ d, A.determinant = .ok d → (d == 0) = true →
      A.compute_inverse = .error .singular_matrix := by
    intro d h hd
    unfold compute_inverse
    rw [h]
    dsimp only
    rw [if_pos hd]
  have hok : A._rows = A._cols → ∃ d, A.determinant = .ok d ∧
      ((d == 0) = false → ∃ inv, A.compute_inverse = .ok inv) := by
    intro hsq
    have hdet := determinant_eq A._cols A hwf hsq rfl
    refine ⟨_, hdet, ?_⟩
    intro hd
    obtain ⟨inv, h1, _⟩ := compute_inverse_spec A._cols A hsq rfl _ hdet (by
      intro h
      rw [h, beq_self_eq_true] at hd
      cases hd)
    exact ⟨inv, h1⟩
  refine ⟨⟨?_, fun h => ?_⟩, hns, hok, by decide!⟩
  · intro h
    by_cases hsq : A._rows = A._cols
    · obtain ⟨d, hd, hinv⟩ := hok hsq
      refine ⟨hsq, d, hd, ?_⟩
      by_contra hne
      obtain ⟨inv, hi⟩ := hinv (by simpa using hne)
      rw [hi] at h
      cases h
    · rw [hns hsq] at h
      cases h
  · obtain ⟨_, d, hd, hd0⟩ := h
    exact hsing d hd hd0

/-- With an exact comparison: for every well-formed matrix with at least two rows and two columns, `rank()`
and `null_space()` both return, and the rank plus the number of columns of the null-space
matrix equals the number of columns of the matrix; `[[1,1],[2,2]]` has rank one and the
one-column null space `(-1, 1)`. -/
theorem rank_nullity_lawful (A : matrix T) (hwf : A.well_formed) (hr : 2 ≤ A._rows)
    (hc : 2 ≤ A._cols) :
    (∃ k N, A.rank = .ok k ∧ A.null_space = .ok N ∧ k + N._cols = A._cols) ∧
    sample_rank_one.rank = .ok 1 ∧
    sample_rank_one.null_space = .ok (of_rows 2 1 [-1, 1]) := by
  refine ⟨?_, by decide!, by decide!⟩
  obtain ⟨t, R, ht, hR, hs, het, hsR, _, _, hl, hred⟩ := row_reduce_spec A hwf hr hc
  obtain ⟨N, hN, hNc⟩ := null_space_cols A R hR
  refine ⟨_, N, rank_spec A t ht het, hN, ?_⟩
  rw [hNc, indep_vars_count]
  have hfirst : ∀ j, j < A._rows →
      first_from (fun c => R.get j c == 1) 0 A._cols = t.lead j := by
    intro j hj
    rw [← hsR.2.1, first_one_eq_lead R (fun h => (hred j (by rw [hsR.1]; exact hj) h).1)]
    exact hl j hj
  have hcongr : count_below (fun i => decide
      (find_dep_row (dep_vars_rows R A._rows A._cols) A._rows i = A._rows)) A._cols =
      count_below (fun c => decide (∀ j, j < A._rows → t.lead j ≠ c)) A._cols := by
    apply count_below_congr
    intro c hcc
    congr 1
    unfold find_dep_row
    rw [first_from_eq_stop_iff _ _ _ (Nat.zero_le _)]
    apply propext
    constructor
    · intro h j hj hjc
      have h1 := h j (Nat.zero_le _) hj
      rw [dep_vars_rows_get R _ _ j hj, hfirst j hj] at h1
      have c1 : t.lead j ≠ A._cols := by omega
      rw [if_pos c1, hjc] at h1
      simp at h1
    · intro h j _ hj
      rw [dep_vars_rows_get R _ _ j hj, hfirst j hj]
      by_cases c1 : t.lead j ≠ A._cols
      · rw [if_pos c1]
        have := h j hj
        simp only [beq_eq_false_iff_ne, ne_eq, Nat.cast_inj]
        exact this
      · rw [if_neg c1]
        simp only [beq_eq_false_iff_ne, ne_eq]
        omega
  rw [hcongr]
  unfold nonzero_rows
  rw [hs.1, hs.2.1]
  apply free_columns_count
  intro r s h1 h2 h3 h4 h5
  rcases Nat.lt_trichotomy r s with h | h | h
  · have := echelon_strict het h (by rw [hs.1]; exact h2) (by rw [hs.2.1]; exact h4)
    omega
  · exact h
  · have := echelon_strict het h (by rw [hs.1]; exact h1) (by rw [hs.2.1]; exact h3)
    omega

/-- With an exact comparison: for every well-formed matrix that does not consist of a single column of two
or more rows, `make_triangular()` returns a matrix that satisfies `has_row_echelon_form()`:
the leading entry of each non-zero row lies strictly to the right of the leading entry of the
row above, and every entry below a leading entry in its column is zero. -/
theorem make_triangular_echelon_lawful (A : matrix T) (hwf : A.well_formed)
    (h : A._cols ≠ 1 ∨ A._rows ≤ 1) :
    ∃ t, A.make_triangular = .ok t ∧ t.has_row_echelon_form = true ∧
      (∀ r, r + 1 < t._rows → t.lead (r + 1) < t._cols → t.lead r < t.lead (r + 1)) ∧
      (∀ r r2, r < r2 → r2 < t._rows → t.lead r < t._cols → t.get r2 (t.lead r) = 0) := by
  obtain ⟨t, ht, hs, he⟩ := make_triangular_ok A hwf
  have hech : t.echelon := by
    by_cases h1 : A._rows ≤ 1
    · intro r hr
      rw [hs.1] at hr
      omega
    · exact he (by omega) (by omega)
  refine ⟨t, ht, (has_row_echelon_form_iff t).2 hech, ?_, ?_⟩
  · intro r hr hl
    rcases hech r hr with h1 | h1
    · omega
    · exact h1
  · intro r r2 hlt hr2 hl
    apply lead_zero
    have h1 := echelon_mono hech (r := r + 1) (s := r2) (by omega) hr2
    rcases hech r (by omega) with h2 | h2
    · omega
    · omega

/-- With an exact comparison: on a well-formed matrix over an exact element type the matrix left by the elimination
loop of `make_triangular()` passes `has_row_echelon_form()`, so the defensive check never
throws and the method returns a matrix. -/
theorem make_triangular_never_fails_lawful (A : matrix T) (hwf : A.well_formed) :
    (make_triangular_loop A._cols A 0 0).has_row_echelon_form = true ∧
      ∃ t, A.make_triangular = .ok t := by
  refine ⟨(has_row_echelon_form_iff _).2 (make_triangular_loop_echelon A._cols A hwf (le_refl _)),
    ?_⟩
  obtain ⟨t, ht, _⟩ := make_triangular_ok A hwf
  exact ⟨t, ht⟩

/-- With an exact comparison: for every well-formed matrix with at least two rows and two columns, `row_reduce()`
returns a matrix in reduced row-echelon form: it satisfies `has_row_echelon_form()`, the
leading entry of every non-zero row is one, and that entry is the only non-zero entry of its
column; `[[1,1],[2,2]]` reduces to `[[1,1],[0,0]]`. -/
theorem row_reduce_reduced_echelon_lawful (A : matrix T) (hwf : A.well_formed) (hr : 2 ≤ A._rows)
    (hc : 2 ≤ A._cols) :
    (∃ R, A.row_reduce = .ok R ∧ R._rows = A._rows ∧ R._cols = A._cols ∧
      R.has_row_echelon_form = true ∧
      ∀ r, r < R._rows → R.lead r < R._cols →
        R.get r (R.lead r) = 1 ∧ ∀ q, q < R._rows → q ≠ r → R.get q (R.lead r) = 0) ∧
    sample_rank_one.row_reduce = .ok (of_rows 2 2 [1, 1, 0, 0]) := by
  refine ⟨?_, by decide!⟩
  obtain ⟨t, R, _, hR, _, _, hsR, _, heR, _, hred⟩ := row_reduce_spec A hwf hr hc
  exact ⟨R, hR, hsR.1, hsR.2.1, (has_row_echelon_form_iff R).2 heR, hred⟩

/-- With an exact comparison: on every well-formed matrix `A` with at least one column or at most one row (the
matrices on which the sweep of `row_reduce()` reads inside the matrix), `row_reduce()`
succeeds, and applied to its own result `R` it returns a matrix that `operator==` accepts as
equal to `R` (it is `R` itself, with the same row-swap counter). -/
theorem row_reduce_idempotent_lawful (A : matrix T) (hwf : A.well_formed)
    (hc : A._cols ≠ 0 ∨ A._rows ≤ 1) :
    ∃ R R2, A.row_reduce = .ok R ∧ R.row_reduce = .ok R2 ∧ R2.eq R = true ∧ R2 = R := by
  obtain ⟨R, h1, h2, _, _⟩ := row_reduce_twice A hwf hc
  refine ⟨R, R, h1, h2, ?_, rfl⟩
  rw [eq_iff]
  exact ⟨rfl, rfl, fun _ _ _ _ => rfl⟩

/-- With an exact comparison: for every well-formed matrix `A` with at least two rows and two columns,
`null_space()` returns a matrix `N` with one row per column of `A`, and the product `A * N`
is the matrix of zeros with the rows of `A` and the columns of `N`; for `[[1,1],[2,2]]` the
null space is the single column `(-1, 1)`. -/
theorem null_space_annihilated_lawful (A : matrix T) (hwf : A.well_formed) (hr : 2 ≤ A._rows)
    (hc : 2 ≤ A._cols) :
    (∃ N P, A.null_space = .ok N ∧ A.mul N = .ok P ∧ P._rows = A._rows ∧
      P._cols = N._cols ∧ (∀ i j, i < A._rows → j < N._cols → P.get i j = 0) ∧
      P = construct A._rows N._cols) ∧
    sample_rank_one.null_space = .ok (of_rows 2 1 [-1, 1]) ∧
    sample_rank_one.mul (of_rows 2 1 [-1, 1]) = .ok (of_rows 2 1 [0, 0]) := by
  refine ⟨?_, by decide!, by decide!⟩
  obtain ⟨N, P, h1, _, h3, h4⟩ := null_space_product A hwf hr hc
  refine ⟨N, P, h1, h3, ?_, ?_, ?_, h4⟩
  · rw [h4]; rfl
  · rw [h4]; rfl
  · intro i j _ _
    rw [h4, get_construct]

/-- With an exact comparison: for every well-formed matrix `A` with at least two rows and two columns, with `R`
the result of `row_reduce()` and `k` the result of `rank()`: the non-zero rows of `R` are
its first `k` rows, their leading columns `p_0 < p_1 < ...` (each holding a leading one)
increase strictly, `col_space()` returns a matrix with the rows of `A` and `k` columns whose
column `j` is column `p_j` of `A`, and the matrix stored through the optional argument is
the `k × 1` column listing `p_0, p_1, ...`. -/
theorem col_space_pivot_columns_lawful (A : matrix T) (hwf : A.well_formed) (hr : 2 ≤ A._rows)
    (hc : 2 ≤ A._cols) :
    (∃ R k C P, A.row_reduce = .ok R ∧ A.rank = .ok k ∧ A.col_space = .ok (C, P) ∧
      C._rows = A._rows ∧ C._cols = k ∧ P._rows = k ∧ P._cols = 1 ∧
      (∀ r, r < A._rows → (R.lead r < A._cols ↔ r < k)) ∧
      (∀ j, j + 1 < k → R.lead j < R.lead (j + 1)) ∧
      (∀ j, j < k → R.lead j < A._cols ∧ R.get j (R.lead j) = 1 ∧
        P.get j 0 = ((R.lead j : Nat) : T) ∧
        ∀ i, i < A._rows → C.get i j = A.get i (R.lead j))) ∧
    sample3x4.col_space = .ok (of_rows 3 2 [0, 1, 0, 2, 1, 3], of_rows 2 1 [0, 2]) := by
  refine ⟨?_, by decide!⟩
  obtain ⟨t, R, ht, hR, hs, het, hsR, _, heR, hl, hredR⟩ := row_reduce_spec A hwf hr hc
  have hred : R.reduced := ⟨heR, hredR⟩
  obtain ⟨C, P, hC, c1, c2, c3, c4, c5, c6⟩ := col_space_entries A R hR
  have hk : t.nonzero_rows t._rows = R.nonzero_rows R._rows := by
    unfold nonzero_rows
    rw [hs.1, hsR.1]
    apply count_below_congr
    intro i hi
    rw [hl i hi, hs.2.1, hsR.2.1]
  rw [← hsR.1, ← hsR.2.1] at c2 c3 c5 c6
  obtain ⟨d1, d2⟩ := dep_vars_reduced R hred
  rw [d1] at c2 c3 c5 c6
  have hpre : ∀ r, r < A._rows → (R.lead r < A._cols ↔ r < R.nonzero_rows R._rows) := by
    intro r h
    rw [← hsR.2.1]
    exact echelon_nonzero_first R heR (by rw [hsR.1]; exact h)
  have hkr : R.nonzero_rows R._rows ≤ A._rows := by
    rw [← hsR.1]
    exact count_below_le _ _
  refine ⟨R, R.nonzero_rows R._rows, C, P, hR, ?_, hC, c1, c2, c3, c4, hpre, ?_, ?_⟩
  · rw [rank_spec A t ht het, hk]
  · intro j hj
    have h1 : j + 1 < R._rows := by rw [hsR.1]; omega
    have h2 := (hpre (j + 1) (by omega)).2 hj
    exact echelon_strict heR (Nat.lt_succ_self j) h1 (by rw [hsR.2.1]; exact h2)
  · intro j hj
    have h1 : j < A._rows := by omega
    have h2 := (hpre j h1).2 hj
    refine ⟨h2, (hredR j (by rw [hsR.1]; exact h1) (by rw [hsR.2.1]; exact h2)).1, ?_, ?_⟩
    · rw [c6 j hj, d2 j hj]
    · intro i hi
      rw [c5 i j (by rw [hsR.1]; exact hi) hj, d2 j hj]

/-- With an exact comparison: the scan of `has_row_echelon_form()` ends (within `rows * (cols + 1) + 1`
iterations) with the value of the test, and the test is true exactly when every zero row is
followed by zero rows only and the leading entry of every non-zero row below the first lies
strictly to the right of the leading entry of the row above, which is then non-zero. -/
theorem has_row_echelon_form_decides_lawful (m : matrix T) :
    has_row_echelon_form_scan m (m._rows * (m._cols + 1) + 1) 0 0 true =
      some m.has_row_echelon_form ∧
    (m.has_row_echelon_form = true ↔ m.row_echelon_shape) :=
  ⟨scan_has_row_echelon_form m, (has_row_echelon_form_iff m).trans (echelon_iff_shape m)⟩

/-- Apart from a single column of two or more rows, the counter of the first loop of
`col_space()` stays within the number of columns. -/
theorem dep_vars_count_le_lawful (A R : matrix T) (hwf : A.well_formed)
    (h : A._rows ≤ 1 ∨ A._cols ≠ 1) (hR : A.row_reduce = .ok R) :
    (dep_vars R A._rows A._cols).2 ≤ A._cols := by
  by_cases h0 : A._cols = 0
  · rw [dep_vars_count_eq, h0]
    have hz : ∀ n, count_below (fun i => decide (first_from (fun j => R.get i j == 1) 0 0 ≠ 0))
        n = 0 := by
      intro n
      induction n with
      | zero => rfl
      | succ n ih =>
        rw [count_below, ih, first_from_ge _ 0 0 (le_refl _)]
        simp
    rw [hz]
  · by_cases h1 : A._rows ≤ 1
    · rw [dep_vars_count_eq]
      have := count_below_le (fun i => decide (first_from (fun j => R.get i j == 1) 0
        A._cols ≠ A._cols)) A._rows
      omega
    · obtain ⟨t, R2, _, hR2, _, _, hsR, _, heR, _, hredR⟩ :=
        row_reduce_spec A hwf (by omega) (by omega)
      rw [hR] at hR2
      have e : R = R2 := Except.ok.inj hR2
      rw [← e] at hsR heR hredR
      have hred : R.reduced := ⟨heR, hredR⟩
      rw [← hsR.1, ← hsR.2.1, (dep_vars_reduced R hred).1]
      exact nonzero_rows_le_cols R heR

end matrix
end vmatrixlib

namespace vmatrixlib
set_option linter.unusedSectionVars false
namespace matrix
variable {T : Type} [Field T] [DecidableEq T] [BEq T]

/-! ### Exact comparisons -/

/-- An exact comparison is a lawful one. -/
theorem lawful_of_exact (hex : exact_comparison T) : LawfulBEq T :=
  { eq_of_beq := fun {a b} h => (hex a b).1 h, rfl := fun {a} => (hex a a).2 rfl }

end matrix
end vmatrixlib

namespace vmatrixlib
set_option linter.unusedSectionVars false
namespace matrix

/-! ### The errors of `determinant()` and `compute_inverse()`, for any comparison -/

/-- An error of a loop whose body may throw is an error of one of its iterations. -/
theorem for_loop_except_error {σ ε : Type} (body : Nat → σ → Except ε σ) (P : ε → Prop)
    (hbody : ∀ i s e, body i s = .error e → P e) (n : Nat) (s : σ) (e : ε)
    (h : for_loop_except body n s = .error e) : P e := by
  induction n generalizing e with
  | zero => cases h
  | succ n ih =>
    change (match for_loop_except body n s with
      | .ok s1 => body n s1
      | .error e => .error e) = .error e at h
    cases hn : for_loop_except body n s with
    | error e1 =>
      rw [hn] at h
      rw [← Except.error.inj h]
      exact ih e1 hn
    | ok s1 =>
      rw [hn] at h
      exact hbody n s1 e h

variable {T : Type} [Field T] [BEq T]

/-- The method `determinant()` fails only with the non-square error or with the error of
`make_triangular()`, and it returns a value on square receivers only. -/
theorem determinant_error (A : matrix T) :
    (∀ e, A.determinant = .error e → e = .non_square ∨ e = .calc_error) ∧
    (∀ d, A.determinant = .ok d → A._rows = A._cols) := by
  have hdp : ∀ (m : matrix T) e, m.diagonal_product = .error e → e = .non_square := by
    intro m e h
    unfold diagonal_product at h
    split at h
    · cases h
      rfl
    · cases h
  have hmt : ∀ (m : matrix T) e, m.make_triangular = .error e → e = .calc_error := by
    intro m e h
    unfold make_triangular at h
    split at h
    · cases h
    · dsimp only at h
      split at h
      · cases h
        rfl
      · cases h
  constructor
  · intro e h
    unfold determinant at h
    split at h
    · cases h
      exact Or.inl rfl
    · split at h
      · cases h
      · split at h
        · cases h
        · split at h
          · cases hd : A.diagonal_product with
            | error e1 =>
              rw [hd] at h
              rw [← Except.error.inj h]
              exact Or.inl (hdp A e1 hd)
            | ok d =>
              rw [hd] at h
              cases h
          · cases ht : A.make_triangular with
            | error e1 =>
              rw [ht] at h
              rw [← Except.error.inj h]
              exact Or.inr (hmt A e1 ht)
            | ok t =>
              rw [ht] at h
              dsimp only at h
              cases hd : t.diagonal_product with
              | error e1 =>
                rw [hd] at h
                rw [← Except.error.inj h]
                exact Or.inl (hdp t e1 hd)
              | ok d =>
                rw [hd] at h
                cases h
  · intro d h
    unfold determinant at h
    by_cases hsq : A.is_square = true
    · simpa [is_square] using hsq
    · rw [if_pos (by simpa using hsq)] at h
      cases h

/-- For any comparison of the element type: `compute_inverse()` fails with the
singular-matrix error exactly when the receiver is square and `determinant()` returns a value
that compares equal to zero, and it fails with the non-square error on a receiver that is
not square. -/
theorem compute_inverse_errors (A : matrix T) :
    (A.compute_inverse = .error .singular_matrix ↔
      (A._rows = A._cols ∧ ∃ d, A.determinant = .ok d ∧ (d == 0) = true)) ∧
    (A._rows ≠ A._cols → A.compute_inverse = .error .non_square) := by
  have hns : A._rows ≠ A._cols → A.compute_inverse = .error .non_square := by
    intro h
    have hsq : A.is_square = false := by simp [is_square, h]
    have hdet : A.determinant = .error .non_square := by
      unfold determinant
      rw [hsq]
      rfl
    unfold compute_inverse
    rw [hdet]
  refine ⟨⟨?_, ?_⟩, hns⟩
  · intro h
    unfold compute_inverse at h
    cases hd : A.determinant with
    | error e1 =>
      rw [hd] at h
      have he := Except.error.inj h
      rcases (determinant_error A).1 _ hd with h1 | h1 <;> rw [h1] at he <;> cases he
    | ok d =>
      rw [hd] at h
      dsimp only at h
      by_cases hz : (d == 0) = true
      · exact ⟨(determinant_error A).2 d hd, d, rfl, hz⟩
      · rw [if_neg hz] at h
        exfalso
        cases hc : A.cofactor_matrix with
        | error e1 =>
          rw [hc] at h
          have he := Except.error.inj h
          have hP : e1 = .non_square ∨ e1 = .calc_error := by
            unfold cofactor_matrix at hc
            refine for_loop_except_error _ (fun e => e = .non_square ∨ e = .calc_error)
              ?_ _ _ _ hc
            intro i r1 e hi
            refine for_loop_except_error _ (fun e => e = .non_square ∨ e = .calc_error)
              ?_ _ _ _ hi
            intro j r2 e2 hj
            cases hs : (A.sub_matrix_erasing_row_col i j).determinant with
            | error e3 =>
              rw [hs] at hj
              rw [← Except.error.inj hj]
              exact (determinant_error _).1 _ hs
            | ok d3 =>
              rw [hs] at hj
              cases hj
          rcases hP with h1 | h1 <;> rw [h1] at he <;> cases he
        | ok res =>
          rw [hc] at h
          dsimp only at h
          cases ht : res.in_place_transpose with
          | error e1 =>
            rw [ht] at h
            have he := Except.error.inj h
            unfold in_place_transpose at ht
            split at ht
            · rw [← Except.error.inj ht] at he
              cases he
            · cases ht
          | ok r1 =>
            rw [ht] at h
            cases h
  · rintro ⟨_, d, hd, hz⟩
    unfold compute_inverse
    rw [hd]
    dsimp only
    rw [if_pos hz]

end matrix
end vmatrixlib

namespace vmatrixlib
set_option linter.unusedSectionVars false
namespace matrix
variable {T : Type} [Field T] [DecidableEq T] [BEq T]

/-! ### The claims on determinants and inverses -/

/-- C1 fails as stated for the exact values of the element type of `vmatrix`: the matrix
`[[1, 10^17, 0], [1/10^18, 1, 0], [0, 0, 1]]` (counter zero) passes `is_upper_triangular()`,
because `1/10^18 != 0` is false within the tolerance of `operator==`, so `determinant()`
returns the diagonal product `1`, while the Leibniz determinant is `9/10`, which does not
compare equal to `1`. -/
theorem determinant_leibniz_counterexample :
    near_upper3.well_formed ∧ near_upper3._rows = 3 ∧ near_upper3._cols = 3 ∧
    near_upper3._rowSwapsCount = 0 ∧ (((1 : exact_frac) / 10 ^ 18) != 0) = false ∧
    near_upper3.is_upper_triangular = true ∧ near_upper3.determinant = .ok 1 ∧
    leibniz_det 3 near_upper3 = 9 / 10 ∧ ((1 : exact_frac) == 9 / 10) = false :=
  ⟨rfl, by decide!⟩

/-- C1, amended: over an element type whose comparison is exact, on a well-formed square
`n × n` matrix whose row-swap counter is zero `determinant()` returns the Leibniz determinant
of the entries, whichever branch runs (size one, size two, already triangular, or
triangularized first). -/
theorem determinant_leibniz (hex : exact_comparison T) (n : Nat) (A : matrix T)
    (hwf : A.well_formed) (hr : A._rows = n) (hc : A._cols = n) (hs : A._rowSwapsCount = 0) :
    A.determinant = .ok (leibniz_det n A) := by
  haveI := lawful_of_exact hex
  exact determinant_leibniz_lawful n A hwf hr hc hs

/-- Witness for C1 (amended): the 3 × 3 sample matrix over the rationals, whose
triangularization swaps two rows. -/
theorem determinant_leibniz_witness :
    exact_comparison ℚ ∧ sample3.well_formed ∧ sample3._rows = 3 ∧ sample3._cols = 3 ∧
      sample3._rowSwapsCount = 0 ∧ sample3.determinant = .ok (leibniz_det 3 sample3) :=
  ⟨fun _ _ => beq_iff_eq, rfl, rfl, rfl, rfl,
    determinant_leibniz (fun _ _ => beq_iff_eq) 3 sample3 rfl rfl rfl rfl⟩

/-- C2 fails as stated for the exact values of the element type of `vmatrix`: for
`A = [[1, 10^17, 0], [1/10^18, 1, 0], [0, 0, 1]]` (counter zero) `determinant()` returns `1`,
which is not zero (the Leibniz determinant `9/10` is not zero either), `compute_inverse()`
returns the adjugate divided by `1`, and the product `A * compute_inverse(A)` is `9/10` times
the identity, which `operator==` tells from the identity. The sum `1/10^18 + (-1/10^18)`
formed for the entry `(1, 0)` of the product is the one step of the run in which a product of
denominators leaves the integer range; `operator+` of `frac` returns the exact zero `0/1` for
it. -/
theorem compute_inverse_right_inverse_counterexample :
    near_upper3.well_formed ∧ near_upper3._rows = 3 ∧ near_upper3._cols = 3 ∧
    near_upper3._rowSwapsCount = 0 ∧ near_upper3.determinant = .ok 1 ∧
    ((1 : exact_frac) == 0) = false ∧ leibniz_det 3 near_upper3 = 9 / 10 ∧
    near_upper3.compute_inverse =
      .ok (of_rows 3 3 [1, -10 ^ 17, 0, -1 / 10 ^ 18, 1, 0, 0, 0, 9 / 10]) ∧
    near_upper3.mul (of_rows 3 3 [1, -10 ^ 17, 0, -1 / 10 ^ 18, 1, 0, 0, 0, 9 / 10]) =
      .ok (of_rows 3 3 [9 / 10, 0, 0, 0, 9 / 10, 0, 0, 0, 9 / 10]) ∧
    (construct 3 3 : matrix exact_frac).make_identity = .ok frac_identity3 ∧
    (of_rows 3 3 [9 / 10, 0, 0, 0, 9 / 10, 0, 0, 0, 9 / 10] : matrix exact_frac).eq
      frac_identity3 = false ∧
    frac.add long_double { num := 1, den := 10 ^ 18, fn := 0 }
      { num := -1, den := 10 ^ 18, fn := 0 } = .ok { num := 0, den := 1, fn := 0 } :=
  ⟨rfl, by decide!⟩

/-- C2, amended: over an element type whose comparison is exact, for a well-formed square
matrix `A` with row-swap counter zero and `determinant()` different from zero,
`compute_inverse()` returns a matrix `inv` and the product `A * inv` is the identity matrix
of the same size; the inverse of an identity matrix (of any size, so also 3 × 3) is that
identity matrix, and so it is for the 3 × 3 identity over the element type of `vmatrix`. -/
theorem compute_inverse_right_inverse (hex : exact_comparison T) (n : Nat) (A : matrix T)
    (hwf : A.well_formed) (hr : A._rows = n) (hc : A._cols = n) (hs : A._rowSwapsCount = 0)
    (hd : A.determinant ≠ .ok 0) :
    (∃ inv e, A.compute_inverse = .ok inv ∧ A.mul inv = .ok e ∧
      (construct n n).make_identity = .ok e) ∧
    (∀ k (e : matrix T), (construct k k).make_identity = .ok e → e.compute_inverse = .ok e) ∧
    frac_identity3.compute_inverse = .ok frac_identity3 := by
  haveI := lawful_of_exact hex
  obtain ⟨h1, h2⟩ := compute_inverse_right_inverse_lawful n A hwf hr hc hs hd
  exact ⟨h1, h2, by decide!⟩

/-- Witness for C2 (amended): the 3 × 3 sample matrix over the rationals (determinant `-4`). -/
theorem compute_inverse_right_inverse_witness :
    exact_comparison ℚ ∧ sample3.well_formed ∧ sample3._rows = 3 ∧ sample3._cols = 3 ∧
    sample3._rowSwapsCount = 0 ∧ sample3.determinant ≠ .ok 0 ∧
    (∃ inv e, sample3.compute_inverse = .ok inv ∧ sample3.mul inv = .ok e ∧
      (construct 3 3).make_identity = .ok e) ∧
    (∀ k (e : matrix ℚ), (construct k k).make_identity = .ok e → e.compute_inverse = .ok e) ∧
    frac_identity3.compute_inverse = .ok frac_identity3 :=
  ⟨fun _ _ => beq_iff_eq, rfl, rfl, rfl, rfl, by decide!,
    compute_inverse_right_inverse (fun _ _ => beq_iff_eq) 3 sample3 rfl rfl rfl rfl
      (by decide!)⟩

/-- C3 fails as stated for the exact values of the element type of `vmatrix`: the fresh matrix
`[[10^9, 0], [0, 10^9]]` has `determinant()` `10^18`, which is not zero, and its inverse is
`[[1/10^9, 0], [0, 1/10^9]]`; the determinant `1/10^18` of that inverse compares equal to
zero within the tolerance of `operator==`, so the second `compute_inverse()` fails with the
singular-matrix error and returns nothing to compare with the matrix. -/
theorem compute_inverse_involutive_counterexample :
    diag_large2.well_formed ∧ diag_large2._rows = 2 ∧ diag_large2._cols = 2 ∧
    diag_large2._rowSwapsCount = 0 ∧ diag_large2.determinant = .ok (10 ^ 18) ∧
    ((10 ^ 18 : exact_frac) == 0) = false ∧
    diag_large2.compute_inverse = .ok (of_rows 2 2 [1 / 10 ^ 9, 0, 0, 1 / 10 ^ 9]) ∧
    (of_rows 2 2 [1 / 10 ^ 9, 0, 0, 1 / 10 ^ 9] : matrix exact_frac).determinant =
      .ok (1 / 10 ^ 18) ∧
    (((1 : exact_frac) / 10 ^ 18) == 0) = true ∧
    (of_rows 2 2 [1 / 10 ^ 9, 0, 0, 1 / 10 ^ 9] : matrix exact_frac).compute_inverse =
      .error .singular_matrix :=
  ⟨rfl, by decide!⟩

/-- C3, amended: over an element type whose comparison is exact, for a freshly constructed
(no row swaps recorded) well-formed square matrix `A` with `determinant()` different from
zero, both inversions succeed and `compute_inverse(compute_inverse(A))` compares equal to `A`
under `operator==`. -/
theorem compute_inverse_involutive (hex : exact_comparison T) (n : Nat) (A : matrix T)
    (hwf : A.well_formed) (hr : A._rows = n) (hc : A._cols = n) (hs : A._rowSwapsCount = 0)
    (hd : A.determinant ≠ .ok 0) :
    ∃ inv inv2, A.compute_inverse = .ok inv ∧ inv.compute_inverse = .ok inv2 ∧
      inv2.eq A = true := by
  haveI := lawful_of_exact hex
  exact compute_inverse_involutive_lawful n A hwf hr hc hs hd

/-- Witness for C3 (amended): the 3 × 3 sample matrix over the rationals. -/
theorem compute_inverse_involutive_witness :
    exact_comparison ℚ ∧ sample3.well_formed ∧ sample3._rows = 3 ∧ sample3._cols = 3 ∧
    sample3._rowSwapsCount = 0 ∧ sample3.determinant ≠ .ok 0 ∧
    ∃ inv inv2, sample3.compute_inverse = .ok inv ∧ inv.compute_inverse = .ok inv2 ∧
      inv2.eq sample3 = true :=
  ⟨fun _ _ => beq_iff_eq, rfl, rfl, rfl, rfl, by decide!,
    compute_inverse_involutive (fun _ _ => beq_iff_eq) 3 sample3 rfl rfl rfl rfl (by decide!)⟩

/-- C4, the code at the failing input: after `swap_rows(0, 1)` on the 3 × 3 identity (over
the element type of `vmatrix`) `determinant()` still returns `1`, not `-1`, although the
Leibniz determinant of the swapped entries is `-1`: the swap raises the row-swap counter of
the receiver, and `determinant()` applies the sign of that counter on top of the swaps it
counts itself. The size-two branch has no such sign and does negate (`[[1,2],[3,4]]`: `-2`
before, `2` after); `compute_inverse()` of the swapped identity returns minus the matrix.
Over an exact comparison, for every well-formed square matrix of size `n` and `i ≠ j`, the
Leibniz determinant is negated by `swap_rows(i, j)`, and the value of `determinant()` is
negated for `n = 2` and unchanged otherwise. -/
theorem swap_rows_determinant_sign :
    frac_identity3.determinant = .ok 1 ∧
    (frac_identity3.swap_rows 0 1).determinant = .ok 1 ∧
    ((1 : exact_frac) == -1) = false ∧
    leibniz_det 3 frac_identity3 = 1 ∧
    leibniz_det 3 (frac_identity3.swap_rows 0 1) = -1 ∧
    frac_sample2.determinant = .ok (-2) ∧
    (frac_sample2.swap_rows 0 1).determinant = .ok 2 ∧
    (frac_identity3.swap_rows 0 1).compute_inverse =
      .ok (of_rows 3 3 [0, -1, 0, -1, 0, 0, 0, 0, -1]) ∧
    (∀ (n : Nat) (A : matrix T) (i j : Nat), exact_comparison T → A.well_formed →
      A._rows = n → A._cols = n → i < n → j < n → i ≠ j →
      leibniz_det n (A.swap_rows i j) = -leibniz_det n A ∧
      ∃ d, A.determinant = .ok d ∧
        (A.swap_rows i j).determinant = .ok (if n = 2 then -d else d)) := by
  refine ⟨by decide!, by decide!, by decide!, by decide!, by decide!, by decide!, by decide!,
    by decide!, ?_⟩
  intro n A i j hex hwf hr hc hi hj hij
  haveI := lawful_of_exact hex
  exact swap_rows_determinant_lawful n A hwf hr hc i j hi hj hij

/-- C5, the code at the failing input: with `A` the 3 × 3 identity after `swap_rows(0, 1)`
(counter one) and `B` the 3 × 3 identity, over the element type of `vmatrix`,
`determinant(A * B)` is `-1` while `determinant(A)` and `determinant(B)` are both `1`: the
value returned for `A`, whose entries have the Leibniz determinant `-1`, carries the sign of
the recorded swap, and the product is a fresh matrix with counter zero. Over an exact
comparison, for well-formed square operands of size `n`, the equation of the claim holds for
`n ≤ 2`, and for larger `n` it holds up to the sign `(-1) ^ (cA + cB)` of the two counters. -/
theorem determinant_mul_swapped_operand :
    ((frac_identity3.swap_rows 0 1).mul frac_identity3).bind determinant = .ok (-1) ∧
    (frac_identity3.swap_rows 0 1).determinant = .ok 1 ∧
    frac_identity3.determinant = .ok 1 ∧
    ((-1 : exact_frac) == 1 * 1) = false ∧
    leibniz_det 3 (frac_identity3.swap_rows 0 1) = -1 ∧
    (frac_identity3.swap_rows 0 1)._rowSwapsCount = 1 ∧
    (∀ (n : Nat) (A B : matrix T), exact_comparison T → A.well_formed → B.well_formed →
      A._rows = n → A._cols = n → B._rows = n → B._cols = n →
      ∃ p dA dB dP, A.mul B = .ok p ∧ A.determinant = .ok dA ∧ B.determinant = .ok dB ∧
        p.determinant = .ok dP ∧
        dP = (if n = 1 ∨ n = 2 then dA * dB
          else (-1) ^ (A._rowSwapsCount + B._rowSwapsCount) * (dA * dB))) := by
  refine ⟨by decide!, by decide!, by decide!, by decide!, by decide!, by decide!, ?_⟩
  intro n A B hex hA hB hAr hAc hBr hBc
  haveI := lawful_of_exact hex
  exact determinant_mul_lawful n A B hA hB hAr hAc hBr hBc

/-- C6, the code at the failing input: the upper triangular matrix
`[[1, 1/10^18, 1, 0], [0, 1, 0, 0], [0, 0, 2, 0], [0, 0, 0, 1]]` (over the element type of
`vmatrix`) is square and `determinant()` returns `2`, which does not compare equal to zero,
yet `compute_inverse()` fails, with the error of `make_triangular()`: the sub-matrix without
row 3 and column 0 is `[[1/10^18, 1, 0], [1, 0, 0], [0, 2, 0]]`, on which the pivot search
takes `1/10^18` for zero and the elimination then leaves `-2/10^18`, which the final check of
`make_triangular()` does not take for zero. The other two parts of the claim hold for every
element type and comparison: the singular-matrix error comes exactly when the receiver is
square and `determinant()` returns a value that compares equal to zero (as for
`[[1,2],[2,4]]`), and a non-square receiver gives the non-square error. Over an exact
comparison, on a well-formed square receiver `determinant()` returns a value, and when that
value does not compare equal to zero `compute_inverse()` returns a matrix. -/
theorem compute_inverse_minor_calc_error :
    near_upper4.well_formed ∧ near_upper4._rows = near_upper4._cols ∧
    near_upper4.determinant = .ok 2 ∧ ((2 : exact_frac) == 0) = false ∧
    near_upper4.sub_matrix_erasing_row_col 3 0 =
      of_rows 3 3 [1 / 10 ^ 18, 1, 0, 1, 0, 0, 0, 2, 0] ∧
    (of_rows 3 3 [1 / 10 ^ 18, 1, 0, 1, 0, 0, 0, 2, 0] : matrix exact_frac).determinant =
      .error .calc_error ∧
    near_upper4.compute_inverse = .error .calc_error ∧
    (∀ A : matrix T,
      (A.compute_inverse = .error .singular_matrix ↔
        (A._rows = A._cols ∧ ∃ d, A.determinant = .ok d ∧ (d == 0) = true)) ∧
      (A._rows ≠ A._cols → A.compute_inverse = .error .non_square)) ∧
    (∀ A : matrix T, exact_comparison T → A.well_formed → A._rows = A._cols →
      ∃ d, A.determinant = .ok d ∧
        ((d == 0) = false → ∃ inv, A.compute_inverse = .ok inv)) ∧
    (of_rows 2 2 [1, 2, 2, 4] : matrix exact_frac).compute_inverse =
      .error .singular_matrix ∧
    sample2x3.compute_inverse = .error .non_square := by
  refine ⟨rfl, by decide!, by decide!, by decide!, by decide!, by decide!, by decide!, ?_, ?_,
    by decide!, by decide!⟩
  · intro A
    exact compute_inverse_errors A
  · intro A hex hwf hsq
    haveI := lawful_of_exact hex
    exact (compute_inverse_failure_lawful A hwf).2.2.1 hsq

end matrix
end vmatrixlib

namespace vmatrixlib
set_option linter.unusedSectionVars false
namespace matrix
variable {T : Type} [Field T] [DecidableEq T] [BEq T]

/-! ### The claims on triangularization, reduction, rank and the two spaces -/

/-- C7, the code at the failing input: on the 1 × 1 matrix `[[2]]` (over the element type of
`vmatrix`) `rank()` returns one and `null_space()` returns the one-column matrix `[[1]]`,
which adds up to two for a matrix of one column; on `[[2, 4]]` the rank is one and the null
space has two columns. `row_reduce()` returns a matrix of a single row (or a single column)
as it is, without dividing by the leading entry, and `null_space()` then looks for an entry
equal to one; on the single column `[[1], [1]]` `rank()` itself stops at its assertion. Over
an exact comparison, for every well-formed matrix with at least two rows and two columns
`rank()` and `null_space()` return and the rank plus the number of columns of the null space
is the number of columns; `[[1,1],[2,2]]` has rank one and the null space `(-1, 1)`. -/
theorem rank_nullity_single_row :
    frac_single2.rank = .ok 1 ∧ frac_single2.row_reduce = .ok frac_single2 ∧
    frac_single2.null_space = .ok (of_rows 1 1 [1]) ∧
    1 + (of_rows 1 1 [1] : matrix exact_frac)._cols ≠ frac_single2._cols ∧
    frac_row24.rank = .ok 1 ∧ frac_row24.row_reduce = .ok frac_row24 ∧
    frac_row24.null_space = .ok (of_rows 2 2 [1, 0, 0, 1]) ∧
    1 + (of_rows 2 2 [1, 0, 0, 1] : matrix exact_frac)._cols ≠ frac_row24._cols ∧
    frac_column11.rank = .error .assertion_failed ∧
    (∀ A : matrix T, exact_comparison T → A.well_formed → 2 ≤ A._rows → 2 ≤ A._cols →
      ∃ k N, A.rank = .ok k ∧ A.null_space = .ok N ∧ k + N._cols = A._cols) ∧
    sample_rank_one.rank = .ok 1 ∧
    sample_rank_one.null_space = .ok (of_rows 2 1 [-1, 1]) := by
  refine ⟨by decide!, by decide!, by decide!, by decide!, by decide!, by decide!, by decide!,
    by decide!, by decide!, ?_, by decide!, by decide!⟩
  intro A hex hwf hr hc
  haveI := lawful_of_exact hex
  exact (rank_nullity_lawful A hwf hr hc).1

/-- C8, the code at the failing input: the single-column matrix `[[0], [1]]` (over the
element type of `vmatrix`) is returned unchanged by `make_triangular()`, whose first line
returns every matrix of a single row or column as it is, and the result does not satisfy
`has_row_echelon_form()`, the condition that the method checks before it returns from its
main path; on `[[1], [1]]` the scan of `rank()`, which runs on that result, stops at its
assertion. Over an exact comparison, for every well-formed matrix that is not a single
column of two or more rows `make_triangular()` returns a matrix that satisfies
`has_row_echelon_form()`: leading entries move strictly to the right, and every entry below
a leading entry is zero. -/
theorem make_triangular_single_column :
    frac_column01.well_formed ∧ frac_column01.make_triangular = .ok frac_column01 ∧
    frac_column01.has_row_echelon_form = false ∧
    frac_column11.make_triangular = .ok frac_column11 ∧
    frac_column11.has_row_echelon_form = false ∧
    (∀ A : matrix T, exact_comparison T → A.well_formed → A._cols ≠ 1 ∨ A._rows ≤ 1 →
      ∃ t, A.make_triangular = .ok t ∧ t.has_row_echelon_form = true ∧
        (∀ r, r + 1 < t._rows → t.lead (r + 1) < t._cols → t.lead r < t.lead (r + 1)) ∧
        (∀ r r2, r < r2 → r2 < t._rows → t.lead r < t._cols → t.get r2 (t.lead r) = 0)) := by
  refine ⟨rfl, by decide!, by decide!, by decide!, by decide!, ?_⟩
  intro A hex hwf h
  haveI := lawful_of_exact hex
  exact make_triangular_echelon_lawful A hwf h

/-- C9, the code at the failing input: on `[[1/10^18, 1], [0, 2]]` (over the element type of
`vmatrix`) `make_triangular()` throws its internal-consistency error. The pivot search skips
column 0, because `1/10^18 != 0` is false within the tolerance of `operator==`; the
elimination in column 1 adds `-2` times row 0 to row 1, which leaves `-2/10^18` in column 0
of row 1, a value that is not within the tolerance; the matrix left by the loop fails
`has_row_echelon_form()`. Over an exact comparison, on every well-formed matrix the matrix
left by the elimination loop passes `has_row_echelon_form()`, so that the check never throws
and the method returns a matrix. -/
theorem make_triangular_calc_error_reached :
    tiny_pivot2.well_formed ∧ (((1 : exact_frac) / 10 ^ 18) != 0) = false ∧
    ((-2 / 10 ^ 18 : exact_frac) != 0) = true ∧
    make_triangular_loop tiny_pivot2._cols tiny_pivot2 0 0 =
      of_rows 2 2 [1 / 10 ^ 18, 1, -2 / 10 ^ 18, 0] ∧
    (make_triangular_loop tiny_pivot2._cols tiny_pivot2 0 0).has_row_echelon_form = false ∧
    tiny_pivot2.make_triangular = .error .calc_error ∧
    (∀ A : matrix T, exact_comparison T → A.well_formed →
      (make_triangular_loop A._cols A 0 0).has_row_echelon_form = true ∧
        ∃ t, A.make_triangular = .ok t) ∧
    (∃ t, sample3.make_triangular = .ok t) := by
  refine ⟨rfl, by decide!, by decide!, by decide!, by decide!, by decide!, ?_, ?_⟩
  · intro A hex hwf
    haveI := lawful_of_exact hex
    exact make_triangular_never_fails_lawful A hwf
  · exact (make_triangular_never_fails_lawful sample3 rfl).2

/-- C10 fails as stated for the exact values of the element type of `vmatrix`:
`[[1/10^18, 2/10^18], [0, 0]]` is reduced to `[[1/2, 1], [0, 0]]`. The candidate pivot
`1/10^18` compares equal to zero, the scan to its right stops at `2/10^18`, which does not,
and the row is divided by that value; the leading entry of row 0 of the result is `1/2` in
column 0, not one. -/
theorem row_reduce_reduced_echelon_counterexample :
    tiny_row2.well_formed ∧ 2 ≤ tiny_row2._rows ∧ 2 ≤ tiny_row2._cols ∧
    (((1 : exact_frac) / 10 ^ 18) == 0) = true ∧ ((2 / 10 ^ 18 : exact_frac) == 0) = false ∧
    tiny_row2.row_reduce = .ok (of_rows 2 2 [1 / 2, 1, 0, 0]) ∧
    (of_rows 2 2 [1 / 2, 1, 0, 0] : matrix exact_frac).lead 0 = 0 ∧
    (of_rows 2 2 [1 / 2, 1, 0, 0] : matrix exact_frac).get 0 0 = 1 / 2 ∧
    ((1 / 2 : exact_frac) == 1) = false :=
  ⟨rfl, by decide!⟩

/-- C10, amended: over an element type whose comparison is exact, for every well-formed
matrix with at least two rows and two columns `row_reduce()` returns a matrix in reduced
row-echelon form: it satisfies `has_row_echelon_form()`, the leading entry of every non-zero
row is one, and that entry is the only non-zero entry of its column; `[[1,1],[2,2]]` reduces
to `[[1,1],[0,0]]`. -/
theorem row_reduce_reduced_echelon (hex : exact_comparison T) (A : matrix T)
    (hwf : A.well_formed) (hr : 2 ≤ A._rows) (hc : 2 ≤ A._cols) :
    (∃ R, A.row_reduce = .ok R ∧ R._rows = A._rows ∧ R._cols = A._cols ∧
      R.has_row_echelon_form = true ∧
      ∀ r, r < R._rows → R.lead r < R._cols →
        R.get r (R.lead r) = 1 ∧ ∀ q, q < R._rows → q ≠ r → R.get q (R.lead r) = 0) ∧
    sample_rank_one.row_reduce = .ok (of_rows 2 2 [1, 1, 0, 0]) := by
  haveI := lawful_of_exact hex
  exact row_reduce_reduced_echelon_lawful A hwf hr hc

/-- Witness for C10 (amended): the 3 × 4 sample matrix over the rationals. -/
theorem row_reduce_reduced_echelon_witness :
    exact_comparison ℚ ∧ sample3x4.well_formed ∧ 2 ≤ sample3x4._rows ∧ 2 ≤ sample3x4._cols ∧
    ∃ R, sample3x4.row_reduce = .ok R ∧ R._rows = sample3x4._rows ∧
      R._cols = sample3x4._cols ∧ R.has_row_echelon_form = true ∧
      ∀ r, r < R._rows → R.lead r < R._cols →
        R.get r (R.lead r) = 1 ∧ ∀ q, q < R._rows → q ≠ r → R.get q (R.lead r) = 0 :=
  ⟨fun _ _ => beq_iff_eq, rfl, by decide, by decide,
    (row_reduce_reduced_echelon (fun _ _ => beq_iff_eq) sample3x4 rfl (by decide)
      (by decide)).1⟩

/-- C11 fails as stated, in two ways. For the exact values of the element type of `vmatrix`,
`[[1/10^18, 2/10^18], [0, 0]]` is reduced to `[[1/2, 1], [0, 0]]`, and reducing that matrix
gives `[[1, 2], [0, 0]]`, which `operator==` tells from it. On a matrix with two rows and no
column `row_reduce()` returns nothing: its sweep reads column `-1` and stops at the assertion
of the checked access. -/
theorem row_reduce_idempotent_counterexample :
    tiny_row2.well_formed ∧
    tiny_row2.row_reduce = .ok (of_rows 2 2 [1 / 2, 1, 0, 0]) ∧
    (of_rows 2 2 [1 / 2, 1, 0, 0] : matrix exact_frac).row_reduce =
      .ok (of_rows 2 2 [1, 2, 0, 0]) ∧
    (of_rows 2 2 [1, 2, 0, 0] : matrix exact_frac).eq (of_rows 2 2 [1 / 2, 1, 0, 0]) = false ∧
    frac_empty2x0.well_formed ∧ frac_empty2x0.row_reduce = .error .assertion_failed :=
  ⟨rfl, by decide!, by decide!, by decide!, rfl, by decide!⟩

/-- C11, amended: over an element type whose comparison is exact, on every well-formed matrix
`A` with at least one column or at most one row `row_reduce()` succeeds, and applied to its
own result `R` it returns a matrix that `operator==` accepts as equal to `R` (it is `R`
itself, with the same row-swap counter). -/
theorem row_reduce_idempotent (hex : exact_comparison T) (A : matrix T) (hwf : A.well_formed)
    (hc : A._cols ≠ 0 ∨ A._rows ≤ 1) :
    ∃ R R2, A.row_reduce = .ok R ∧ R.row_reduce = .ok R2 ∧ R2.eq R = true ∧ R2 = R := by
  haveI := lawful_of_exact hex
  exact row_reduce_idempotent_lawful A hwf hc

/-- Witness for C11 (amended): the 3 × 4 sample matrix over the rationals. -/
theorem row_reduce_idempotent_witness :
    exact_comparison ℚ ∧ sample3x4.well_formed ∧
    (sample3x4._cols ≠ 0 ∨ sample3x4._rows ≤ 1) ∧
    ∃ R R2, sample3x4.row_reduce = .ok R ∧ R.row_reduce = .ok R2 ∧ R2.eq R = true ∧ R2 = R :=
  ⟨fun _ _ => beq_iff_eq, rfl, by decide,
    row_reduce_idempotent (fun _ _ => beq_iff_eq) sample3x4 rfl (by decide)⟩

/-- C12 fails as stated for the exact values of the element type of `vmatrix`: for
`A = [[1, 10^17], [1/10^18, 0]]` `row_reduce()` returns `A` itself (`1/10^18` compares equal
to zero, so row 1 counts as a zero row), `null_space()` returns the column `(-10^17, 1)`, and
`A` times that column is `(0, -1/10)`, whose second entry is not zero and does not compare
equal to zero. -/
theorem null_space_annihilated_counterexample :
    near_singular2.well_formed ∧ 2 ≤ near_singular2._rows ∧ 2 ≤ near_singular2._cols ∧
    near_singular2.row_reduce = .ok near_singular2 ∧
    near_singular2.null_space = .ok (of_rows 2 1 [-10 ^ 17, 1]) ∧
    near_singular2.mul (of_rows 2 1 [-10 ^ 17, 1]) = .ok (of_rows 2 1 [0, -1 / 10]) ∧
    (of_rows 2 1 [0, -1 / 10] : matrix exact_frac).get 1 0 = -1 / 10 ∧
    ((-1 / 10 : exact_frac) == 0) = false ∧
    (of_rows 2 1 [0, -1 / 10] : matrix exact_frac).eq (construct 2 1) = false :=
  ⟨rfl, by decide!⟩

/-- C12, amended: over an element type whose comparison is exact, for every well-formed
matrix `A` with at least two rows and two columns `null_space()` returns a matrix `N` with
one row per column of `A`, and the product `A * N` is the matrix of zeros with the rows of
`A` and the columns of `N`; for `[[1,1],[2,2]]` the null space is the single column
`(-1, 1)`. -/
theorem null_space_annihilated (hex : exact_comparison T) (A : matrix T)
    (hwf : A.well_formed) (hr : 2 ≤ A._rows) (hc : 2 ≤ A._cols) :
    (∃ N P, A.null_space = .ok N ∧ A.mul N = .ok P ∧ P._rows = A._rows ∧
      P._cols = N._cols ∧ (∀ i j, i < A._rows → j < N._cols → P.get i j = 0) ∧
      P = construct A._rows N._cols) ∧
    sample_rank_one.null_space = .ok (of_rows 2 1 [-1, 1]) ∧
    sample_rank_one.mul (of_rows 2 1 [-1, 1]) = .ok (of_rows 2 1 [0, 0]) := by
  haveI := lawful_of_exact hex
  exact null_space_annihilated_lawful A hwf hr hc

/-- Witness for C12 (amended): the 3 × 4 sample matrix over the rationals, whose null space
has two columns. -/
theorem null_space_annihilated_witness :
    exact_comparison ℚ ∧ sample3x4.well_formed ∧ 2 ≤ sample3x4._rows ∧ 2 ≤ sample3x4._cols ∧
    ∃ N P, sample3x4.null_space = .ok N ∧ sample3x4.mul N = .ok P ∧
      P._rows = sample3x4._rows ∧ P._cols = N._cols ∧
      (∀ i j, i < sample3x4._rows → j < N._cols → P.get i j = 0) ∧
      P = construct sample3x4._rows N._cols :=
  ⟨fun _ _ => beq_iff_eq, rfl, by decide, by decide,
    (null_space_annihilated (fun _ _ => beq_iff_eq) sample3x4 rfl (by decide) (by decide)).1⟩

/-- C13 fails as stated for the exact values of the element type of `vmatrix`: for
`A = [[1/10^18, 2/10^18], [0, 0]]` `row_reduce()` returns `[[1/2, 1], [0, 0]]`, whose row 0
has its leading entry `1/2` in column 0; `col_space()` looks for the first entry equal to one
and finds it in column 1, so it returns column 1 of `A` and lists the index `1`, not the
pivot column `0`. -/
theorem col_space_pivot_columns_counterexample :
    tiny_row2.well_formed ∧ 2 ≤ tiny_row2._rows ∧ 2 ≤ tiny_row2._cols ∧
    tiny_row2.row_reduce = .ok (of_rows 2 2 [1 / 2, 1, 0, 0]) ∧
    (of_rows 2 2 [1 / 2, 1, 0, 0] : matrix exact_frac).lead 0 = 0 ∧
    tiny_row2.rank = .ok 1 ∧
    tiny_row2.col_space = .ok (of_rows 2 1 [2 / 10 ^ 18, 0], of_rows 1 1 [1]) ∧
    (of_rows 1 1 [1] : matrix exact_frac).get 0 0 ≠ ((0 : Nat) : exact_frac) ∧
    (of_rows 2 1 [2 / 10 ^ 18, 0] : matrix exact_frac).get 0 0 = tiny_row2.get 0 1 ∧
    (of_rows 2 1 [2 / 10 ^ 18, 0] : matrix exact_frac).get 0 0 ≠ tiny_row2.get 0 0 :=
  ⟨rfl, by decide!⟩

/-- C13, amended: over an element type whose comparison is exact, for every well-formed
matrix `A` with at least two rows and two columns, with `R` the result of `row_reduce()` and
`k` the result of `rank()`: the non-zero rows of `R` are its first `k` rows, their leading
columns `p_0 < p_1 < ...` (each holding a leading one) increase strictly, `col_space()`
returns a matrix with the rows of `A` and `k` columns whose column `j` is column `p_j` of
`A`, and the matrix stored through the optional argument is the `k × 1` column listing
`p_0, p_1, ...`. -/
theorem col_space_pivot_columns (hex : exact_comparison T) (A : matrix T)
    (hwf : A.well_formed) (hr : 2 ≤ A._rows) (hc : 2 ≤ A._cols) :
    (∃ R k C P, A.row_reduce = .ok R ∧ A.rank = .ok k ∧ A.col_space = .ok (C, P) ∧
      C._rows = A._rows ∧ C._cols = k ∧ P._rows = k ∧ P._cols = 1 ∧
      (∀ r, r < A._rows → (R.lead r < A._cols ↔ r < k)) ∧
      (∀ j, j + 1 < k → R.lead j < R.lead (j + 1)) ∧
      (∀ j, j < k → R.lead j < A._cols ∧ R.get j (R.lead j) = 1 ∧
        P.get j 0 = ((R.lead j : Nat) : T) ∧
        ∀ i, i < A._rows → C.get i j = A.get i (R.lead j))) ∧
    sample3x4.col_space = .ok (of_rows 3 2 [0, 1, 0, 2, 1, 3], of_rows 2 1 [0, 2]) := by
  haveI := lawful_of_exact hex
  exact col_space_pivot_columns_lawful A hwf hr hc

/-- Witness for C13 (amended): the 3 × 4 sample matrix of rank two over the rationals, with
pivot columns 0 and 2. -/
theorem col_space_pivot_columns_witness :
    exact_comparison ℚ ∧ sample3x4.well_formed ∧ 2 ≤ sample3x4._rows ∧ 2 ≤ sample3x4._cols ∧
    ∃ R k C P, sample3x4.row_reduce = .ok R ∧ sample3x4.rank = .ok k ∧
      sample3x4.col_space = .ok (C, P) ∧
      C._rows = sample3x4._rows ∧ C._cols = k ∧ P._rows = k ∧ P._cols = 1 ∧
      (∀ r, r < sample3x4._rows → (R.lead r < sample3x4._cols ↔ r < k)) ∧
      (∀ j, j + 1 < k → R.lead j < R.lead (j + 1)) ∧
      (∀ j, j < k → R.lead j < sample3x4._cols ∧ R.get j (R.lead j) = 1 ∧
        P.get j 0 = ((R.lead j : Nat) : ℚ) ∧
        ∀ i, i < sample3x4._rows → C.get i j = sample3x4.get i (R.lead j)) :=
  ⟨fun _ _ => beq_iff_eq, rfl, by decide, by decide,
    (col_space_pivot_columns (fun _ _ => beq_iff_eq) sample3x4 rfl (by decide) (by decide)).1⟩

/-- C28 fails as stated for the exact values of the element type of `vmatrix`:
`has_row_echelon_form()` returns true on `[[1, 0], [1/10^18, 1]]`, because `1/10^18 == 0`
holds within the tolerance of `operator==`, although the leading non-zero entry of row 1 is
that entry in column 0, below the leading entry of row 0 and not to its right. -/
theorem has_row_echelon_form_decides_counterexample :
    (((1 : exact_frac) / 10 ^ 18) == 0) = true ∧ ((1 : exact_frac) / 10 ^ 18) ≠ 0 ∧
    near_echelon2.has_row_echelon_form = true ∧
    near_echelon2.lead 0 = 0 ∧ near_echelon2.lead 1 = 0 ∧
    ¬ near_echelon2.row_echelon_shape := by
  refine ⟨by decide!, by decide!, by decide!, by decide!, by decide!, ?_⟩
  intro h
  have h1 := (h.2 0 (by decide) (by
    intro hz
    have := hz 1 (by decide)
    revert this
    decide!)).2
  revert h1
  decide!

/-- C28, amended: for every matrix and any comparison of the element type the scan of
`has_row_echelon_form()` ends (within `rows * (cols + 1) + 1` iterations) with the value of
the test; over an element type whose comparison is exact, the test is true exactly when
every zero row is followed by zero rows only and the leading entry of every non-zero row
below the first lies strictly to the right of the leading entry of the row above, which is
then non-zero. -/
theorem has_row_echelon_form_decides (m : matrix T) :
    has_row_echelon_form_scan m (m._rows * (m._cols + 1) + 1) 0 0 true =
      some m.has_row_echelon_form ∧
    (exact_comparison T → (m.has_row_echelon_form = true ↔ m.row_echelon_shape)) := by
  refine ⟨scan_has_row_echelon_form m, ?_⟩
  intro hex
  haveI := lawful_of_exact hex
  exact (has_row_echelon_form_decides_lawful m).2

/-- Witness for C28 (amended): the 3 × 4 sample matrix over the rationals, which is not in
row-echelon form, and the matrix `[[1, 0], [1/10^18, 1]]` over the element type of `vmatrix`,
on which the scan ends as well. -/
theorem has_row_echelon_form_decides_witness :
    exact_comparison ℚ ∧
    has_row_echelon_form_scan sample3x4 (sample3x4._rows * (sample3x4._cols + 1) + 1) 0 0 true =
      some sample3x4.has_row_echelon_form ∧
    (sample3x4.has_row_echelon_form = true ↔ sample3x4.row_echelon_shape) ∧
    sample3x4.has_row_echelon_form = false ∧
    has_row_echelon_form_scan near_echelon2 (near_echelon2._rows * (near_echelon2._cols + 1) + 1)
      0 0 true = some true :=
  ⟨fun _ _ => beq_iff_eq,
    (has_row_echelon_form_decides sample3x4).1,
    (has_row_echelon_form_decides sample3x4).2 (fun _ _ => beq_iff_eq), by decide!,
    (has_row_echelon_form_decides near_echelon2).1.trans (by decide!)⟩

end matrix
end vmatrixlib

namespace vmatrixlib
set_option linter.unusedSectionVars false
namespace matrix
variable {T : Type} [Field T]

/-! ### The claims on the structural operations -/

section comparison
variable [BEq T]

/-- The value of `determinant()` on a matrix with the entries of the identity and counter
zero is one, as soon as the comparison of the element type accepts zero against zero. -/
theorem determinant_of_identity (h0 : ((0 : T) == 0) = true) (n : Nat) (e : matrix T)
    (e1 : e._rows = n) (e2 : e._cols = n) (e3 : e._rowSwapsCount = 0)
    (hent : ∀ i j, i < n → j < n → e.get i j = if i = j then 1 else 0) :
    e.determinant = .ok 1 := by
  unfold determinant
  have hsq : e.is_square = true := by simp [is_square, e1, e2]
  rw [hsq]
  simp only [Bool.not_true, Bool.false_eq_true, if_false]
  by_cases h1 : n = 1
  · rw [if_pos (e1.trans h1), hent 0 0 (by omega) (by omega), if_pos rfl]
  · rw [if_neg (fun h => h1 (e1.symm.trans h))]
    by_cases h2 : n = 2
    · rw [if_pos (e1.trans h2), hent 0 0 (by omega) (by omega), hent 1 1 (by omega) (by omega),
        hent 0 1 (by omega) (by omega), hent 1 0 (by omega) (by omega)]
      simp
    · rw [if_neg (fun h => h2 (e1.symm.trans h))]
      have hlow : e.is_lower_triangular = true := by
        unfold is_lower_triangular
        rw [hsq]
        simp only [Bool.not_true, Bool.false_eq_true, if_false]
        rw [all_below_iff]
        intro i hi
        rw [all_below_iff]
        intro j hj
        by_cases hij : i < j
        · rw [hent i j (by omega) (by omega), if_neg (by omega)]
          simp [bne, h0]
        · simp [hij]
      have htri : e.is_triangular = true := by
        unfold is_triangular
        rw [hlow]
        rfl
      rw [if_pos htri]
      have hprod : e.diagonal_product = .ok 1 := by
        unfold diagonal_product
        rw [hsq]
        simp only [Bool.not_true, Bool.false_eq_true, if_false]
        rw [diagonal_product_loop, e1]
        congr 1
        apply Finset.prod_eq_one
        intro i hi
        have hi2 := Finset.mem_range.1 hi
        rw [hent i i hi2 hi2, if_pos rfl]
      rw [hprod]
      dsimp only
      rw [e3]
      rfl

/-- C14: on a well-formed square receiver of any size `n` (so for every `n ≥ 1`),
`make_identity()` leaves an `n × n` matrix with ones on the diagonal and zeros elsewhere,
whose row-swap counter is zero and whose `determinant()` is one; on a non-square receiver it
fails with the non-square error. The element type may compare with a tolerance: all that is
used of `operator==` is that it accepts zero against zero. -/
theorem make_identity_determinant (h0 : ((0 : T) == 0) = true) (m : matrix T)
    (hwf : m.well_formed) :
    (m._rows ≠ m._cols → m.make_identity = .error .non_square) ∧
    (∀ n, m._rows = n → m._cols = n →
      ∃ e, m.make_identity = .ok e ∧ e._rows = n ∧ e._cols = n ∧ e._rowSwapsCount = 0 ∧
        (∀ i j, i < n → j < n → e.get i j = if i = j then 1 else 0) ∧
        e.determinant = .ok 1) := by
  constructor
  · intro h
    unfold make_identity is_square
    have c1 : (!(m._rows == m._cols)) = true := by
      simp only [Bool.not_eq_true', beq_eq_false_iff_ne]
      exact h
    rw [if_pos c1]
  · intro n hr hc
    obtain ⟨e, he, e1, e2, e3, e4, e5⟩ := make_identity_spec m hwf n hr hc
    have hent : ∀ i j, i < n → j < n → e.get i j = if i = j then 1 else 0 := by
      intro i j hi hj
      have := congrFun (congrFun e5 ⟨i, hi⟩) ⟨j, hj⟩
      rw [Matrix.one_apply] at this
      simp only [mat_of, Fin.mk.injEq] at this
      exact this
    exact ⟨e, he, e1, e2, e3, hent, determinant_of_identity h0 n e e1 e2 e3 hent⟩

/-- Witness for C14: a 3 × 3 receiver over the element type of `vmatrix` and one over the
rationals, and the 2 × 3 sample matrix for the failure. -/
theorem make_identity_determinant_witness :
    (((0 : exact_frac) == 0) = true ∧ near_upper3.well_formed ∧
      ∃ e, near_upper3.make_identity = .ok e ∧ e._rows = 3 ∧ e._cols = 3 ∧
        e._rowSwapsCount = 0 ∧
        (∀ i j, i < 3 → j < 3 → e.get i j = if i = j then 1 else 0) ∧
        e.determinant = .ok 1) ∧
    (((0 : ℚ) == 0) = true ∧ sample3.well_formed ∧
      ∃ e, sample3.make_identity = .ok e ∧ e._rows = 3 ∧ e._cols = 3 ∧ e._rowSwapsCount = 0 ∧
        (∀ i j, i < 3 → j < 3 → e.get i j = if i = j then 1 else 0) ∧
        e.determinant = .ok 1) ∧
    sample2x3.make_identity = .error .non_square ∧
    near_upper3.make_identity = .ok frac_identity3 ∧
    frac_identity3.determinant = .ok 1 :=
  ⟨⟨by decide!, rfl, (make_identity_determinant (by decide!) near_upper3 rfl).2 3 rfl rfl⟩,
    ⟨by decide, rfl, (make_identity_determinant (by decide) sample3 rfl).2 3 rfl rfl⟩,
    (make_identity_determinant (by decide) sample2x3 rfl).1 (by decide), by decide!,
    by decide!⟩

/-- C15: for a matrix `A` of any shape, `transpose()` returns a matrix with the dimensions
swapped whose entry `(j, i)` is entry `(i, j)` of `A`, and transposing twice gives a matrix
with the dimensions and the entries of `A`, so that `operator==` accepts it (for an element
comparison that accepts every value against itself). -/
theorem transpose_involutive (A : matrix T) :
    (A.transpose._rows = A._cols ∧ A.transpose._cols = A._rows ∧
      ∀ i j, i < A._rows → j < A._cols → A.transpose.get j i = A.get i j) ∧
    (A.transpose.transpose._rows = A._rows ∧ A.transpose.transpose._cols = A._cols ∧
      ∀ i j, i < A._rows → j < A._cols → A.transpose.transpose.get i j = A.get i j) ∧
    ((∀ x : T, (x == x) = true) → A.transpose.transpose.eq A = true) := by
  obtain ⟨a1, a2, _, _, a5⟩ := transpose_spec A
  obtain ⟨b1, b2, _, _, b5⟩ := transpose_spec A.transpose
  have hent : ∀ i j, i < A._rows → j < A._cols →
      A.transpose.transpose.get i j = A.get i j := by
    intro i j hi hj
    rw [b5 j i (by rw [a1]; exact hj) (by rw [a2]; exact hi), a5 i j hi hj]
  refine ⟨⟨a1, a2, a5⟩, ⟨b1.trans a2, b2.trans a1, hent⟩, ?_⟩
  intro hrefl
  apply eq_of_get hrefl _ _ (b1.trans a2) (b2.trans a1)
  intro r c hr hc
  exact hent r c (by rw [← b1.trans a2]; exact hr) (by rw [← b2.trans a1]; exact hc)

/-- Witness for C15: the 2 × 3 sample matrix and its 3 × 2 transpose. -/
theorem transpose_involutive_witness :
    sample2x3.transpose = of_rows 3 2 [1, 4, 2, 5, 3, 6] ∧
    sample2x3.transpose.transpose = sample2x3 ∧
    sample2x3.transpose.transpose.eq sample2x3 = true :=
  ⟨by decide!, by decide!, (transpose_involutive sample2x3).2.2 (fun _ => beq_self_eq_true _)⟩

end comparison

/-- C16: the product `A * B` fails with the dimension-mismatch error when the number of
columns of `A` differs from the number of rows of `B`; otherwise it is the matrix with the
rows of `A` and the columns of `B` whose entry `(i, j)` is the sum over `k` of
`A(i, k) * B(k, j)`. -/
theorem mul_entries (A B : matrix T) :
    (A._cols ≠ B._rows → A.mul B = .error .dimension_mismatch) ∧
    (A._cols = B._rows →
      ∃ p, A.mul B = .ok p ∧ p._rows = A._rows ∧ p._cols = B._cols ∧
        ∀ i j, i < A._rows → j < B._cols →
          p.get i j = ∑ k ∈ Finset.range A._cols, A.get i k * B.get k j) := by
  constructor
  · intro h
    unfold mul
    have c1 : B._rows ≠ A._cols := fun hh => h hh.symm
    rw [if_pos c1]
  · intro h
    obtain ⟨p, hp, p1, p2, _, _, p5⟩ := mul_spec A B h.symm
    exact ⟨p, hp, p1, p2, p5⟩

/-- Witness for C16: a 2 × 2 matrix times a 2 × 3 matrix, and the rejected product in the
other order. -/
theorem mul_entries_witness :
    sample2x3.mul sample2 = .error .dimension_mismatch ∧
    (∃ p, sample2.mul sample2x3 = .ok p ∧ p._rows = 2 ∧ p._cols = 3 ∧
      ∀ i j, i < 2 → j < 3 →
        p.get i j = ∑ k ∈ Finset.range 2, sample2.get i k * sample2x3.get k j) ∧
    sample2.mul sample2x3 = .ok (of_rows 2 3 [9, 12, 15, 19, 26, 33]) :=
  ⟨(mul_entries sample2x3 sample2).1 (by decide), (mul_entries sample2 sample2x3).2 rfl,
    by decide!⟩


/-- C25, the code at the failing input: the constructor `matrix(r, c, arr)` initialises its
vector with `_data(_rows, _cols)`, so the data sequence has `r` cells, not `r * c`; for
`matrix(2, 3, arr)` the length is 2 while `rows * cols` is 6. The default constructor and
`matrix(r, c)` do establish the length `rows * cols`. -/
theorem array_constructor_storage (r c : Nat) (arr : List T) :
    (construct_from_array r c arr)._rows = r ∧
    (construct_from_array r c arr)._cols = c ∧
    (construct_from_array r c arr)._data.length = r ∧
    (construct_from_array 2 3 [1, 2, 3, 4, 5, 6] : matrix ℚ)._data = [1, 2] ∧
    ¬ (construct_from_array 2 3 [1, 2, 3, 4, 5, 6] : matrix ℚ).well_formed ∧
    (construct_default : matrix T).well_formed ∧
    (construct r c : matrix T).well_formed := by
  refine ⟨rfl, rfl, ?_, by decide!, by unfold well_formed; decide!, rfl,
    (construct_shape r c).2.2.2⟩
  unfold construct_from_array load_data
  dsimp only
  have h : ∀ (n : Nat) (d : List T),
      (for_loop (fun i (d : List T) => d.set i (arr.getD i 0)) n d).length = d.length := by
    intro n
    induction n with
    | zero => intro d; rfl
    | succ k ih =>
      intro d
      show ((for_loop (fun i (d : List T) => d.set i (arr.getD i 0)) k d).set k
        (arr.getD k 0)).length = d.length
      rw [List.length_set, ih]
  rw [h, List.length_replicate]

/-- C26, the code at the failing input: `get(n)` asserts `n <= size()`, so the flat index
`rows * cols` passes the assertion although no element has that index (for a 2 × 2 matrix
`get(4)` is accepted), while `operator()(n)` and `get(r, c)` reject it. -/
theorem get_accepts_size (r c : Nat) :
    get_n (construct r c : matrix T) ((r * c : Nat) : Int) = .ok none ∧
    at_index (construct r c : matrix T) ((r * c : Nat) : Int) = .error .assertion_failed ∧
    get_n sample2 4 = .ok none ∧
    get_n sample2 3 = .ok (some 4) ∧
    get_n sample2 5 = .error .assertion_failed ∧
    get_n sample2 (-1) = .error .assertion_failed ∧
    at_index sample2 4 = .error .assertion_failed ∧
    at_index sample2 3 = .ok (some 4) ∧
    get_rc sample2 2 0 = .error .assertion_failed ∧
    get_rc sample2 0 2 = .error .assertion_failed ∧
    get_rc sample2 1 1 = .ok (some 4) := by
  refine ⟨?_, ?_, by decide!, by decide!, by decide!, by decide!, by decide!, by decide!,
    by decide!, by decide!, by decide!⟩
  · obtain ⟨k1, k2, _, k4⟩ := construct_shape (T := T) r c
    unfold get_n size
    rw [k1, k2]
    have c1 : ((r * c : Nat) : Int) ≥ 0 ∧ ((r * c : Nat) : Int) ≤ ((r * c : Nat) : Int) :=
      ⟨Int.natCast_nonneg _, le_refl _⟩
    rw [if_pos c1, Int.toNat_natCast]
    congr 1
    apply List.getElem?_eq_none
    unfold well_formed at k4
    rw [k4, k1, k2]
  · obtain ⟨k1, k2, _, _⟩ := construct_shape (T := T) r c
    unfold at_index
    rw [k1, k2]
    have c1 : ¬ (((r * c : Nat) : Int) ≥ 0 ∧ ((r * c : Nat) : Int) < ((r * c : Nat) : Int)) :=
      fun h => lt_irrefl _ h.2
    rw [if_neg c1]

/-- C29: for a valid row `r` and column `c`, `sub_matrix_erasing_row_col(r, c)` is the
`(rows-1) × (cols-1)` matrix with entry `(i, j)` equal to `A(i + [i ≥ r], j + [j ≥ c])`;
with `-1` for the row only column `c` is deleted, with `-1` for the column only row `r` is
deleted, and with `-1` for both the result is `A`. -/
theorem sub_matrix_erasing_row_col_entries (A : matrix T) (r c : Nat) (hr : r < A._rows)
    (hc : c < A._cols) :
    ((A.sub_matrix_erasing_row_col r c)._rows = A._rows - 1 ∧
      (A.sub_matrix_erasing_row_col r c)._cols = A._cols - 1 ∧
      (A.sub_matrix_erasing_row_col r c).well_formed ∧
      ∀ i j, i < A._rows - 1 → j < A._cols - 1 →
        (A.sub_matrix_erasing_row_col r c).get i j =
          A.get (i + if r ≤ i then 1 else 0) (j + if c ≤ j then 1 else 0)) ∧
    ((A.sub_matrix_erasing_row_col (-1) c)._rows = A._rows ∧
      (A.sub_matrix_erasing_row_col (-1) c)._cols = A._cols - 1 ∧
      (A.sub_matrix_erasing_row_col (-1) c).well_formed ∧
      ∀ i j, i < A._rows → j < A._cols - 1 →
        (A.sub_matrix_erasing_row_col (-1) c).get i j =
          A.get i (j + if c ≤ j then 1 else 0)) ∧
    ((A.sub_matrix_erasing_row_col r (-1))._rows = A._rows - 1 ∧
      (A.sub_matrix_erasing_row_col r (-1))._cols = A._cols ∧
      (A.sub_matrix_erasing_row_col r (-1)).well_formed ∧
      ∀ i j, i < A._rows - 1 → j < A._cols →
        (A.sub_matrix_erasing_row_col r (-1)).get i j =
          A.get (i + if r ≤ i then 1 else 0) j) ∧
    A.sub_matrix_erasing_row_col (-1) (-1) = A := by
  have sh : ∀ a b : Nat, (if b < a then b else b + 1) = b + if a ≤ b then 1 else 0 := by
    intro a b
    by_cases h : b < a
    · have c1 : ¬ a ≤ b := by omega
      rw [if_pos h, if_neg c1]; rfl
    · have c1 : a ≤ b := by omega
      rw [if_neg h, if_pos c1]
  obtain ⟨a1, a2, _, a4, a5⟩ := sub_matrix_spec A r c hr hc
  obtain ⟨b1, b2, _, b4, b5⟩ := sub_matrix_keep_rows A c hc
  obtain ⟨c1, c2, _, c4, c5⟩ := sub_matrix_keep_cols A r hr
  refine ⟨⟨a1, a2, a4, ?_⟩, ⟨b1, b2, b4, ?_⟩, ⟨c1, c2, c4, ?_⟩, sub_matrix_keep_all A⟩
  · intro i j hi hj
    rw [a5 i j hi hj, sh, sh]
  · intro i j hi hj
    rw [b5 i j hi hj, sh]
  · intro i j hi hj
    rw [c5 i j hi hj, sh]

/-- Witness for C29: the 3 × 3 sample matrix with row 1 and column 0 deleted, with only one
of them deleted, and with nothing deleted. -/
theorem sub_matrix_erasing_row_col_entries_witness :
    (1 < sample3._rows ∧ 0 < sample3._cols) ∧
    (((sample3.sub_matrix_erasing_row_col ((1 : Nat) : Int) ((0 : Nat) : Int))._rows =
        sample3._rows - 1 ∧
      (sample3.sub_matrix_erasing_row_col ((1 : Nat) : Int) ((0 : Nat) : Int))._cols =
        sample3._cols - 1 ∧
      (sample3.sub_matrix_erasing_row_col ((1 : Nat) : Int) ((0 : Nat) : Int)).well_formed ∧
      ∀ i j, i < sample3._rows - 1 → j < sample3._cols - 1 →
        (sample3.sub_matrix_erasing_row_col ((1 : Nat) : Int) ((0 : Nat) : Int)).get i j =
          sample3.get (i + if 1 ≤ i then 1 else 0) (j + if 0 ≤ j then 1 else 0)) ∧
    ((sample3.sub_matrix_erasing_row_col (-1) ((0 : Nat) : Int))._rows = sample3._rows ∧
      (sample3.sub_matrix_erasing_row_col (-1) ((0 : Nat) : Int))._cols = sample3._cols - 1 ∧
      (sample3.sub_matrix_erasing_row_col (-1) ((0 : Nat) : Int)).well_formed ∧
      ∀ i j, i < sample3._rows → j < sample3._cols - 1 →
        (sample3.sub_matrix_erasing_row_col (-1) ((0 : Nat) : Int)).get i j =
          sample3.get i (j + if 0 ≤ j then 1 else 0)) ∧
    ((sample3.sub_matrix_erasing_row_col ((1 : Nat) : Int) (-1))._rows = sample3._rows - 1 ∧
      (sample3.sub_matrix_erasing_row_col ((1 : Nat) : Int) (-1))._cols = sample3._cols ∧
      (sample3.sub_matrix_erasing_row_col ((1 : Nat) : Int) (-1)).well_formed ∧
      ∀ i j, i < sample3._rows - 1 → j < sample3._cols →
        (sample3.sub_matrix_erasing_row_col ((1 : Nat) : Int) (-1)).get i j =
          sample3.get (i + if 1 ≤ i then 1 else 0) j) ∧
    sample3.sub_matrix_erasing_row_col (-1) (-1) = sample3) ∧
    sample3.sub_matrix_erasing_row_col 1 0 = of_rows 2 2 [2, 1, 0, 3] ∧
    sample3.sub_matrix_erasing_row_col (-1) 0 = of_rows 3 2 [2, 1, 1, 1, 0, 3] ∧
    sample3.sub_matrix_erasing_row_col 1 (-1) = of_rows 2 3 [0, 2, 1, 2, 0, 3] :=
  ⟨⟨by decide, by decide⟩,
    sub_matrix_erasing_row_col_entries sample3 1 0 (by decide) (by decide),
    by decide!, by decide!, by decide!⟩


/-- C32, the code at the failing input: `in_place_mul(m)` adds the products to the cells of
the receiver while it reads them, and never clears them. For 1 × 1 matrices `[[a]]` and
`[[b]]` it leaves `[[a + a * b]]` where `operator*` returns `[[a * b]]`, so the two agree
only for `a = 0`, and `[[1]]` times `[[1]]` gives `[[2]]`; the 2 × 2 matrix `[[1,2],[3,4]]`
times the identity becomes `[[2,4],[6,8]]`, and `operator==` tells each result from the
product. -/
theorem in_place_mul_accumulates (a b : T) :
    in_place_mul (of_rows 1 1 [a]) (of_rows 1 1 [b]) = .ok (of_rows 1 1 [a + a * b]) ∧
    mul (of_rows 1 1 [a]) (of_rows 1 1 [b]) = .ok (of_rows 1 1 [0 + a * b]) ∧
    (in_place_mul (of_rows 1 1 [a]) (of_rows 1 1 [b]) =
      mul (of_rows 1 1 [a]) (of_rows 1 1 [b]) ↔ a = 0) ∧
    single1.in_place_mul single1 = .ok (of_rows 1 1 [2]) ∧
    single1.mul single1 = .ok single1 ∧
    (of_rows 1 1 [2] : matrix ℚ).eq single1 = false ∧
    sample2.in_place_mul identity2 = .ok (of_rows 2 2 [2, 4, 6, 8]) ∧
    sample2.mul identity2 = .ok sample2 ∧
    (of_rows 2 2 [2, 4, 6, 8] : matrix ℚ).eq sample2 = false := by
  have h1 : in_place_mul (of_rows 1 1 [a]) (of_rows 1 1 [b]) =
      .ok (of_rows 1 1 [a + a * b]) := rfl
  have h2 : mul (of_rows 1 1 [a]) (of_rows 1 1 [b]) = .ok (of_rows 1 1 [0 + a * b]) := rfl
  refine ⟨h1, h2, ?_, by decide!, by decide!, by decide!, by decide!, by decide!, by decide!⟩
  rw [h1, h2]
  constructor
  · intro h
    have h3 := congrArg (fun x => x.get 0 0) (Except.ok.inj h)
    have h4 : a + a * b = 0 + a * b := h3
    rw [zero_add] at h4
    exact add_left_eq_self.mp h4
  · intro h
    rw [h, zero_mul, add_zero]

end matrix
end vmatrixlib

namespace vmatrixlib
set_option linter.unusedSectionVars false
namespace matrix
variable {T : Type} [Field T] [DecidableEq T] [BEq T]

/-! ### The pivot list of `col_space()` -/

/-- The counter of the first loop of `col_space()` never exceeds the number of rows, and it
stays at zero on a matrix without columns, whatever the comparison of the element type. -/
theorem dep_vars_count_le_rows (R : matrix T) (rows cols : Nat) :
    (dep_vars R rows cols).2 ≤ rows ∧ (cols = 0 → (dep_vars R rows cols).2 = 0) := by
  rw [dep_vars_count_eq]
  refine ⟨count_below_le _ _, ?_⟩
  intro h0
  rw [h0]
  have hz : ∀ n, count_below (fun i => decide (first_from (fun j => R.get i j == 1) 0 0 ≠ 0))
      n = 0 := by
    intro n
    induction n with
    | zero => rfl
    | succ n ih =>
      rw [count_below, ih, first_from_ge _ 0 0 (le_refl _)]
      simp
  exact hz rows

/-- C33, the code at the failing input: on the single-column matrix `[[1],[1]]`
`row_reduce()` returns the matrix itself, both rows hold an entry equal to one, and the
second write `depVars[depVarsCount++] = j` goes to index 1 of a buffer of `cols = 1` element
(the counter ends at 2), over the rationals and over the element type of `vmatrix` alike. The
writes always go to the indices `0, ..., count - 1`, and `count`
is at most `cols`, so that all of them stay within the buffer, on every matrix with no more
rows than columns or with no column at all, whatever the comparison of the element type,
and, over an exact comparison, on every well-formed matrix that is not a single column of
two or more rows. `row_reduce()` does return for a single row and, over an exact comparison,
for at least two rows and two columns; the 3 × 4 sample writes the indices 0 and 1. -/
theorem col_space_pivot_list_overflow :
    column11.well_formed ∧ column11._rows = 2 ∧ column11._cols = 1 ∧
    column11.row_reduce = .ok column11 ∧
    dep_vars_writes column11 column11._rows column11._cols = ([0, 1], 2) ∧
    (dep_vars column11 column11._rows column11._cols).2 = 2 ∧
    frac_column11.row_reduce = .ok frac_column11 ∧
    dep_vars_writes frac_column11 frac_column11._rows frac_column11._cols = ([0, 1], 2) ∧
    (∀ A R : matrix T,
      A._rows ≤ A._cols ∨ A._cols = 0 ∨
        (exact_comparison T ∧ A.well_formed ∧ A._cols ≠ 1) →
      A.row_reduce = .ok R →
      (dep_vars R A._rows A._cols).2 ≤ A._cols ∧
      (dep_vars_writes R A._rows A._cols).2 = (dep_vars R A._rows A._cols).2 ∧
      ∀ w, w ∈ (dep_vars_writes R A._rows A._cols).1 → w < A._cols) ∧
    (∀ A : matrix T, A._rows = 1 → A.row_reduce = .ok A) ∧
    (∀ A : matrix T, exact_comparison T → A.well_formed → 2 ≤ A._rows → 2 ≤ A._cols →
      ∃ R, A.row_reduce = .ok R) ∧
    (∃ R, sample3x4.row_reduce = .ok R ∧
      dep_vars_writes R sample3x4._rows sample3x4._cols = ([0, 1], 2)) := by
  refine ⟨rfl, rfl, rfl, by decide!, by decide!, by decide!, by decide!, by decide!, ?_, ?_,
    ?_, ?_⟩
  · intro A R h hR
    have hle : (dep_vars R A._rows A._cols).2 ≤ A._cols := by
      rcases h with h | h | ⟨hex, hwf, h⟩
      · exact le_trans (dep_vars_count_le_rows R A._rows A._cols).1 h
      · rw [(dep_vars_count_le_rows R A._rows A._cols).2 h]
        exact Nat.zero_le _
      · haveI := lawful_of_exact hex
        exact dep_vars_count_le_lawful A R hwf (Or.inr h) hR
    rw [dep_vars_writes_eq]
    refine ⟨hle, rfl, ?_⟩
    intro w hw
    have := List.mem_range.mp hw
    omega
  · intro A h
    unfold row_reduce
    rw [if_pos (Or.inl h)]
  · intro A hex hwf hr hc
    haveI := lawful_of_exact hex
    obtain ⟨_, R, _, hR, _⟩ := row_reduce_spec A hwf hr hc
    exact ⟨R, hR⟩
  · exact ⟨{ _rows := 3, _cols := 4, _rowSwapsCount := 1,
             _data := [1, 2, 0, -2, 0, 0, 1, 2, 0, 0, 0, 0] }, by decide!, by decide!⟩

end matrix
end vmatrixlib

namespace vmatrixlib
set_option linter.unusedSectionVars false

/-! ### The integer type -/

theorem wrap_eq_self {x : Int} (h1 : int_min ≤ x) (h2 : x ≤ int_max) : wrap x = x := by
  unfold wrap
  unfold int_min at h1
  unfold int_max at h2
  norm_num at h1 h2 ⊢
  omega

theorem wrap_natCast {n : Nat} (h : n < 2 ^ 63) : wrap (n : Int) = n := by
  apply wrap_eq_self
  · unfold int_min
    have : (0 : Int) ≤ n := Int.natCast_nonneg n
    norm_num
    omega
  · unfold int_max
    have : (n : Int) < 2 ^ 63 := by exact_mod_cast h
    omega

theorem land_one_natCast (n : Nat) : Int.land (n : Int) 1 = ((n % 2 : Nat) : Int) := by
  show ((n &&& 1 : Nat) : Int) = _
  rw [Nat.and_one_is_mod]

theorem lor_natCast (m n : Nat) : Int.lor (m : Int) (n : Int) = ((m ||| n : Nat) : Int) := rfl

theorem shiftRight_one_natCast (n : Nat) : (n : Int) >>> 1 = ((n / 2 : Nat) : Int) := by
  show ((n >>> 1 : Nat) : Int) = _
  rw [Nat.shiftRight_eq_div_pow, pow_one]

theorem lor_mod_two (m n : Nat) : (m ||| n) % 2 = 0 ↔ m % 2 = 0 ∧ n % 2 = 0 := by
  have h := @Nat.or_mod_two_eq_one m n
  have h1 := Nat.mod_two_eq_zero_or_one (m ||| n)
  have h2 := Nat.mod_two_eq_zero_or_one m
  have h3 := Nat.mod_two_eq_zero_or_one n
  constructor
  · intro h0
    constructor
    · by_contra hm
      have : (m ||| n) % 2 = 1 := h.2 (Or.inl (by omega))
      omega
    · by_contra hn
      have : (m ||| n) % 2 = 1 := h.2 (Or.inr (by omega))
      omega
  · intro ⟨hm, hn⟩
    by_contra h0
    rcases h.1 (by omega) with h4 | h4 <;> omega

/-- For an odd `u`, a factor two of the other argument does not change the greatest common
divisor. -/
theorem gcd_odd_half {u n : Nat} (hu : u % 2 = 1) (hn : n % 2 = 0) :
    Nat.gcd u (n / 2) = Nat.gcd u n := by
  have hc : Nat.Coprime 2 u := by
    rw [Nat.coprime_two_left, Nat.odd_iff]
    exact hu
  have e : n = 2 * (n / 2) := by omega
  conv_rhs => rw [e]
  exact (Nat.Coprime.gcd_mul_left_cancel_right (n / 2) hc).symm

/-! ### The loops of `gcd` on operands above the minimum -/

/-- The loop that strips the factors two of a positive value ends within the budget, with
the odd part of the value. -/
theorem gcd_strip_loop_spec : ∀ (budget n : Nat), 0 < n → n < 2 ^ budget →
    ∃ m : Nat, gcd_strip_loop budget (n : Int) = .ok (m : Int) ∧ m % 2 = 1 ∧ m ≤ n ∧
      (n % 2 = 1 → m = n) ∧ ∀ u : Nat, u % 2 = 1 → Nat.gcd u m = Nat.gcd u n := by
  intro budget
  induction budget with
  | zero =>
    intro n h1 h2
    simp at h2
    omega
  | succ b ih =>
    intro n h1 h2
    rw [gcd_strip_loop, land_one_natCast]
    by_cases h : n % 2 = 0
    · have c : ((n % 2 : Nat) : Int) = 0 := by rw [h]; rfl
      rw [if_pos c, shiftRight_one_natCast]
      have h3 : n / 2 < 2 ^ b := by
        rw [pow_succ] at h2
        omega
      obtain ⟨m, m1, m2, m3, _, m4⟩ := ih (n / 2) (by omega) h3
      refine ⟨m, m1, m2, by omega, by omega, ?_⟩
      intro u hu
      rw [m4 u hu, gcd_odd_half hu h]
    · have c : ¬ ((n % 2 : Nat) : Int) = 0 := by
        intro hh
        exact h (by exact_mod_cast hh)
      rw [if_neg c]
      exact ⟨n, rfl, by omega, le_refl _, fun _ => rfl, fun _ _ => rfl⟩

/-- The loop that strips the common factors two of two positive values ends within the
budget. -/
theorem gcd_shift_loop_spec : ∀ (budget u v shift : Nat), 0 < u → 0 < v → u < 2 ^ budget →
    ∃ u1 v1 s : Nat,
      gcd_shift_loop budget (u : Int) (v : Int) shift = .ok ((u1 : Int), (v1 : Int), shift + s) ∧
      (u1 % 2 = 1 ∨ v1 % 2 = 1) ∧ 0 < u1 ∧ 0 < v1 ∧ u = u1 * 2 ^ s ∧ v = v1 * 2 ^ s := by
  intro budget
  induction budget with
  | zero =>
    intro u v shift h1 _ h3
    simp at h3
    omega
  | succ b ih =>
    intro u v shift h1 h2 h3
    rw [gcd_shift_loop, lor_natCast, land_one_natCast]
    by_cases h : (u ||| v) % 2 = 0
    · have c : (((u ||| v) % 2 : Nat) : Int) = 0 := by rw [h]; rfl
      rw [if_pos c, shiftRight_one_natCast, shiftRight_one_natCast]
      obtain ⟨hu, hv⟩ := (lor_mod_two u v).1 h
      have h4 : u / 2 < 2 ^ b := by
        rw [pow_succ] at h3
        omega
      obtain ⟨u1, v1, s, e1, e2, e3, e4, e5, e6⟩ := ih (u / 2) (v / 2) (shift + 1) (by omega)
        (by omega) h4
      refine ⟨u1, v1, s + 1, ?_, e2, e3, e4, ?_, ?_⟩
      · rw [e1]
        have : shift + 1 + s = shift + (s + 1) := by omega
        rw [this]
      · rw [pow_succ, ← mul_assoc, ← e5]
        omega
      · rw [pow_succ, ← mul_assoc, ← e6]
        omega
    · have c : ¬ (((u ||| v) % 2 : Nat) : Int) = 0 := by
        intro hh
        exact h (by exact_mod_cast hh)
      rw [if_neg c]
      refine ⟨u, v, 0, rfl, ?_, h1, h2, by simp, by simp⟩
      by_contra hcon
      push_neg at hcon
      exact h ((lor_mod_two u v).2 ⟨by omega, by omega⟩)

/-- The main loop of `gcd`, started on an odd `u` and a positive `v`, ends within the budget
with the greatest common divisor of the two. -/
theorem gcd_main_loop_spec : ∀ (budget u v : Nat), u % 2 = 1 → 0 < v → u + v < 2 ^ budget →
    u < 2 ^ 63 → v < 2 ^ 63 →
    gcd_main_loop budget (u : Int) (v : Int) = .ok ((Nat.gcd u v : Nat) : Int) := by
  intro budget
  induction budget with
  | zero =>
    intro u v _ h2 h3
    simp at h3
    omega
  | succ b ih =>
    intro u v hu hv hsum hu63 hv63
    rw [pow_succ] at hsum
    obtain ⟨v1, s1, s2, s3, _, s4⟩ := gcd_strip_loop_spec 64 v hv (by omega)
    rw [gcd_main_loop, s1]
    dsimp only
    by_cases hlt : u < v1
    · have c : (u : Int) < (v1 : Int) := by exact_mod_cast hlt
      rw [if_pos c, if_pos c, ← Int.ofNat_sub (le_of_lt hlt), wrap_natCast (by omega),
        shiftRight_one_natCast]
      have hg : Nat.gcd u ((v1 - u) / 2) = Nat.gcd u v := by
        rw [gcd_odd_half hu (by omega), Nat.gcd_sub_self_right (le_of_lt hlt), s4 u hu]
      by_cases hz : (v1 - u) / 2 = 0
      · omega
      · have c2 : (((v1 - u) / 2 : Nat) : Int) ≠ 0 := by
          intro hh
          exact hz (by exact_mod_cast hh)
        rw [if_pos c2, ih u ((v1 - u) / 2) hu (by omega) (by omega) hu63 (by omega), hg]
    · have c : ¬ ((u : Int) < (v1 : Int)) := by
        intro hh
        exact hlt (by exact_mod_cast hh)
      have hle : v1 ≤ u := by omega
      rw [if_neg c, if_neg c, ← Int.ofNat_sub hle, wrap_natCast (by omega),
        shiftRight_one_natCast]
      have hg : Nat.gcd v1 ((u - v1) / 2) = Nat.gcd u v := by
        rw [gcd_odd_half s2 (by omega), Nat.gcd_sub_self_right hle, Nat.gcd_comm, s4 u hu]
      by_cases hz : (u - v1) / 2 = 0
      · have c2 : ¬ ((((u - v1) / 2 : Nat) : Int) ≠ 0) := by
          rw [hz]
          simp
        rw [if_neg c2]
        rw [hz, Nat.gcd_zero_right] at hg
        rw [hg]
      · have c2 : (((u - v1) / 2 : Nat) : Int) ≠ 0 := by
          intro hh
          exact hz (by exact_mod_cast hh)
        rw [if_pos c2, ih v1 ((u - v1) / 2) s2 (by omega) (by omega) (by omega) (by omega), hg]

/-- The absolute value taken at the start of `gcd`, for an operand above the minimum. -/
theorem gcd_abs (a : Int) (h1 : int_min < a) (h2 : a ≤ int_max) :
    (if a ≥ 0 then a else wrap (-a)) = (a.natAbs : Int) ∧ a.natAbs < 2 ^ 63 := by
  unfold int_min at h1
  unfold int_max at h2
  norm_num at h1 h2
  have hlt : a.natAbs < 2 ^ 63 := by
    have : ((a.natAbs : Nat) : Int) < 2 ^ 63 := by
      rw [Int.natCast_natAbs]
      rw [abs_lt]
      norm_num
      omega
    exact_mod_cast this
  refine ⟨?_, hlt⟩
  by_cases h : a ≥ 0
  · rw [if_pos h, Int.natAbs_of_nonneg h]
  · rw [if_neg h]
    have e : -a = (a.natAbs : Int) := by
      rw [Int.ofNat_natAbs_of_nonpos (by omega)]
    rw [e, wrap_natCast hlt]

/-- The function `gcd` on operands above the minimum: it ends within its step budgets and
returns the greatest common divisor of the absolute values. -/
theorem gcd_spec (a b : Int) (ha : int_min < a) (ha2 : a ≤ int_max) (hb : int_min < b)
    (hb2 : b ≤ int_max) : gcd a b = .ok ((Int.gcd a b : Nat) : Int) := by
  obtain ⟨ea, hm⟩ := gcd_abs a ha ha2
  obtain ⟨eb, hn⟩ := gcd_abs b hb hb2
  unfold gcd
  rw [ea, eb]
  dsimp only
  show _ = Except.ok ((Nat.gcd a.natAbs b.natAbs : Nat) : Int)
  generalize a.natAbs = m at hm
  generalize b.natAbs = n at hn
  by_cases hz : (m : Int) = 0 ∨ (n : Int) = 0
  · rw [if_pos hz, lor_natCast]
    rcases hz with h | h
    · have : m = 0 := by exact_mod_cast h
      rw [this, Nat.zero_or, Nat.gcd_zero_left]
    · have : n = 0 := by exact_mod_cast h
      rw [this, Nat.or_zero, Nat.gcd_zero_right]
  · rw [if_neg hz]
    have hm0 : 0 < m := by
      rcases Nat.eq_zero_or_pos m with h | h
      · exact absurd (Or.inl (by rw [h]; rfl)) hz
      · exact h
    have hn0 : 0 < n := by
      rcases Nat.eq_zero_or_pos n with h | h
      · exact absurd (Or.inr (by rw [h]; rfl)) hz
      · exact h
    obtain ⟨u1, v1, s, e1, e2, e3, e4, e5, e6⟩ := gcd_shift_loop_spec 64 m n 0 hm0 hn0
      (by omega)
    have hs : 0 < 2 ^ s := Nat.pow_pos (by omega)
    have hu1 : u1 ≤ m := by
      rw [e5]
      exact Nat.le_mul_of_pos_right _ hs
    have hv1 : v1 ≤ n := by
      rw [e6]
      exact Nat.le_mul_of_pos_right _ hs
    obtain ⟨u2, s1, s2, s3, s4, s5⟩ := gcd_strip_loop_spec 64 u1 e3 (by omega)
    rw [e1]
    dsimp only
    rw [s1]
    dsimp only
    rw [gcd_main_loop_spec 64 u2 v1 s2 e4 (by omega) (by omega) (by omega)]
    dsimp only
    have hg : Nat.gcd u2 v1 = Nat.gcd u1 v1 := by
      rcases e2 with h | h
      · rw [s4 h]
      · rw [Nat.gcd_comm, s5 v1 h, Nat.gcd_comm]
    have hfin : Nat.gcd m n = Nat.gcd u1 v1 * 2 ^ s := by
      rw [e5, e6, Nat.gcd_mul_right]
    have hle : Nat.gcd m n ≤ m := Nat.gcd_le_left n hm0
    rw [hg, hfin]
    have e : ((Nat.gcd u1 v1 : Nat) : Int) * 2 ^ (0 + s) = ((Nat.gcd u1 v1 * 2 ^ s : Nat) : Int) := by
      rw [Nat.zero_add]
      push_cast
      rfl
    rw [e, wrap_natCast (by omega)]

end vmatrixlib

namespace vmatrixlib
set_option linter.unusedSectionVars false

namespace frac

/-! ### Normalisation -/

/-- A quotient by a positive divisor stays in the range of the dividend. -/
theorem quotient_range {g k : Int} (hg : 0 < g) (h1 : int_min < g * k) (h2 : g * k ≤ int_max) :
    int_min < k ∧ k ≤ int_max := by
  unfold int_min at h1 ⊢
  unfold int_max at h2 ⊢
  norm_num at h1 h2 ⊢
  by_cases hk : 0 ≤ k
  · have : k ≤ g * k := by nlinarith
    omega
  · have : g * k ≤ k := by nlinarith
    omega

/-- The method `semplify()` on a degraded value: nothing changes. -/
theorem semplify_degraded (f : frac) (h : f.fn ≠ 0) : f.semplify = .ok f := by
  unfold semplify is_using_fp
  have c : (f.fn != 0) = true := by simpa using h
  rw [if_pos c]

/-- The method `semplify()` on a non-degraded value with a non-zero denominator and both
fields above the minimum: it returns the pair with the sign moved to the numerator, divided
by the greatest common divisor. -/
theorem semplify_spec (f : frac) (hfn : f.fn = 0) (hd : f.den ≠ 0) (hn1 : int_min < f.num)
    (hn2 : f.num ≤ int_max) (hd1 : int_min < f.den) (hd2 : f.den ≤ int_max) :
    ∃ r, f.semplify = .ok r ∧ r.fn = 0 ∧ 0 < r.den ∧ Int.gcd r.num r.den = 1 ∧
      int_min < r.num ∧ r.num ≤ int_max ∧ r.den ≤ int_max ∧
      r.num * f.den = f.num * r.den := by
  unfold semplify is_using_fp
  have c : ¬ ((f.fn != 0) = true) := by simp [hfn]
  rw [if_neg c]
  dsimp only
  have hrange : ∃ n1 d1 : Int, (if f.den < 0 then wrap (-f.num) else f.num) = n1 ∧
      (if f.den < 0 then wrap (-f.den) else f.den) = d1 ∧ 0 < d1 ∧ int_min < n1 ∧
      n1 ≤ int_max ∧ d1 ≤ int_max ∧ n1 * f.den = f.num * d1 := by
    have a1 := hn1
    have a2 := hn2
    have a3 := hd1
    have a4 := hd2
    unfold int_min at a1 a3
    unfold int_max at a2 a4
    norm_num at a1 a2 a3 a4
    by_cases h : f.den < 0
    · rw [if_pos h, if_pos h]
      have w1 : wrap (-f.num) = -f.num := by
        apply wrap_eq_self
        · unfold int_min; norm_num; omega
        · unfold int_max; norm_num; omega
      have w2 : wrap (-f.den) = -f.den := by
        apply wrap_eq_self
        · unfold int_min; norm_num; omega
        · unfold int_max; norm_num; omega
      rw [w1, w2]
      refine ⟨_, _, rfl, rfl, by omega, ?_, ?_, ?_, by ring⟩
      · unfold int_min; norm_num; omega
      · unfold int_max; norm_num; omega
      · unfold int_max; norm_num; omega
    · rw [if_neg h, if_neg h]
      exact ⟨_, _, rfl, rfl, by omega, hn1, hn2, hd2, rfl⟩
  obtain ⟨n1, d1, e1, e2, hd0, r1, r2, r3, hval⟩ := hrange
  rw [e1, e2]
  have hd1min : int_min < d1 := by
    unfold int_min
    norm_num
    omega
  rw [gcd_spec n1 d1 r1 r2 hd1min r3]
  dsimp only
  have hgpos : 0 < Int.gcd n1 d1 := Int.gcd_pos_of_ne_zero_right n1 (by omega)
  have hg0 : ((Int.gcd n1 d1 : Nat) : Int) ≠ 0 := by
    have : (0 : Int) < ((Int.gcd n1 d1 : Nat) : Int) := by exact_mod_cast hgpos
    omega
  have hgI : (0 : Int) < ((Int.gcd n1 d1 : Nat) : Int) := by exact_mod_cast hgpos
  rw [if_neg hg0]
  obtain ⟨k1, hk1⟩ := @Int.gcd_dvd_left n1 d1
  obtain ⟨k2, hk2⟩ := @Int.gcd_dvd_right n1 d1
  have d1e : n1 / ((Int.gcd n1 d1 : Nat) : Int) = k1 := Int.ediv_eq_of_eq_mul_right hg0 hk1
  have d2e : d1 / ((Int.gcd n1 d1 : Nat) : Int) = k2 := Int.ediv_eq_of_eq_mul_right hg0 hk2
  have t1 : Int.tdiv n1 (Int.gcd n1 d1) = k1 := by
    rw [Int.tdiv_eq_ediv_of_dvd ⟨k1, hk1⟩, d1e]
  have t2 : Int.tdiv d1 (Int.gcd n1 d1) = k2 := by
    rw [Int.tdiv_eq_ediv_of_dvd ⟨k2, hk2⟩, d2e]
  have q1 := quotient_range hgI (by rw [← hk1]; exact r1) (by rw [← hk1]; exact r2)
  have q2 := quotient_range hgI (by rw [← hk2]; exact hd1min) (by rw [← hk2]; exact r3)
  have hk2pos : 0 < k2 := by
    by_contra hcon
    have : ((Int.gcd n1 d1 : Nat) : Int) * k2 ≤ 0 := by nlinarith
    omega
  have hcop : Int.gcd k1 k2 = 1 := by
    have h := Int.gcd_div_gcd_div_gcd hgpos
    rw [d1e, d2e] at h
    exact h
  rw [t1, t2, wrap_eq_self (le_of_lt q1.1) q1.2, wrap_eq_self (le_of_lt q2.1) q2.2]
  refine ⟨_, rfl, hfn, hk2pos, hcop, q1.1, q1.2, q2.2, ?_⟩
  dsimp only
  have h3 : ((Int.gcd n1 d1 : Nat) : Int) * (k1 * f.den) =
      ((Int.gcd n1 d1 : Nat) : Int) * (f.num * k2) := by
    calc ((Int.gcd n1 d1 : Nat) : Int) * (k1 * f.den)
        = (((Int.gcd n1 d1 : Nat) : Int) * k1) * f.den := by ring
      _ = n1 * f.den := by rw [← hk1]
      _ = f.num * d1 := hval
      _ = f.num * (((Int.gcd n1 d1 : Nat) : Int) * k2) := by rw [← hk2]
      _ = ((Int.gcd n1 d1 : Nat) : Int) * (f.num * k2) := by ring
  exact mul_left_cancel₀ hg0 h3

/-- Two pairs with equal cross products and non-zero denominators stand for the same
rational number. -/
theorem value_eq_of_cross {f r : frac} (hf : f.den ≠ 0) (hr : r.den ≠ 0)
    (h : r.num * f.den = f.num * r.den) : r.value = f.value := by
  unfold value
  have hf2 : (f.den : ℚ) ≠ 0 := by exact_mod_cast hf
  have hr2 : (r.den : ℚ) ≠ 0 := by exact_mod_cast hr
  rw [div_eq_div_iff hr2 hf2]
  exact_mod_cast h

end frac

end vmatrixlib

namespace vmatrixlib
set_option linter.unusedSectionVars false

/-! ### The rounding of the floating type -/

theorem pow2_eq (e : Int) : pow2 e = (2 : ℚ) ^ e := by
  unfold pow2
  by_cases h : 0 ≤ e
  · rw [if_pos h]
    conv_rhs => rw [← Int.toNat_of_nonneg h]
    rw [zpow_natCast]
  · rw [if_neg h]
    have h2 : 0 ≤ -e := by omega
    have h3 : e = -((-e).toNat : Int) := by rw [Int.toNat_of_nonneg h2]; omega
    conv_rhs => rw [h3]
    rw [zpow_neg, zpow_natCast, one_div]

theorem two_zpow_pos (e : Int) : (0 : ℚ) < (2 : ℚ) ^ e := zpow_pos (by norm_num) e

theorem two_zpow_le {m n : Int} (h : m ≤ n) : (2 : ℚ) ^ m ≤ (2 : ℚ) ^ n :=
  zpow_le_zpow_right₀ (by norm_num) h

theorem two_zpow_succ (e : Int) : (2 : ℚ) ^ (e + 1) = 2 ^ e * 2 :=
  zpow_add_one₀ (by norm_num) e

theorem floor_log2_loop_eq : ∀ (fuel n : Nat), n ≤ fuel → floor_log2_loop fuel n = Nat.log 2 n := by
  intro fuel
  induction fuel with
  | zero =>
    intro n h
    have : n = 0 := by omega
    subst this
    simp [floor_log2_loop]
  | succ k ih =>
    intro n h
    rw [floor_log2_loop]
    by_cases h2 : n < 2
    · rw [if_pos h2, Nat.log_of_lt h2]
    · rw [if_neg h2, ih (n / 2) (by omega),
        Nat.log_of_one_lt_of_le (by norm_num) (by omega : 2 ≤ n)]

theorem floor_log2_eq (n : Nat) : floor_log2 n = Nat.log 2 n :=
  floor_log2_loop_eq n n (le_refl _)

theorem floor_log2_spec {n : Nat} (h : 0 < n) :
    2 ^ floor_log2 n ≤ n ∧ n < 2 ^ (floor_log2 n + 1) := by
  rw [floor_log2_eq]
  exact ⟨Nat.pow_log_le_self 2 (by omega), Nat.lt_pow_succ_log_self (by norm_num) n⟩

/-- The binary exponent brackets the absolute value. -/
theorem exponent_spec {q : ℚ} (hq : q ≠ 0) :
    (2 : ℚ) ^ exponent q ≤ |q| ∧ |q| < (2 : ℚ) ^ (exponent q + 1) := by
  have hn : 0 < q.num.natAbs := Int.natAbs_pos.2 (Rat.num_ne_zero.2 hq)
  have hd : 0 < q.den := q.den_pos
  obtain ⟨a1, a2⟩ := floor_log2_spec hn
  obtain ⟨b1, b2⟩ := floor_log2_spec hd
  have habs : |q| = (q.num.natAbs : ℚ) / (q.den : ℚ) := by
    conv_lhs => rw [← Rat.num_div_den q]
    rw [abs_div, Nat.abs_cast, Nat.cast_natAbs, Int.cast_abs]
  have hdq : (0 : ℚ) < (q.den : ℚ) := by exact_mod_cast hd
  have A1 : ((2 : ℚ) ^ (floor_log2 q.num.natAbs : Int)) ≤ (q.num.natAbs : ℚ) := by
    rw [zpow_natCast]; exact_mod_cast a1
  have A2 : (q.num.natAbs : ℚ) < (2 : ℚ) ^ ((floor_log2 q.num.natAbs : Int) + 1) := by
    have : ((floor_log2 q.num.natAbs : Int) + 1) = ((floor_log2 q.num.natAbs + 1 : Nat) : Int) := by
      push_cast; rfl
    rw [this, zpow_natCast]; exact_mod_cast a2
  have B1 : ((2 : ℚ) ^ (floor_log2 q.den : Int)) ≤ (q.den : ℚ) := by
    rw [zpow_natCast]; exact_mod_cast b1
  have B2 : (q.den : ℚ) < (2 : ℚ) ^ ((floor_log2 q.den : Int) + 1) := by
    have : ((floor_log2 q.den : Int) + 1) = ((floor_log2 q.den + 1 : Nat) : Int) := by
      push_cast; rfl
    rw [this, zpow_natCast]; exact_mod_cast b2
  set a : Int := (floor_log2 q.num.natAbs : Int) with ha
  set b : Int := (floor_log2 q.den : Int) with hb
  have two_ne : (2 : ℚ) ≠ 0 := by norm_num
  -- |q| < 2 ^ (a - b + 1)
  have U : |q| < (2 : ℚ) ^ (a - b + 1) := by
    rw [habs, div_lt_iff₀ hdq]
    have e1 : (2 : ℚ) ^ (a - b + 1) * (2 : ℚ) ^ b = (2 : ℚ) ^ (a + 1) := by
      rw [← zpow_add₀ two_ne]; congr 1; ring
    calc (q.num.natAbs : ℚ) < (2 : ℚ) ^ (a + 1) := A2
      _ = (2 : ℚ) ^ (a - b + 1) * (2 : ℚ) ^ b := e1.symm
      _ ≤ (2 : ℚ) ^ (a - b + 1) * (q.den : ℚ) :=
        mul_le_mul_of_nonneg_left B1 (le_of_lt (two_zpow_pos _))
  -- 2 ^ (a - b - 1) ≤ |q|
  have L : (2 : ℚ) ^ (a - b - 1) ≤ |q| := by
    rw [habs, le_div_iff₀ hdq]
    have e1 : (2 : ℚ) ^ (a - b - 1) * (2 : ℚ) ^ (b + 1) = (2 : ℚ) ^ a := by
      rw [← zpow_add₀ two_ne]; congr 1; ring
    calc (2 : ℚ) ^ (a - b - 1) * (q.den : ℚ)
        ≤ (2 : ℚ) ^ (a - b - 1) * (2 : ℚ) ^ (b + 1) :=
          mul_le_mul_of_nonneg_left (le_of_lt B2) (le_of_lt (two_zpow_pos _))
      _ = (2 : ℚ) ^ a := e1
      _ ≤ (q.num.natAbs : ℚ) := A1
  unfold exponent
  simp only [← ha, ← hb]
  rw [pow2_eq]
  by_cases hc : |q| < (2 : ℚ) ^ (a - b)
  · rw [if_pos hc]
    refine ⟨L, ?_⟩
    have : a - b - 1 + 1 = a - b := by ring
    rw [this]; exact hc
  · rw [if_neg hc]
    exact ⟨not_lt.1 hc, U⟩

/-- The only exponent that brackets the absolute value. -/
theorem exponent_unique {q : ℚ} {e : Int} (h1 : (2 : ℚ) ^ e ≤ |q|) (h2 : |q| < (2 : ℚ) ^ (e + 1)) :
    exponent q = e := by
  have hq : q ≠ 0 := by
    intro h
    rw [h, abs_zero] at h1
    exact absurd (two_zpow_pos e) (not_lt.2 h1)
  obtain ⟨s1, s2⟩ := exponent_spec hq
  have c1 : (2 : ℚ) ^ e < (2 : ℚ) ^ (exponent q + 1) := lt_of_le_of_lt h1 s2
  have c2 : (2 : ℚ) ^ exponent q < (2 : ℚ) ^ (e + 1) := lt_of_le_of_lt s1 h2
  rw [zpow_lt_zpow_iff_right₀ (by norm_num)] at c1 c2
  omega

theorem exponent_mono {x y : ℚ} (hx : x ≠ 0) (h : |x| ≤ |y|) : exponent x ≤ exponent y := by
  have hy : y ≠ 0 := by
    intro h0
    rw [h0, abs_zero] at h
    exact hx (abs_eq_zero.1 (le_antisymm h (abs_nonneg x)))
  obtain ⟨s1, _⟩ := exponent_spec hx
  obtain ⟨_, t2⟩ := exponent_spec hy
  have c : (2 : ℚ) ^ exponent x < (2 : ℚ) ^ (exponent y + 1) :=
    lt_of_le_of_lt s1 (lt_of_le_of_lt h t2)
  rw [zpow_lt_zpow_iff_right₀ (by norm_num)] at c
  omega

theorem round_half_even_floor (q : ℚ) : q.num / (q.den : Int) = ⌊q⌋ := by
  rw [← Rat.floor_def' q]; rfl

theorem round_half_even_cases (q : ℚ) :
    round_half_even q = ⌊q⌋ ∨ round_half_even q = ⌊q⌋ + 1 := by
  unfold round_half_even
  simp only [round_half_even_floor]
  split_ifs <;> simp

/-- Rounding to the nearest integer moves a number by at most one half. -/
theorem round_half_even_error (q : ℚ) : |(round_half_even q : ℚ) - q| ≤ 1 / 2 := by
  have h1 := Int.floor_le q
  have h2 := Int.lt_floor_add_one q
  unfold round_half_even
  simp only [round_half_even_floor]
  rw [abs_le]
  by_cases c1 : q - (⌊q⌋ : ℚ) < 1 / 2
  · rw [if_pos c1]
    constructor <;> linarith
  · rw [if_neg c1]
    by_cases c2 : 1 / 2 < q - (⌊q⌋ : ℚ)
    · rw [if_pos c2]
      push_cast
      constructor <;> linarith
    · rw [if_neg c2]
      have : q - (⌊q⌋ : ℚ) = 1 / 2 := le_antisymm (not_lt.1 c2) (not_lt.1 c1)
      by_cases c3 : ⌊q⌋ % 2 = 0
      · rw [if_pos c3]
        constructor <;> linarith
      · rw [if_neg c3]
        push_cast
        constructor <;> linarith

theorem round_half_even_int (z : Int) : round_half_even (z : ℚ) = z := by
  unfold round_half_even
  simp only [round_half_even_floor, Int.floor_intCast]
  have : ((z : ℚ) - (z : ℚ)) < 1 / 2 := by norm_num
  rw [if_pos this]

theorem round_half_even_mono {x y : ℚ} (h : x ≤ y) : round_half_even x ≤ round_half_even y := by
  by_contra hc
  have hlt : round_half_even y + 1 ≤ round_half_even x := by omega
  have hq : ((round_half_even y : ℚ) + 1) ≤ (round_half_even x : ℚ) := by exact_mod_cast hlt
  have e1 := abs_le.1 (round_half_even_error x)
  have e2 := abs_le.1 (round_half_even_error y)
  have hxy : x = y := by
    apply le_antisymm h
    linarith [e1.1, e1.2, e2.1, e2.2]
  rw [hxy] at hlt
  omega

theorem round_sig_eq (p : Nat) {q : ℚ} (hq : q ≠ 0) :
    round_sig p q = (round_half_even (q / (2 : ℚ) ^ (exponent q - ((p : Int) - 1))) : ℚ) *
      (2 : ℚ) ^ (exponent q - ((p : Int) - 1)) := by
  unfold round_sig
  rw [if_neg hq]
  simp only [pow2_eq]

theorem two_zpow_pred_nat {p : Nat} (hp : 1 ≤ p) :
    (2 : ℚ) ^ ((p : Int) - 1) = (((2 ^ (p - 1) : Nat) : Int) : ℚ) := by
  have : ((p : Int) - 1) = ((p - 1 : Nat) : Int) := by omega
  rw [this, zpow_natCast]
  push_cast
  rfl

theorem two_zpow_nat (p : Nat) : (2 : ℚ) ^ (p : Int) = (((2 ^ p : Nat) : Int) : ℚ) := by
  rw [zpow_natCast]
  push_cast
  rfl

/-- The scaled significand of a positive number lies between `2 ^ (p - 1)` and `2 ^ p`. -/
theorem scaled_bounds (p : Nat) {q : ℚ} (hq : 0 < q) :
    (2 : ℚ) ^ ((p : Int) - 1) ≤ q / (2 : ℚ) ^ (exponent q - ((p : Int) - 1)) ∧
    q / (2 : ℚ) ^ (exponent q - ((p : Int) - 1)) < (2 : ℚ) ^ (p : Int) := by
  obtain ⟨s1, s2⟩ := exponent_spec (ne_of_gt hq)
  rw [abs_of_pos hq] at s1 s2
  have two_ne : (2 : ℚ) ≠ 0 := by norm_num
  have hpos := two_zpow_pos (exponent q - ((p : Int) - 1))
  constructor
  · rw [le_div_iff₀ hpos, ← zpow_add₀ two_ne]
    have : (p : Int) - 1 + (exponent q - ((p : Int) - 1)) = exponent q := by ring
    rw [this]; exact s1
  · rw [div_lt_iff₀ hpos, ← zpow_add₀ two_ne]
    have : (p : Int) + (exponent q - ((p : Int) - 1)) = exponent q + 1 := by ring
    rw [this]; exact s2

theorem round_sig_pos_bounds {p : Nat} (hp : 1 ≤ p) {q : ℚ} (hq : 0 < q) :
    (2 : ℚ) ^ exponent q ≤ round_sig p q ∧ round_sig p q ≤ (2 : ℚ) ^ (exponent q + 1) := by
  obtain ⟨b1, b2⟩ := scaled_bounds p hq
  rw [round_sig_eq p (ne_of_gt hq)]
  have two_ne : (2 : ℚ) ≠ 0 := by norm_num
  have hpos := two_zpow_pos (exponent q - ((p : Int) - 1))
  set s := q / (2 : ℚ) ^ (exponent q - ((p : Int) - 1)) with hs
  have r1 : (((2 ^ (p - 1) : Nat) : Int)) ≤ round_half_even s := by
    rw [two_zpow_pred_nat hp] at b1
    have := round_half_even_mono b1
    rwa [round_half_even_int] at this
  have r2 : round_half_even s ≤ (((2 ^ p : Nat) : Int)) := by
    rw [two_zpow_nat] at b2
    have := round_half_even_mono (le_of_lt b2)
    rwa [round_half_even_int] at this
  have r1q : (2 : ℚ) ^ ((p : Int) - 1) ≤ (round_half_even s : ℚ) := by
    rw [two_zpow_pred_nat hp]; exact_mod_cast r1
  have r2q : (round_half_even s : ℚ) ≤ (2 : ℚ) ^ (p : Int) := by
    rw [two_zpow_nat]; exact_mod_cast r2
  constructor
  · have e : (2 : ℚ) ^ exponent q =
        (2 : ℚ) ^ ((p : Int) - 1) * (2 : ℚ) ^ (exponent q - ((p : Int) - 1)) := by
      rw [← zpow_add₀ two_ne]; congr 1; ring
    rw [e]
    exact mul_le_mul_of_nonneg_right r1q (le_of_lt hpos)
  · have e : (2 : ℚ) ^ (exponent q + 1) =
        (2 : ℚ) ^ (p : Int) * (2 : ℚ) ^ (exponent q - ((p : Int) - 1)) := by
      rw [← zpow_add₀ two_ne]; congr 1; ring
    rw [e]
    exact mul_le_mul_of_nonneg_right r2q (le_of_lt hpos)

theorem exponent_neg (q : ℚ) : exponent (-q) = exponent q := by
  by_cases hq : q = 0
  · rw [hq, neg_zero]
  · obtain ⟨s1, s2⟩ := exponent_spec hq
    apply exponent_unique
    · rw [abs_neg]; exact s1
    · rw [abs_neg]; exact s2

theorem round_sig_neg_bounds {p : Nat} (hp : 1 ≤ p) {q : ℚ} (hq : q < 0) :
    -(2 : ℚ) ^ (exponent q + 1) ≤ round_sig p q ∧ round_sig p q ≤ -(2 : ℚ) ^ exponent q := by
  have hq2 : 0 < -q := by linarith
  obtain ⟨b1, b2⟩ := scaled_bounds p hq2
  rw [exponent_neg] at b1 b2
  rw [round_sig_eq p (ne_of_lt hq)]
  have two_ne : (2 : ℚ) ≠ 0 := by norm_num
  have hpos := two_zpow_pos (exponent q - ((p : Int) - 1))
  set s := q / (2 : ℚ) ^ (exponent q - ((p : Int) - 1)) with hs
  have hneg : -q / (2 : ℚ) ^ (exponent q - ((p : Int) - 1)) = -s := by
    rw [hs, neg_div]
  rw [hneg] at b1 b2
  have c1 : s ≤ ((-((2 ^ (p - 1) : Nat) : Int) : Int) : ℚ) := by
    rw [two_zpow_pred_nat hp] at b1
    push_cast at b1 ⊢
    linarith
  have c2 : ((-((2 ^ p : Nat) : Int) : Int) : ℚ) ≤ s := by
    rw [two_zpow_nat] at b2
    push_cast at b2 ⊢
    linarith
  have r1 : round_half_even s ≤ (-((2 ^ (p - 1) : Nat) : Int) : Int) := by
    have := round_half_even_mono c1
    rwa [round_half_even_int] at this
  have r2 : (-((2 ^ p : Nat) : Int) : Int) ≤ round_half_even s := by
    have := round_half_even_mono c2
    rwa [round_half_even_int] at this
  have r1q : (round_half_even s : ℚ) ≤ -(2 : ℚ) ^ ((p : Int) - 1) := by
    rw [two_zpow_pred_nat hp]; exact_mod_cast r1
  have r2q : -(2 : ℚ) ^ (p : Int) ≤ (round_half_even s : ℚ) := by
    rw [two_zpow_nat]; exact_mod_cast r2
  constructor
  · have e : (2 : ℚ) ^ (exponent q + 1) =
        (2 : ℚ) ^ (p : Int) * (2 : ℚ) ^ (exponent q - ((p : Int) - 1)) := by
      rw [← zpow_add₀ two_ne]; congr 1; ring
    rw [e, ← neg_mul]
    exact mul_le_mul_of_nonneg_right r2q (le_of_lt hpos)
  · have e : (2 : ℚ) ^ exponent q =
        (2 : ℚ) ^ ((p : Int) - 1) * (2 : ℚ) ^ (exponent q - ((p : Int) - 1)) := by
      rw [← zpow_add₀ two_ne]; congr 1; ring
    rw [e, ← neg_mul]
    exact mul_le_mul_of_nonneg_right r1q (le_of_lt hpos)

theorem round_sig_zero (p : Nat) : round_sig p 0 = 0 := by
  unfold round_sig
  rw [if_pos rfl]

theorem round_sig_pos {p : Nat} (hp : 1 ≤ p) {q : ℚ} (hq : 0 < q) : 0 < round_sig p q :=
  lt_of_lt_of_le (two_zpow_pos _) (round_sig_pos_bounds hp hq).1

theorem round_sig_neg {p : Nat} (hp : 1 ≤ p) {q : ℚ} (hq : q < 0) : round_sig p q < 0 := by
  have := (round_sig_neg_bounds hp hq).2
  have h2 := two_zpow_pos (exponent q)
  linarith

/-- The rounding rounds no non-zero number to zero. -/
theorem round_sig_eq_zero {p : Nat} (hp : 1 ≤ p) {q : ℚ} (h : round_sig p q = 0) : q = 0 := by
  by_contra hq
  rcases lt_or_gt_of_ne hq with h1 | h1
  · exact absurd h (ne_of_lt (round_sig_neg hp h1))
  · exact absurd h (ne_of_gt (round_sig_pos hp h1))

/-- The rounding is monotone. -/
theorem round_sig_mono {p : Nat} (hp : 1 ≤ p) : Monotone (round_sig p) := by
  intro x y hxy
  show round_sig p x ≤ round_sig p y
  have two_ne : (2 : ℚ) ≠ 0 := by norm_num
  rcases lt_trichotomy x 0 with hx | hx | hx
  · rcases lt_trichotomy y 0 with hy | hy | hy
    · -- both negative
      have hm : exponent y ≤ exponent x := by
        apply exponent_mono (ne_of_lt hy)
        rw [abs_of_neg hy, abs_of_neg hx]; linarith
      rcases lt_or_eq_of_le hm with hlt | heq
      · have b1 := (round_sig_neg_bounds hp hx).2
        have b2 := (round_sig_neg_bounds hp hy).1
        have : (2 : ℚ) ^ (exponent y + 1) ≤ (2 : ℚ) ^ exponent x := two_zpow_le (by omega)
        linarith
      · rw [round_sig_eq p (ne_of_lt hx), round_sig_eq p (ne_of_lt hy), heq]
        have hpos := two_zpow_pos (exponent x - ((p : Int) - 1))
        apply mul_le_mul_of_nonneg_right _ (le_of_lt hpos)
        have : x / (2 : ℚ) ^ (exponent x - ((p : Int) - 1)) ≤
            y / (2 : ℚ) ^ (exponent x - ((p : Int) - 1)) :=
          div_le_div_of_nonneg_right hxy (le_of_lt hpos)
        exact_mod_cast round_half_even_mono this
    · rw [hy, round_sig_zero]
      exact le_of_lt (round_sig_neg hp hx)
    · exact le_of_lt (lt_trans (round_sig_neg hp hx) (round_sig_pos hp hy))
  · rw [hx, round_sig_zero]
    rcases lt_or_eq_of_le (hx ▸ hxy) with hy | hy
    · exact le_of_lt (round_sig_pos hp hy)
    · rw [← hy, round_sig_zero]
  · have hy : 0 < y := lt_of_lt_of_le hx hxy
    have hm : exponent x ≤ exponent y := by
      apply exponent_mono (ne_of_gt hx)
      rw [abs_of_pos hy, abs_of_pos hx]; exact hxy
    rcases lt_or_eq_of_le hm with hlt | heq
    · have b1 := (round_sig_pos_bounds hp hx).2
      have b2 := (round_sig_pos_bounds hp hy).1
      have : (2 : ℚ) ^ (exponent x + 1) ≤ (2 : ℚ) ^ exponent y := two_zpow_le (by omega)
      linarith
    · rw [round_sig_eq p (ne_of_gt hx), round_sig_eq p (ne_of_gt hy), heq]
      have hpos := two_zpow_pos (exponent y - ((p : Int) - 1))
      apply mul_le_mul_of_nonneg_right _ (le_of_lt hpos)
      have : x / (2 : ℚ) ^ (exponent y - ((p : Int) - 1)) ≤
          y / (2 : ℚ) ^ (exponent y - ((p : Int) - 1)) :=
        div_le_div_of_nonneg_right hxy (le_of_lt hpos)
      exact_mod_cast round_half_even_mono this

/-- The rounding keeps every integer below `2 ^ p` in absolute value. -/
theorem round_sig_int {p : Nat} (z : Int) (hz : |z| < 2 ^ p) :
    round_sig p (z : ℚ) = z := by
  by_cases h0 : z = 0
  · rw [h0]; exact round_sig_zero p
  have hq : (z : ℚ) ≠ 0 := by exact_mod_cast h0
  obtain ⟨s1, _⟩ := exponent_spec hq
  have two_ne : (2 : ℚ) ≠ 0 := by norm_num
  have hzq : |(z : ℚ)| < (2 : ℚ) ^ (p : Int) := by
    rw [zpow_natCast]
    have : ((|z| : Int) : ℚ) < ((2 ^ p : Int) : ℚ) := by exact_mod_cast hz
    rw [Int.cast_abs] at this
    push_cast at this
    exact this
  have he : exponent (z : ℚ) < (p : Int) := by
    have := lt_of_le_of_lt s1 hzq
    rwa [zpow_lt_zpow_iff_right₀ (by norm_num)] at this
  rw [round_sig_eq p hq]
  set e := exponent (z : ℚ) - ((p : Int) - 1) with he2
  have hle : e ≤ 0 := by omega
  obtain ⟨n, hn⟩ : ∃ n : Nat, e = -(n : Int) := ⟨(-e).toNat, by omega⟩
  have hsc : (z : ℚ) / (2 : ℚ) ^ e = ((z * 2 ^ n : Int) : ℚ) := by
    rw [hn, zpow_neg, zpow_natCast, div_inv_eq_mul]
    push_cast
    rfl
  rw [hsc, round_half_even_int, hn, zpow_neg, zpow_natCast]
  push_cast
  have : ((2 : ℚ) ^ n) ≠ 0 := pow_ne_zero n two_ne
  field_simp

/-- The rounding error is at most `|q| / 2 ^ p`. -/
theorem round_sig_error (p : Nat) (q : ℚ) : |round_sig p q - q| ≤ |q| / 2 ^ p := by
  by_cases hq : q = 0
  · rw [hq, round_sig_zero]; simp
  obtain ⟨s1, _⟩ := exponent_spec hq
  have two_ne : (2 : ℚ) ≠ 0 := by norm_num
  rw [round_sig_eq p hq]
  set e := exponent q - ((p : Int) - 1) with he
  have hpos := two_zpow_pos e
  have herr := round_half_even_error (q / (2 : ℚ) ^ e)
  have e1 : (round_half_even (q / (2 : ℚ) ^ e) : ℚ) * (2 : ℚ) ^ e - q =
      ((round_half_even (q / (2 : ℚ) ^ e) : ℚ) - q / (2 : ℚ) ^ e) * (2 : ℚ) ^ e := by
    field_simp
  rw [e1, abs_mul, abs_of_pos hpos]
  have e2 : (2 : ℚ) ^ exponent q = (2 : ℚ) ^ e * 2 ^ p / 2 := by
    have : exponent q = e + (p : Int) - 1 := by omega
    rw [this, zpow_sub_one₀ two_ne, zpow_add₀ two_ne, zpow_natCast]
    ring
  have hp2 : (0 : ℚ) < 2 ^ p := pow_pos (by norm_num) p
  rw [le_div_iff₀ hp2]
  calc |(round_half_even (q / (2 : ℚ) ^ e) : ℚ) - q / (2 : ℚ) ^ e| * (2 : ℚ) ^ e * 2 ^ p
      ≤ 1 / 2 * (2 : ℚ) ^ e * 2 ^ p := by
        apply mul_le_mul_of_nonneg_right _ (le_of_lt hp2)
        exact mul_le_mul_of_nonneg_right herr (le_of_lt hpos)
    _ = (2 : ℚ) ^ exponent q := by rw [e2]; ring
    _ ≤ |q| := s1

/-- The rounding of `long double` has the three properties that the operators need. -/
theorem long_double_rounding : rounding long_double := by
  refine ⟨round_sig_mono (by norm_num), ?_, ?_⟩
  · intro z h1 h2
    apply round_sig_int
    unfold int_min at h1
    unfold int_max at h2
    rw [abs_lt]
    constructor <;> norm_num <;> omega
  · intro x h
    exact round_sig_eq_zero (by norm_num) h

end vmatrixlib

namespace vmatrixlib
set_option linter.unusedSectionVars false

theorem exponent_scale {q : ℚ} (hq : q ≠ 0) (e : Int) :
    exponent (q * (2 : ℚ) ^ e) = exponent q + e := by
  obtain ⟨s1, s2⟩ := exponent_spec hq
  have two_ne : (2 : ℚ) ≠ 0 := by norm_num
  have hpos := two_zpow_pos e
  apply exponent_unique
  · rw [abs_mul, abs_of_pos hpos, zpow_add₀ two_ne]
    exact mul_le_mul_of_nonneg_right s1 (le_of_lt hpos)
  · rw [abs_mul, abs_of_pos hpos]
    have : exponent q + e + 1 = (exponent q + 1) + e := by ring
    rw [this, zpow_add₀ two_ne]
    exact mul_lt_mul_of_pos_right s2 hpos

/-- The rounding keeps every number `z * 2 ^ e` whose integer `z` is below `2 ^ p` in
absolute value. -/
theorem round_sig_scaled {p : Nat} (z : Int) (hz : |z| < 2 ^ p) (e : Int) :
    round_sig p ((z : ℚ) * (2 : ℚ) ^ e) = (z : ℚ) * (2 : ℚ) ^ e := by
  by_cases h0 : z = 0
  · rw [h0]; simp [round_sig_zero]
  have hq : (z : ℚ) ≠ 0 := by exact_mod_cast h0
  have two_ne : (2 : ℚ) ≠ 0 := by norm_num
  have hq2 : (z : ℚ) * (2 : ℚ) ^ e ≠ 0 := mul_ne_zero hq (ne_of_gt (two_zpow_pos e))
  obtain ⟨s1, _⟩ := exponent_spec hq
  have hzq : |(z : ℚ)| < (2 : ℚ) ^ (p : Int) := by
    rw [zpow_natCast]
    have : ((|z| : Int) : ℚ) < ((2 ^ p : Int) : ℚ) := by exact_mod_cast hz
    rw [Int.cast_abs] at this
    push_cast at this
    exact this
  have he : exponent (z : ℚ) < (p : Int) := by
    have := lt_of_le_of_lt s1 hzq
    rwa [zpow_lt_zpow_iff_right₀ (by norm_num)] at this
  rw [round_sig_eq p hq2, exponent_scale hq]
  obtain ⟨n, hn⟩ : ∃ n : Nat, exponent (z : ℚ) - ((p : Int) - 1) = -(n : Int) :=
    ⟨(-(exponent (z : ℚ) - ((p : Int) - 1))).toNat, by omega⟩
  have hexp : exponent (z : ℚ) + e - ((p : Int) - 1) = e + -(n : Int) := by omega
  rw [hexp]
  have hsc : (z : ℚ) * (2 : ℚ) ^ e / (2 : ℚ) ^ (e + -(n : Int)) = ((z * 2 ^ n : Int) : ℚ) := by
    rw [zpow_add₀ two_ne, zpow_neg, zpow_natCast]
    push_cast
    have h1 : ((2 : ℚ) ^ n) ≠ 0 := pow_ne_zero n two_ne
    have h2 : ((2 : ℚ) ^ e) ≠ 0 := ne_of_gt (two_zpow_pos e)
    field_simp
    ring
  rw [hsc, round_half_even_int, zpow_add₀ two_ne, zpow_neg, zpow_natCast]
  push_cast
  have h1 : ((2 : ℚ) ^ n) ≠ 0 := pow_ne_zero n two_ne
  field_simp
  ring

theorem round_sig_pow_two {p : Nat} (hp : 1 ≤ p) (i : Nat) :
    round_sig p ((2 : ℚ) ^ i) = (2 : ℚ) ^ i := by
  have h := round_sig_scaled (p := p) 1 (by
    rw [abs_one]
    exact one_lt_pow₀ (by norm_num) (by omega)) (i : Int)
  rw [zpow_natCast] at h
  simpa using h

theorem double_int {z : Int} (hz : |z| < 2 ^ 53) : double (z : ℚ) = z :=
  round_sig_int z hz

theorem double_pow_two (i : Nat) : double ((2 : ℚ) ^ i) = (2 : ℚ) ^ i :=
  round_sig_pow_two (by norm_num) i

theorem double_error (q : ℚ) : |double q - q| ≤ |q| / 2 ^ 53 := round_sig_error 53 q

theorem double_mono : Monotone double := round_sig_mono (by norm_num)

end vmatrixlib

namespace vmatrixlib
set_option linter.unusedSectionVars false

namespace frac

/-! ### The operators of `frac` -/

theorem is_using_fp_false {f : frac} : f.is_using_fp = false ↔ f.fn = 0 := by
  unfold is_using_fp
  simp

theorem is_using_fp_true {f : frac} : f.is_using_fp = true ↔ f.fn ≠ 0 := by
  unfold is_using_fp
  simp

theorem valid_of_degraded {f : frac} (h : f.fn ≠ 0) : f.valid := fun h0 => absurd h0 h

theorem make_dec_frac_valid (x : ℚ) : (make_dec_frac x).valid := by
  intro _
  unfold make_dec_frac int_min int_max
  norm_num

theorem make_dec_frac_cases (x : ℚ) :
    (make_dec_frac x).is_using_fp = true ∨ make_dec_frac x = { num := 0, den := 1, fn := 0 } := by
  by_cases h : x = 0
  · right; rw [h]; rfl
  · left; exact is_using_fp_true.2 h

/-- The method `semplify()` returns on every valid value. -/
theorem semplify_valid (f : frac) (hv : f.valid) :
    ∃ r, f.semplify = .ok r ∧ r.fn = f.fn ∧ r.valid ∧
      (f.fn = 0 → 0 < r.den ∧ Int.gcd r.num r.den = 1 ∧ int_min < r.num ∧ r.num ≤ int_max ∧
        r.den ≤ int_max ∧ r.num * f.den = f.num * r.den) := by
  by_cases h : f.fn = 0
  · obtain ⟨hd, hn1, hn2, hd1, hd2⟩ := hv h
    obtain ⟨r, e, r1, r2, r3, r4, r5, r6, r7⟩ := semplify_spec f h hd hn1 hn2 hd1 hd2
    refine ⟨r, e, by rw [r1, h], ?_, fun _ => ⟨r2, r3, r4, r5, r6, r7⟩⟩
    intro _
    have : int_min < 0 := by unfold int_min; norm_num
    exact ⟨by omega, r4, r5, by omega, r6⟩
  · exact ⟨f, semplify_degraded f h, rfl, hv, fun h0 => absurd h0 h⟩

/-- The branch of `operator*` that returns the floating product. -/
theorem mul_degrade (fl : ℚ → ℚ) {a b f11 f22 : frac} (h1 : a.semplify = .ok f11)
    (h2 : b.semplify = .ok f22)
    (hc : (f11.is_using_fp || f22.is_using_fp ||
      num_out_of_range fl (fl (f11.fpval fl * f22.fpval fl)) ||
      num_out_of_range fl (fl (f11.numerator fl * f22.numerator fl)) ||
      num_out_of_range fl (fl (f11.denominator fl * f22.denominator fl))) = true) :
    mul fl a b = .ok (make_dec_frac (fl (f11.fpval fl * f22.fpval fl))) := by
  unfold mul
  rw [h1, h2]
  dsimp only
  rw [if_pos hc]

/-- The branch of `operator*` that multiplies the integer fields. -/
theorem mul_exact (fl : ℚ → ℚ) {a b f11 f22 : frac} (h1 : a.semplify = .ok f11)
    (h2 : b.semplify = .ok f22)
    (hc : (f11.is_using_fp || f22.is_using_fp ||
      num_out_of_range fl (fl (f11.fpval fl * f22.fpval fl)) ||
      num_out_of_range fl (fl (f11.numerator fl * f22.numerator fl)) ||
      num_out_of_range fl (fl (f11.denominator fl * f22.denominator fl))) = false)
    (hden : wrap (f11.den * f22.den) ≠ 0) :
    mul fl a b =
      semplify { num := wrap (f11.num * f22.num), den := wrap (f11.den * f22.den), fn := 0 } := by
  unfold mul
  rw [h1, h2]
  dsimp only
  have hc2 : ¬ ((f11.is_using_fp || f22.is_using_fp ||
      num_out_of_range fl (fl (f11.fpval fl * f22.fpval fl)) ||
      num_out_of_range fl (fl (f11.numerator fl * f22.numerator fl)) ||
      num_out_of_range fl (fl (f11.denominator fl * f22.denominator fl))) = true) := by
    rw [hc]; simp
  rw [if_neg hc2]
  unfold construct
  rw [if_neg hden]

/-- The branch of `operator+` that returns the floating sum. -/
theorem add_degrade (fl : ℚ → ℚ) {a b f11 f22 : frac} (h1 : a.semplify = .ok f11)
    (h2 : b.semplify = .ok f22) (hc : f11.is_using_fp = true ∨ f22.is_using_fp = true) :
    add fl a b = .ok (make_dec_frac (fl (f11.fpval fl + f22.fpval fl))) := by
  unfold add
  rw [h1, h2]
  dsimp only
  have hc2 : (f11.is_using_fp || f22.is_using_fp ||
      num_out_of_range fl (fl (f11.fpval fl + f22.fpval fl)) ||
      num_out_of_range fl (fl (f11.numerator fl * f22.denominator fl)) ||
      num_out_of_range fl (fl (fl (f11.numerator fl * f22.denominator fl) +
        fl (f22.numerator fl * f11.denominator fl)))) = true := by
    rcases hc with h | h <;> simp [h]
  rw [if_pos hc2]

end frac

end vmatrixlib

namespace vmatrixlib
set_option linter.unusedSectionVars false

/-! ### The range guard of the operators -/

theorem int_min_lt_int_max : int_min < int_max := by
  unfold int_min int_max; norm_num

theorem fl_int {fl : ℚ → ℚ} (hfl : rounding fl) {z : Int} (h1 : int_min ≤ z) (h2 : z ≤ int_max) :
    fl (z : ℚ) = z := hfl.2.1 z h1 h2

theorem fl_zero {fl : ℚ → ℚ} (hfl : rounding fl) : fl 0 = 0 := by
  have := fl_int hfl (z := 0) (by unfold int_min; norm_num) (by unfold int_max; norm_num)
  simpa using this

/-- A rounded number that passes the range test lies strictly inside the integer range. -/
theorem not_out_of_range {fl : ℚ → ℚ} (hfl : rounding fl) {x : ℚ}
    (h : num_out_of_range fl (fl x) = false) : (int_min : ℚ) < x ∧ x < (int_max : ℚ) := by
  unfold num_out_of_range at h
  rw [Bool.or_eq_false_iff, decide_eq_false_iff_not, decide_eq_false_iff_not] at h
  constructor
  · by_contra hc
    exact h.1 (hfl.1 (not_lt.1 hc))
  · by_contra hc
    exact h.2 (hfl.1 (not_lt.1 hc))

/-- A number bounded by an integer inside the range passes the range test. -/
theorem in_range_of_abs_le {fl : ℚ → ℚ} (hfl : rounding fl) {x : ℚ} {N : Int}
    (hN : N < int_max) (hx : |x| ≤ (N : ℚ)) : num_out_of_range fl (fl x) = false := by
  have hN0 : (0 : ℚ) ≤ (N : ℚ) := le_trans (abs_nonneg x) hx
  have hN0i : 0 ≤ N := by exact_mod_cast hN0
  have hmin : int_min < -N := by
    unfold int_min; unfold int_max at hN; omega
  obtain ⟨x1, x2⟩ := abs_le.1 hx
  have u : fl x ≤ (N : ℚ) := by
    have := hfl.1 x2
    rwa [fl_int hfl (by omega) (le_of_lt hN)] at this
  have l : ((-N : Int) : ℚ) ≤ fl x := by
    have : ((-N : Int) : ℚ) ≤ x := by push_cast; exact x1
    have := hfl.1 this
    rwa [fl_int hfl (le_of_lt hmin) (by omega)] at this
  unfold num_out_of_range
  rw [Bool.or_eq_false_iff, decide_eq_false_iff_not, decide_eq_false_iff_not,
    fl_int hfl (le_refl _) (le_of_lt int_min_lt_int_max),
    fl_int hfl (le_of_lt int_min_lt_int_max) (le_refl _)]
  constructor
  · intro hh
    have : ((-N : Int) : ℚ) ≤ (int_min : ℚ) := le_trans l hh
    have : -N ≤ int_min := by exact_mod_cast this
    omega
  · intro hh
    have : (int_max : ℚ) ≤ (N : ℚ) := le_trans hh u
    have : int_max ≤ N := by exact_mod_cast this
    omega

theorem abs_fl_le {fl : ℚ → ℚ} (hfl : rounding fl) {x : ℚ} {N : Int}
    (hN : N ≤ int_max) (hx : |x| ≤ (N : ℚ)) : |fl x| ≤ (N : ℚ) := by
  have hN0 : (0 : ℚ) ≤ (N : ℚ) := le_trans (abs_nonneg x) hx
  have hN0i : 0 ≤ N := by exact_mod_cast hN0
  have hmin : int_min ≤ -N := by
    unfold int_min; unfold int_max at hN; omega
  obtain ⟨x1, x2⟩ := abs_le.1 hx
  rw [abs_le]
  constructor
  · have : ((-N : Int) : ℚ) ≤ x := by push_cast; exact x1
    have := hfl.1 this
    rw [fl_int hfl hmin (by omega)] at this
    push_cast at this
    exact this
  · have := hfl.1 x2
    rwa [fl_int hfl (by unfold int_min; omega) hN] at this

/-- The conversion of a positive denominator through `double` loses at most the relative
amount `2 ^ -52`. -/
theorem fl_double_lower {fl : ℚ → ℚ} (hfl : rounding fl) {d : Int} (h1 : 0 < d)
    (h2 : d ≤ int_max) : (d : ℚ) * (1 - 1 / 2 ^ 52) ≤ fl (double (d : ℚ)) := by
  have hdq : (0 : ℚ) < (d : ℚ) := by exact_mod_cast h1
  by_cases hs : d < 2 ^ 53
  · rw [double_int (by rw [abs_of_pos h1]; exact hs),
      fl_int hfl (by unfold int_min; omega) h2]
    have : (d : ℚ) * (1 / 2 ^ 52) ≥ 0 := by positivity
    linarith
  · have hbig : (2 : ℚ) ^ 53 ≤ (d : ℚ) := by
      have : (2 : Int) ^ 53 ≤ d := by omega
      exact_mod_cast this
    have herr := abs_le.1 (double_error (d : ℚ))
    rw [abs_of_pos hdq] at herr
    -- the integer w = min (floor (double d)) int_max is below double d
    set w : Int := min ⌊double (d : ℚ)⌋ int_max with hw
    have hw1 : (w : ℚ) ≤ double (d : ℚ) := by
      have : (w : ℚ) ≤ (⌊double (d : ℚ)⌋ : ℚ) := by exact_mod_cast min_le_left _ _
      exact le_trans this (Int.floor_le _)
    have hw2 : w ≤ int_max := min_le_right _ _
    have hfl1 := Int.lt_floor_add_one (double (d : ℚ))
    have hw3 : (d : ℚ) * (1 - 1 / 2 ^ 52) ≤ (w : ℚ) := by
      rcases min_choice ⌊double (d : ℚ)⌋ int_max with hc | hc
      · rw [hw, hc]
        have e1 : (d : ℚ) / 2 ^ 53 ≥ 1 := by
          rw [ge_iff_le, le_div_iff₀ (by norm_num)]; linarith
        have e2 : (d : ℚ) * (1 - 1 / 2 ^ 52) = (d : ℚ) - (d : ℚ) / 2 ^ 53 - (d : ℚ) / 2 ^ 53 := by
          ring
        rw [e2]
        linarith [herr.1]
      · rw [hw, hc]
        have : (d : ℚ) ≤ (int_max : ℚ) := by exact_mod_cast h2
        have : (d : ℚ) * (1 / 2 ^ 52) ≥ 0 := by positivity
        linarith
    have hw0 : int_min ≤ w := by
      have : (0 : ℚ) ≤ (w : ℚ) := by
        have : (0 : ℚ) ≤ (d : ℚ) * (1 - 1 / 2 ^ 52) := by
          apply mul_nonneg (le_of_lt hdq); norm_num
        linarith
      have : 0 ≤ w := by exact_mod_cast this
      unfold int_min; omega
    have := hfl.1 hw1
    rw [fl_int hfl hw0 hw2] at this
    linarith

theorem wrap_range {x : Int} (h1 : 0 < x) (h2 : x < 2 ^ 64) (h3 : x ≠ 2 ^ 63) :
    int_min < wrap x ∧ wrap x ≤ int_max ∧ wrap x ≠ 0 := by
  unfold wrap int_min int_max
  omega

/-- When the product of two positive denominators passes the range test of `operator*`, the
wrapped product is a non-zero value above the minimum of the integer type. -/
theorem den_guard {fl : ℚ → ℚ} (hfl : rounding fl) {d1 d2 : Int} (h1 : 0 < d1)
    (h1m : d1 ≤ int_max) (h2 : 0 < d2) (h2m : d2 ≤ int_max)
    (h : num_out_of_range fl (fl (fl (double (d1 : ℚ)) * fl (double (d2 : ℚ)))) = false) :
    int_min < wrap (d1 * d2) ∧ wrap (d1 * d2) ≤ int_max ∧ wrap (d1 * d2) ≠ 0 := by
  obtain ⟨_, hu⟩ := not_out_of_range hfl h
  have l1 := fl_double_lower hfl h1 h1m
  have l2 := fl_double_lower hfl h2 h2m
  have hd1 : (0 : ℚ) < (d1 : ℚ) := by exact_mod_cast h1
  have hd2 : (0 : ℚ) < (d2 : ℚ) := by exact_mod_cast h2
  have hc : (0 : ℚ) < 1 - 1 / 2 ^ 52 := by norm_num
  have hprod : (d1 : ℚ) * (1 - 1 / 2 ^ 52) * ((d2 : ℚ) * (1 - 1 / 2 ^ 52)) ≤
      fl (double (d1 : ℚ)) * fl (double (d2 : ℚ)) :=
    mul_le_mul l1 l2 (le_of_lt (mul_pos hd2 hc)) (le_trans (le_of_lt (mul_pos hd1 hc)) l1)
  have hmax : (int_max : ℚ) < 2 ^ 63 := by
    unfold int_max; push_cast; norm_num
  have hlt : (d1 : ℚ) * (d2 : ℚ) * ((1 - 1 / 2 ^ 52) * (1 - 1 / 2 ^ 52)) < 2 ^ 63 := by
    have e : (d1 : ℚ) * (d2 : ℚ) * ((1 - 1 / 2 ^ 52) * (1 - 1 / 2 ^ 52)) =
        (d1 : ℚ) * (1 - 1 / 2 ^ 52) * ((d2 : ℚ) * (1 - 1 / 2 ^ 52)) := by ring
    rw [e]
    linarith
  have hpos : 0 < d1 * d2 := mul_pos h1 h2
  apply wrap_range hpos
  · by_contra hbig
    have hb : (2 : Int) ^ 64 ≤ d1 * d2 := not_lt.1 hbig
    have hbq : (2 : ℚ) ^ 64 ≤ (d1 : ℚ) * (d2 : ℚ) := by exact_mod_cast hb
    have hc2 : (1 : ℚ) / 2 < (1 - 1 / 2 ^ 52) * (1 - 1 / 2 ^ 52) := by norm_num
    have : (2 : ℚ) ^ 64 * (1 / 2) ≤ (d1 : ℚ) * (d2 : ℚ) * ((1 - 1 / 2 ^ 52) * (1 - 1 / 2 ^ 52)) :=
      mul_le_mul hbq (le_of_lt hc2) (by norm_num) (le_of_lt (mul_pos hd1 hd2))
    norm_num at this hlt
    linarith
  · intro heq
    -- both factors are powers of two, which `double` keeps
    have hn : d1.natAbs * d2.natAbs = 2 ^ 63 := by
      have := congrArg Int.natAbs heq
      rw [Int.natAbs_mul] at this
      simpa using this
    obtain ⟨i, _, hi⟩ := (Nat.dvd_prime_pow Nat.prime_two).1 (Dvd.intro _ hn)
    obtain ⟨j, _, hj⟩ := (Nat.dvd_prime_pow Nat.prime_two).1 (Dvd.intro_left _ hn)
    have e1 : (d1 : ℚ) = (2 : ℚ) ^ i := by
      have : d1 = ((d1.natAbs : Nat) : Int) := by omega
      rw [this, hi]; push_cast; rfl
    have e2 : (d2 : ℚ) = (2 : ℚ) ^ j := by
      have : d2 = ((d2.natAbs : Nat) : Int) := by omega
      rw [this, hj]; push_cast; rfl
    have f1 : fl (double (d1 : ℚ)) = d1 := by
      rw [e1, double_pow_two, ← e1]
      exact fl_int hfl (by unfold int_min; omega) h1m
    have f2 : fl (double (d2 : ℚ)) = d2 := by
      rw [e2, double_pow_two, ← e2]
      exact fl_int hfl (by unfold int_min; omega) h2m
    rw [f1, f2] at hu
    have : ((d1 * d2 : Int) : ℚ) < (int_max : ℚ) := by push_cast; exact hu
    have : d1 * d2 < int_max := by exact_mod_cast this
    rw [heq] at this
    unfold int_max at this
    omega

namespace frac

theorem numerator_exact {fl : ℚ → ℚ} (hfl : rounding fl) {f : frac} (h0 : f.fn = 0)
    (h1 : int_min < f.num) (h2 : f.num ≤ int_max) : f.numerator fl = f.num := by
  unfold numerator
  rw [if_neg (by simp [h0]), fl_int hfl (le_of_lt h1) h2]

theorem denominator_eq (fl : ℚ → ℚ) {f : frac} (h0 : f.fn = 0) :
    f.denominator fl = fl (double (f.den : ℚ)) := by
  unfold denominator
  rw [if_neg (by simp [h0])]

/-- The operator `operator*` returns on all valid operands, with a valid result. -/
theorem mul_total {fl : ℚ → ℚ} (hfl : rounding fl) (a b : frac) (ha : a.valid) (hb : b.valid) :
    ∃ r, mul fl a b = .ok r ∧ r.valid := by
  obtain ⟨f11, e1, fn1, _, p1⟩ := semplify_valid a ha
  obtain ⟨f22, e2, fn2, _, p2⟩ := semplify_valid b hb
  by_cases hc : (f11.is_using_fp || f22.is_using_fp ||
      num_out_of_range fl (fl (f11.fpval fl * f22.fpval fl)) ||
      num_out_of_range fl (fl (f11.numerator fl * f22.numerator fl)) ||
      num_out_of_range fl (fl (f11.denominator fl * f22.denominator fl))) = true
  · exact ⟨_, mul_degrade fl e1 e2 hc, make_dec_frac_valid _⟩
  · have hc2 := Bool.eq_false_iff.2 hc
    have hparts := hc2
    simp only [Bool.or_eq_false_iff] at hparts
    obtain ⟨⟨⟨⟨g1, g2⟩, _⟩, g4⟩, g5⟩ := hparts
    have a0 : a.fn = 0 := by rw [← fn1]; exact is_using_fp_false.1 g1
    have b0 : b.fn = 0 := by rw [← fn2]; exact is_using_fp_false.1 g2
    have f0 : f11.fn = 0 := is_using_fp_false.1 g1
    have h0 : f22.fn = 0 := is_using_fp_false.1 g2
    obtain ⟨pd1, _, pn1, pn1m, pd1m, _⟩ := p1 a0
    obtain ⟨pd2, _, pn2, pn2m, pd2m, _⟩ := p2 b0
    rw [numerator_exact hfl f0 pn1 pn1m, numerator_exact hfl h0 pn2 pn2m] at g4
    rw [denominator_eq fl f0, denominator_eq fl h0] at g5
    obtain ⟨n1, n2⟩ := not_out_of_range hfl g4
    have n1i : int_min < f11.num * f22.num := by
      have : (int_min : ℚ) < ((f11.num * f22.num : Int) : ℚ) := by push_cast; exact n1
      exact_mod_cast this
    have n2i : f11.num * f22.num < int_max := by
      have : ((f11.num * f22.num : Int) : ℚ) < (int_max : ℚ) := by push_cast; exact n2
      exact_mod_cast this
    obtain ⟨w1, w2, w3⟩ := den_guard hfl pd1 pd1m pd2 pd2m g5
    rw [mul_exact fl e1 e2 hc2 w3]
    obtain ⟨r, er, r1, r2, _, r4, r5, r6, _⟩ := semplify_spec
      { num := wrap (f11.num * f22.num), den := wrap (f11.den * f22.den), fn := 0 } rfl w3
      (by rw [wrap_eq_self (le_of_lt n1i) (le_of_lt n2i)]; exact n1i)
      (by rw [wrap_eq_self (le_of_lt n1i) (le_of_lt n2i)]; exact le_of_lt n2i) w1 w2
    refine ⟨r, er, ?_⟩
    intro _
    have : int_min < 0 := by unfold int_min; norm_num
    exact ⟨by omega, r4, r5, by omega, r6⟩

end frac

end vmatrixlib

namespace vmatrixlib
set_option linter.unusedSectionVars false

namespace frac

/-! ### The exact branch of `operator*` -/

/-- The fields of a normalised pair divide the fields of the pair it came from. -/
theorem normalised_le {n d rn rd : Int} (hd : d ≠ 0) (hg : Int.gcd rn rd = 1)
    (hc : rn * d = n * rd) : |rn| ≤ |n| ∧ |rd| ≤ |d| := by
  have h1 : rd ∣ d := by
    have : rd ∣ rn * d := by rw [hc]; exact Dvd.intro_left _ rfl
    exact Int.dvd_of_dvd_mul_right_of_gcd_one this (by rw [Int.gcd_comm]; exact hg)
  have h2 : rn ∣ n * rd := by rw [← hc]; exact Dvd.intro _ rfl
  have h3 : rn ∣ n := Int.dvd_of_dvd_mul_left_of_gcd_one h2 hg
  constructor
  · by_cases hn : n = 0
    · rw [hn, zero_mul] at hc
      have : rn = 0 := by
        rcases mul_eq_zero.1 hc with h | h
        · exact h
        · exact absurd h hd
      rw [this, hn]
    · have := Int.natAbs_le_of_dvd_ne_zero h3 hn
      rw [Int.abs_eq_natAbs, Int.abs_eq_natAbs]
      exact_mod_cast this
  · have := Int.natAbs_le_of_dvd_ne_zero h1 hd
    rw [Int.abs_eq_natAbs, Int.abs_eq_natAbs]
    exact_mod_cast this

/-- The floating value of a non-degraded value whose fields the floating type holds. -/
theorem fpval_exact {fl : ℚ → ℚ} (hfl : rounding fl) {f : frac} (h0 : f.fn = 0)
    (h1 : int_min < f.num) (h2 : f.num ≤ int_max) (h3 : int_min < f.den) (h4 : f.den ≤ int_max) :
    f.fpval fl = fl f.value := by
  unfold fpval value
  rw [if_neg (by simp [h0]), fl_int hfl (le_of_lt h1) h2, fl_int hfl (le_of_lt h3) h4]

theorem abs_value_le {f : frac} (hd : f.den ≠ 0) : |f.value| ≤ ((|f.num| : Int) : ℚ) := by
  unfold value
  rw [abs_div, Int.cast_abs]
  apply div_le_self (abs_nonneg _)
  have : (1 : Int) ≤ |f.den| := Int.one_le_abs hd
  have : ((1 : Int) : ℚ) ≤ ((|f.den| : Int) : ℚ) := by exact_mod_cast this
  rw [Int.cast_abs] at this
  simpa using this

/-- The operator `operator*` on non-degraded operands whose fields are so small that neither
product leaves the integer range and `double` holds both denominators: the result is the
normalised exact product. -/
theorem mul_bounded {fl : ℚ → ℚ} (hfl : rounding fl) (a b : frac) (ha : a.valid) (hb : b.valid)
    (a0 : a.fn = 0) (b0 : b.fn = 0) (N1 D1 N2 D2 : Int)
    (hn1 : |a.num| ≤ N1) (hd1 : |a.den| ≤ D1) (hn2 : |b.num| ≤ N2) (hd2 : |b.den| ≤ D2)
    (hN : N1 * N2 < int_max) (hD : D1 * D2 < int_max) (hD1 : D1 < 2 ^ 53) (hD2 : D2 < 2 ^ 53) :
    ∃ r, mul fl a b = .ok r ∧ r.fn = 0 ∧ 0 < r.den ∧ Int.gcd r.num r.den = 1 ∧
      r.value = a.value * b.value ∧ |r.num| ≤ N1 * N2 ∧ r.den ≤ D1 * D2 := by
  obtain ⟨ad, _, _, _, _⟩ := ha a0
  obtain ⟨bd, _, _, _, _⟩ := hb b0
  obtain ⟨f11, e1, fn1, _, p1⟩ := semplify_valid a ha
  obtain ⟨f22, e2, fn2, _, p2⟩ := semplify_valid b hb
  obtain ⟨pd1, pg1, pn1, pn1m, pd1m, pc1⟩ := p1 a0
  obtain ⟨pd2, pg2, pn2, pn2m, pd2m, pc2⟩ := p2 b0
  have f0 : f11.fn = 0 := by rw [fn1]; exact a0
  have h0 : f22.fn = 0 := by rw [fn2]; exact b0
  obtain ⟨q1, q2⟩ := normalised_le ad pg1 pc1
  obtain ⟨q3, q4⟩ := normalised_le bd pg2 pc2
  have imin : int_min < 0 := by unfold int_min; norm_num
  have imm : int_min = -int_max - 1 := by unfold int_min int_max; norm_num
  -- bounds of the normalised fields
  have N1n : 0 ≤ N1 := le_trans (abs_nonneg _) hn1
  have N2n : 0 ≤ N2 := le_trans (abs_nonneg _) hn2
  have D1n : 0 ≤ D1 := le_trans (abs_nonneg _) hd1
  have D2n : 0 ≤ D2 := le_trans (abs_nonneg _) hd2
  have bn1 : |f11.num| ≤ N1 := le_trans q1 hn1
  have bn2 : |f22.num| ≤ N2 := le_trans q3 hn2
  have bd1 : f11.den ≤ D1 := by
    have := le_trans q2 hd1
    rwa [abs_of_pos pd1] at this
  have bd2 : f22.den ≤ D2 := by
    have := le_trans q4 hd2
    rwa [abs_of_pos pd2] at this
  have bnn : |f11.num * f22.num| ≤ N1 * N2 := by
    rw [abs_mul]
    exact mul_le_mul bn1 bn2 (abs_nonneg _) N1n
  have bdd : f11.den * f22.den ≤ D1 * D2 :=
    mul_le_mul bd1 bd2 (le_of_lt pd2) D1n
  have hNN : 0 ≤ N1 * N2 := mul_nonneg N1n N2n
  -- the floating values
  have v1 : |f11.fpval fl| ≤ ((|f11.num| : Int) : ℚ) := by
    rw [fpval_exact hfl f0 pn1 pn1m (by omega) pd1m]
    apply abs_fl_le hfl _ (abs_value_le (by omega))
    rw [abs_le]; omega
  have v2 : |f22.fpval fl| ≤ ((|f22.num| : Int) : ℚ) := by
    rw [fpval_exact hfl h0 pn2 pn2m (by omega) pd2m]
    apply abs_fl_le hfl _ (abs_value_le (by omega))
    rw [abs_le]; omega
  have g3 : num_out_of_range fl (fl (f11.fpval fl * f22.fpval fl)) = false := by
    apply in_range_of_abs_le hfl hN
    rw [abs_mul]
    have c1 : ((|f11.num| : Int) : ℚ) ≤ (N1 : ℚ) := by exact_mod_cast bn1
    have c2 : ((|f22.num| : Int) : ℚ) ≤ (N2 : ℚ) := by exact_mod_cast bn2
    push_cast
    exact mul_le_mul (le_trans v1 c1) (le_trans v2 c2) (abs_nonneg _)
      (by exact_mod_cast N1n)
  have g4 : num_out_of_range fl (fl (f11.numerator fl * f22.numerator fl)) = false := by
    rw [numerator_exact hfl f0 pn1 pn1m, numerator_exact hfl h0 pn2 pn2m]
    apply in_range_of_abs_le hfl hN
    have : ((|f11.num * f22.num| : Int) : ℚ) ≤ ((N1 * N2 : Int) : ℚ) := by exact_mod_cast bnn
    rw [Int.cast_abs] at this
    push_cast at this ⊢
    exact this
  have x1 : fl (double (f11.den : ℚ)) = f11.den := by
    rw [double_int (by rw [abs_of_pos pd1]; omega)]
    exact fl_int hfl (by omega) pd1m
  have x2 : fl (double (f22.den : ℚ)) = f22.den := by
    rw [double_int (by rw [abs_of_pos pd2]; omega)]
    exact fl_int hfl (by omega) pd2m
  have g5 : num_out_of_range fl (fl (f11.denominator fl * f22.denominator fl)) = false := by
    rw [denominator_eq fl f0, denominator_eq fl h0, x1, x2]
    apply in_range_of_abs_le hfl hD
    have hp : 0 < f11.den * f22.den := mul_pos pd1 pd2
    have : ((f11.den * f22.den : Int) : ℚ) ≤ ((D1 * D2 : Int) : ℚ) := by exact_mod_cast bdd
    rw [abs_of_pos (by exact_mod_cast hp : (0 : ℚ) < (f11.den : ℚ) * (f22.den : ℚ))]
    push_cast at this ⊢
    exact this
  have hc : (f11.is_using_fp || f22.is_using_fp ||
      num_out_of_range fl (fl (f11.fpval fl * f22.fpval fl)) ||
      num_out_of_range fl (fl (f11.numerator fl * f22.numerator fl)) ||
      num_out_of_range fl (fl (f11.denominator fl * f22.denominator fl))) = false := by
    rw [is_using_fp_false.2 f0, is_using_fp_false.2 h0, g3, g4, g5]
    rfl
  have hp : 0 < f11.den * f22.den := mul_pos pd1 pd2
  have wn : wrap (f11.num * f22.num) = f11.num * f22.num := by
    have := abs_le.1 bnn
    apply wrap_eq_self
    · unfold int_min; unfold int_max at hN; omega
    · omega
  have wd : wrap (f11.den * f22.den) = f11.den * f22.den := by
    apply wrap_eq_self
    · omega
    · omega
  have hden : wrap (f11.den * f22.den) ≠ 0 := by rw [wd]; omega
  rw [mul_exact fl e1 e2 hc hden, wn, wd]
  have := abs_le.1 bnn
  obtain ⟨r, er, r1, r2, r3, _, _, _, r7⟩ := semplify_spec
    { num := f11.num * f22.num, den := f11.den * f22.den, fn := 0 } rfl (by
      show f11.den * f22.den ≠ 0
      omega)
    (by show int_min < f11.num * f22.num; unfold int_min; unfold int_max at hN; omega)
    (by show f11.num * f22.num ≤ int_max; omega)
    (by show int_min < f11.den * f22.den; omega)
    (by show f11.den * f22.den ≤ int_max; omega)
  have r7 : r.num * (f11.den * f22.den) = f11.num * f22.num * r.den := r7
  obtain ⟨k1, k2⟩ := normalised_le (n := f11.num * f22.num) (d := f11.den * f22.den)
    (by omega) r3 r7
  refine ⟨r, er, r1, r2, r3, ?_, le_trans k1 bnn, ?_⟩
  · have va : f11.value = a.value := value_eq_of_cross ad (by omega) pc1
    have vb : f22.value = b.value := value_eq_of_cross bd (by omega) pc2
    rw [← va, ← vb]
    unfold value
    have hr : (r.den : ℚ) ≠ 0 := by
      have : r.den ≠ 0 := by omega
      exact_mod_cast this
    have h1 : (f11.den : ℚ) ≠ 0 := by
      have : f11.den ≠ 0 := by omega
      exact_mod_cast this
    have h2 : (f22.den : ℚ) ≠ 0 := by
      have : f22.den ≠ 0 := by omega
      exact_mod_cast this
    rw [div_mul_div_comm, div_eq_div_iff hr (mul_ne_zero h1 h2)]
    exact_mod_cast r7
  · rw [abs_of_pos r2, abs_of_pos hp] at k2
    exact le_trans k2 bdd

end frac

end vmatrixlib

namespace vmatrixlib
set_option linter.unusedSectionVars false

namespace frac

/-! ### Degraded operands, `neg()` and `operator/` -/

/-- The operator `operator+` with a degraded operand returns the floating sum. -/
theorem add_degraded (fl : ℚ → ℚ) (a b : frac) (ha : a.valid) (hb : b.valid)
    (h : a.is_using_fp = true ∨ b.is_using_fp = true) :
    ∃ r, add fl a b = .ok r ∧
      (r.is_using_fp = true ∨ r = { num := 0, den := 1, fn := 0 }) := by
  obtain ⟨f11, e1, fn1, _, _⟩ := semplify_valid a ha
  obtain ⟨f22, e2, fn2, _, _⟩ := semplify_valid b hb
  have hc : f11.is_using_fp = true ∨ f22.is_using_fp = true := by
    rcases h with h | h
    · left; rw [is_using_fp_true] at h ⊢; rw [fn1]; exact h
    · right; rw [is_using_fp_true] at h ⊢; rw [fn2]; exact h
  exact ⟨_, add_degrade fl e1 e2 hc, make_dec_frac_cases _⟩

/-- The operator `operator*` with a degraded operand returns the floating product. -/
theorem mul_degraded (fl : ℚ → ℚ) (a b : frac) (ha : a.valid) (hb : b.valid)
    (h : a.is_using_fp = true ∨ b.is_using_fp = true) :
    ∃ r, mul fl a b = .ok r ∧
      (r.is_using_fp = true ∨ r = { num := 0, den := 1, fn := 0 }) := by
  obtain ⟨f11, e1, fn1, _, _⟩ := semplify_valid a ha
  obtain ⟨f22, e2, fn2, _, _⟩ := semplify_valid b hb
  have hc : (f11.is_using_fp || f22.is_using_fp ||
      num_out_of_range fl (fl (f11.fpval fl * f22.fpval fl)) ||
      num_out_of_range fl (fl (f11.numerator fl * f22.numerator fl)) ||
      num_out_of_range fl (fl (f11.denominator fl * f22.denominator fl))) = true := by
    rcases h with h | h
    · have : f11.is_using_fp = true := by
        rw [is_using_fp_true] at h ⊢; rw [fn1]; exact h
      simp [this]
    · have : f22.is_using_fp = true := by
        rw [is_using_fp_true] at h ⊢; rw [fn2]; exact h
      simp [this]
  exact ⟨_, mul_degrade fl e1 e2 hc, make_dec_frac_cases _⟩

/-- The method `neg()` returns on every valid value, keeping it degraded or not. -/
theorem neg_valid (b : frac) (hb : b.valid) :
    ∃ n, b.neg = .ok n ∧ n.valid ∧ n.is_using_fp = b.is_using_fp := by
  by_cases h : b.fn = 0
  · obtain ⟨hd, hn1, hn2, hd1, hd2⟩ := hb h
    have w : wrap (-b.num) = -b.num := by
      apply wrap_eq_self
      · unfold int_min; unfold int_max at hn2; omega
      · unfold int_max; unfold int_min at hn1; omega
    refine ⟨{ num := -b.num, den := b.den, fn := 0 }, ?_, ?_, ?_⟩
    · unfold neg construct
      rw [is_using_fp_false.2 h, w]
      simp [hd]
    · intro _
      refine ⟨hd, ?_, ?_, hd1, hd2⟩
      · show int_min < -b.num
        unfold int_min; unfold int_max at hn2; omega
      · show -b.num ≤ int_max
        unfold int_max; unfold int_min at hn1; omega
    · rw [is_using_fp_false.2 h]
      exact is_using_fp_false.2 rfl
  · refine ⟨{ num := 0, den := 1, fn := -b.fn }, ?_, valid_of_degraded (by simpa using h), ?_⟩
    · unfold neg
      rw [is_using_fp_true.2 h]
      rfl
    · rw [is_using_fp_true.2 h]
      exact is_using_fp_true.2 (by simpa using h)

/-- The operator `operator-` is `operator+` on the negated second operand. -/
theorem sub_eq (fl : ℚ → ℚ) (a : frac) {b n : frac} (h : b.neg = .ok n) :
    sub fl a b = add fl a n := by
  unfold sub
  rw [h]

/-- The operator `operator/` with an exact zero divisor. -/
theorem div_zero (fl : ℚ → ℚ) (a : frac) {b : frac} (h0 : b.fn = 0) (hn : b.num = 0) :
    div fl a b = .error .division_by_zero := by
  unfold div construct
  rw [is_using_fp_false.2 h0, hn]
  rfl

/-- The operator `operator/` with a non-degraded divisor that is not zero. -/
theorem div_exact (fl : ℚ → ℚ) (a : frac) {b : frac} (h0 : b.fn = 0) (hn : b.num ≠ 0) :
    div fl a b = mul fl a { num := b.den, den := b.num, fn := 0 } := by
  unfold div construct
  rw [is_using_fp_false.2 h0]
  simp [hn]

/-- The operator `operator/` with a degraded divisor. -/
theorem div_degraded (fl : ℚ → ℚ) (a : frac) {b : frac} (h0 : b.fn ≠ 0) :
    div fl a b = mul fl a (make_dec_frac (fl (1 / b.fn))) := by
  unfold div
  rw [is_using_fp_true.2 h0]
  rfl

theorem reciprocal_valid {b : frac} (hb : b.valid) (h0 : b.fn = 0) (hn : b.num ≠ 0) :
    valid { num := b.den, den := b.num, fn := 0 } := by
  obtain ⟨_, hn1, hn2, hd1, hd2⟩ := hb h0
  intro _
  exact ⟨hn, hd1, hd2, hn1, hn2⟩

end frac

end vmatrixlib

namespace vmatrixlib
set_option linter.unusedSectionVars false

/-! ### The minimum of the integer type in `gcd` -/

theorem ldiff_one_left (m : Nat) : Nat.ldiff 1 m = if m % 2 = 0 then 1 else 0 := by
  apply Nat.eq_of_testBit_eq
  intro i
  rw [Nat.testBit_ldiff]
  cases i with
  | zero =>
    by_cases h : m % 2 = 0
    · simp [h, Nat.testBit_zero]
    · have : m % 2 = 1 := by omega
      simp [this, Nat.testBit_zero]
  | succ j =>
    by_cases h : m % 2 = 0
    · simp [h, Nat.testBit_succ]
    · simp [h, Nat.testBit_succ]

theorem ldiff_one_right (m : Nat) : Nat.ldiff m 1 = 2 * (m / 2) := by
  apply Nat.eq_of_testBit_eq
  intro i
  rw [Nat.testBit_ldiff]
  cases i with
  | zero => simp [Nat.testBit_zero]
  | succ j => simp [Nat.testBit_succ]

theorem land_one_negSucc (m : Nat) :
    Int.land (Int.negSucc m) 1 = if m % 2 = 0 then 1 else 0 := by
  show ((Nat.ldiff 1 m : Nat) : Int) = _
  rw [ldiff_one_left]
  split_ifs <;> rfl

theorem shiftRight_one_negSucc (m : Nat) : (Int.negSucc m) >>> 1 = Int.negSucc (m / 2) := by
  show Int.negSucc (m >>> 1) = _
  rw [Nat.shiftRight_eq_div_pow]

theorem lor_one_negSucc (m : Nat) : Int.lor 1 (Int.negSucc m) = Int.negSucc (2 * (m / 2)) := by
  show Int.negSucc (Nat.ldiff m 1) = _
  rw [ldiff_one_right]

/-- The loop `while ((v & 1) == 0) v >>= 1;` takes `-2^k` to `-1` (the shift of a negative
number keeps the sign). -/
theorem gcd_strip_loop_neg_pow : ∀ (k budget : Nat), k < budget →
    gcd_strip_loop budget (Int.negSucc (2 ^ k - 1)) = .ok (-1) := by
  intro k
  induction k with
  | zero =>
    intro budget h
    obtain ⟨b, rfl⟩ : ∃ b, budget = b + 1 := ⟨budget - 1, by omega⟩
    rw [gcd_strip_loop, land_one_negSucc]
    simp
  | succ j ih =>
    intro budget h
    obtain ⟨b, rfl⟩ : ∃ b, budget = b + 1 := ⟨budget - 1, by omega⟩
    have hp : 0 < 2 ^ j := Nat.pow_pos (by omega)
    have hodd : (2 ^ (j + 1) - 1) % 2 = 1 := by
      rw [pow_succ]; omega
    have hhalf : (2 ^ (j + 1) - 1) / 2 = 2 ^ j - 1 := by
      rw [pow_succ]; omega
    have hl : Int.land (Int.negSucc (2 ^ (j + 1) - 1)) 1 = 0 := by
      rw [land_one_negSucc, if_neg (by omega)]
    rw [gcd_strip_loop, hl, if_pos rfl, shiftRight_one_negSucc, hhalf]
    exact ih b (by omega)

/-- With `u = -1` and `v = 1` the loop `do { ... } while (v != 0)` of `gcd` comes back to
the same state, so no step budget is enough. -/
theorem gcd_main_loop_cycle : ∀ n : Nat, gcd_main_loop n (-1) 1 = .error .out_of_steps := by
  intro n
  induction n with
  | zero => rfl
  | succ b ih =>
    have s : gcd_strip_loop 64 1 = .ok 1 := by decide
    rw [gcd_main_loop, s]
    dsimp only
    have c : (-1 : Int) < 1 := by decide
    have w : wrap (1 - -1) >>> 1 = 1 := by decide
    rw [if_pos c, if_pos c, w, if_pos (by decide)]
    exact ih

theorem int_min_negSucc : int_min = Int.negSucc (2 ^ 63 - 1) := by decide

theorem gcd_shift_loop_min : gcd_shift_loop 64 1 int_min 0 = .ok (1, int_min, 0) := by
  have h : Int.land (Int.lor 1 int_min) 1 = 1 := by
    rw [int_min_negSucc, lor_one_negSucc, land_one_negSucc]
    have : (2 * ((2 ^ 63 - 1) / 2)) % 2 = 0 := by omega
    rw [if_pos this]
  rw [gcd_shift_loop, h, if_neg (by decide)]

theorem gcd_strip_loop_min : gcd_strip_loop 64 int_min = .ok (-1) := by
  rw [int_min_negSucc]
  exact gcd_strip_loop_neg_pow 63 64 (by omega)

theorem gcd_main_loop_min : gcd_main_loop 64 1 int_min = .error .out_of_steps := by
  rw [gcd_main_loop, gcd_strip_loop_min]
  dsimp only
  have c : ¬ ((1 : Int) < -1) := by decide
  have w : wrap (1 - -1) >>> 1 = 1 := by decide
  rw [if_neg c, if_neg c, w, if_pos (by decide)]
  exact gcd_main_loop_cycle 63

/-- The call `gcd(-1, min)` on the minimum of the integer type never returns. -/
theorem gcd_min_right : gcd (-1) int_min = .error .out_of_steps := by
  have wa : wrap (- (-1 : Int)) = 1 := by decide
  have wb : wrap (-int_min) = int_min := by decide
  have ca : ¬ ((-1 : Int) ≥ 0) := by decide
  have cb : ¬ (int_min ≥ 0) := by decide
  have cz : ¬ ((1 : Int) = 0 ∨ int_min = 0) := by decide
  have hstrip1 : gcd_strip_loop 64 1 = .ok 1 := by decide
  unfold gcd
  rw [if_neg ca, if_neg cb, wa, wb]
  dsimp only
  rw [if_neg cz, gcd_shift_loop_min]
  dsimp only
  rw [hstrip1]
  dsimp only
  rw [gcd_main_loop_min]

namespace frac

/-- The method `semplify()` passes on what `gcd` ends with. -/
theorem semplify_gcd_error (f : frac) (hfn : f.fn = 0) (hd : f.den < 0) {n d : Int}
    {e : frac_error} (hn : wrap (-f.num) = n) (hdd : wrap (-f.den) = d)
    (hg : gcd n d = .error e) : f.semplify = .error e := by
  unfold semplify
  have c : ¬ (f.is_using_fp = true) := by
    rw [is_using_fp_false.2 hfn]; decide
  rw [if_neg c]
  dsimp only
  rw [if_pos hd, if_pos hd, hn, hdd, hg]

/-- The operator `operator*` passes on what the normalisation of its second operand ends
with. -/
theorem mul_semplify_error (fl : ℚ → ℚ) {a b f11 : frac} {e : frac_error}
    (h1 : a.semplify = .ok f11) (h2 : b.semplify = .error e) : mul fl a b = .error e := by
  unfold mul
  rw [h1, h2]

/-- The method `semplify()` on `1 / min` never returns. -/
theorem semplify_min_den :
    semplify { num := 1, den := int_min, fn := 0 } = .error .out_of_steps :=
  semplify_gcd_error { num := 1, den := int_min, fn := 0 } rfl (by decide) (n := -1)
    (d := int_min) (by decide) (by decide) gcd_min_right

/-- The operator `operator/` with the divisor `min / 1` never returns. -/
theorem div_min_divisor (fl : ℚ → ℚ) {a f : frac} (h : a.semplify = .ok f) :
    div fl a { num := int_min, den := 1, fn := 0 } = .error .out_of_steps := by
  rw [div_exact fl a rfl (by decide)]
  exact mul_semplify_error fl h semplify_min_den

end frac

end vmatrixlib

namespace vmatrixlib
set_option linter.unusedSectionVars false

/-! ### The function `float_to_frac` -/

theorem trunc_intCast (k : Int) : trunc (k : ℚ) = k := by
  unfold trunc
  rw [Rat.num_intCast, Rat.den_intCast]
  simp

theorem float_to_int_intCast {lo hi k : Int} (h1 : lo ≤ k) (h2 : k ≤ hi) :
    float_to_int lo hi (k : ℚ) = .ok k := by
  unfold float_to_int
  rw [trunc_intCast, if_pos ⟨h1, h2⟩]

/-- The branch of `float_to_frac` for a number without fractional part. -/
theorem float_to_frac_int (fl : ℚ → ℚ) (lm : libm) (precision : Int)
    (hfl : fl (int_max : ℚ) = int_max) (z : Int) :
    float_to_frac fl lm (z : ℚ) precision =
      if int_max ≤ |z| then .ok none else .ok (some (z, 1)) := by
  have habs : |(z : ℚ)| = ((|z| : Int) : ℚ) := by rw [Int.cast_abs]
  unfold float_to_frac
  simp only [habs, trunc_intCast, sub_self, if_true, hfl]
  by_cases h : int_max ≤ |z|
  · have hq : ((|z| : Int) : ℚ) ≥ (int_max : ℚ) := by exact_mod_cast h
    rw [if_pos hq, if_pos h]
  · have hq : ¬ (((|z| : Int) : ℚ) ≥ (int_max : ℚ)) := by
      intro hh
      exact h (by exact_mod_cast hh)
    have hlt : |z| < int_max := not_le.1 h
    rw [if_neg hq, if_neg h,
      float_to_int_intCast (by unfold int_min; have := abs_nonneg z; omega) (le_of_lt hlt)]
    have hz := abs_lt.1 hlt
    have hw : wrap ((if (z : ℚ) ≥ 0 then 1 else -1) * |z|) = z := by
      by_cases hs : (z : ℚ) ≥ 0
      · have : 0 ≤ z := by exact_mod_cast hs
        rw [if_pos hs, abs_of_nonneg this, one_mul]
        exact wrap_eq_self (by unfold int_min; omega) (by omega)
      · have : z < 0 := by
          have := not_le.1 hs
          exact_mod_cast this
        rw [if_neg hs, abs_of_neg this]
        have e : (-1 : Int) * (-z) = z := by ring
        rw [e]
        exact wrap_eq_self (by unfold int_min; unfold int_max at hz; omega) (by omega)
    simp only [hw]

namespace frac

/-- The method `semplify()` leaves an integer `z / 1` as it is. -/
theorem semplify_integer {z : Int} (h1 : int_min < z) (h2 : z ≤ int_max) :
    semplify { num := z, den := 1, fn := 0 } = .ok { num := z, den := 1, fn := 0 } := by
  obtain ⟨r, e, r1, r2, r3, _, _, _, r7⟩ := semplify_spec { num := z, den := 1, fn := 0 } rfl
    (by show (1 : Int) ≠ 0; decide) h1 h2 (by show int_min < (1 : Int); decide)
    (by show (1 : Int) ≤ int_max; decide)
  have r7 : r.num * 1 = z * r.den := r7
  rw [mul_one] at r7
  have hd : r.den = 1 := by
    have hdvd : r.den ∣ r.num := by rw [r7]; exact Dvd.intro_left _ rfl
    have hg : (Int.gcd r.num r.den : Int) = r.den.natAbs := by
      rw [Int.gcd_eq_right hdvd]
    rw [r3] at hg
    omega
  rw [hd, mul_one] at r7
  rw [e]
  congr 1
  cases r
  simp only at r1 r7 hd
  simp [r1, r7, hd]

end frac

end vmatrixlib

namespace vmatrixlib
set_option linter.unusedSectionVars false

/-! ### The stand-in for the mathematics library -/

theorem long_double_accurate : accurate long_double := fun x => round_sig_error 64 x

theorem log10_up_spec : ∀ (fuel : Nat) (x : ℚ), 1 ≤ x → x < (10 : ℚ) ^ fuel →
    (10 : ℚ) ^ log10_up fuel x ≤ x ∧ x < (10 : ℚ) ^ (log10_up fuel x + 1) := by
  intro fuel
  induction fuel with
  | zero =>
    intro x h1 h2
    rw [pow_zero] at h2
    linarith
  | succ n ih =>
    intro x h1 h2
    rw [log10_up]
    by_cases hx : x < 10
    · rw [if_pos hx]
      simpa using ⟨h1, hx⟩
    · rw [if_neg hx]
      have hx2 : 10 ≤ x := not_lt.1 hx
      obtain ⟨i1, i2⟩ := ih (x / 10) (by rw [le_div_iff₀ (by norm_num)]; linarith)
        (by rw [div_lt_iff₀ (by norm_num)]; rw [pow_succ] at h2; exact h2)
      constructor
      · rw [pow_succ]
        rw [le_div_iff₀ (by norm_num)] at i1
        exact i1
      · rw [pow_succ]
        rw [div_lt_iff₀ (by norm_num)] at i2
        exact i2

theorem log10_down_spec : ∀ (fuel : Nat) (x : ℚ), 0 < x → 1 ≤ x * (10 : ℚ) ^ fuel →
    1 ≤ x * (10 : ℚ) ^ log10_down fuel x ∧
    (0 < log10_down fuel x → x * (10 : ℚ) ^ log10_down fuel x < 10) := by
  intro fuel
  induction fuel with
  | zero =>
    intro x h0 h1
    rw [log10_down]
    exact ⟨h1, fun h => absurd h (lt_irrefl 0)⟩
  | succ n ih =>
    intro x h0 h1
    rw [log10_down]
    by_cases hx : 1 ≤ x
    · rw [if_pos hx]
      exact ⟨by simpa using hx, fun h => absurd h (lt_irrefl 0)⟩
    · rw [if_neg hx]
      have hx2 : x < 1 := not_le.1 hx
      obtain ⟨i1, i2⟩ := ih (x * 10) (by linarith) (by
        rw [pow_succ] at h1
        calc (1 : ℚ) ≤ x * ((10 : ℚ) ^ n * 10) := h1
          _ = x * 10 * (10 : ℚ) ^ n := by ring)
      have e : x * (10 : ℚ) ^ (log10_down n (x * 10) + 1) =
          x * 10 * (10 : ℚ) ^ log10_down n (x * 10) := by
        rw [pow_succ]; ring
      refine ⟨by rw [e]; exact i1, fun _ => ?_⟩
      rw [e]
      by_cases hz : 0 < log10_down n (x * 10)
      · exact i2 hz
      · have : log10_down n (x * 10) = 0 := by omega
        rw [this, pow_zero, mul_one]
        linarith

/-- The integer part of the decimal logarithm brackets its argument by powers of ten. -/
theorem floor_log10_spec {x : ℚ} (hx : 0 < x) :
    (10 : ℚ) ^ floor_log10 x ≤ x ∧ x < (10 : ℚ) ^ (floor_log10 x + 1) := by
  have hd : (0 : ℚ) < (x.den : ℚ) := by exact_mod_cast x.den_pos
  have hnum : 0 < x.num := Rat.num_pos.2 hx
  have hxe : x = (x.num.natAbs : ℚ) / (x.den : ℚ) := by
    conv_lhs => rw [← Rat.num_div_den x]
    congr 1
    rw [Nat.cast_natAbs, abs_of_pos hnum]
  unfold floor_log10
  by_cases h1 : 1 ≤ x
  · rw [if_pos h1]
    have hlt : x < (10 : ℚ) ^ x.num.natAbs := by
      have a1 : x ≤ (x.num.natAbs : ℚ) := by
        conv_lhs => rw [hxe]
        apply div_le_self (by positivity)
        exact_mod_cast x.den_pos
      have a2 : (x.num.natAbs : ℚ) < (10 : ℚ) ^ x.num.natAbs := by
        exact_mod_cast Nat.lt_pow_self (by norm_num : 1 < 10) x.num.natAbs
      linarith
    obtain ⟨s1, s2⟩ := log10_up_spec x.num.natAbs x h1 hlt
    constructor
    · rw [zpow_natCast]; exact s1
    · have : ((log10_up x.num.natAbs x : Int) + 1) = ((log10_up x.num.natAbs x + 1 : Nat) : Int) := by
        push_cast; rfl
      rw [this, zpow_natCast]; exact s2
  · rw [if_neg h1]
    have hx1 : x < 1 := not_le.1 h1
    have hfuel : 1 ≤ x * (10 : ℚ) ^ x.den := by
      have a1 : (1 : ℚ) / (x.den : ℚ) ≤ x := by
        conv_rhs => rw [hxe]
        apply div_le_div_of_nonneg_right _ (le_of_lt hd)
        have : 1 ≤ x.num.natAbs := by omega
        exact_mod_cast this
      have a2 : (x.den : ℚ) < (10 : ℚ) ^ x.den := by
        exact_mod_cast Nat.lt_pow_self (by norm_num : 1 < 10) x.den
      have hp : (0 : ℚ) < (10 : ℚ) ^ x.den := by positivity
      calc (1 : ℚ) = 1 / (x.den : ℚ) * (x.den : ℚ) := by field_simp
        _ ≤ x * (x.den : ℚ) := mul_le_mul_of_nonneg_right a1 (le_of_lt hd)
        _ ≤ x * (10 : ℚ) ^ x.den := mul_le_mul_of_nonneg_left (le_of_lt a2) (le_of_lt hx)
    obtain ⟨s1, s2⟩ := log10_down_spec x.den x hx hfuel
    have hm : 0 < log10_down x.den x := by
      by_contra hc
      have : log10_down x.den x = 0 := by omega
      rw [this, pow_zero, mul_one] at s1
      linarith
    have s3 := s2 hm
    have hp : (0 : ℚ) < (10 : ℚ) ^ log10_down x.den x := by positivity
    have ten_ne : (10 : ℚ) ≠ 0 := by norm_num
    constructor
    · rw [zpow_neg, zpow_natCast, inv_eq_one_div, div_le_iff₀ hp]
      exact s1
    · rw [zpow_add₀ ten_ne, zpow_neg, zpow_natCast, zpow_one, ← div_eq_inv_mul,
        lt_div_iff₀ hp]
      exact s3

theorem ten_zpow_lt_iff {m n : Int} : (10 : ℚ) ^ m < (10 : ℚ) ^ n ↔ m < n :=
  zpow_lt_zpow_iff_right₀ (by norm_num)

/-- The stand-in for the mathematics library has the properties that `float_to_frac`
needs. -/
theorem sample_libm_bracketing : sample_libm.bracketing := by
  refine ⟨?_, ?_, ?_⟩
  · intro x k hx
    obtain ⟨s1, s2⟩ := floor_log10_spec hx
    show (((10 : ℚ) ^ k ≤ x → (k : ℚ) ≤
        (if x = (10 : ℚ) ^ floor_log10 x then (floor_log10 x : ℚ)
          else (floor_log10 x : ℚ) + 1 / 2)) ∧
      (x ≤ (10 : ℚ) ^ k →
        (if x = (10 : ℚ) ^ floor_log10 x then (floor_log10 x : ℚ)
          else (floor_log10 x : ℚ) + 1 / 2) ≤ (k : ℚ)))
    constructor
    · intro h
      have : k < floor_log10 x + 1 := ten_zpow_lt_iff.1 (lt_of_le_of_lt h s2)
      have hk : (k : ℚ) ≤ (floor_log10 x : ℚ) := by
        have : k ≤ floor_log10 x := by omega
        exact_mod_cast this
      split_ifs
      · exact hk
      · linarith
    · intro h
      by_cases he : x = (10 : ℚ) ^ floor_log10 x
      · rw [if_pos he]
        have : (10 : ℚ) ^ floor_log10 x ≤ (10 : ℚ) ^ k := le_trans s1 h
        have : floor_log10 x ≤ k := (zpow_le_zpow_iff_right₀ (by norm_num)).1 this
        exact_mod_cast this
      · rw [if_neg he]
        have hlt : (10 : ℚ) ^ floor_log10 x < x := lt_of_le_of_ne s1 (Ne.symm he)
        have : floor_log10 x < k := ten_zpow_lt_iff.1 (lt_of_lt_of_le hlt h)
        have : floor_log10 x + 1 ≤ k := by omega
        have : ((floor_log10 x + 1 : Int) : ℚ) ≤ (k : ℚ) := by exact_mod_cast this
        push_cast at this
        linarith
  · show (10 : ℚ) ^ trunc 6 = 10 ^ 6
    have : trunc 6 = 6 := by
      have := trunc_intCast 6
      simpa using this
    rw [this]
    norm_num
  · show (18 : ℚ) < 4932
    norm_num

end vmatrixlib

namespace vmatrixlib
set_option linter.unusedSectionVars false

/-! ### The branch of `float_to_frac` for a number with a fractional part -/

theorem trunc_nonneg {y : ℚ} (h : 0 ≤ y) : trunc y = ⌊y⌋ := by
  unfold trunc
  rw [Int.tdiv_eq_ediv (Rat.num_nonneg.2 h) (by exact_mod_cast Nat.zero_le _),
    round_half_even_floor]

theorem floorl_eq (q : ℚ) : floorl q = ⌊q⌋ := round_half_even_floor q

theorem ceill_eq (q : ℚ) : ceill q = ⌈q⌉ := by
  unfold ceill
  rw [floorl_eq, Int.floor_neg, neg_neg]

/-- The function `roundl` on a non-negative number that is less than one half away from an
integer. -/
theorem roundl_near {y : ℚ} {k : Int} (hy : 0 ≤ y) (h : |y - (k : ℚ)| < 1 / 2) :
    roundl y = k := by
  obtain ⟨h1, h2⟩ := abs_lt.1 h
  unfold roundl
  rw [trunc_nonneg hy, if_pos hy]
  have f1 := Int.floor_le y
  have f2 := Int.lt_floor_add_one y
  by_cases hge : (k : ℚ) ≤ y
  · have hfl : ⌊y⌋ = k := by
      rw [Int.floor_eq_iff]
      constructor
      · exact hge
      · linarith
    rw [hfl, if_pos (by rw [abs_lt]; constructor <;> linarith)]
  · have hlt : y < (k : ℚ) := not_le.1 hge
    have hfl : ⌊y⌋ = k - 1 := by
      rw [Int.floor_eq_iff]
      push_cast
      constructor
      · linarith
      · linarith
    rw [hfl]
    have hn : ¬ |y - ((k - 1 : Int) : ℚ)| < 1 / 2 := by
      push_cast
      rw [abs_lt]
      intro hh
      linarith [hh.2]
    rw [if_neg hn]
    ring

/-- The last branch of `float_to_frac` at precision six, for a positive number with a
fractional part: when the order of magnitude `c` found through `log10l` is at most 18, the
scale is `powl(10, min(6, 18 - max(0, c)))`, and the outputs are the rounded product with
the scale and the scale. -/
theorem float_to_frac_branch {fl : ℚ → ℚ} {lm : libm} (hfl : rounding fl) {x : ℚ}
    (hx0 : 0 < x) (hni : x - (trunc x : ℚ) ≠ 0) {c : Int}
    (hc : (if lm.log10l x ≥ 0 then ((ceill (lm.log10l x) : Int) : ℚ)
      else ((floorl (lm.log10l x) : Int) : ℚ)) = (c : ℚ))
    (hc1 : -(2 ^ 31) ≤ c) (hc2 : c ≤ 18) (hhi : 18 < lm.log10floathi) {S : Int}
    (hpow : lm.powl 10 ((min 6 (18 - 0 ⊔ c) : Int) : ℚ) = (S : ℚ)) (hS0 : 0 ≤ S)
    (hS1 : S ≤ int_max) {k : Int} (hk0 : 0 ≤ k) (hk : k ≤ int_max)
    (hnear : |fl (x * (S : ℚ)) - (k : ℚ)| < 1 / 2) (hpos : 0 ≤ fl (x * (S : ℚ)))
    (hup : fl (x * (S : ℚ)) < (int_max : ℚ)) :
    float_to_frac fl lm x 6 = .ok (some (k, S)) := by
  have e1 : int_min = -9223372036854775808 := by unfold int_min; norm_num
  have e2 : int_max = 9223372036854775807 := by unfold int_max; norm_num
  have hx1 : x ≠ 1 := by
    intro h
    apply hni
    rw [h]
    have := trunc_intCast 1
    simp only [Int.cast_one] at this
    rw [this]
    simp
  have h01 : ¬ (x = 0 ∨ x = 1) := by
    intro h
    rcases h with h | h
    · exact absurd h (ne_of_gt hx0)
    · exact hx1 h
  have hL1 : 0 ≤ 18 - 0 ⊔ c := by
    rcases le_total 0 c with h | h
    · rw [sup_of_le_right h]; omega
    · rw [sup_of_le_left h]; omega
  have hL2 : 18 - 0 ⊔ c ≤ 18 := by
    have : 0 ≤ 0 ⊔ c := le_sup_left
    omega
  have hL : fl ((18 - 0 ⊔ c : Int) : ℚ) = ((18 - 0 ⊔ c : Int) : ℚ) :=
    fl_int hfl (by omega) (by omega)
  have h6 : fl ((6 : Int) : ℚ) = 6 := by
    have := fl_int hfl (z := 6) (by omega) (by omega)
    simpa using this
  have hLq : (0 : ℚ) ≤ ((18 - 0 ⊔ c : Int) : ℚ) := by exact_mod_cast hL1
  have hLq2 : ((18 - 0 ⊔ c : Int) : ℚ) ≤ 18 := by exact_mod_cast hL2
  have n1 : ¬ ((18 - 0 ⊔ c : Int) : ℚ) < 0 := by linarith
  have n2 : ¬ ((18 - 0 ⊔ c : Int) : ℚ) ≥ lm.log10floathi := by linarith
  have hsc : (if ((18 - 0 ⊔ c : Int) : ℚ) < 6 then ((18 - 0 ⊔ c : Int) : ℚ) else 6) =
      ((min 6 (18 - 0 ⊔ c) : Int) : ℚ) := by
    by_cases h : ((18 - 0 ⊔ c : Int) : ℚ) < 6
    · have hi : 18 - 0 ⊔ c < 6 := by exact_mod_cast h
      rw [if_pos h, min_eq_right (le_of_lt hi)]
    · have hi : ¬ 18 - 0 ⊔ c < 6 := fun hh => h (by exact_mod_cast hh)
      rw [if_neg h, min_eq_left (not_lt.1 hi)]
      norm_num
  have hmax : fl (int_max : ℚ) = int_max := fl_int hfl (by omega) (le_refl _)
  have n4 : ¬ ¬ fl (x * (S : ℚ)) < (int_max : ℚ) := not_not.2 hup
  have hr1 : roundl (fl (x * (S : ℚ))) = k := roundl_near hpos hnear
  have hr2 : roundl (S : ℚ) = S := by
    apply roundl_near (by exact_mod_cast hS0)
    simp
  have hsign : (if x ≥ 0 then (1 : Int) else -1) = 1 := if_pos (le_of_lt hx0)
  unfold float_to_frac
  dsimp only
  simp only [abs_of_pos hx0]
  rw [if_neg hni, if_neg h01, hc, float_to_int_intCast (by omega) (by omega)]
  dsimp only
  simp only [hL, h6, if_neg n1, if_neg n2, hsc, hpow, hmax, if_neg n4, hr1, hr2, hsign]
  rw [float_to_int_intCast (by omega) (by omega)]
  dsimp only
  rw [float_to_int_intCast (by omega) (by omega)]
  dsimp only
  rw [one_mul, wrap_eq_self (by omega) (by omega)]

/-- The branch of `float_to_frac` with the scale `10 ^ 6`: for a positive number below
`10 ^ 12` with a fractional part, the outputs are the rounded product with `10 ^ 6` and
`10 ^ 6`. -/
theorem float_to_frac_scaled {fl : ℚ → ℚ} {lm : libm} (hfl : rounding fl) (hlm : lm.bracketing)
    {x : ℚ} (hx0 : 0 < x) (hx7 : (10 : ℚ) ^ (-7 : Int) ≤ x) (hx12 : x ≤ (10 : ℚ) ^ (12 : Int))
    (hni : x - (trunc x : ℚ) ≠ 0) {k : Int} (hk0 : 0 ≤ k) (hk : k < 10 ^ 18)
    (hnear : |fl (x * 10 ^ 6) - (k : ℚ)| < 1 / 2) (hpos : 0 ≤ fl (x * 10 ^ 6))
    (hup : fl (x * 10 ^ 6) < (int_max : ℚ)) :
    float_to_frac fl lm x 6 = .ok (some (k, 10 ^ 6)) := by
  obtain ⟨hb, hpow, hhi⟩ := hlm
  have e2 : int_max = 9223372036854775807 := by unfold int_max; norm_num
  -- the integer order of magnitude
  have hlo : ((-7 : Int) : ℚ) ≤ lm.log10l x := (hb x (-7) hx0).1 hx7
  have hhi2 : lm.log10l x ≤ ((12 : Int) : ℚ) := (hb x 12 hx0).2 hx12
  obtain ⟨c, hcdef, hc1, hc2⟩ : ∃ c : Int,
      (if lm.log10l x ≥ 0 then ((ceill (lm.log10l x) : Int) : ℚ)
        else ((floorl (lm.log10l x) : Int) : ℚ)) = (c : ℚ) ∧ -7 ≤ c ∧ c ≤ 12 := by
    by_cases hs : lm.log10l x ≥ 0
    · refine ⟨ceill (lm.log10l x), by rw [if_pos hs], ?_, ?_⟩
      · rw [ceill_eq]
        have := Int.ceil_nonneg hs
        omega
      · rw [ceill_eq, Int.ceil_le]
        exact hhi2
    · refine ⟨floorl (lm.log10l x), by rw [if_neg hs], ?_, ?_⟩
      · rw [floorl_eq, Int.le_floor]
        exact hlo
      · rw [floorl_eq]
        have : ⌊lm.log10l x⌋ < 0 := by
          rw [Int.floor_lt]
          push_cast
          exact not_le.1 hs
        omega
  have hL1 : 6 ≤ 18 - 0 ⊔ c := by
    rcases le_total 0 c with h | h
    · rw [sup_of_le_right h]; omega
    · rw [sup_of_le_left h]; omega
  have hmin : min 6 (18 - 0 ⊔ c) = 6 := min_eq_left hL1
  have hS : ((10 ^ 6 : Int) : ℚ) = (10 : ℚ) ^ 6 := by push_cast; rfl
  have key := @float_to_frac_branch fl lm hfl x hx0 hni c hcdef (by omega) (by omega) hhi
    (10 ^ 6) (by rw [hmin, hS]; simpa using hpow) (by omega) (by omega) k hk0 (by omega)
    (by rw [hS]; exact hnear) (by rw [hS]; exact hpos) (by rw [hS]; exact hup)
  exact key

end vmatrixlib

namespace vmatrixlib
set_option linter.unusedSectionVars false

/-! ### The claims on `frac` and `gcd` -/

/-- C17: `semplify()` leaves a degraded value untouched; on a non-degraded value with a
non-zero denominator and both integer fields above the minimum of the integer type it
returns a non-degraded value whose denominator is positive, whose numerator (in absolute
value) and denominator have greatest common divisor one, and which stands for the same
rational number. -/
theorem semplify_postcondition (f : frac) :
    (f.fn ≠ 0 → f.semplify = .ok f) ∧
    (f.fn = 0 → f.den ≠ 0 → int_min < f.num → f.num ≤ int_max → int_min < f.den →
      f.den ≤ int_max →
      ∃ r, f.semplify = .ok r ∧ r.is_using_fp = false ∧ 0 < r.den ∧
        Nat.gcd r.num.natAbs r.den.natAbs = 1 ∧ r.value = f.value) := by
  constructor
  · exact frac.semplify_degraded f
  · intro hfn hd hn1 hn2 hd1 hd2
    obtain ⟨r, h1, h2, h3, h4, _, _, _, h8⟩ := frac.semplify_spec f hfn hd hn1 hn2 hd1 hd2
    refine ⟨r, h1, ?_, h3, h4, frac.value_eq_of_cross hd (by omega) h8⟩
    unfold frac.is_using_fp
    rw [h2]
    rfl

/-- Witness for C17: the pair `2 / -4` becomes `-1 / 2`, and a degraded value stays. -/
theorem semplify_postcondition_witness :
    (frac.semplify { num := 0, den := 1, fn := 1 / 2 } =
      .ok { num := 0, den := 1, fn := 1 / 2 }) ∧
    (∃ r, frac.semplify { num := 2, den := -4, fn := 0 } = .ok r ∧ r.is_using_fp = false ∧
      0 < r.den ∧ Nat.gcd r.num.natAbs r.den.natAbs = 1 ∧
      r.value = frac.value { num := 2, den := -4, fn := 0 }) ∧
    frac.semplify { num := 2, den := -4, fn := 0 } = .ok { num := -1, den := 2, fn := 0 } :=
  ⟨(semplify_postcondition { num := 0, den := 1, fn := 1 / 2 }).1 (by decide!),
    (semplify_postcondition { num := 2, den := -4, fn := 0 }).2 rfl (by decide) (by decide)
      (by decide) (by decide) (by decide),
    by decide!⟩

/-- C18 fails as stated: the constructor `frac(n, d)` stores the pair it is given, so from
`(2, 4)` it stores `2 / 4`, whose fields are not coprime, and from `(1, -2)` it stores
`1 / -2`, whose denominator is negative. -/
theorem construct_normalised_counterexample :
    frac.construct 2 4 = .ok { num := 2, den := 4, fn := 0 } ∧
    Nat.gcd (2 : Int).natAbs (4 : Int).natAbs ≠ 1 ∧
    frac.construct 1 (-2) = .ok { num := 1, den := -2, fn := 0 } ∧ ¬ (0 : Int) < -2 := by
  decide!

/-- C18, amended: the constructor `frac(n, d)` with `d ≠ 0` stores the pair `(n, d)` as it
is given (from `(2, 4)` it stores `2 / 4`, from `(1, -2)` it stores `1 / -2`); it is
`semplify()`, applied to the stored pair when both fields are above the minimum of the
integer type, that gives the normalised pair with a positive denominator coprime to the
numerator (`1 / 2` and `-1 / 2` for the two examples); with `d = 0` the construction fails
with the division-by-zero error. -/
theorem construct_stores_pair (n d : Int) :
    (d = 0 → frac.construct n d = .error .division_by_zero) ∧
    (d ≠ 0 → frac.construct n d = .ok { num := n, den := d, fn := 0 } ∧
      (int_min < n → n ≤ int_max → int_min < d → d ≤ int_max →
        ∃ r, frac.semplify { num := n, den := d, fn := 0 } = .ok r ∧ 0 < r.den ∧
          Nat.gcd r.num.natAbs r.den.natAbs = 1 ∧ r.value = (n : ℚ) / (d : ℚ))) ∧
    frac.semplify { num := 2, den := 4, fn := 0 } = .ok { num := 1, den := 2, fn := 0 } ∧
    frac.semplify { num := 1, den := -2, fn := 0 } = .ok { num := -1, den := 2, fn := 0 } := by
  refine ⟨?_, ?_, by decide!, by decide!⟩
  · intro h
    unfold frac.construct
    rw [if_pos h]
  · intro h
    constructor
    · unfold frac.construct
      rw [if_neg h]
    · intro hn1 hn2 hd1 hd2
      obtain ⟨r, h1, _, h3, h4, _, _, _, h8⟩ :=
        frac.semplify_spec { num := n, den := d, fn := 0 } rfl h hn1 hn2 hd1 hd2
      exact ⟨r, h1, h3, h4, frac.value_eq_of_cross (f := { num := n, den := d, fn := 0 }) h
        (by omega) h8⟩

/-- Witness for C18 (amended): the pairs `(6, -4)` and `(1, 0)`. -/
theorem construct_stores_pair_witness :
    frac.construct 1 0 = .error .division_by_zero ∧
    frac.construct 6 (-4) = .ok { num := 6, den := -4, fn := 0 } ∧
    ∃ r, frac.semplify { num := 6, den := -4, fn := 0 } = .ok r ∧ 0 < r.den ∧
      Nat.gcd r.num.natAbs r.den.natAbs = 1 ∧ r.value = ((6 : Int) : ℚ) / ((-4 : Int) : ℚ) :=
  ⟨(construct_stores_pair 1 0).1 rfl, ((construct_stores_pair 6 (-4)).2.1 (by decide)).1,
    ((construct_stores_pair 6 (-4)).2.1 (by decide)).2 (by decide) (by decide) (by decide)
      (by decide)⟩

/-- C19: for all values `a`, `b` of the integer type above its minimum, `gcd(a, b)` ends
(within the step budgets of its loops) and returns the greatest common divisor of `|a|` and
`|b|`; in particular `gcd(0, a)` and `gcd(a, 0)` return `|a|`. -/
theorem gcd_terminates_correct (a b : Int) (ha : int_min < a) (ha2 : a ≤ int_max)
    (hb : int_min < b) (hb2 : b ≤ int_max) :
    gcd a b = .ok ((Nat.gcd a.natAbs b.natAbs : Nat) : Int) ∧
    gcd 0 a = .ok |a| ∧ gcd a 0 = .ok |a| := by
  have h0 : int_min < 0 ∧ (0 : Int) ≤ int_max := by decide
  refine ⟨gcd_spec a b ha ha2 hb hb2, ?_, ?_⟩
  · rw [gcd_spec 0 a h0.1 h0.2 ha ha2, Int.gcd_zero_left, Int.natCast_natAbs]
  · rw [gcd_spec a 0 ha ha2 h0.1 h0.2, Int.gcd_zero_right, Int.natCast_natAbs]

/-- Witness for C19: the operands `12` and `-18`. -/
theorem gcd_terminates_correct_witness :
    int_min < 12 ∧ (12 : Int) ≤ int_max ∧ int_min < -18 ∧ (-18 : Int) ≤ int_max ∧
    gcd 12 (-18) = .ok ((Nat.gcd (12 : Int).natAbs (-18 : Int).natAbs : Nat) : Int) ∧
    gcd 0 12 = .ok |12| ∧ gcd 12 0 = .ok |12| :=
  ⟨by decide, by decide, by decide, by decide,
    gcd_terminates_correct 12 (-18) (by decide) (by decide) (by decide) (by decide)⟩

/-- C20, the code at the failing input: with the rounding of `long double`, the sum of the
normalised non-degraded values `1 / 2^32` and `1 / (2^31 + 1)` passes every range test of
`operator+` (which tests the first cross product and the numerator sum, not the product of
the denominators), the product `2^32 * (2^31 + 1)` wraps to a negative denominator, and the
result is a non-degraded negative value, not the sum of the operands; the sum
`1 / 3 + 1 / 6` is `1 / 2`. -/
theorem add_denominator_wraps :
    frac.add long_double { num := 1, den := 2 ^ 32, fn := 0 }
      { num := 1, den := 2 ^ 31 + 1, fn := 0 } =
      .ok { num := -6442450945, den := 9223372032559808512, fn := 0 } ∧
    frac.is_using_fp { num := -6442450945, den := 9223372032559808512, fn := 0 } = false ∧
    frac.value { num := -6442450945, den := 9223372032559808512, fn := 0 } ≠
      frac.value { num := 1, den := 2 ^ 32, fn := 0 } +
        frac.value { num := 1, den := 2 ^ 31 + 1, fn := 0 } ∧
    wrap (2 ^ 32 * (2 ^ 31 + 1)) = -9223372032559808512 ∧
    frac.add long_double { num := 1, den := 3, fn := 0 } { num := 1, den := 6, fn := 0 } =
      .ok { num := 1, den := 2, fn := 0 } := by
  decide!

end vmatrixlib

namespace vmatrixlib
set_option linter.unusedSectionVars false

/-! ### The claims on the operators of `frac` and on `float_to_frac` -/

/-- C21, the code at the failing input: `denominator()` hands the denominator
`3074457345618258603` to the range test as the `double` `3074457345618258432`, so the product
of the denominators of `1 / 3` and `1 / 3074457345618258603` passes the test although it is
`2^63 + 1`; it wraps to `-9223372036854775807`, and `operator*` returns the non-degraded
value `-1 / 9223372036854775807`, which is not the product of the operands. The product
`2 / 3 * 3 / 4` is `1 / 2`. -/
theorem mul_denominator_wraps :
    frac.mul long_double { num := 1, den := 3, fn := 0 }
      { num := 1, den := 3074457345618258603, fn := 0 } =
      .ok { num := -1, den := 9223372036854775807, fn := 0 } ∧
    frac.is_using_fp { num := -1, den := 9223372036854775807, fn := 0 } = false ∧
    frac.value { num := -1, den := 9223372036854775807, fn := 0 } ≠
      frac.value { num := 1, den := 3, fn := 0 } *
        frac.value { num := 1, den := 3074457345618258603, fn := 0 } ∧
    frac.denominator long_double { num := 1, den := 3074457345618258603, fn := 0 } =
      3074457345618258432 ∧
    frac.numerator long_double { num := 3074457345618258603, den := 1, fn := 0 } =
      3074457345618258603 ∧
    wrap (3 * 3074457345618258603) = -9223372036854775807 ∧
    frac.mul long_double { num := 2, den := 3, fn := 0 } { num := 3, den := 4, fn := 0 } =
      .ok { num := 1, den := 2, fn := 0 } := by
  decide!

/-- C22 fails as stated: the sum of the degraded values `0.5` and `-0.5` is the floating
value `0`, which `make_dec_frac` stores as `0 / 1` with `fn = 0`, a value that
`is_using_fp()` reports as not degraded; the product of the degraded `0.5` and the exact
zero is the same value. -/
theorem degraded_sum_counterexample :
    frac.is_using_fp (frac.make_dec_frac (1 / 2)) = true ∧
    frac.is_using_fp (frac.make_dec_frac (-1 / 2)) = true ∧
    frac.add long_double (frac.make_dec_frac (1 / 2)) (frac.make_dec_frac (-1 / 2)) =
      .ok { num := 0, den := 1, fn := 0 } ∧
    frac.sub long_double (frac.make_dec_frac (1 / 2)) (frac.make_dec_frac (1 / 2)) =
      .ok { num := 0, den := 1, fn := 0 } ∧
    frac.mul long_double (frac.make_dec_frac (1 / 2)) { num := 0, den := 1, fn := 0 } =
      .ok { num := 0, den := 1, fn := 0 } ∧
    frac.is_using_fp { num := 0, den := 1, fn := 0 } = false := by
  decide!

/-- C22, amended: for valid operands of `+`, `-`, `*` and `/` of which at least one is
degraded, the operator returns a value that is degraded or is the exact zero `0 / 1` (the
floating result `0` is stored as the exact zero); for `/` the divisor must not be the exact
zero. -/
theorem degraded_operand_result (fl : ℚ → ℚ) (hfl : rounding fl) (a b : frac) (ha : a.valid)
    (hb : b.valid) (h : a.is_using_fp = true ∨ b.is_using_fp = true) :
    (∃ r, frac.add fl a b = .ok r ∧
      (r.is_using_fp = true ∨ r = { num := 0, den := 1, fn := 0 })) ∧
    (∃ r, frac.sub fl a b = .ok r ∧
      (r.is_using_fp = true ∨ r = { num := 0, den := 1, fn := 0 })) ∧
    (∃ r, frac.mul fl a b = .ok r ∧
      (r.is_using_fp = true ∨ r = { num := 0, den := 1, fn := 0 })) ∧
    (¬ (b.is_using_fp = false ∧ b.num = 0) →
      ∃ r, frac.div fl a b = .ok r ∧
        (r.is_using_fp = true ∨ r = { num := 0, den := 1, fn := 0 })) := by
  refine ⟨frac.add_degraded fl a b ha hb h, ?_, frac.mul_degraded fl a b ha hb h, ?_⟩
  · obtain ⟨n, e, nv, nfp⟩ := frac.neg_valid b hb
    rw [frac.sub_eq fl a e]
    exact frac.add_degraded fl a n ha nv (by rw [nfp]; exact h)
  · intro hz
    by_cases h0 : b.fn = 0
    · have hn : b.num ≠ 0 := fun hh => hz ⟨frac.is_using_fp_false.2 h0, hh⟩
      rw [frac.div_exact fl a h0 hn]
      have ha2 : a.is_using_fp = true := by
        rcases h with h | h
        · exact h
        · rw [frac.is_using_fp_false.2 h0] at h
          exact absurd h (by decide)
      exact frac.mul_degraded fl a _ ha (frac.reciprocal_valid hb h0 hn) (Or.inl ha2)
    · rw [frac.div_degraded fl a h0]
      have hne : fl (1 / b.fn) ≠ 0 := by
        intro hh
        have := hfl.2.2 _ hh
        rw [one_div, inv_eq_zero] at this
        exact h0 this
      exact frac.mul_degraded fl a _ ha (frac.make_dec_frac_valid _)
        (Or.inr (frac.is_using_fp_true.2 hne))

/-- Witness for C22: the degraded value `0.5` and the exact value `1 / 3` under the rounding
of `long double`; all four results are degraded. -/
theorem degraded_operand_result_witness :
    (frac.is_using_fp (frac.make_dec_frac (1 / 2)) = true ∨
      frac.is_using_fp { num := 1, den := 3, fn := 0 } = true) ∧
    ((∃ r, frac.add long_double (frac.make_dec_frac (1 / 2)) { num := 1, den := 3, fn := 0 } =
        .ok r ∧ (r.is_using_fp = true ∨ r = { num := 0, den := 1, fn := 0 })) ∧
      (∃ r, frac.sub long_double (frac.make_dec_frac (1 / 2)) { num := 1, den := 3, fn := 0 } =
        .ok r ∧ (r.is_using_fp = true ∨ r = { num := 0, den := 1, fn := 0 })) ∧
      (∃ r, frac.mul long_double (frac.make_dec_frac (1 / 2)) { num := 1, den := 3, fn := 0 } =
        .ok r ∧ (r.is_using_fp = true ∨ r = { num := 0, den := 1, fn := 0 })) ∧
      (¬ (frac.is_using_fp { num := 1, den := 3, fn := 0 } = false ∧ (1 : Int) = 0) →
        ∃ r, frac.div long_double (frac.make_dec_frac (1 / 2)) { num := 1, den := 3, fn := 0 } =
          .ok r ∧ (r.is_using_fp = true ∨ r = { num := 0, den := 1, fn := 0 }))) ∧
    frac.add long_double (frac.make_dec_frac (1 / 2)) { num := 1, den := 3, fn := 0 } =
      .ok (frac.make_dec_frac (7686143364045646507 / 2 ^ 63)) ∧
    frac.sub long_double (frac.make_dec_frac (1 / 2)) { num := 1, den := 3, fn := 0 } =
      .ok (frac.make_dec_frac (6148914691236517205 / 2 ^ 65)) ∧
    frac.mul long_double (frac.make_dec_frac (1 / 2)) { num := 1, den := 3, fn := 0 } =
      .ok (frac.make_dec_frac (12297829382473034411 / 2 ^ 66)) ∧
    frac.div long_double (frac.make_dec_frac (1 / 2)) { num := 1, den := 3, fn := 0 } =
      .ok (frac.make_dec_frac (3 / 2)) :=
  ⟨Or.inl (by decide!),
    degraded_operand_result long_double long_double_rounding (frac.make_dec_frac (1 / 2))
      { num := 1, den := 3, fn := 0 } (frac.make_dec_frac_valid _)
      (fun _ => ⟨by decide, by decide, by decide, by decide, by decide⟩) (Or.inl (by decide!)),
    by decide!, by decide!, by decide!, by decide!⟩

/-- For valid operands (degraded, or with a non-zero denominator and both integer fields
above the minimum of the integer type), the division `a / b` fails with the division-by-zero
error exactly when `b` is the exact zero (not degraded, numerator 0), whatever the dividend;
for every other divisor it returns a value. -/
theorem div_fails_iff_zero_divisor (fl : ℚ → ℚ) (hfl : rounding fl) (a b : frac)
    (ha : a.valid) (hb : b.valid) :
    (frac.div fl a b = .error .division_by_zero ↔ (b.is_using_fp = false ∧ b.num = 0)) ∧
    (¬ (b.is_using_fp = false ∧ b.num = 0) → ∃ r, frac.div fl a b = .ok r) := by
  have total : ¬ (b.is_using_fp = false ∧ b.num = 0) → ∃ r, frac.div fl a b = .ok r := by
    intro hz
    by_cases h0 : b.fn = 0
    · have hn : b.num ≠ 0 := fun hh => hz ⟨frac.is_using_fp_false.2 h0, hh⟩
      rw [frac.div_exact fl a h0 hn]
      obtain ⟨r, e, _⟩ := frac.mul_total hfl a _ ha (frac.reciprocal_valid hb h0 hn)
      exact ⟨r, e⟩
    · rw [frac.div_degraded fl a h0]
      obtain ⟨r, e, _⟩ := frac.mul_total hfl a _ ha (frac.make_dec_frac_valid _)
      exact ⟨r, e⟩
  refine ⟨⟨?_, ?_⟩, total⟩
  · intro herr
    by_contra hz
    obtain ⟨r, e⟩ := total hz
    rw [e] at herr
    exact absurd herr (by simp)
  · intro hz
    exact frac.div_zero fl a (frac.is_using_fp_false.1 hz.1) hz.2

/-- C23, the code at the failing input: the divisor `min / 1`, with the minimum of the integer
type as numerator, is not degraded and not zero, and the division of `1 / 2` by it does not
return a value: the reciprocal `1 / min` is normalised through `gcd(-1, min)`, whose negation
of `min` wraps to `min` again, and whose main loop comes back to the state `u = -1`, `v = 1`
for ever (no step budget is enough). For valid operands (degraded, or with a non-zero
denominator and both integer fields above the minimum of the integer type) and every
rounding of the floating type, the division fails with the division-by-zero error exactly
when the divisor is the exact zero, and returns a value for every other divisor: `1 / 2`
divided by `0 / 5` fails, divided by `3 / 4` it is `2 / 3`, and a degraded dividend or divisor
is handled alike. -/
theorem div_min_divisor_hangs :
    frac.is_using_fp { num := int_min, den := 1, fn := 0 } = false ∧ int_min ≠ 0 ∧
    frac.div long_double { num := 1, den := 2, fn := 0 } { num := int_min, den := 1, fn := 0 } =
      .error .out_of_steps ∧
    gcd (-1) int_min = .error .out_of_steps ∧
    (∀ n : Nat, gcd_main_loop n (-1) 1 = .error .out_of_steps) ∧
    (∀ (fl : ℚ → ℚ) (a b : frac), rounding fl → a.valid → b.valid →
      (frac.div fl a b = .error .division_by_zero ↔ (b.is_using_fp = false ∧ b.num = 0)) ∧
      (¬ (b.is_using_fp = false ∧ b.num = 0) → ∃ r, frac.div fl a b = .ok r)) ∧
    rounding long_double ∧
    frac.div long_double { num := 1, den := 2, fn := 0 } { num := 0, den := 5, fn := 0 } =
      .error .division_by_zero ∧
    frac.div long_double { num := 1, den := 2, fn := 0 } { num := 3, den := 4, fn := 0 } =
      .ok { num := 2, den := 3, fn := 0 } ∧
    frac.div long_double (frac.make_dec_frac (1 / 2)) { num := 0, den := 1, fn := 0 } =
      .error .division_by_zero ∧
    frac.div long_double { num := 1, den := 3, fn := 0 } (frac.make_dec_frac (1 / 2)) =
      .ok (frac.make_dec_frac (12297829382473034411 / 2 ^ 64)) :=
  ⟨by decide!, by decide,
    frac.div_min_divisor long_double (f := { num := 1, den := 2, fn := 0 }) (by decide!),
    gcd_min_right, gcd_main_loop_cycle,
    fun fl a b hfl ha hb => div_fails_iff_zero_divisor fl hfl a b ha hb,
    long_double_rounding, by decide!, by decide!, by decide!, by decide!⟩

/-- C24 fails as stated: for `a = 2097152 / 3` and `b = 2097155 / 2097154` the quotient
`a / b` is the exact value `4398050705408 / 6291465`, the product of the numerators of
`(a / b) * b` is outside the integer range, so the product degrades to the floating value
`6148914691236517205 / 2^43`, and that value differs from the floating value of `a` by
`2^-44`, far more than ten machine epsilons: `operator==` is false. -/
theorem div_mul_cancel_counterexample :
    frac.div long_double { num := 2097152, den := 3, fn := 0 }
      { num := 2097155, den := 2097154, fn := 0 } =
      .ok { num := 4398050705408, den := 6291465, fn := 0 } ∧
    frac.mul long_double { num := 4398050705408, den := 6291465, fn := 0 }
      { num := 2097155, den := 2097154, fn := 0 } =
      .ok (frac.make_dec_frac (6148914691236517205 / 2 ^ 43)) ∧
    frac.fpval long_double { num := 2097152, den := 3, fn := 0 } =
      12297829382473034411 / 2 ^ 44 ∧
    frac.eq long_double long_double_epsilon (frac.make_dec_frac (6148914691236517205 / 2 ^ 43))
      { num := 2097152, den := 3, fn := 0 } = false := by
  decide!

/-- C24, amended: for non-degraded `a` and `b` with non-zero denominators, `b` not zero, and
all four integer fields below `2^21` in absolute value, `a / b` and `(a / b) * b` are
computed exactly (neither is degraded), `(a / b) * b` stands for the same rational number as
`a`, and `operator==` (any tolerance `10 * eps` with `eps ≥ 0`) finds it equal to `a`. -/
theorem div_mul_cancel_small (fl : ℚ → ℚ) (hfl : rounding fl) (eps : ℚ) (heps : 0 ≤ eps)
    (a b : frac) (a0 : a.is_using_fp = false) (b0 : b.is_using_fp = false)
    (had : a.den ≠ 0) (hbd : b.den ≠ 0) (hbn : b.num ≠ 0)
    (h1 : |a.num| < 2 ^ 21) (h2 : |a.den| < 2 ^ 21) (h3 : |b.num| < 2 ^ 21)
    (h4 : |b.den| < 2 ^ 21) :
    ∃ q r, frac.div fl a b = .ok q ∧ frac.mul fl q b = .ok r ∧ q.is_using_fp = false ∧
      r.is_using_fp = false ∧ r.value = a.value ∧ frac.eq fl eps r a = true := by
  have a00 := frac.is_using_fp_false.1 a0
  have b00 := frac.is_using_fp_false.1 b0
  have ha1 := abs_lt.1 h1
  have ha2 := abs_lt.1 h2
  have hb1 := abs_lt.1 h3
  have hb2 := abs_lt.1 h4
  have av : a.valid := by
    intro _
    unfold int_min int_max
    exact ⟨had, by omega, by omega, by omega, by omega⟩
  have bv : b.valid := by
    intro _
    unfold int_min int_max
    exact ⟨hbd, by omega, by omega, by omega, by omega⟩
  have rv : frac.valid { num := b.den, den := b.num, fn := 0 } :=
    frac.reciprocal_valid bv b00 hbn
  rw [frac.div_exact fl a b00 hbn]
  obtain ⟨q, eq1, q0, qd, qg, qval, qn, qdb⟩ := frac.mul_bounded hfl a
    { num := b.den, den := b.num, fn := 0 } av rv a00 rfl (2 ^ 21 - 1) (2 ^ 21 - 1)
    (2 ^ 21 - 1) (2 ^ 21 - 1) (by omega) (by omega) (by show |b.den| ≤ 2 ^ 21 - 1; omega)
    (by show |b.num| ≤ 2 ^ 21 - 1; omega) (by unfold int_max; norm_num)
    (by unfold int_max; norm_num) (by norm_num) (by norm_num)
  have qn2 := abs_le.1 qn
  have qv : q.valid := by
    intro _
    unfold int_min int_max
    norm_num at qn2 qdb ⊢
    exact ⟨by omega, by omega, by omega, by omega, by omega⟩
  obtain ⟨r, er, r0, rd, rg, rval, rn, rdb⟩ := frac.mul_bounded hfl q b qv bv q0 b00
    ((2 ^ 21 - 1) * (2 ^ 21 - 1)) ((2 ^ 21 - 1) * (2 ^ 21 - 1)) (2 ^ 21 - 1) (2 ^ 21 - 1)
    qn (by rw [abs_of_pos qd]; exact qdb) (by omega) (by omega)
    (by unfold int_max; norm_num) (by unfold int_max; norm_num) (by norm_num) (by norm_num)
  have hval : r.value = a.value := by
    rw [rval, qval]
    unfold frac.value
    have n1 : (b.num : ℚ) ≠ 0 := by exact_mod_cast hbn
    have n2 : (b.den : ℚ) ≠ 0 := by exact_mod_cast hbd
    show (a.num : ℚ) / (a.den : ℚ) * ((b.den : ℚ) / (b.num : ℚ)) * ((b.num : ℚ) / (b.den : ℚ)) =
      (a.num : ℚ) / (a.den : ℚ)
    field_simp
    ring
  refine ⟨q, r, eq1, er, frac.is_using_fp_false.2 q0, frac.is_using_fp_false.2 r0, hval, ?_⟩
  have rn2 := abs_le.1 rn
  have e1 : int_min = -9223372036854775808 := by unfold int_min; norm_num
  have e2 : int_max = 9223372036854775807 := by unfold int_max; norm_num
  norm_num at rn2 rdb
  have fr : r.fpval fl = fl r.value :=
    frac.fpval_exact hfl r0 (by omega) (by omega) (by omega) (by omega)
  have fa : a.fpval fl = fl a.value :=
    frac.fpval_exact hfl a00 (by omega) (by omega) (by omega) (by omega)
  unfold frac.eq
  rw [fr, fa, hval, sub_self, fl_zero hfl, abs_zero, decide_eq_true_eq]
  have := hfl.1 (by positivity : (0 : ℚ) ≤ 10 * eps)
  rwa [fl_zero hfl] at this

/-- Witness for C24: `a = 7 / 12` and `b = -5 / 9` under the rounding of `long double`. -/
theorem div_mul_cancel_small_witness :
    ∃ q r, frac.div long_double { num := 7, den := 12, fn := 0 }
        { num := -5, den := 9, fn := 0 } = .ok q ∧
      frac.mul long_double q { num := -5, den := 9, fn := 0 } = .ok r ∧
      q.is_using_fp = false ∧ r.is_using_fp = false ∧
      r.value = frac.value { num := 7, den := 12, fn := 0 } ∧
      frac.eq long_double long_double_epsilon r { num := 7, den := 12, fn := 0 } = true :=
  div_mul_cancel_small long_double long_double_rounding long_double_epsilon (by decide!)
    { num := 7, den := 12, fn := 0 } { num := -5, den := 9, fn := 0 } rfl rfl (by decide)
    (by decide) (by decide) (by decide) (by decide) (by decide) (by decide)

/-- C30: for an integer-valued input `z` and a floating type that holds the largest integer
of `integer_type`, `float_to_frac` succeeds with numerator `z` and denominator `1` when
`|z|` is below that maximum, and the constructor `frac(number, precision)` then stores
`z / 1`; when `|z|` is at or above the maximum `float_to_frac` reports failure, and the
constructor stores the degraded value `z`. The mathematics library and the precision play no
part. -/
theorem float_to_frac_integer_input (fl : ℚ → ℚ) (lm : libm) (precision : Int)
    (hfl : fl (int_max : ℚ) = int_max) (z : Int) :
    (|z| < int_max →
      float_to_frac fl lm (z : ℚ) precision = .ok (some (z, 1)) ∧
      frac.of_float fl lm (z : ℚ) precision = .ok { num := z, den := 1, fn := 0 }) ∧
    (int_max ≤ |z| →
      float_to_frac fl lm (z : ℚ) precision = .ok none ∧
      frac.of_float fl lm (z : ℚ) precision = .ok { num := 0, den := 1, fn := (z : ℚ) }) := by
  have key := float_to_frac_int fl lm precision hfl z
  constructor
  · intro h
    have hn : ¬ int_max ≤ |z| := not_le.2 h
    rw [if_neg hn] at key
    refine ⟨key, ?_⟩
    unfold frac.of_float
    rw [key]
    have hz := abs_lt.1 h
    exact frac.semplify_integer (by unfold int_min; unfold int_max at hz; omega) (by omega)
  · intro h
    rw [if_pos h] at key
    refine ⟨key, ?_⟩
    unfold frac.of_float
    rw [key]

/-- Witness for C30: the inputs `-42` and `2^63 - 1` under the rounding of `long double`. -/
theorem float_to_frac_integer_input_witness :
    long_double (int_max : ℚ) = int_max ∧
    (float_to_frac long_double sample_libm ((-42 : Int) : ℚ) 6 = .ok (some (-42, 1)) ∧
      frac.of_float long_double sample_libm ((-42 : Int) : ℚ) 6 =
        .ok { num := -42, den := 1, fn := 0 }) ∧
    (float_to_frac long_double sample_libm ((9223372036854775807 : Int) : ℚ) 6 = .ok none ∧
      frac.of_float long_double sample_libm ((9223372036854775807 : Int) : ℚ) 6 =
        .ok { num := 0, den := 1, fn := ((9223372036854775807 : Int) : ℚ) }) :=
  ⟨by decide!,
    (float_to_frac_integer_input long_double sample_libm 6 (by decide!) (-42)).1 (by decide),
    (float_to_frac_integer_input long_double sample_libm 6 (by decide!)
      9223372036854775807).2 (by decide)⟩

end vmatrixlib

namespace vmatrixlib
set_option linter.unusedSectionVars false

/-- C27 fails as stated: the floating value nearest to `2000000000000.000001` is
`2 * 10^12 + 2^-20`, it is printed with six decimals as `2000000000000.000001`, and
`float_to_frac` succeeds on it with the scale `10^5` only (eighteen digits less the thirteen
of the order of magnitude), giving `200000000000000000 / 100000`, which is printed as
`2000000000000.000000`; the outputs are these for every mathematics library whose `log10l`
of the input is above 12 and at most 13 and whose `powl(10, 5)` is `10^5`. And on the integer
`2^63 - 1`, the largest value of the integer type, `float_to_frac` reports failure. -/
theorem float_to_frac_round_trip_counterexample :
    long_double (2000000000000 + 1 / 1000000) = 2000000000000 + 1 / 2 ^ 20 ∧
    printed6 (long_double (2000000000000 + 1 / 1000000)) = 2000000000000000001 ∧
    float_to_frac long_double sample_libm (long_double (2000000000000 + 1 / 1000000)) 6 =
      .ok (some (200000000000000000, 100000)) ∧
    printed6 (long_double (long_double 200000000000000000 / long_double 100000)) =
      2000000000000000000 ∧
    float_to_frac long_double sample_libm 9223372036854775807 6 = .ok none ∧
    (∀ lm : libm, (12 : ℚ) < lm.log10l (2000000000000 + 1 / 2 ^ 20) →
      lm.log10l (2000000000000 + 1 / 2 ^ 20) ≤ 13 → lm.powl 10 5 = 10 ^ 5 →
      18 < lm.log10floathi →
      float_to_frac long_double lm (2000000000000 + 1 / 2 ^ 20) 6 =
        .ok (some (200000000000000000, 100000))) := by
  refine ⟨by decide!, by decide!, by decide!, by decide!, by decide!, ?_⟩
  intro lm h1 h2 h3 h4
  have hc : (if lm.log10l (2000000000000 + 1 / 2 ^ 20) ≥ 0 then
      ((ceill (lm.log10l (2000000000000 + 1 / 2 ^ 20)) : Int) : ℚ)
      else ((floorl (lm.log10l (2000000000000 + 1 / 2 ^ 20)) : Int) : ℚ)) =
      ((13 : Int) : ℚ) := by
    rw [if_pos (by linarith), ceill_eq]
    congr 1
    rw [Int.ceil_eq_iff]
    constructor
    · push_cast; linarith
    · push_cast; exact h2
  have hm : min 6 (18 - 0 ⊔ (13 : Int)) = 5 := by decide
  exact float_to_frac_branch long_double_rounding (by norm_num) (by decide!) hc (by decide)
    (by decide) h4 (S := 100000) (by rw [hm]; simpa using h3) (by decide) (by decide)
    (by decide) (by decide) (by decide!) (by decide!) (by decide!)

/-- C27, amended: let the rounding of the floating type be monotone, exact on the integer
type and accurate to `2^-64`, and let the library's `log10l` be bracketed by the powers of
ten around its argument and `powl(10, 6)` be `10^6`. Then for every decimal `k / 10^6` below
`10^12` (`k < 10^18`), on the floating value `x` nearest to it `float_to_frac` with
precision 6 reports success, and the returned numerator divided by the returned denominator
in the floating type is `x` again, so both are printed alike with six decimals. -/
theorem float_to_frac_round_trip (fl : ℚ → ℚ) (lm : libm) (hfl : rounding fl)
    (hacc : accurate fl) (hlm : lm.bracketing) (k : Nat) (hk : k < 10 ^ 18) :
    ∃ n d : Int, float_to_frac fl lm (fl ((k : ℚ) / 10 ^ 6)) 6 = .ok (some (n, d)) ∧
      fl (fl (n : ℚ) / fl (d : ℚ)) = fl ((k : ℚ) / 10 ^ 6) ∧
      printed6 (fl (fl (n : ℚ) / fl (d : ℚ))) = printed6 (fl ((k : ℚ) / 10 ^ 6)) := by
  have e1 : int_min = -9223372036854775808 := by unfold int_min; norm_num
  have e2 : int_max = 9223372036854775807 := by unfold int_max; norm_num
  have hkq : (k : ℚ) < 10 ^ 18 := by exact_mod_cast hk
  have hk0 : (0 : ℚ) ≤ (k : ℚ) := Nat.cast_nonneg k
  have hq0 : (0 : ℚ) ≤ (k : ℚ) / 10 ^ 6 := by positivity
  have hmax : fl (int_max : ℚ) = int_max := fl_int hfl (by omega) (le_refl _)
  have h12 : fl ((10 : ℚ) ^ 12) = 10 ^ 12 := by
    have := fl_int hfl (z := 10 ^ 12) (by omega) (by omega)
    simpa using this
  have h18 : fl ((10 : ℚ) ^ 18) = 10 ^ 18 := by
    have := fl_int hfl (z := 10 ^ 18) (by omega) (by omega)
    simpa using this
  have h1 : fl ((1 : Int) : ℚ) = 1 := by
    have := fl_int hfl (z := 1) (by omega) (by omega)
    simpa using this
  have hM : fl ((10 : ℚ) ^ 6) = 10 ^ 6 := by
    have := fl_int hfl (z := 10 ^ 6) (by omega) (by omega)
    simpa using this
  have hkfl : fl (k : ℚ) = k := by
    have := fl_int hfl (z := (k : Int)) (by omega) (by omega)
    simpa using this
  set x := fl ((k : ℚ) / 10 ^ 6) with hx
  have F1 : 0 ≤ x := by
    have := hfl.1 hq0
    rwa [fl_zero hfl] at this
  have F2 : x ≤ 10 ^ 12 := by
    have : (k : ℚ) / 10 ^ 6 ≤ 10 ^ 12 := by
      rw [div_le_iff₀ (by positivity)]
      norm_num
      linarith
    have := hfl.1 this
    rwa [h12] at this
  by_cases hint : x - (trunc x : ℚ) = 0
  · -- the floating value is an integer
    have hxt : x = (trunc x : ℚ) := by linarith
    have t0 : 0 ≤ trunc x := by
      have : (0 : ℚ) ≤ (trunc x : ℚ) := by rw [← hxt]; exact F1
      exact_mod_cast this
    have t1 : trunc x ≤ 10 ^ 12 := by
      have : (trunc x : ℚ) ≤ ((10 ^ 12 : Int) : ℚ) := by
        rw [← hxt]; push_cast; exact F2
      exact_mod_cast this
    have key := float_to_frac_int fl lm 6 hmax (trunc x)
    rw [← hxt, if_neg (by rw [abs_of_nonneg t0]; omega)] at key
    have hfin : fl (fl ((trunc x : Int) : ℚ) / fl ((1 : Int) : ℚ)) = x := by
      rw [h1, div_one, fl_int hfl (by omega) (by omega), fl_int hfl (by omega) (by omega),
        ← hxt]
    exact ⟨trunc x, 1, key, hfin, by rw [hfin]⟩
  · -- the floating value has a fractional part
    have hxne : x ≠ 0 := by
      intro h
      apply hint
      rw [h]
      have := trunc_intCast 0
      simp only [Int.cast_zero] at this
      rw [this]
      simp
    have hx0 : 0 < x := lt_of_le_of_ne F1 (Ne.symm hxne)
    have hk1 : (1 : ℚ) ≤ (k : ℚ) := by
      have : k ≠ 0 := by
        intro h
        apply hxne
        rw [hx, h]
        simp [fl_zero hfl]
      have : 1 ≤ k := by omega
      exact_mod_cast this
    have a1 := abs_le.1 (hacc ((k : ℚ) / 10 ^ 6))
    rw [abs_of_nonneg hq0, ← hx] at a1
    have a2 := abs_le.1 (hacc (x * 10 ^ 6))
    rw [abs_of_nonneg (by positivity : (0 : ℚ) ≤ x * 10 ^ 6)] at a2
    have hx18 : x * 10 ^ 6 ≤ 10 ^ 18 := by
      have : x * 10 ^ 6 ≤ 10 ^ 12 * 10 ^ 6 := mul_le_mul_of_nonneg_right F2 (by positivity)
      linarith
    have hx7 : (10 : ℚ) ^ (-7 : Int) ≤ x := by
      have b1 : (k : ℚ) / 10 ^ 6 - (k : ℚ) / 10 ^ 6 / 2 ^ 64 ≤ x := by linarith [a1.1]
      have b2 : (10 : ℚ) ^ (-7 : Int) ≤ (k : ℚ) / 10 ^ 6 - (k : ℚ) / 10 ^ 6 / 2 ^ 64 := by
        have e : (k : ℚ) / 10 ^ 6 - (k : ℚ) / 10 ^ 6 / 2 ^ 64 =
            (k : ℚ) * ((1 - 1 / 2 ^ 64) / 10 ^ 6) := by ring
        rw [e]
        have c0 : (10 : ℚ) ^ (-7 : Int) ≤ 1 * ((1 - 1 / 2 ^ 64) / 10 ^ 6) := by
          rw [zpow_neg]
          norm_num
        exact le_trans c0 (mul_le_mul_of_nonneg_right hk1 (by norm_num))
      exact le_trans b2 b1
    have hx12 : x ≤ (10 : ℚ) ^ (12 : Int) := by
      have : (10 : ℚ) ^ (12 : Int) = 10 ^ 12 := by norm_num
      rw [this]; exact F2
    have hnear : |fl (x * 10 ^ 6) - ((k : Int) : ℚ)| < 1 / 2 := by
      have c1 : x * 10 ^ 6 - (k : ℚ) ≤ (k : ℚ) / 2 ^ 64 := by
        have := a1.2
        have e : x * 10 ^ 6 - (k : ℚ) = (x - (k : ℚ) / 10 ^ 6) * 10 ^ 6 := by
          field_simp
        rw [e]
        calc (x - (k : ℚ) / 10 ^ 6) * 10 ^ 6 ≤ (k : ℚ) / 10 ^ 6 / 2 ^ 64 * 10 ^ 6 :=
              mul_le_mul_of_nonneg_right this (by positivity)
          _ = (k : ℚ) / 2 ^ 64 := by field_simp; ring
      have c2 : -((k : ℚ) / 2 ^ 64) ≤ x * 10 ^ 6 - (k : ℚ) := by
        have := a1.1
        have e : x * 10 ^ 6 - (k : ℚ) = (x - (k : ℚ) / 10 ^ 6) * 10 ^ 6 := by
          field_simp
        rw [e]
        calc -((k : ℚ) / 2 ^ 64) = -((k : ℚ) / 10 ^ 6 / 2 ^ 64) * 10 ^ 6 := by
              field_simp; ring
          _ ≤ (x - (k : ℚ) / 10 ^ 6) * 10 ^ 6 :=
              mul_le_mul_of_nonneg_right this (by positivity)
      have c3 : x * 10 ^ 6 / 2 ^ 64 ≤ 10 ^ 18 / 2 ^ 64 :=
        div_le_div_of_nonneg_right hx18 (by positivity)
      have c4 : (k : ℚ) / 2 ^ 64 ≤ 10 ^ 18 / 2 ^ 64 :=
        div_le_div_of_nonneg_right (le_of_lt hkq) (by positivity)
      have c5 : (10 : ℚ) ^ 18 / 2 ^ 64 < 1 / 4 := by norm_num
      push_cast
      rw [abs_lt]
      constructor <;> linarith [a2.1, a2.2]
    have hpos : 0 ≤ fl (x * 10 ^ 6) := by
      have := hfl.1 (by positivity : (0 : ℚ) ≤ x * 10 ^ 6)
      rwa [fl_zero hfl] at this
    have hup : fl (x * 10 ^ 6) < (int_max : ℚ) := by
      have := hfl.1 hx18
      rw [h18] at this
      have : (10 : ℚ) ^ 18 < (int_max : ℚ) := by rw [e2]; norm_num
      linarith
    have key := float_to_frac_scaled hfl hlm hx0 hx7 hx12 hint (k := (k : Int)) (by omega)
      (by exact_mod_cast hk) hnear hpos hup
    have hfin : fl (fl (((k : Int)) : ℚ) / fl (((10 ^ 6 : Int)) : ℚ)) = x := by
      have c1 : (((k : Int)) : ℚ) = (k : ℚ) := by push_cast; rfl
      have c2 : (((10 ^ 6 : Int)) : ℚ) = (10 : ℚ) ^ 6 := by push_cast; rfl
      rw [c1, c2, hkfl, hM]
    exact ⟨(k : Int), 10 ^ 6, key, hfin, by rw [hfin]⟩

/-- Witness for C27: the decimal `123456.654321` under the rounding of `long double`, with
the stand-in for the mathematics library. -/
theorem float_to_frac_round_trip_witness :
    (∃ n d : Int, float_to_frac long_double sample_libm
        (long_double (((123456654321 : Nat) : ℚ) / 10 ^ 6)) 6 = .ok (some (n, d)) ∧
      long_double (long_double (n : ℚ) / long_double (d : ℚ)) =
        long_double (((123456654321 : Nat) : ℚ) / 10 ^ 6) ∧
      printed6 (long_double (long_double (n : ℚ) / long_double (d : ℚ))) =
        printed6 (long_double (((123456654321 : Nat) : ℚ) / 10 ^ 6))) ∧
    float_to_frac long_double sample_libm (long_double (123456654321 / 10 ^ 6)) 6 =
      .ok (some (123456654321, 1000000)) ∧
    printed6 (long_double (123456654321 / 10 ^ 6)) = 123456654321 :=
  ⟨float_to_frac_round_trip long_double sample_libm long_double_rounding long_double_accurate
    sample_libm_bracketing 123456654321 (by decide), by decide!, by decide!⟩

end vmatrixlib

namespace vmatrixlib
set_option linter.unusedSectionVars false

/-! ### Claim C31 -/

/-- C31, the code at the failing input: `operator-=` of `complex_frac` is
`return *this = operator+(c2);`, so `a -= b` leaves `a + b` in `a` for all values; with
`a = 3 + 2i` and `b = 1 + i` it leaves `4 + 3i`, while `a - b` is `2 + i`, and `operator==`
tells the two apart. The sibling `operator+=` does agree with `operator+`. -/
theorem sub_assign_adds :
    (∀ (fl : ℚ → ℚ) (a b : complex_frac),
      complex_frac.sub_assign fl a b = complex_frac.add fl a b ∧
      complex_frac.add_assign fl a b = complex_frac.add fl a b) ∧
    complex_frac.sub_assign long_double
      { re := { num := 3, den := 1, fn := 0 }, im := { num := 2, den := 1, fn := 0 } }
      { re := { num := 1, den := 1, fn := 0 }, im := { num := 1, den := 1, fn := 0 } } =
      .ok { re := { num := 4, den := 1, fn := 0 }, im := { num := 3, den := 1, fn := 0 } } ∧
    complex_frac.sub long_double
      { re := { num := 3, den := 1, fn := 0 }, im := { num := 2, den := 1, fn := 0 } }
      { re := { num := 1, den := 1, fn := 0 }, im := { num := 1, den := 1, fn := 0 } } =
      .ok { re := { num := 2, den := 1, fn := 0 }, im := { num := 1, den := 1, fn := 0 } } ∧
    complex_frac.eq long_double long_double_epsilon
      { re := { num := 4, den := 1, fn := 0 }, im := { num := 3, den := 1, fn := 0 } }
      { re := { num := 2, den := 1, fn := 0 }, im := { num := 1, den := 1, fn := 0 } } = false :=
  ⟨fun _ _ _ => ⟨rfl, rfl⟩, by decide!, by decide!, by decide!⟩

end vmatrixlib
